import Mathlib

/-!
The code generator of arbre (`generator.c`, `tree.c`, `node.c`).

A shallow embedding of the bytecode generator of the arbre compiler and
theorems about it.

Conventions of the embedding.

* A pointer to an AST node is the node itself; the address that the C code
  compares with `==` is kept in the node header (`Hdr.addr`, `0` for `NULL`).
* `ClauseEntry` objects live in `Generator.heap`; a `ClauseEntry *` is the
  position of the object in the heap.  `PathEntry` objects live in the slots
  of `Generator.paths`; `g->path` is the number of the slot.
* The generator is a state transformer that either returns (`Outcome.ok`) or
  stops the process (`Outcome.halt`): a terminal diagnostic, or a
  fault (a failed `assert`, a `NULL` dereference, an access outside an
  allocated buffer, a call through a `NULL` entry of `OP_GENERATORS`).
* Instruction words are kept as the application of the encoding helper that
  built them (`iABC`, `iAD`, `iAJ`), or as the literal word given to `gen`.
-/

namespace Arbre

/-! ## Abstract syntax tree -/

/-- Header shared by every `struct node`: its address and the lexeme `src`
of the token it was built from. -/
structure Hdr where
  addr : Nat
  src : String
deriving DecidableEq, Repr

/-- Kinds of the `o.module.type` field. -/
inductive ModuleType
  | MODULE_CURRENT
  | MODULE_ROOT
  | MODULE_NAMED
deriving DecidableEq, Repr

/-- Node kinds whose entry in `OP_GENERATORS` is `NULL` (or lies outside the
table) and whose payload the generator never reads. -/
inductive OtherOp
  | ODECL | OWAIT | OTYPE | OMPATH | OSTRING | OCHAR | OSEND | OPIPE | OEQ
deriving DecidableEq, Repr

/-- What `gen_apply` reads through an `o.block.parent` pointer: `NULL`, or a
block, of which it reads the address of the last node of the body
(`body->end->head`) and the parent pointer. -/
inductive Parent
  | null
  | block (last : Nat) (parent : Parent)
deriving DecidableEq, Repr

mutual
/-- The `struct node` tree.  One constructor per node kind that the generator
inspects; the constructor carries the member of the union `o` for that kind.
For `OAPPLY`, `name` is the string `n->o.apply.lval->o.path.name->src`. -/
inductive Node
  | null
  | OBLOCK (h : Hdr) (body : NodeList) (parent : Parent)
  | OMATCH (h : Hdr) (lval rval : Node)
  | OBIND (h : Hdr) (lval rval : Node)
  | OADD (h : Hdr) (lval rval : Node)
  | OSUB (h : Hdr) (lval rval : Node)
  | OGT (h : Hdr) (lval rval : Node)
  | OLT (h : Hdr) (lval rval : Node)
  | OCONS (h : Hdr) (lval rval : Node)
  | OACCESS (h : Hdr) (lval rval : Node)
  | ORANGE (h : Hdr) (lval rval : Node)
  | OAPPLY (h : Hdr) (lval : Node) (name : String) (rval : Node)
  | OSELECT (h : Hdr) (arg : Node) (nclauses : Nat) (clauses : NodeList)
  | OCLAUSE (h : Hdr) (lval : Node) (nguards : Nat) (guards : NodeList) (rval : Node)
  | OPATH (h : Hdr) (name : Node) (clause : Node)
  | OTUPLE (h : Hdr) (arity : Nat) (members : NodeList)
  | OLIST (h : Hdr) (length : Nat) (items : NodeList)
  | OIDENT (h : Hdr)
  | OATOM (h : Hdr)
  | ONUMBER (h : Hdr)
  | OMODULE (h : Hdr) (type : ModuleType)
  | other (h : Hdr) (op : OtherOp)
deriving DecidableEq, Repr
/-- The `struct nodelist` chain: `nil` is the `NULL` pointer, a cell holds
`head` (possibly `NULL`) and `tail`. -/
inductive NodeList
  | nil
  | cons (head : Node) (tail : NodeList)
deriving DecidableEq, Repr
end

/-- Address of a node (`0` for `NULL`). -/
def Node.addr : Node → Nat
  | .null => 0
  | .OBLOCK h _ _ => h.addr
  | .OMATCH h _ _ => h.addr
  | .OBIND h _ _ => h.addr
  | .OADD h _ _ => h.addr
  | .OSUB h _ _ => h.addr
  | .OGT h _ _ => h.addr
  | .OLT h _ _ => h.addr
  | .OCONS h _ _ => h.addr
  | .OACCESS h _ _ => h.addr
  | .ORANGE h _ _ => h.addr
  | .OAPPLY h _ _ _ => h.addr
  | .OSELECT h _ _ _ => h.addr
  | .OCLAUSE h _ _ _ _ => h.addr
  | .OPATH h _ _ => h.addr
  | .OTUPLE h _ _ => h.addr
  | .OLIST h _ _ => h.addr
  | .OIDENT h => h.addr
  | .OATOM h => h.addr
  | .ONUMBER h => h.addr
  | .OMODULE h _ => h.addr
  | .other h _ => h.addr

/-- The lexeme `n->src`; `none` for the `NULL` pointer. -/
def Node.src : Node → Option String
  | .null => none
  | .OBLOCK h _ _ => some h.src
  | .OMATCH h _ _ => some h.src
  | .OBIND h _ _ => some h.src
  | .OADD h _ _ => some h.src
  | .OSUB h _ _ => some h.src
  | .OGT h _ _ => some h.src
  | .OLT h _ _ => some h.src
  | .OCONS h _ _ => some h.src
  | .OACCESS h _ _ => some h.src
  | .ORANGE h _ _ => some h.src
  | .OAPPLY h _ _ _ => some h.src
  | .OSELECT h _ _ _ => some h.src
  | .OCLAUSE h _ _ _ _ => some h.src
  | .OPATH h _ _ => some h.src
  | .OTUPLE h _ _ => some h.src
  | .OLIST h _ _ => some h.src
  | .OIDENT h => some h.src
  | .OATOM h => some h.src
  | .ONUMBER h => some h.src
  | .OMODULE h _ => some h.src
  | .other h _ => some h.src

/-- Whether the pointer is `NULL`. -/
def Node.isNull : Node → Bool
  | .null => true
  | _ => false

/-- The node `list->end->head` of a non-`NULL` list: the head of its last
cell.  `none` when the list pointer itself is `NULL`. -/
def NodeList.endHead : NodeList → Option Node
  | .nil => none
  | .cons h .nil => some h
  | .cons _ (.cons h t) => NodeList.endHead (.cons h t)

/-- The field `o.clause.rval` of a clause node (`NULL` for any other node). -/
def Node.clauseRval : Node → Node
  | .OCLAUSE _ _ _ _ rval => rval
  | _ => .null

/-! ## Values and instruction words -/

mutual
/-- The tagged values of the constant table (`struct tvalue`).  `var` and
`any` carry whether `Q_RANGE` is or-ed into the tag.  A `list` holds the heads
of its cons cells in chain order, the empty marker cell left out. -/
inductive TValue
  | null
  | number (v : Int)
  | atom (s : String)
  | pathid (module path : String)
  | var (range : Bool) (ident : Int)
  | any (range : Bool) (ident : Int)
  | tuple (arity : Nat) (members : TValues)
  | list (cells : TValues)
deriving DecidableEq, Repr
/-- A sequence of values. -/
inductive TValues
  | nil
  | cons (head : TValue) (tail : TValues)
deriving DecidableEq, Repr
end

/-- Append one value at the end of a sequence. -/
def TValues.snoc : TValues → TValue → TValues
  | .nil, v => .cons v .nil
  | .cons h t, v => .cons h (TValues.snoc t v)

/-- Number of values in a sequence. -/
def TValues.length : TValues → Nat
  | .nil => 0
  | .cons _ t => TValues.length t + 1

/-- Opcodes used by the generator. -/
inductive OpCode
  | OP_MOVE | OP_LOADK | OP_ADD | OP_SUB | OP_GT | OP_EQ | OP_MATCH | OP_JUMP
  | OP_CALL | OP_TAILCALL | OP_RETURN | OP_TUPLE | OP_SETTUPLE | OP_LIST | OP_CONS
deriving DecidableEq, Repr

/-- An instruction word: the literal word handed to `gen` (`gen(g, 0)`), or
the application of one of the encoding helpers of `op.h` to the arguments the
generator passes. -/
inductive Instruction
  | word (w : Nat)
  | iABC (op : OpCode) (a b c : Int)
  | iAD (op : OpCode) (a d : Int)
  | iAJ (op : OpCode) (a j : Int)
deriving DecidableEq, Repr

/-- Modelled from the spec: `op.h` is not among the sources.  `iOP` reads the
opcode field that the three encodings share; the literal zero word is no
application of an encoding helper and compares unequal to every opcode the
generator tests for. -/
def iOP : Instruction → Option OpCode
  | .word _ => none
  | .iABC op _ _ _ => some op
  | .iAD op _ _ => some op
  | .iAJ op _ _ => some op

/-- Modelled from the spec: `op.h` is not among the sources.  "Each operand
slot carries a K flag in its high bit": bit 7 of the 8-bit operand, in two's
complement for a negative `int`. -/
def ISK (x : Int) : Bool := decide ((x % 256) / 128 = 1)

/-- Modelled from the spec: `op.h` is not among the sources.  Sets the K flag
of an operand. -/
def RKASK (x : Int) : Int := if ISK x then x else x + 128

/-- Modelled from the spec: `op.h` is not among the sources.  The index a
K-flagged operand names: "the operand with the K flag removed", the low seven
bits of the slot. -/
def INDEXK (x : Int) : Nat := (x % 128).toNat

/-- C `atoi` on the digits that follow the optional sign. -/
def atoiDigits : List Char → Int → Int
  | [], acc => acc
  | c :: cs, acc =>
    if 48 ≤ c.toNat ∧ c.toNat ≤ 57 then atoiDigits cs (acc * 10 + ((c.toNat : Int) - 48)) else acc

/-- C `isspace` in the "C" locale. -/
def isspace (c : Char) : Bool := decide (c.toNat = 32 ∨ (9 ≤ c.toNat ∧ c.toNat ≤ 13))

/-- C `atoi`: leading white space, an optional sign, then decimal digits.
The result is not reduced to the range of `int`: for a lexeme whose value is
outside that range the behaviour of the C function is undefined and the
program holds some other `int`, which this definition does not give. -/
def atoi (s : String) : Int :=
  match s.toList.dropWhile isspace with
  | [] => 0
  | c :: cs =>
    if c.toNat = 45 then - atoiDigits cs 0
    else if c.toNat = 43 then atoiDigits cs 0
    else atoiDigits (c :: cs) 0

/-! ## Generator state -/

/-- The per-clause record.  `kheader` has 128 slots and `code` has `codewords`
words allocated; `code` lists the words from index 0 up to the highest one
written (words beyond are zero). -/
structure ClauseEntry where
  node : Node
  index : Nat
  kheader : List TValue
  ktable : List (String × Int)
  kindex : Nat
  nreg : Nat
  nlocals : Nat
  pc : Nat
  code : List Instruction
  codesize : Nat
  codewords : Nat
deriving DecidableEq, Repr

/-- The per-path record.  `clause` is the `ClauseEntry *` of the active
clause, `clauses` the array of `ClauseEntry *`. -/
structure PathEntry where
  name : String
  node : Node
  index : Nat
  clause : Option Nat
  clauses : List (Option Nat)
  nclauses : Nat
deriving DecidableEq, Repr

/-- The `Tree`: the root block, the chain of lexical symbol tables (innermost
first; the empty chain is the `NULL` table) and the flat path table. -/
structure Tree where
  root : Node
  symbols : List (List (String × Int))
  psymbols : List (String × Nat)
deriving DecidableEq, Repr

/-- The `Generator`.  `module` is `g->module->name`; `heap` holds the
`ClauseEntry` objects allocated so far. -/
structure Generator where
  tree : Tree
  module : String
  block : Node
  slot : Nat
  path : Option Nat
  paths : List (Option PathEntry)
  pathsn : Nat
  heap : List ClauseEntry
deriving DecidableEq, Repr

/-- Kinds of fault that stop the process without a diagnostic. -/
inductive Fault
  | nullDeref
  | assertion
  | bounds
  | noGenerator
  | unionMisread
  | arraySize
deriving DecidableEq, Repr

/-- Diagnostics of the generator. -/
inductive Report
  | ERR_UNDEFINED
  | ERR_REDEFINITION
  | pathDefined
deriving DecidableEq, Repr

/-- Why the process stopped. -/
inductive Err
  | report (r : Report) (node : Nat) (arg : String)
  | fault (f : Fault)
deriving DecidableEq, Repr

/-- Result of running a piece of the generator: it returned `a` in state `g`,
or the process stopped in state `g`. -/
inductive Outcome (α : Type)
  | ok (a : α) (g : Generator)
  | halt (e : Err) (g : Generator)
deriving DecidableEq, Repr

/-- A piece of the generator: a function of the `Generator` it is handed. -/
def Gen (α : Type) : Type := Generator → Outcome α

/-- Sequencing: run `m`, and when it returns run `f` on its result. -/
def Gen.bind {α β : Type} (m : Gen α) (f : α → Gen β) : Gen β := fun g =>
  match m g with
  | .ok a g1 => f a g1
  | .halt e g1 => .halt e g1

instance : Monad Gen where
  pure a := fun g => .ok a g
  bind := Gen.bind

/-- Stop with a fault. -/
def fault {α : Type} (f : Fault) : Gen α := fun g => .halt (.fault f) g

/-- Modelled from the spec: `report.h` is not among the sources.  `nreportf`
with `REPORT_ERROR` is terminal ("the first diagnostic aborts compilation",
"diagnostics are terminal"): the process stops with the diagnostic for node
`n`. -/
def nreportf {α : Type} (n : Node) (r : Report) (arg : String) : Gen α :=
  fun g => .halt (.report r n.addr arg) g

/-- Store `v` at index `i` of an array whose unwritten slots hold `d`. -/
def storeAt {α : Type} (d : α) : List α → Nat → α → List α
  | [], 0, v => [v]
  | [], i + 1, v => d :: storeAt d [] i v
  | _ :: xs, 0, v => v :: xs
  | x :: xs, i + 1, v => x :: storeAt d xs i v

/-- The object `*g->path`. -/
def Generator.pathEntry (g : Generator) : Option PathEntry :=
  match g.path with
  | none => none
  | some p => g.paths[p]?.join

/-- The pointer `g->path->clause`. -/
def Generator.clauseRef (g : Generator) : Option Nat :=
  match g.pathEntry with
  | none => none
  | some p => p.clause

/-- The object `*g->path->clause`. -/
def Generator.clause (g : Generator) : Option ClauseEntry :=
  match g.clauseRef with
  | none => none
  | some r => g.heap[r]?

/-- Overwrite the object `*g->path`. -/
def Generator.setPathEntry (g : Generator) (p : PathEntry) : Generator :=
  match g.path with
  | none => g
  | some i => { g with paths := g.paths.set i (some p) }

/-- Overwrite the `ClauseEntry` object at `r`. -/
def Generator.setClauseAt (g : Generator) (r : Nat) (c : ClauseEntry) : Generator :=
  { g with heap := g.heap.set r c }

/-! ## Symbol tables and scopes -/

/-- Modelled from the spec: the symbol-table module is not among the sources.
"`lookup(name)` walks parent chain": the innermost table that has the key
answers. -/
def symtab_lookup {β : Type} : List (List (String × β)) → String → Option β
  | [], _ => none
  | t :: ps, k =>
    match t.lookup k with
    | some v => some v
    | none => symtab_lookup ps k

/-- The function `tree_lookup`: look a name up in the lexical chain. -/
def tree_lookup (k : String) : Gen (Option Int) := fun g =>
  .ok (symtab_lookup g.tree.symbols k) g

/-- The function `define`: `symtab_insert` into the innermost lexical table
("`insert(name, sym)` writes into the innermost table"), returning `reg`. -/
def define (ident : String) (reg : Int) : Gen Int := fun g =>
  match g.tree.symbols with
  | [] => .halt (.fault .nullDeref) g
  | t :: ps => .ok reg { g with tree := { g.tree with symbols := ((ident, reg) :: t) :: ps } }

/-- The function `enterscope`: a fresh table whose parent is the current one. -/
def enterscope : Gen Unit := fun g =>
  .ok () { g with tree := { g.tree with symbols := [] :: g.tree.symbols } }

/-- The function `exitscope`: back to the parent table. -/
def exitscope : Gen Unit := fun g =>
  match g.tree.symbols with
  | [] => .halt (.fault .nullDeref) g
  | _ :: ps => .ok () { g with tree := { g.tree with symbols := ps } }

/-! ## Emission primitives -/

/-- The active path `*g->path` (a fault when `g->path` is `NULL`). -/
def curPath : Gen PathEntry := fun g =>
  match g.pathEntry with
  | none => .halt (.fault .nullDeref) g
  | some p => .ok p g

/-- The active clause: the pointer `g->path->clause` and the object behind it
(a fault when a pointer on the way is `NULL`). -/
def curClause : Gen (Nat × ClauseEntry) := fun g =>
  match g.clauseRef with
  | none => .halt (.fault .nullDeref) g
  | some r =>
    match g.heap[r]? with
    | none => .halt (.fault .nullDeref) g
    | some c => .ok (r, c) g

/-- Read the `Generator`. -/
def getG : Gen Generator := fun g => .ok g g

/-- The function `nextreg`: `g->path->clause->nreg++`. -/
def nextreg : Gen Int := fun g =>
  match g.clauseRef with
  | none => .halt (.fault .nullDeref) g
  | some r =>
    match g.heap[r]? with
    | none => .halt (.fault .nullDeref) g
    | some c => .ok (c.nreg : Int) (g.setClauseAt r { c with nreg := c.nreg + 1 })

/-- The statement `g->path->clause->nlocals ++`. -/
def incLocals : Gen Unit := fun g =>
  match g.clauseRef with
  | none => .halt (.fault .nullDeref) g
  | some r =>
    match g.heap[r]? with
    | none => .halt (.fault .nullDeref) g
    | some c => .ok () (g.setClauseAt r { c with nlocals := c.nlocals + 1 })

/-- The growth step of `gen`: when `pc == codesize - 1`, `codesize` grows by
4096 and `realloc(code, codesize)` leaves a buffer of `codesize` bytes, that
is `codesize / 4` words of 32 bits. -/
def growCode (c : ClauseEntry) : ClauseEntry :=
  if c.pc + 1 = c.codesize then
    { c with codesize := c.codesize + 4096, codewords := (c.codesize + 4096) / 4 }
  else c

/-- The function `gen`: append the word `i` to the active clause and return
the pc it was written at.  Writing outside the allocated words is a fault. -/
def gen (i : Instruction) : Gen Nat := fun g =>
  match g.clauseRef with
  | none => .halt (.fault .nullDeref) g
  | some r =>
    match g.heap[r]? with
    | none => .halt (.fault .nullDeref) g
    | some c =>
      if (growCode c).pc < (growCode c).codewords then
        .ok c.pc (g.setClauseAt r
          { growCode c with code := storeAt (.word 0) c.code c.pc i, pc := c.pc + 1 })
      else .halt (.fault .bounds) (g.setClauseAt r (growCode c))

/-- The function `gen_constant`: intern `tval` under the optional key `src`.
A keyed constant already in `ktable` returns the stored index; otherwise the
next `kindex` is taken, `tval` stored at `kheader[index]` (128 slots) and the
key recorded. -/
def gen_constant (src : Option String) (tval : TValue) : Gen Int := fun g =>
  match g.clauseRef with
  | none => .halt (.fault .nullDeref) g
  | some r =>
    match g.heap[r]? with
    | none => .halt (.fault .nullDeref) g
    | some c =>
      match (match src with
             | some s => symtab_lookup [c.ktable] s
             | none => none) with
      | some k => .ok k g
      | none =>
        if c.kindex < 128 then
          .ok (c.kindex : Int) (g.setClauseAt r
            { c with
              kindex := c.kindex + 1
              kheader := storeAt .null c.kheader c.kindex tval
              ktable := match src with
                        | some s => (s, (c.kindex : Int)) :: c.ktable
                        | none => c.ktable })
        else .halt (.fault .bounds) (g.setClauseAt r { c with kindex := c.kindex + 1 })

/-- Read `clause->pc` through a saved `ClauseEntry *`. -/
def pcOf (clause : Nat) : Gen Nat := fun g =>
  match g.heap[clause]? with
  | none => .halt (.fault .nullDeref) g
  | some c => .ok c.pc g

/-- The assignment `clause->code[idx] = v` through a saved `ClauseEntry *`. -/
def patchCode (clause : Nat) (idx : Nat) (v : Instruction) : Gen Unit := fun g =>
  match g.heap[clause]? with
  | none => .halt (.fault .nullDeref) g
  | some c =>
    if idx < c.codewords then
      .ok () (g.setClauseAt clause { c with code := storeAt (.word 0) c.code idx v })
    else .halt (.fault .bounds) g

/-- The offset `clause->pc - slot - 1`, computed in `unsigned long`. -/
def jumpOffset (pc slot : Nat) : Int := ((pc : Int) - (slot : Int) - 1) % 18446744073709551616

/-- Patch the reserved slot with a jump to the current `clause->pc`. -/
def patchJump (clause : Nat) (slot : Nat) : Gen Unit := fun g =>
  match pcOf clause g with
  | .ok pc g1 => patchCode clause slot (.iAJ .OP_JUMP 0 (jumpOffset pc slot)) g1
  | .halt e g1 => .halt e g1

/-- Patch each reserved slot of the list with a jump to the current
`clause->pc`. -/
def patchJumps (clause : Nat) : List Nat → Gen Unit
  | [] => fun g => .ok () g
  | s :: ss => fun g =>
    match patchJump clause s g with
    | .ok _ g1 => patchJumps clause ss g1
    | .halt e g1 => .halt e g1

/-- The assignment `g->block = n`. -/
def setBlock (n : Node) : Gen Unit := fun g => .ok () { g with block := n }

/-! ## Lowering of the node kinds

Each function below is one `gen_*` of `generator.c`.  Where the C function
calls `gen_node` (or itself) on a child, the embedding takes the lowering of
that child as an argument; `gen_node` further down ties the knot. -/

/-- The function `gen_atom`. -/
def gen_atom (h : Hdr) : Gen Int := do
  let k ← gen_constant (some h.src) (.atom h.src)
  pure (RKASK k)

/-- The function `gen_num`. -/
def gen_num (h : Hdr) : Gen Int := do
  let k ← gen_constant (some h.src) (.number (atoi h.src))
  pure (RKASK k)

/-- The function `gen_ident`: the register of a bound name, `-1` otherwise. -/
def gen_ident (h : Hdr) : Gen Int := do
  let ident ← tree_lookup h.src
  match ident with
  | some reg => pure reg
  | none => pure (-1)

/-- The function `gen_defined`: `gen_ident`, reporting `ERR_UNDEFINED` when
the name is unbound. -/
def gen_defined (n : Node) (h : Hdr) : Gen Int := do
  let reg ← gen_ident h
  if reg = -1 then nreportf n .ERR_UNDEFINED h.src else pure reg

/-- The function `gen_block`, given the loop over the body. -/
def gen_block_steps (n : Node) (body : Gen Int) : Gen Int := do
  setBlock n
  let reg ← body
  setBlock n
  pure reg

/-- The function `gen_access`, given the lowering of `rval`. -/
def gen_access (lval rval : Node) (rv : Gen Int) : Gen Int := do
  let _ ← nextreg
  let _ ← rv
  match lval with
  | .null => fault .nullDeref
  | .OMODULE _ .MODULE_CURRENT =>
    let g ← getG
    let _ ← gen_constant (some g.module) (.atom g.module)
    match rval with
    | .null => fault .nullDeref
    | .OIDENT h =>
      let k ← gen_constant none (.pathid g.module h.src)
      pure (RKASK k)
    | _ => fault .assertion
  | .OMODULE _ _ => fault .assertion
  | _ => fault .unionMisread

/-- The block `b` as the loop of `gen_apply` reads it: the address of
`b->o.block.body->end->head` and `b->o.block.parent`. -/
def blockView : Node → Except Fault Parent
  | .null => .error .nullDeref
  | .OBLOCK _ body parent =>
    match body.endHead with
    | none => .error .nullDeref
    | some e => .ok (.block e.addr parent)
  | _ => .error .unionMisread

/-- The loop of `gen_apply`:
`for (b = g->block; n == b->o.block.body->end->head; b = b->o.block.parent)`
with body `if (name == g->path->name || !strcmp(...)) { tailcall = true; break; }`.
`pname` is `g->path->name` (`none` when `g->path` is `NULL`); the result is
`tailcall`, or `none` when the loop dereferences `NULL`. -/
def tailLoop (n : Nat) (name : String) (pname : Option String) : Parent → Option Bool
  | .null => none
  | .block last parent =>
    if n = last then
      match pname with
      | none => none
      | some p => if name = p then some true else tailLoop n name pname parent
    else some false

/-- The function `gen_apply`, given the lowerings of callee and argument. -/
def gen_apply (n : Node) (name : String) (lv rv : Gen Int) : Gen Int := do
  let lval ← lv
  let rval ← rv
  let rr ← nextreg
  let g ← getG
  match blockView g.block with
  | .error f => fault f
  | .ok b =>
    match tailLoop n.addr name (g.pathEntry.map (fun p => p.name)) b with
    | none => fault .nullDeref
    | some true =>
      let _ ← gen (.iABC .OP_TAILCALL rr 0 rval)
      pure rr
    | some false =>
      let _ ← gen (.iABC .OP_CALL rr lval rval)
      pure rr

/-- Modelled from the spec: the allocator `clauseentry` is not among the
sources.  A fresh `ClauseEntry` for node `n` with the given index: empty
constant table and code, 4096 words of code and 128 constants allocated as in
`pathentry` of `tree.c`, and registers starting at 1 ("pattern is `ANY` in
register 1"). -/
def clauseentry (n : Node) (index : Nat) : ClauseEntry :=
  { node := n, index := index, kheader := [], ktable := [], kindex := 0, nreg := 1,
    nlocals := 0, pc := 0, code := [], codesize := 4096, codewords := 4096 }

/-- The first statements of `gen_clause`: allocate the `ClauseEntry`, make it
the active clause of the active path, store it in `clauses[index]` and bump
`nclauses`.  Returns `old` and `index`. -/
def allocClause (n : Node) : Gen (Option Nat × Nat) := fun g =>
  match g.pathEntry with
  | none => .halt (.fault .nullDeref) g
  | some p =>
    .ok (p.clause, p.nclauses)
      (Generator.setPathEntry { g with heap := g.heap ++ [clauseentry n p.nclauses] }
        { p with
          clause := some g.heap.length
          clauses := storeAt none p.clauses p.nclauses (some g.heap.length)
          nclauses := p.nclauses + 1 })

/-- The read `code[pc - 1]` of the active clause in `gen_clause`; a fault when
the index is outside the buffer (`pc` is 0, or beyond the allocated words). -/
def lastWord : Gen Instruction := fun g =>
  match g.clauseRef with
  | none => .halt (.fault .nullDeref) g
  | some r =>
    match g.heap[r]? with
    | none => .halt (.fault .nullDeref) g
    | some c =>
      if 1 ≤ c.pc ∧ c.pc - 1 < c.codewords then .ok (c.code.getD (c.pc - 1) (.word 0)) g
      else .halt (.fault .bounds) g

/-- The last statements of `gen_clause`: `if (old) g->path->clause = old`. -/
def restoreClause (old : Option Nat) : Gen Unit := fun g =>
  match old with
  | none => .ok () g
  | some r =>
    match g.pathEntry with
    | none => .halt (.fault .nullDeref) g
    | some p => .ok () (g.setPathEntry { p with clause := some r })

/-- The `RETURN` of `gen_clause`: a K operand is first materialised in a fresh
register with `LOADK`. -/
def gen_clause_return (reg : Int) : Gen Unit := do
  if ISK reg then
    let rega ← nextreg
    let _ ← gen (.iAD .OP_LOADK rega reg)
    let _ ← gen (.iABC .OP_RETURN rega 0 0)
    pure ()
  else
    let _ ← gen (.iABC .OP_RETURN reg 0 0)
    pure ()

/-- The emission at the end of `gen_clause`: unless the last word
`code[pc - 1]` is a `TAILCALL`, emit the `RETURN`; then the zero terminator. -/
def gen_clause_end (reg : Int) : Gen Unit := do
  let w ← lastWord
  (if iOP w ≠ some .OP_TAILCALL then gen_clause_return reg else pure ())
  let _ ← gen (.word 0)
  pure ()

/-- The part of `gen_clause` that lowers the clause into its fresh entry:
everything up to and including the terminator.  Returns `old` and `index`. -/
def gen_clause_emit (n : Node) (locals : Gen Unit) (body : Gen Int) : Gen (Option Nat × Nat) := do
  let oi ← allocClause n
  enterscope
  locals
  let reg ← body
  exitscope
  gen_clause_end reg
  pure oi

/-- The function `gen_clause`, given the walk of the parameter pattern and the
lowering of the body. -/
def gen_clause_steps (n : Node) (locals : Gen Unit) (body : Gen Int) : Gen Int := do
  let oi ← gen_clause_emit n locals body
  restoreClause oi.1
  pure (oi.2 : Int)

/-- The identifier case of `gen_pattern` (`range` tells whether `Q_RANGE` is
or-ed into the tag): a bound name gives `VAR`, an unbound one is declared in a
fresh register and gives `ANY`. -/
def gen_pattern_ident (range : Bool) (n : Node) : Gen TValue := do
  match n.src with
  | none => fault .nullDeref
  | some src =>
    let reg ← gen_ident { addr := n.addr, src := src }
    if reg ≥ 0 then pure (.var range reg)
    else
      incLocals
      let r ← nextreg
      let reg ← define src r
      pure (.any range reg)

mutual
/-- The function `gen_pattern`: the value of a pattern node. -/
def gen_pattern : Node → Gen TValue
  | .null => pure .null
  | .OTUPLE _ arity members => do
    let ms ← gen_pattern_members arity members .nil
    pure (.tuple arity ms)
  | .ORANGE _ lval _ => gen_pattern_ident true lval
  | .OIDENT h => gen_pattern_ident false (.OIDENT h)
  | .OATOM h => pure (.atom h.src)
  | .ONUMBER h => pure (.number (atoi h.src))
  | .OLIST _ length items =>
    if length > 0 then
      match items with
      | .nil => fault .nullDeref
      | .cons hd tl => do
        let cells ← gen_pattern_items (.cons hd tl) .nil
        pure (.list cells)
    else pure (.list .nil)
  | _ => fault .assertion
/-- The member loop of the tuple case: `members[i++] = *gen_pattern(...)`. -/
def gen_pattern_members (arity : Nat) : NodeList → TValues → Gen TValues
  | .nil, acc => pure acc
  | .cons hd tl, acc => do
    let v ← gen_pattern hd
    match v with
    | .null => fault .nullDeref
    | _ =>
      if acc.length < arity then gen_pattern_members arity tl (acc.snoc v)
      else fault .bounds
/-- The item loop of the list case: `l = list_cons(l, gen_pattern(...))`. -/
def gen_pattern_items : NodeList → TValues → Gen TValues
  | .nil, acc => pure acc
  | .cons hd tl, acc => do
    let v ← gen_pattern hd
    gen_pattern_items tl (.cons v acc)
end

mutual
/-- The function `gen_locals`: declare the locals of a parameter pattern. -/
def gen_locals : Node → Gen Unit
  | .null => fault .nullDeref
  | .OTUPLE _ _ members => gen_locals_members members
  | .OIDENT h => do
    let ident ← tree_lookup h.src
    match ident with
    | some _ => pure ()
    | none =>
      incLocals
      let r ← nextreg
      let _ ← define h.src r
  | .ONUMBER h => do
    let _ ← gen_num h
  | .OATOM h => do
    let _ ← gen_atom h
  | .other _ .OSTRING => fault .noGenerator
  | _ => pure ()
/-- The member loop of the tuple case of `gen_locals`. -/
def gen_locals_members : NodeList → Gen Unit
  | .nil => pure ()
  | .cons hd tl => do
    gen_locals hd
    gen_locals_members tl
end

/-- The second half of `gen_bind`: bind the identifier `lval` to the operand
`rreg`. -/
def gen_bind_lhs (n lval : Node) (rreg : Int) : Gen Int := do
  match lval with
  | .null => fault .nullDeref
  | .OIDENT h =>
    let ident ← tree_lookup h.src
    incLocals
    match ident with
    | some _ => nreportf n .ERR_REDEFINITION h.src
    | none =>
      let r ← nextreg
      let lreg ← define h.src r
      if ISK rreg then
        let _ ← gen (.iAD .OP_LOADK lreg rreg)
        pure 0
      else
        let _ ← gen (.iABC .OP_MOVE lreg rreg 0)
        pure 0
  | _ => pure 0

/-- The function `gen_bind`, given the lowering of `rval` by `gen_node`. -/
def gen_bind (n lval rval : Node) (rv : Gen Int) : Gen Int := do
  match rval with
  | .null => fault .nullDeref
  | .OIDENT h =>
    let rreg ← gen_defined rval h
    if rreg = -1 then pure rreg else gen_bind_lhs n lval rreg
  | _ =>
    let rreg ← rv
    gen_bind_lhs n lval rreg

/-- The function `gen_match`. -/
def gen_match (lv rv : Gen Int) : Gen Int := do
  let larg ← lv
  let rarg ← rv
  let _ ← gen (.iABC .OP_MATCH 0 larg rarg)
  let _ ← gen (.iAJ .OP_JUMP 0 0)
  pure 0

/-- The function `gen_add`. -/
def gen_add (lv rv : Gen Int) : Gen Int := do
  let lval ← lv
  let rval ← rv
  let reg ← nextreg
  let _ ← gen (.iABC .OP_ADD reg lval rval)
  pure reg

/-- The function `gen_sub`. -/
def gen_sub (lv rv : Gen Int) : Gen Int := do
  let lval ← lv
  let rval ← rv
  let reg ← nextreg
  let _ ← gen (.iABC .OP_SUB reg lval rval)
  pure reg

/-- The function `gen_gt`. -/
def gen_gt (lv rv : Gen Int) : Gen Int := do
  let lval ← lv
  let rval ← rv
  let _ ← gen (.iABC .OP_GT 0 lval rval)
  pure (-1)

/-- The function `gen_lt`: `GT` with the operands swapped. -/
def gen_lt (lv rv : Gen Int) : Gen Int := do
  let lval ← lv
  let rval ← rv
  let _ ← gen (.iABC .OP_GT 0 rval lval)
  pure (-1)

/-- The function `gen_list`. -/
def gen_list : Gen Int := do
  let reg ← nextreg
  let _ ← gen (.iABC .OP_LIST reg 0 0)
  pure reg

/-- The function `gen_cons`, given whether `lval` and `rval` are `NULL`, the
lowering of `lval` and the recursive call on `rval`. -/
def gen_cons_steps (lvalNull rvalNull : Bool) (lv rv : Gen Int) : Gen Int := do
  let reg ← (if rvalNull then gen_list else rv)
  if lvalNull then pure reg
  else
    let v ← lv
    let _ ← gen (.iABC .OP_CONS reg reg v)
    pure reg

/-- The function `gen_tuple`, given the loop over the members. -/
def gen_tuple_steps (arity : Nat) (members : Int → Gen Unit) : Gen Int := do
  let reg ← nextreg
  let _ ← gen (.iABC .OP_TUPLE reg arity 0)
  members reg
  pure reg

/-- Modelled from the spec: the allocator `pathentry` of this version of the
sources is missing (the one in `tree.c` predates `ClauseEntry`).  A fresh
`PathEntry` with no clause; `index` is a `uint8_t`. -/
def pathentry (name : String) (n : Node) (index : Nat) : PathEntry :=
  { name := name, node := n, index := index % 256, clause := none, clauses := [], nclauses := 0 }

/-- The registration in `gen_path`: `g->path = g->paths[g->pathsn] =
pathentry(...)` (256 slots), the insertion into `psymbols`, `g->pathsn ++`. -/
def registerPath (name : String) (n : Node) : Gen Unit := fun g =>
  if g.pathsn < 256 then
    .ok () { g with
      path := some g.pathsn
      paths := storeAt none g.paths g.pathsn (some (pathentry name n g.pathsn))
      pathsn := g.pathsn + 1
      tree := { g.tree with psymbols := (name, g.pathsn) :: g.tree.psymbols } }
  else .halt (.fault .bounds) g

/-- The function `gen_path`, given the call `gen_clause(g, n->o.path.clause)`. -/
def gen_path (n name : Node) (cl : Gen Int) : Gen Int := do
  match name.src with
  | none => fault .nullDeref
  | some nm =>
    let g ← getG
    match symtab_lookup [g.tree.psymbols] nm with
    | some _ => nreportf n .pathDefined nm
    | none =>
      registerPath nm n
      cl

/-- The test `islast` of `gen_select`:
`g->block->o.block.body->end->head == n && g->block == clause->node->o.clause.rval`. -/
def selectIsLast (n : Node) (clause : Nat) : Gen Bool := fun g =>
  match g.block with
  | .null => .halt (.fault .nullDeref) g
  | .OBLOCK h body _ =>
    match body.endHead with
    | none => .halt (.fault .nullDeref) g
    | some e =>
      if e.addr = n.addr then
        match g.heap[clause]? with
        | none => .halt (.fault .nullDeref) g
        | some c =>
          match c.node with
          | .null => .halt (.fault .nullDeref) g
          | .OCLAUSE _ _ _ _ rval => .ok (decide (h.addr = rval.addr)) g
          | _ => .halt (.fault .unionMisread) g
      else .ok false g
  | _ => .halt (.fault .unionMisread) g

/-- The pattern test of a `select` arm: a scratch register, the pattern value
interned anonymously, `EQ` (number pattern) or `MATCH` against the subject,
and the reserved slot whose pc is returned (`savedpc`).  The C code calls
`gen_constant` and `gen_node(g, arg)` as arguments of one macro application,
in an order the language leaves open; the embedding takes them left to
right. -/
def gen_select_test (lval : Node) (arg : Gen Int) : Gen Nat := do
  let reg ← nextreg
  let pat ← gen_pattern lval
  let op : OpCode := match pat with
    | .number _ => .OP_EQ
    | _ => .OP_MATCH
  let k ← gen_constant none pat
  let a ← arg
  let _ ← gen (.iABC op reg (RKASK k) a)
  gen (.word 0)

/-- The reservation of the end-of-arm slot: `patches[i] = clause->pc; gen(g, 0)`. -/
def reserveSlot (clause : Nat) : Gen Nat := do
  let pc ← pcOf clause
  let _ ← gen (.word 0)
  pure pc

/-- The write of an arm's value `ret` (an `unsigned`) into the shared `result`
register: `LOADK result, ret` when `ret` is K-flagged, `MOVE result, ret, 0`
otherwise. -/
def resultWrite (result ret : Int) : Instruction :=
  if ISK ret then .iAD .OP_LOADK result ret else .iABC .OP_MOVE result ret 0

/-- What one iteration of the arm loop of `gen_select` leaves in the locals of
the function: `savedpc` (the slot reserved after the pattern test, none when
the arm has no test), `gpatches` (the slots reserved after the guards),
`patches[i]` (the end-of-arm slot, none for the last arm) and `clause->pc` at
the end of the iteration. -/
structure ArmSlots where
  savedpc : List Nat
  gpatches : List Nat
  patch : List Nat
  endpc : Nat
deriving DecidableEq, Repr

/-- The array `patches` after the arm loop: the end-of-arm slots in order. -/
def armPatches : List ArmSlots → List Nat
  | [] => []
  | r :: rs => r.patch ++ armPatches rs

/-- The value of `clause->pc` in state `g` (0 when the pointer is dangling). -/
def endpcOf (clause : Nat) (g : Generator) : Nat :=
  match g.heap[clause]? with
  | some c => c.pc
  | none => 0

/-- One iteration of the arm loop of `gen_select` for the clause node with
pattern `lval`.  `more` is `i < nclauses - 1`; `guards` is the guard loop and
returns `gpatches`; `body` is `gen_block` on the arm body.  The pattern slot
and the guard slots are patched with jumps to `clause->pc` once the result
write and the end-of-arm slot are emitted. -/
def gen_select_arm (clause : Nat) (result : Int) (more : Bool) (lval : Node) (argNull : Bool)
    (arg : Gen Int) (guards : Gen (List Nat)) (body : Gen Int) : Gen ArmSlots := do
  enterscope
  let savedpc ← (if !lval.isNull && !argNull then (do
      let s ← gen_select_test lval arg
      pure [s]) else pure [])
  let gpatches ← guards
  enterscope
  let ret ← body
  exitscope
  let _ ← gen (resultWrite result (ret % 4294967296))
  let patch ← (if more then (do
      let p ← reserveSlot clause
      pure [p]) else pure [])
  patchJumps clause savedpc
  patchJumps clause gpatches
  let g ← getG
  exitscope
  pure { savedpc := savedpc, gpatches := gpatches, patch := patch, endpc := endpcOf clause g }

/-- The last loop of `gen_select`: each end-of-arm slot becomes
`RETURN result, 0, 0` when `islast`, a jump to `clause->pc` otherwise. -/
def patchArms (clause : Nat) (islast : Bool) (result : Int) : List Nat → Gen Unit
  | [] => fun g => .ok () g
  | p :: ps => fun g =>
    match (if islast then patchCode clause p (.iABC .OP_RETURN result 0 0)
           else patchJump clause p) g with
    | .ok _ g1 => patchArms clause islast result ps g1
    | .halt e g1 => .halt e g1

/-- The function `gen_select`, given the loop over the arms (a function of the
saved `clause` pointer and the `result` register). -/
def gen_select (n : Node) (nclauses : Nat) (arms : Nat → Int → Gen (List ArmSlots)) :
    Gen Int := do
  let result ← nextreg
  if nclauses = 0 then fault .arraySize
  else
    let rc ← curClause
    let islast ← selectIsLast n rc.1
    let slots ← arms rc.1 result
    patchArms rc.1 islast result (armPatches slots)
    pure result

/-! ## The dispatch `gen_node` and the loops over node lists -/

mutual
/-- The function `gen_node`: dispatch through `OP_GENERATORS` on `n->op`. -/
def gen_node : Node → Gen Int
  | .null => fault .nullDeref
  | .OBLOCK h body parent => gen_block_steps (.OBLOCK h body parent) (gen_nodes body 0)
  | .OMATCH _ lval rval => gen_match (gen_node lval) (gen_node rval)
  | .OBIND h lval rval => gen_bind (.OBIND h lval rval) lval rval (gen_node rval)
  | .OADD _ lval rval => gen_add (gen_node lval) (gen_node rval)
  | .OSUB _ lval rval => gen_sub (gen_node lval) (gen_node rval)
  | .OGT _ lval rval => gen_gt (gen_node lval) (gen_node rval)
  | .OLT _ lval rval => gen_lt (gen_node lval) (gen_node rval)
  | .OCONS _ lval rval => gen_cons_steps lval.isNull rval.isNull (gen_node lval) (gen_cons rval)
  | .OACCESS _ lval rval => gen_access lval rval (gen_node rval)
  | .ORANGE _ _ _ => fault .noGenerator
  | .OAPPLY h lval name rval =>
    gen_apply (.OAPPLY h lval name rval) name (gen_node lval) (gen_node rval)
  | .OSELECT h arg nclauses clauses =>
    gen_select (.OSELECT h arg nclauses clauses) nclauses
      (fun clause result => gen_select_arms arg.isNull (gen_node arg) clause result nclauses clauses 0)
  | .OCLAUSE h lval nguards guards rval =>
    gen_clause_steps (.OCLAUSE h lval nguards guards rval) (gen_locals lval) (gen_block rval)
  | .OPATH h name clause => gen_path (.OPATH h name clause) name (gen_clause clause)
  | .OTUPLE _ arity members =>
    gen_tuple_steps arity (fun reg => gen_tuple_members reg arity members 0)
  | .OLIST _ _ _ => gen_list
  | .OIDENT h => gen_ident h
  | .OATOM h => gen_atom h
  | .ONUMBER h => gen_num h
  | .OMODULE _ _ => fault .noGenerator
  | .other _ _ => fault .noGenerator
/-- The function `gen_block` called directly on a node. -/
def gen_block : Node → Gen Int
  | .null => fault .nullDeref
  | .OBLOCK h body parent => gen_block_steps (.OBLOCK h body parent) (gen_nodes body 0)
  | _ => fault .unionMisread
/-- The function `gen_clause` called directly on a node. -/
def gen_clause : Node → Gen Int
  | .null => fault .nullDeref
  | .OCLAUSE h lval nguards guards rval =>
    gen_clause_steps (.OCLAUSE h lval nguards guards rval) (gen_locals lval) (gen_block rval)
  | _ => fault .unionMisread
/-- The function `gen_cons` called directly on a node. -/
def gen_cons : Node → Gen Int
  | .null => fault .nullDeref
  | .OCONS _ lval rval => gen_cons_steps lval.isNull rval.isNull (gen_node lval) (gen_cons rval)
  | _ => fault .unionMisread
/-- The loop of `gen_block`: lower the nodes of the body in order; the result
is the operand of the last one (`reg` when the list is `NULL`). -/
def gen_nodes : NodeList → Int → Gen Int
  | .nil, reg => pure reg
  | .cons hd tl, _ => do
    let reg ← gen_node hd
    gen_nodes tl reg
/-- The loop of `gen_tuple`: for `i < arity`, lower member `i` and emit
`SETTUPLE reg, i, operand`. -/
def gen_tuple_members (reg : Int) (arity : Nat) : NodeList → Nat → Gen Unit
  | .nil, i => if i < arity then fault .nullDeref else pure ()
  | .cons hd tl, i =>
    if i < arity then do
      let v ← gen_node hd
      let _ ← gen (.iABC .OP_SETTUPLE reg i v)
      gen_tuple_members reg arity tl (i + 1)
    else pure ()
/-- The guard loop of a `select` arm: for `i < nguards`, lower the guard and
reserve a slot; returns `gpatches`. -/
def gen_guards (clause : Nat) (nguards : Nat) : NodeList → Nat → Gen (List Nat)
  | .nil, i => if i < nguards then fault .nullDeref else pure []
  | .cons hd tl, i =>
    if i < nguards then do
      let _ ← gen_node hd
      let p ← reserveSlot clause
      let ps ← gen_guards clause nguards tl (i + 1)
      pure (p :: ps)
    else pure []
/-- The arm loop of `gen_select`: for `i < nclauses`, lower arm `i`; returns
what each iteration left in the locals. -/
def gen_select_arms (argNull : Bool) (arg : Gen Int) (clause : Nat) (result : Int)
    (nclauses : Nat) : NodeList → Nat → Gen (List ArmSlots)
  | .nil, i => if i < nclauses then fault .nullDeref else pure []
  | .cons c tl, i =>
    if i < nclauses then
      match c with
      | .null => fault .nullDeref
      | .OCLAUSE _ lval nguards guards rval => do
        let p ← gen_select_arm clause result (decide (i + 1 < nclauses)) lval argNull arg
          (gen_guards clause nguards guards 0) (gen_block rval)
        let ps ← gen_select_arms argNull arg clause result nclauses tl (i + 1)
        pure (p :: ps)
      | _ => fault .unionMisread
    else pure []
end

/-! ## Entry points -/

/-- The function `tree`: an empty root block and empty symbol tables. -/
def tree : Tree :=
  { root := .OBLOCK { addr := 1, src := "" } (.cons .null .nil) .null
    symbols := [[]]
    psymbols := [] }

/-- The function `generator`: the initial state for a tree and the module
name derived from the source path. -/
def generator (t : Tree) (moduleName : String) : Generator :=
  { tree := t, module := moduleName, block := .null, slot := 1, path := none, paths := [],
    pathsn := 0, heap := [] }

/-! ## The image writer

Multi-byte scalars are written from memory by `fwrite`; the embedding fixes
the little-endian layout.  A writer returns the bytes it hands to `out`, or
`none` when it faults (a failed `assert`, a `NULL` dereference). -/

/-- Constants of `runtime.h` and `op.h`, which are not among the sources: the
numeric type tags, the quantifier bit `Q_RANGE`, and the 32-bit encoding of an
instruction word. -/
structure Layout where
  TYPE_STRING : Nat
  TYPE_ATOM : Nat
  TYPE_NUMBER : Nat
  TYPE_TUPLE : Nat
  TYPE_LIST : Nat
  TYPE_PATHID : Nat
  TYPE_VAR : Nat
  TYPE_ANY : Nat
  Q_RANGE : Nat
  encode : Instruction → Nat

/-- The low `n` bytes of `x`, least significant first. -/
def leBytes : Nat → Nat → List Nat
  | 0, _ => []
  | n + 1, x => (x % 256) :: leBytes n (x / 256)

/-- The `n`-byte two's complement object representation of `x`. -/
def intBytes (n : Nat) (x : Int) : List Nat := leBytes n (x % (256 : Int) ^ n).toNat

/-- The bytes of a C string: the UTF-8 bytes of the text up to the first NUL. -/
def cstr (s : String) : List Nat :=
  ((s.toList.map (fun c => (String.utf8EncodeChar c).map (fun b => b.toNat))).flatten).takeWhile
    (fun b => b != 0)

/-- The byte `fputc(c, out)` writes. -/
def fputc (c : Nat) : List Nat := [c % 256]

/-- The tag field `t` of a value. -/
def TValue.t (L : Layout) : TValue → Option Nat
  | .null => none
  | .number _ => some L.TYPE_NUMBER
  | .atom _ => some L.TYPE_ATOM
  | .pathid _ _ => some L.TYPE_PATHID
  | .var range _ => some (if range then L.TYPE_VAR ||| L.Q_RANGE else L.TYPE_VAR)
  | .any range _ => some (if range then L.TYPE_ANY ||| L.Q_RANGE else L.TYPE_ANY)
  | .tuple _ _ => some L.TYPE_TUPLE
  | .list _ => some L.TYPE_LIST

mutual
/-- The function `dump_constant`. -/
def dump_constant (L : Layout) : TValue → Option (List Nat)
  | .null => none
  | .number v => some (fputc L.TYPE_NUMBER ++ intBytes 4 v)
  | .atom s => some (fputc L.TYPE_ATOM ++ cstr s ++ [0])
  | .pathid m p => some (fputc L.TYPE_PATHID ++ cstr m ++ [0] ++ cstr p ++ [0])
  | .var range ident =>
    some (fputc (if range then L.TYPE_VAR ||| L.Q_RANGE else L.TYPE_VAR) ++ intBytes 4 ident)
  | .any range ident =>
    some (fputc (if range then L.TYPE_ANY ||| L.Q_RANGE else L.TYPE_ANY) ++ intBytes 4 ident)
  | .tuple arity members =>
    match dump_members L (arity % 256) members with
    | none => none
    | some bs => some (fputc L.TYPE_TUPLE ++ fputc arity ++ bs)
  | .list cells =>
    match dump_cells L cells with
    | none => none
    | some bs => some (fputc L.TYPE_LIST ++ intBytes 8 (TValues.length cells) ++ bs)
/-- The member loop of the tuple case: the first `n` members. -/
def dump_members (L : Layout) : Nat → TValues → Option (List Nat)
  | 0, _ => some []
  | _ + 1, .nil => none
  | n + 1, .cons v vs =>
    match dump_constant L v, dump_members L n vs with
    | some a, some b => some (a ++ b)
    | _, _ => none
/-- The cell loop of the list case. -/
def dump_cells (L : Layout) : TValues → Option (List Nat)
  | .nil => some []
  | .cons v vs =>
    match dump_constant L v, dump_cells L vs with
    | some a, some b => some (a ++ b)
    | _, _ => none
end

mutual
/-- The function `dump_node` (`dump_pattern`): the parameter pattern of a
clause as a node tree. -/
def dump_node (L : Layout) : Node → Option (List Nat)
  | .OTUPLE _ arity members =>
    match dump_nodes L members with
    | none => none
    | some bs => some (fputc L.TYPE_TUPLE ++ fputc arity ++ bs)
  | .OIDENT _ => some (fputc L.TYPE_ANY)
  | .OATOM h => some (fputc L.TYPE_ATOM ++ fputc ((cstr h.src).length + 1) ++ cstr h.src ++ [0])
  | .ONUMBER h => some (fputc L.TYPE_NUMBER ++ intBytes 4 (atoi h.src))
  | _ => none
/-- The member loop of the tuple case of `dump_node`. -/
def dump_nodes (L : Layout) : NodeList → Option (List Nat)
  | .nil => some []
  | .cons n ns =>
    match dump_node L n, dump_nodes L ns with
    | some a, some b => some (a ++ b)
    | _, _ => none
end

/-- The constants `kheader[0 .. n)` written in order. -/
def dump_kheader (L : Layout) (kheader : List TValue) : Nat → Option (List Nat)
  | 0 => some []
  | n + 1 =>
    match dump_kheader L kheader n, dump_constant L (kheader.getD n .null) with
    | some a, some b => some (a ++ b)
    | _, _ => none

/-- The function `dump_clause`. -/
def dump_clause (L : Layout) (c : ClauseEntry) : Option (List Nat) :=
  match c.node with
  | .OCLAUSE _ lval _ _ _ =>
    match dump_node L lval, dump_kheader L c.kheader c.kindex with
    | some pat, some ks =>
      some (pat ++ fputc c.nreg ++ fputc c.kindex ++ ks ++ intBytes 8 c.pc
        ++ ((List.range c.pc).map (fun i => leBytes 4 (L.encode (c.code.getD i (.word 0))))).flatten)
    | _, _ => none
  | _ => none

/-- The clause blocks `clauses[0 .. n)` of a path written in order. -/
def dump_clauses (L : Layout) (heap : List ClauseEntry) (clauses : List (Option Nat)) :
    Nat → Option (List Nat)
  | 0 => some []
  | n + 1 =>
    match dump_clauses L heap clauses n, (clauses.getD n none).bind (fun r => heap[r]?) with
    | some a, some c =>
      match dump_clause L c with
      | some b => some (a ++ b)
      | none => none
    | _, _ => none

/-- The function `dump_path`. -/
def dump_path (L : Layout) (heap : List ClauseEntry) (p : PathEntry) : Option (List Nat) :=
  match dump_clauses L heap p.clauses p.nclauses with
  | none => none
  | some bs =>
    some (fputc 255 ++ fputc (min (cstr p.name).length 255)
      ++ (cstr p.name).take (min (cstr p.name).length 255) ++ fputc p.nclauses ++ bs)

/-- The path blocks `paths[0 .. n)` written in order. -/
def dump_paths (L : Layout) (g : Generator) : Nat → Option (List Nat)
  | 0 => some []
  | n + 1 =>
    match dump_paths L g n, (g.paths.getD n none) with
    | some a, some p =>
      match dump_path L g.heap p with
      | some b => some (a ++ b)
      | none => none
    | _, _ => none

/-- What a run of `generate` leaves behind: how the process ended and the
bytes written to `out`. -/
structure Run where
  outcome : Outcome Unit
  written : List Nat

/-- The function `generate`: lower the root block; when that returns and an
output is given (`out`), write the magic byte, the version, the path count and
the path blocks.  When lowering stops the process nothing is written; an image
whose writing faults is not modelled further (no bytes are recorded). -/
def generate (L : Layout) (g : Generator) (out : Bool) : Run :=
  match gen_block g.tree.root g with
  | .halt e g1 => { outcome := .halt e g1, written := [] }
  | .ok _ g1 =>
    if out then
      match dump_paths L g1 g1.pathsn with
      | some bs =>
        { outcome := .ok () g1
          written := fputc 167 ++ intBytes 3 16777215 ++ intBytes 4 g1.pathsn ++ bs }
      | none => { outcome := .halt (.fault .nullDeref) g1, written := [] }
    else { outcome := .ok () g1, written := [] }

/-! ## Definitions used to state the properties -/

/-- The key `s` is interned at index `i` in the active clause. -/
def Interned (g : Generator) (s : String) (i : Int) : Prop :=
  ∃ c, g.clause = some c ∧ c.ktable.lookup s = some i

/-- Run a sequence of intern calls, each with its optional key and value. -/
def internAll : List (Option String × TValue) → Gen Unit
  | [] => pure ()
  | (src, v) :: rest => do
    let _ ← gen_constant src v
    internAll rest

/-- The word `code[i]` of a clause entry as memory holds it (zero where
nothing was written). -/
def ClauseEntry.word (c : ClauseEntry) (i : Nat) : Instruction := c.code.getD i (.word 0)

/-- The code of the clause entry ends in `RETURN` or `TAILCALL` followed by
the zero terminator: `code[pc - 1]` is the zero word and `code[pc - 2]` has
opcode `RETURN` or `TAILCALL`. -/
def EndsInReturn (c : ClauseEntry) : Prop :=
  2 ≤ c.pc ∧ c.word (c.pc - 1) = .word 0 ∧
    (iOP (c.word (c.pc - 2)) = some .OP_RETURN ∨ iOP (c.word (c.pc - 2)) = some .OP_TAILCALL)

/-- Whether node `n` is the last child of the block recorded in `g->block`. -/
def lastOfBlock (g : Generator) (n : Node) : Bool :=
  match g.block with
  | .OBLOCK _ body _ =>
    match body.endHead with
    | some e => e.addr == n.addr
    | none => false
  | _ => false

/-- The test `gen_apply` makes: `n` is the last child of the block recorded in
`g->block` and the callee's name is the name of the active path. -/
def applyTail (g : Generator) (n : Node) (name : String) : Bool :=
  lastOfBlock g n && (g.pathEntry.map (fun p => p.name) == some name)

/-- The tail position of the specification: `n` is the last child of the block
being lowered, that block is directly the body of the active clause, and the
callee's name is the name of the active path. -/
def tailPosition (g : Generator) (n : Node) (name : String) : Bool :=
  applyTail g n name &&
    (match g.clause with
     | some c => g.block.addr == c.node.clauseRval.addr
     | none => false)

/-- The operands of an instruction word that sit in slots which may name a
constant: `B` and `C` of the `ABC` form, `D` of the `AD` form. -/
def Instruction.rkOperands : Instruction → List Int
  | .word _ => []
  | .iABC _ _ b c => [b, c]
  | .iAD _ _ d => [d]
  | .iAJ _ _ _ => []

/-- Every K-flagged operand of the words `code[0 .. pc)` names a populated
constant: its index is below `kindex`. -/
def kOperandsOk (c : ClauseEntry) : Bool :=
  (List.range c.pc).all (fun i =>
    (c.word i).rkOperands.all (fun x => !ISK x || decide (INDEXK x < c.kindex)))

mutual
/-- No path declaration (`OPATH` node) occurs in the tree. -/
def Node.noPath : Node → Bool
  | .null => true
  | .OBLOCK _ body _ => NodeList.noPath body
  | .OMATCH _ lval rval => Node.noPath lval && Node.noPath rval
  | .OBIND _ lval rval => Node.noPath lval && Node.noPath rval
  | .OADD _ lval rval => Node.noPath lval && Node.noPath rval
  | .OSUB _ lval rval => Node.noPath lval && Node.noPath rval
  | .OGT _ lval rval => Node.noPath lval && Node.noPath rval
  | .OLT _ lval rval => Node.noPath lval && Node.noPath rval
  | .OCONS _ lval rval => Node.noPath lval && Node.noPath rval
  | .OACCESS _ lval rval => Node.noPath lval && Node.noPath rval
  | .ORANGE _ lval rval => Node.noPath lval && Node.noPath rval
  | .OAPPLY _ lval _ rval => Node.noPath lval && Node.noPath rval
  | .OSELECT _ arg _ clauses => Node.noPath arg && NodeList.noPath clauses
  | .OCLAUSE _ lval _ guards rval =>
    Node.noPath lval && NodeList.noPath guards && Node.noPath rval
  | .OPATH _ _ _ => false
  | .OTUPLE _ _ members => NodeList.noPath members
  | .OLIST _ _ items => NodeList.noPath items
  | .OIDENT _ => true
  | .OATOM _ => true
  | .ONUMBER _ => true
  | .OMODULE _ _ => true
  | .other _ _ => true
/-- No path declaration occurs in the nodes of the list. -/
def NodeList.noPath : NodeList → Bool
  | .nil => true
  | .cons hd tl => Node.noPath hd && NodeList.noPath tl
end

/-- Every run of `m` that returns relates the state before to the state after
by `R`. -/
def Pres {α : Type} (R : Generator → Generator → Prop) (m : Gen α) : Prop :=
  ∀ g a g', m g = .ok a g' → R g g'

/-- An instruction word other than a reserved zero slot: an `ABC` or `AD`
word, or the jump with offset 0 that `gen_match` emits. -/
def Plain : Instruction → Prop
  | .word _ => False
  | .iABC _ _ _ _ => True
  | .iAD _ _ _ => True
  | .iAJ op _ j => op = .OP_JUMP ∧ j = 0

/-- A relation between generator states that every step of the lowering of
expressions keeps: it is reflexive and transitive, it is kept by the register
and constant allocators, by the emission of a plain word, by `define`,
`g->block = n` and `nlocals ++`, by a balanced pair of `enterscope` and
`exitscope` around a piece that keeps it, and by `gen_clause` around pieces
that keep it. -/
structure Stable (R : Generator → Generator → Prop) : Prop where
  refl : ∀ g, R g g
  trans : ∀ g1 g2 g3, R g1 g2 → R g2 g3 → R g1 g3
  nextreg : Pres R nextreg
  incLocals : Pres R incLocals
  gen : ∀ i, Plain i → Pres R (gen i)
  gen_constant : ∀ s v, Pres R (gen_constant s v)
  define : ∀ s r, Pres R (define s r)
  setBlock : ∀ n, Pres R (setBlock n)
  bracket : ∀ g g0 g1 g2, enterscope g = .ok () g0 → R g0 g1 → exitscope g1 = .ok () g2 → R g g2
  clause : ∀ n locals body, Pres R locals → Pres R body → Pres R (gen_clause_steps n locals body)

/-- The lowering of every node of the list keeps `R`. -/
def AllPres (R : Generator → Generator → Prop) : NodeList → Prop
  | .nil => True
  | .cons n tl => Pres R (gen_node n) ∧ AllPres R tl

/-- For an arm (a clause node), the lowering of its body block and of each of
its guards keeps `R`. -/
def ArmPres (R : Generator → Generator → Prop) : Node → Prop
  | .OCLAUSE _ _ _ guards rval => Pres R (gen_block rval) ∧ AllPres R guards
  | _ => True

/-- Every arm of the list satisfies `ArmPres`. -/
def ArmsPres (R : Generator → Generator → Prop) : NodeList → Prop
  | .nil => True
  | .cons c tl => ArmPres R c ∧ ArmsPres R tl

/-- A stable relation that does not look at the code of a clause nor at the
path table: it is also kept by the emission of any word, by a patch of a
reserved slot and by the registration of a path. -/
structure Simple (R : Generator → Generator → Prop) extends Stable R : Prop where
  genAny : ∀ i, Pres R (Arbre.gen i)
  patch : ∀ clause idx v, Pres R (patchCode clause idx v)
  registerPath : ∀ name n, Pres R (Arbre.registerPath name n)

/-- The outer scopes are untouched: the chain has the same depth and, from the
parent of the innermost table on, the same tables. -/
def SameOuterScopes (t t' : Tree) : Prop :=
  t'.symbols.tail = t.symbols.tail ∧ t'.symbols.length = t.symbols.length

/-- Concatenation of node lists. -/
def NodeList.append : NodeList → NodeList → NodeList
  | .nil, b => b
  | .cons hd tl, b => .cons hd (NodeList.append tl b)

/-- The path table only grows: every name registered in `t` is registered
in `t'`. -/
def PathsKept (t t' : Tree) : Prop :=
  ∀ k : String, (symtab_lookup [t.psymbols] k).isSome → (symtab_lookup [t'.psymbols] k).isSome

/-- A jump target `t` lands on a word of clause entry `c`: it is not negative
and it is below `pc`, or it is `pc` itself while the last word is not a
`TAILCALL`, the index at which `gen_clause` then emits the `RETURN`. -/
def Lands (c : ClauseEntry) (t : Int) : Prop :=
  0 ≤ t ∧ (t < c.pc ∨ (t = c.pc ∧ iOP (c.word (c.pc - 1)) ≠ some .OP_TAILCALL))

/-- The word `code[i]` is no literal word (so no reserved zero slot) and, when
it is a `JUMP`, its target `i + 1 + offset` lands in the clause, as long as
`pc` is a value of `unsigned long`. -/
def Sound (c : ClauseEntry) (i : Nat) : Prop :=
  (∀ w, c.word i ≠ .word w) ∧
    ∀ a j, c.word i = .iAJ .OP_JUMP a j → c.pc < 18446744073709551616 →
      Lands c ((i : Int) + 1 + j)

/-- The code of the clause entry fits its buffer, and the buffer is no larger
than the 4096 words `clauseentry` allocates. -/
def Bounded (c : ClauseEntry) : Prop :=
  c.pc ≤ c.codewords ∧ c.codewords ≤ 4096

/-- How a piece of lowering extends the active clause of `g`: the active path
and clause stay the same, the other clause entries are untouched, the words
below the old `pc` are untouched, the code still fits its buffer, and every
word from the old `pc` to the new one is sound, except for reserved slots at
indices in `P`, which still hold the zero word. -/
def Ext (P : Nat → Prop) (g g' : Generator) : Prop :=
  ∀ ref c, g.clauseRef = some ref → g.heap[ref]? = some c →
    g'.path = g.path ∧ g'.clauseRef = some ref ∧ g.heap.length ≤ g'.heap.length ∧
    (∀ r, r < g.heap.length → r ≠ ref → g'.heap[r]? = g.heap[r]?) ∧
    ∃ c', g'.heap[ref]? = some c' ∧ c.pc ≤ c'.pc ∧ c'.node = c.node ∧
      (Bounded c → Bounded c') ∧
      (∀ i, i < c.pc → c'.word i = c.word i) ∧
      (∀ i, c.pc ≤ i → i < c'.pc → (P i ∧ c'.word i = .word 0) ∨ Sound c' i)

/-- A piece of lowering that extends the active clause with sound words only,
leaving no reserved slot behind. -/
def Extends (g g' : Generator) : Prop := Ext (fun _ => False) g g'

/-- The clause entry `c` at `clause` is the active clause of `g`. -/
def Active (g : Generator) (clause : Nat) (c : ClauseEntry) : Prop :=
  g.clauseRef = some clause ∧ g.heap[clause]? = some c

/-- Only the clause entry at `clause` differs between `g` and `g'`. -/
def Rewrites (clause : Nat) (g g' : Generator) : Prop :=
  g'.path = g.path ∧ g'.paths = g.paths ∧ g'.heap.length = g.heap.length ∧
    ∀ r, r ≠ clause → g'.heap[r]? = g.heap[r]?

/-- The clause entry `c'` is `c` with the words at the indices in `S`
overwritten by `v`. -/
def PatchedBy (S : List Nat) (v : Nat → Instruction) (c c' : ClauseEntry) : Prop :=
  c'.pc = c.pc ∧ c'.node = c.node ∧ c'.codewords = c.codewords ∧
    (∀ i, i ∈ S → c'.word i = v i) ∧ (∀ i, i ∉ S → c'.word i = c.word i)

/-- The jump that `patchJump` writes at `slot` when `clause->pc` is `pc`. -/
def jumpTo (pc : Nat) (slot : Nat) : Instruction := .iAJ .OP_JUMP 0 (jumpOffset pc slot)

/-- The word that the last loop of `gen_select` writes at `slot`. -/
def armEnd (islast : Bool) (result : Int) (pc : Nat) (slot : Nat) : Instruction :=
  if islast then .iABC .OP_RETURN result 0 0 else jumpTo pc slot

/-- The contract of a guard loop for the clause at `clause`: it extends the
active clause, every reserved slot it returns lies in the extension, and only
those are left pending. -/
def SlotsPres (clause : Nat) (m : Gen (List Nat)) : Prop :=
  ∀ g g' gps c, m g = .ok gps g' → Active g clause c →
    Ext (fun k => k ∈ gps) g g' ∧ ∃ c', Active g' clause c' ∧ c.pc ≤ c'.pc ∧
      ∀ gp, gp ∈ gps → c.pc ≤ gp ∧ gp < c'.pc

/-- What one iteration of the arm loop of `gen_select` has done to the active
clause, from `c` to `c'`: words were emitted, `endpc` is the new `pc`, the
last word is no `TAILCALL`, the end-of-arm slot (if any) is the last word, and
the pattern slot and the guard slots hold jumps to the new `pc`. -/
def ArmDone (c c' : ClauseEntry) (a : ArmSlots) : Prop :=
  c.pc < c'.pc ∧ a.endpc = c'.pc ∧ iOP (c'.word (c'.pc - 1)) ≠ some .OP_TAILCALL ∧
    (∀ p, p ∈ a.patch → c.pc ≤ p ∧ p + 1 = c'.pc) ∧
    (∀ s, s ∈ a.savedpc ++ a.gpatches →
      c.pc ≤ s ∧ s + 1 < c'.pc ∧ c'.word s = jumpTo c'.pc s)

/-- What the arm loop of `gen_select` has done to the active clause, from `c`
to `c'`, in terms of what each iteration recorded: every arm but the last
reserved one end-of-arm slot, which is the last word of that arm and lies
before the last word of the loop; the pattern slot and the guard slots of an
arm hold jumps to the end of that arm and are no end-of-arm slots; the last arm
ends at the new `pc`, and its last word is no `TAILCALL`. -/
def ArmsDone (c c' : ClauseEntry) (slots : List ArmSlots) : Prop :=
  c.pc ≤ c'.pc ∧ (slots = [] → c'.pc = c.pc) ∧
  (slots ≠ [] → c.pc < c'.pc ∧ iOP (c'.word (c'.pc - 1)) ≠ some .OP_TAILCALL) ∧
  (∀ a, slots.getLast? = some a → a.endpc = c'.pc) ∧
  (∀ k a, slots[k]? = some a → k + 1 < slots.length → a.patch.length = 1) ∧
  (∀ a, a ∈ slots → a.endpc ≤ c'.pc ∧
    (∀ p, p ∈ a.patch → c.pc ≤ p ∧ p + 1 = a.endpc ∧ p + 1 < c'.pc) ∧
    ∀ s, s ∈ a.savedpc ++ a.gpatches →
      c.pc ≤ s ∧ s + 1 < a.endpc ∧ c'.word s = jumpTo a.endpc s ∧ s ∉ armPatches slots)

/-- The condition of the specification for a `select`: `n` is the last
expression of the body of the clause that the entry `c` is lowered from. -/
def lastOfClauseBody (c : ClauseEntry) (n : Node) : Bool :=
  match c.node.clauseRval with
  | .OBLOCK _ body _ =>
    match body.endHead with
    | some e => e.addr == n.addr
    | none => false
  | _ => false

/-- The node `ns[k]` of a node list. -/
def NodeList.nth : NodeList → Nat → Option Node
  | .nil, _ => none
  | .cons hd _, 0 => some hd
  | .cons _ tl, k + 1 => NodeList.nth tl k

/-- The number of pattern slots an arm with pattern `lval` reserves: one when
there is a pattern and a subject, none otherwise. -/
def testSlots (lval : Node) (argNull : Bool) : Nat :=
  if !lval.isNull && !argNull then 1 else 0

/-- The code of the clause entry leaves one word free in a buffer of
`codesize` words, the measure `gen` tests, and no more words are allocated than
`codesize` says. -/
def Fits (c : ClauseEntry) : Prop := c.pc + 1 ≤ c.codesize ∧ c.codewords ≤ c.codesize

/-- From heap `h` to heap `h'` no entry is dropped, an entry that fits still
fits, and every new entry fits. -/
def FitsKept (h h' : List ClauseEntry) : Prop :=
  h.length ≤ h'.length ∧ ∀ r c', h'[r]? = some c' →
    (∀ c, h[r]? = some c → Fits c → Fits c') ∧ (h.length ≤ r → Fits c')

/-- The number of nodes of a node list. -/
def NodeList.length : NodeList → Nat
  | .nil => 0
  | .cons _ tl => tl.length + 1

/-- The members `ms` of a tuple in register `r`, numbered from `i`, are laid
out in the entry `cf` from the state `g` on: the first member is lowered from
`g`, its code is what `cf` holds below the `pc` it ends at, the word at that
`pc` is `SETTUPLE r, i, v` with `v` the operand the member returned, and the
remaining members are laid out from the state after that word; after the last
member nothing more is written, `cf.pc` is the `pc` reached. -/
def TupleLaid (clause : Nat) (r : Int) (cf : ClauseEntry) : NodeList → Nat → Generator → Prop
  | .nil, _, g => ∃ c, Active g clause c ∧ cf.pc = c.pc
  | .cons m tl, i, g => ∃ c v g1 c1 g2 c2, Active g clause c ∧ gen_node m g = .ok v g1 ∧
      Active g1 clause c1 ∧ c.pc ≤ c1.pc ∧ (∀ k, k < c1.pc → cf.word k = c1.word k) ∧
      cf.word c1.pc = .iABC .OP_SETTUPLE r i v ∧
      gen (.iABC .OP_SETTUPLE r i v) g1 = .ok c1.pc g2 ∧
      Active g2 clause c2 ∧ c2.pc = c1.pc + 1 ∧ TupleLaid clause r cf tl (i + 1) g2

/-- The block of one path in the image, in the words of the specification: the
marker byte `0xFF`, the name-length byte `min(length, 255)`, that many leading
bytes of the name, the clause-count byte, and the clause blocks. -/
def pathBlock (name : List Nat) (nclauses : Nat) (clauses : List Nat) : List Nat :=
  [255, min name.length 255] ++ name.take (min name.length 255) ++ [nclauses % 256] ++ clauses

/-- The registered paths stay where they are: no path is unregistered, and
every slot below the old `pathsn` keeps the name and the node of its entry. -/
def NamesKept (g g' : Generator) : Prop :=
  g.pathsn ≤ g'.pathsn ∧ ∀ i p, i < g.pathsn → g.paths[i]? = some (some p) →
    ∃ p', g'.paths[i]? = some (some p') ∧ p'.name = p.name ∧ p'.node = p.node

/-- The active path is the path registered last: `g->path` is
`g->paths[g->pathsn - 1]`. -/
def LastPath (g : Generator) : Prop := ∃ k, g.path = some k ∧ g.pathsn = k + 1

/-- A step keeps the active path the path registered last. -/
def LastKept (g g' : Generator) : Prop := LastPath g → LastPath g'

/-- The tag bytes that `dump_constant` writes for the kinds of constant it
handles are pairwise distinct. -/
def Layout.Distinct (L : Layout) : Prop :=
  [L.TYPE_NUMBER % 256, L.TYPE_ATOM % 256, L.TYPE_PATHID % 256, L.TYPE_VAR % 256,
    (L.TYPE_VAR ||| L.Q_RANGE) % 256, L.TYPE_ANY % 256, (L.TYPE_ANY ||| L.Q_RANGE) % 256,
    L.TYPE_TUPLE % 256, L.TYPE_LIST % 256].Nodup

/-- The value is a value of `int`. -/
def inInt (v : Int) : Bool := decide (-2147483648 ≤ v ∧ v < 2147483648)

/-- The text is a C string: no character of it is NUL. -/
def noNul (s : String) : Bool := s.toList.all (fun c => c.toNat != 0)

mutual
/-- The constants of the claim: built from `NUMBER`, `ATOM`, `PATHID`, `VAR`,
`ANY`, `TUPLE` (arity at most 255 and equal to the member count) and `LIST`,
with numbers and register indices in the range of `int`, texts that are C
strings, and list lengths in the range of `size_t`. -/
def TValue.wf : TValue → Bool
  | .null => false
  | .number v => inInt v
  | .atom s => noNul s
  | .pathid m p => noNul m && noNul p
  | .var _ ident => inInt ident
  | .any _ ident => inInt ident
  | .tuple arity members =>
    decide (arity ≤ 255) && decide (TValues.length members = arity) && TValues.wf members
  | .list cells => decide (TValues.length cells < 18446744073709551616) && TValues.wf cells
/-- Every value of the sequence is a constant of the claim. -/
def TValues.wf : TValues → Bool
  | .nil => true
  | .cons v vs => TValue.wf v && TValues.wf vs
end

mutual
/-- The nesting depth of a value. -/
def TValue.depth : TValue → Nat
  | .tuple _ members => TValues.depth members + 1
  | .list cells => TValues.depth cells + 1
  | _ => 1
/-- The largest nesting depth in a sequence of values. -/
def TValues.depth : TValues → Nat
  | .nil => 0
  | .cons v vs => max (TValue.depth v) (TValues.depth vs)
end

/-- The number whose little-endian bytes are `bs`. -/
def leNat : List Nat → Nat
  | [] => 0
  | b :: bs => b + 256 * leNat bs

/-- Read an `n`-byte unsigned scalar. -/
def read_size (n : Nat) (bs : List Nat) : Option (Nat × List Nat) :=
  if bs.length < n then none else some (leNat (bs.take n), bs.drop n)

/-- Read an `n`-byte two's complement scalar. -/
def read_int (n : Nat) (bs : List Nat) : Option (Int × List Nat) :=
  match read_size n bs with
  | none => none
  | some (x, r) => some (if 256 ^ n ≤ 2 * x then (x : Int) - 256 ^ n else (x : Int), r)

/-- Read the bytes up to the first NUL, which is consumed. -/
def read_bytes0 : List Nat → Option (List Nat × List Nat)
  | [] => none
  | b :: bs =>
    if b = 0 then some ([], bs)
    else
      match read_bytes0 bs with
      | none => none
      | some (s, r) => some (b :: s, r)

/-- The UTF-8 bytes of the character with code `n`. -/
def utf8Nat (n : Nat) : List Nat :=
  if n ≤ 127 then [n]
  else if n ≤ 2047 then [n / 64 % 32 + 192, n % 64 + 128]
  else if n ≤ 65535 then [n / 4096 % 16 + 224, n / 64 % 64 + 128, n % 64 + 128]
  else [n / 262144 % 8 + 240, n / 4096 % 64 + 128, n / 64 % 64 + 128, n % 64 + 128]

/-- The characters that a sequence of UTF-8 bytes spells, read byte by byte:
`need` continuation bytes are still expected for the character whose leading
bits are in `acc`. -/
def utf8Go : List Nat → Nat → Nat → List Char
  | [], _, _ => []
  | b :: bs, 0, _ =>
    if b < 128 then Char.ofNat b :: utf8Go bs 0 0
    else if b < 224 then utf8Go bs 1 (b - 192)
    else if b < 240 then utf8Go bs 2 (b - 224)
    else utf8Go bs 3 (b - 240)
  | b :: bs, need + 1, acc =>
    if need = 0 then Char.ofNat (acc * 64 + (b - 128)) :: utf8Go bs 0 0
    else utf8Go bs need (acc * 64 + (b - 128))

/-- The characters that a sequence of UTF-8 bytes spells. -/
def utf8Chars (bs : List Nat) : List Char := utf8Go bs 0 0

/-- Read a NUL-terminated text. -/
def read_cstr (bs : List Nat) : Option (String × List Nat) :=
  match read_bytes0 bs with
  | none => none
  | some (s, r) => some (String.mk (utf8Chars s), r)

/-- Read `n` values one after the other with the reader `rd`. -/
def read_members (rd : List Nat → Option (TValue × List Nat)) :
    Nat → List Nat → Option (TValues × List Nat)
  | 0, bs => some (.nil, bs)
  | n + 1, bs =>
    match rd bs with
    | none => none
    | some (v, r) =>
      match read_members rd n r with
      | none => none
      | some (vs, r2) => some (.cons v vs, r2)

/-- A reader for the encoding of `dump_constant`: the tag byte selects the
kind, the payload follows; `fuel` bounds the nesting depth. -/
def read_constant (L : Layout) : Nat → List Nat → Option (TValue × List Nat)
  | 0, _ => none
  | _ + 1, [] => none
  | fuel + 1, t :: bs =>
    if t = L.TYPE_NUMBER % 256 then
      match read_int 4 bs with
      | none => none
      | some (v, r) => some (.number v, r)
    else if t = L.TYPE_ATOM % 256 then
      match read_cstr bs with
      | none => none
      | some (s, r) => some (.atom s, r)
    else if t = L.TYPE_PATHID % 256 then
      match read_cstr bs with
      | none => none
      | some (m, r) =>
        match read_cstr r with
        | none => none
        | some (p, r2) => some (.pathid m p, r2)
    else if t = L.TYPE_VAR % 256 then
      match read_int 4 bs with
      | none => none
      | some (v, r) => some (.var false v, r)
    else if t = (L.TYPE_VAR ||| L.Q_RANGE) % 256 then
      match read_int 4 bs with
      | none => none
      | some (v, r) => some (.var true v, r)
    else if t = L.TYPE_ANY % 256 then
      match read_int 4 bs with
      | none => none
      | some (v, r) => some (.any false v, r)
    else if t = (L.TYPE_ANY ||| L.Q_RANGE) % 256 then
      match read_int 4 bs with
      | none => none
      | some (v, r) => some (.any true v, r)
    else if t = L.TYPE_TUPLE % 256 then
      match bs with
      | [] => none
      | n :: r =>
        match read_members (read_constant L fuel) n r with
        | none => none
        | some (vs, r2) => some (.tuple n vs, r2)
    else if t = L.TYPE_LIST % 256 then
      match read_size 8 bs with
      | none => none
      | some (n, r) =>
        match read_members (read_constant L fuel) n r with
        | none => none
        | some (vs, r2) => some (.list vs, r2)
    else none

/-- The decoder of a constant: every nesting level takes at least its tag
byte, so the length of the input bounds the depth. -/
def decode_constant (L : Layout) (bs : List Nat) : Option (TValue × List Nat) :=
  read_constant L bs.length bs

/-- The decoder of a constant table of `n` entries. -/
def decode_kheader (L : Layout) : Nat → List Nat → Option (List TValue × List Nat)
  | 0, bs => some ([], bs)
  | n + 1, bs =>
    match decode_constant L bs with
    | none => none
    | some (v, r) =>
      match decode_kheader L n r with
      | none => none
      | some (vs, r2) => some (v :: vs, r2)

/-- Modelled from the spec: `op.h` is not among the sources.  The operands of
an instruction word that sit in register slots ("each operand slot carries a
K flag: if set, the remaining bits index the constant table; else they index a
local register"): `A`, `B` and `C` of the `ABC` form, `A` and `D` of the `AD`
form, `A` of the `AJ` form.  The `B` slot of `TUPLE` (the arity) and of
`SETTUPLE` (the member index) holds an immediate, and `J` is an offset. -/
def Instruction.regOperands : Instruction → List Int
  | .word _ => []
  | .iABC .OP_TUPLE a _ c => [a, c]
  | .iABC .OP_SETTUPLE a _ c => [a, c]
  | .iABC _ a b c => [a, b, c]
  | .iAD _ a d => [a, d]
  | .iAJ _ a _ => [a]

/-- The operand `x` is K-flagged or names a register below `n`. -/
def OpOk (n : Nat) (x : Int) : Prop := ISK x = true ∨ (0 ≤ x ∧ x < (n : Int))

/-- Every operand of the word in a register slot is K-flagged or below `n`. -/
def WordOk (n : Nat) (w : Instruction) : Prop := ∀ x, x ∈ w.regOperands → OpOk n x

/-- Every register operand of the words `code[0 .. pc)` is below `nreg`. -/
def CodeOk (c : ClauseEntry) : Prop := ∀ i, i < c.pc → WordOk c.nreg (c.word i)

/-- Every binding of the lexical chain holds an operand that is K-flagged or
below `n`. -/
def ScopeOk (n : Nat) (symbols : List (List (String × Int))) : Prop :=
  ∀ t, t ∈ symbols → ∀ p, p ∈ t → OpOk n p.2

/-- The active clause is the entry at `clause`, it has at least register 0,
and its code and the bindings in scope name registers below its `nreg`. -/
def Good (clause : Nat) (g : Generator) : Prop :=
  ∃ c, Active g clause c ∧ 1 ≤ c.nreg ∧ CodeOk c ∧ ScopeOk c.nreg g.tree.symbols

/-- The value of `nreg` of the entry at `clause` (0 when there is none). -/
def nregAt (clause : Nat) (g : Generator) : Nat :=
  match g.heap[clause]? with
  | some c => c.nreg
  | none => 0

/-- A piece of lowering keeps `Good` and does not lower `nreg`. -/
def RegKept (clause : Nat) {α : Type} (m : Gen α) : Prop :=
  ∀ g a g', Good clause g → m g = .ok a g' →
    Good clause g' ∧ nregAt clause g ≤ nregAt clause g'

/-- A piece of lowering keeps `Good` and does not lower `nreg` when it starts
with the operand `x` K-flagged or below `nreg`. -/
def RegPre (clause : Nat) (x : Int) {α : Type} (m : Gen α) : Prop :=
  ∀ g a g', Good clause g → OpOk (nregAt clause g) x → m g = .ok a g' →
    Good clause g' ∧ nregAt clause g ≤ nregAt clause g'

/-- A piece of lowering keeps `Good`, does not lower `nreg`, and returns an
operand that is K-flagged or below the new `nreg`. -/
def RegOk (clause : Nat) (m : Gen Int) : Prop :=
  ∀ g v g', Good clause g → m g = .ok v g' →
    Good clause g' ∧ nregAt clause g ≤ nregAt clause g' ∧ OpOk (nregAt clause g') v

mutual
/-- No path declaration and no clause occurs in the tree as an expression: the
only clause nodes are the arms of a `select`. -/
def Node.flat : Node → Bool
  | .null => true
  | .OBLOCK _ body _ => NodeList.flat body
  | .OMATCH _ lval rval => Node.flat lval && Node.flat rval
  | .OBIND _ lval rval => Node.flat lval && Node.flat rval
  | .OADD _ lval rval => Node.flat lval && Node.flat rval
  | .OSUB _ lval rval => Node.flat lval && Node.flat rval
  | .OGT _ lval rval => Node.flat lval && Node.flat rval
  | .OLT _ lval rval => Node.flat lval && Node.flat rval
  | .OCONS _ lval rval => Node.flat lval && Node.flat rval
  | .OACCESS _ lval rval => Node.flat lval && Node.flat rval
  | .ORANGE _ lval rval => Node.flat lval && Node.flat rval
  | .OAPPLY _ lval _ rval => Node.flat lval && Node.flat rval
  | .OSELECT _ arg _ clauses => Node.flat arg && NodeList.armsFlat clauses
  | .OCLAUSE _ _ _ _ _ => false
  | .OPATH _ _ _ => false
  | .OTUPLE _ _ members => NodeList.flat members
  | .OLIST _ _ items => NodeList.flat items
  | .OIDENT _ => true
  | .OATOM _ => true
  | .ONUMBER _ => true
  | .OMODULE _ _ => true
  | .other _ _ => true
/-- An arm of a `select`: its guards and its body are flat. -/
def Node.armFlat : Node → Bool
  | .OCLAUSE _ _ _ guards rval => NodeList.flat guards && Node.flat rval
  | _ => true
/-- Every node of the list is flat. -/
def NodeList.flat : NodeList → Bool
  | .nil => true
  | .cons hd tl => Node.flat hd && NodeList.flat tl
/-- Every arm of the list is flat. -/
def NodeList.armsFlat : NodeList → Bool
  | .nil => true
  | .cons hd tl => Node.armFlat hd && NodeList.armsFlat tl
end

/-- The lowering of every node of the list is `RegOk`. -/
def AllReg (clause : Nat) : NodeList → Prop
  | .nil => True
  | .cons n tl => RegOk clause (gen_node n) ∧ AllReg clause tl

/-- For an arm, the lowering of its body block and of each guard is `RegOk`. -/
def ArmReg (clause : Nat) : Node → Prop
  | .OCLAUSE _ _ _ guards rval => RegOk clause (gen_block rval) ∧ AllReg clause guards
  | _ => True

/-- Every arm of the list satisfies `ArmReg`. -/
def ArmsReg (clause : Nat) : NodeList → Prop
  | .nil => True
  | .cons c tl => ArmReg clause c ∧ ArmsReg clause tl

/-- No entry is dropped, every entry stays the entry of its clause node, and
its `nreg` is not lowered. -/
def NregKept (g g' : Generator) : Prop :=
  ∀ (r : Nat) (c : ClauseEntry), g.heap[r]? = some c →
    ∃ c' : ClauseEntry, g'.heap[r]? = some c' ∧ c'.node = c.node ∧ c.nreg ≤ c'.nreg

/-! ## Sample inputs -/

/-- The state an outcome ends in. -/
def Outcome.state {α : Type} : Outcome α → Generator
  | .ok _ g => g
  | .halt _ g => g

/-- The code of every clause entry allocated in the state an outcome ends in. -/
def Outcome.codes {α : Type} (o : Outcome α) : List (List Instruction) :=
  o.state.heap.map (fun c => c.code)

/-- A node header. -/
def hdr (a : Nat) (s : String) : Hdr := { addr := a, src := s }

/-- A generator whose active path `f` has a fresh active clause for the clause
node at address 31 with body block at address 20, inside one lexical scope
that binds `X` to register 1. -/
def sampleState : Generator :=
  { tree := { root := .null, symbols := [[("X", 1)]], psymbols := [("f", 0)] }
    module := "m"
    block := .null
    slot := 1
    path := some 0
    paths := [some { name := "f", node := .null, index := 0, clause := some 0,
                     clauses := [some 0], nclauses := 1 }]
    pathsn := 1
    heap := [{ clauseentry (.OCLAUSE (hdr 31 "") (.OIDENT (hdr 10 "X")) 0 .nil
                 (.OBLOCK (hdr 20 "") .nil .null)) 0 with nreg := 2 }] }

/-- The clause `(A, B): A + B`. -/
def sampleAddClause : Node :=
  .OCLAUSE (hdr 41 "") (.OTUPLE (hdr 42 "") 2
      (.cons (.OIDENT (hdr 43 "A")) (.cons (.OIDENT (hdr 44 "B")) .nil))) 0 .nil
    (.OBLOCK (hdr 45 "") (.cons (.OADD (hdr 46 "+") (.OIDENT (hdr 47 "A")) (.OIDENT (hdr 48 "B")))
      .nil) .null)

/-- The callee `.f`: an access to path `f` of the current module. -/
def sampleCallee : Node :=
  .OACCESS (hdr 54 ".") (.OMODULE (hdr 55 ".") .MODULE_CURRENT) (.OIDENT (hdr 56 "f"))

/-- The call `.f (N)`, whose callee name is `f`. -/
def sampleApply : Node := .OAPPLY (hdr 53 "") sampleCallee "f" (.OIDENT (hdr 57 "N"))

/-- The body block of a `select` arm holding just the call `.f (N)`. -/
def sampleArmBody : Node := .OBLOCK (hdr 52 "") (.cons sampleApply .nil) (.block 50 .null)

/-- The arm `(N): .f (N)`. -/
def sampleArm : Node := .OCLAUSE (hdr 51 "") (.OIDENT (hdr 58 "N")) 0 .nil sampleArmBody

/-- The expression `select X` with the single arm `(N): .f (N)`. -/
def sampleSelect : Node := .OSELECT (hdr 50 "") (.OIDENT (hdr 59 "X")) 1 (.cons sampleArm .nil)

/-- The path `f (X): select X { (N): .f (N) }`. -/
def sampleSelectPath : Node :=
  .OPATH (hdr 30 "") (.OIDENT (hdr 33 "f"))
    (.OCLAUSE (hdr 31 "") (.OIDENT (hdr 10 "X")) 0 .nil
      (.OBLOCK (hdr 20 "") (.cons sampleSelect .nil) .null))

/-- The initial generator of module `m` over an empty tree. -/
def sampleInit : Generator := generator tree "m"

/-- The sample state while the arm body of `sampleSelect` is being lowered:
`g->block` is the arm body and `N` is bound to register 3. -/
def sampleArmState : Generator :=
  { sampleState with
    block := sampleArmBody
    tree := { sampleState.tree with symbols := [[], [("N", 3)], [("X", 1)]] } }

/-- The path `name (X): body`, the body given as the list of its nodes. -/
def samplePath (name : String) (body : NodeList) : Node :=
  .OPATH (hdr 30 "") (.OIDENT (hdr 33 name))
    (.OCLAUSE (hdr 31 "") (.OIDENT (hdr 10 "X")) 0 .nil (.OBLOCK (hdr 20 "") body .null))

/-- The path `g (X): Y`, with `Y` bound nowhere. -/
def sampleUndefined : Node := samplePath "g" (.cons (.OIDENT (hdr 60 "Y")) .nil)

/-- The path `g (X): X + X, Y`, with `Y` bound nowhere. -/
def sampleUndefinedLast : Node :=
  samplePath "g"
    (.cons (.OADD (hdr 61 "+") (.OIDENT (hdr 62 "X")) (.OIDENT (hdr 63 "X")))
      (.cons (.OIDENT (hdr 60 "Y")) .nil))

/-- The path `f (X): X + Y`, with `Y` bound nowhere. -/
def sampleUndefinedOperand : Node :=
  samplePath "f" (.cons (.OADD (hdr 61 "+") (.OIDENT (hdr 62 "X")) (.OIDENT (hdr 60 "Y"))) .nil)

/-- The sample state while the clause body that holds `sampleSelect` is being
lowered: `g->block` is that body block. -/
def sampleSelectState : Generator :=
  { sampleState with block := .OBLOCK (hdr 20 "") (.cons sampleSelect .nil) .null }

/-- The path `a (X): X + X` with its nodes at addresses from `base` on. -/
def samplePathA (base : Nat) : Node :=
  .OPATH (hdr base "") (.OIDENT (hdr (base + 1) "a"))
    (.OCLAUSE (hdr (base + 2) "") (.OIDENT (hdr (base + 3) "X")) 0 .nil
      (.OBLOCK (hdr (base + 4) "")
        (.cons (.OADD (hdr (base + 5) "+") (.OIDENT (hdr (base + 6) "X"))
          (.OIDENT (hdr (base + 7) "X"))) .nil) .null))

/-- The body of a module that declares the path `a` twice. -/
def sampleDuplicateBody : NodeList := .cons (samplePathA 100) (.cons (samplePathA 200) .nil)

/-- The initial generator for the module that declares `a` twice. -/
def sampleDuplicate : Generator :=
  generator { tree with root := .OBLOCK (hdr 1 "") sampleDuplicateBody .null } "m"

/-- Some values for the constants of `runtime.h` and `op.h`. -/
def sampleLayout : Layout :=
  { TYPE_STRING := 1, TYPE_ATOM := 2, TYPE_NUMBER := 3, TYPE_TUPLE := 4, TYPE_LIST := 5,
    TYPE_PATHID := 6, TYPE_VAR := 7, TYPE_ANY := 8, Q_RANGE := 128, encode := fun _ => 0 }

/-- The expression `select X` with the single arm `(N): N`. -/
def sampleOneArm : Node :=
  .OSELECT (hdr 60 "") (.OIDENT (hdr 61 "X")) 1
    (.cons (.OCLAUSE (hdr 62 "") (.OIDENT (hdr 63 "N")) 0 .nil
      (.OBLOCK (hdr 64 "") (.cons (.OIDENT (hdr 65 "N")) .nil) .null)) .nil)

/-- The arms `(1) X > 0: 10` and `(N): N`. -/
def sampleArms : NodeList :=
  .cons (.OCLAUSE (hdr 72 "") (.ONUMBER (hdr 73 "1")) 1
      (.cons (.OGT (hdr 74 ">") (.OIDENT (hdr 75 "X")) (.ONUMBER (hdr 76 "0"))) .nil)
      (.OBLOCK (hdr 77 "") (.cons (.ONUMBER (hdr 78 "10")) .nil) .null))
    (.cons (.OCLAUSE (hdr 79 "") (.OIDENT (hdr 80 "N")) 0 .nil
      (.OBLOCK (hdr 81 "") (.cons (.OIDENT (hdr 82 "N")) .nil) .null)) .nil)

/-- The expression `select X` with the arms `(1) X > 0: 10` and `(N): N`. -/
def sampleTwoArms : Node := .OSELECT (hdr 70 "") (.OIDENT (hdr 71 "X")) 2 sampleArms

/-- The clause `(X): select X { (N): N }, select X { (1) X > 0: 10; (N): N }`:
the second `select` is the last expression of the body. -/
def sampleTwoSelects : Node :=
  .OCLAUSE (hdr 90 "") (.OIDENT (hdr 91 "X")) 0 .nil
    (.OBLOCK (hdr 92 "") (.cons sampleOneArm (.cons sampleTwoArms .nil)) .null)

/-- The active clause entry of the sample state. -/
def sampleEntry : ClauseEntry :=
  { clauseentry (.OCLAUSE (hdr 31 "") (.OIDENT (hdr 10 "X")) 0 .nil
      (.OBLOCK (hdr 20 "") .nil .null)) 0 with nreg := 2 }

/-- The sample state while the clause body that holds just `sampleTwoArms` is
being lowered: `g->block` is that body block (address 20, the body of the
active clause). -/
def sampleTwoArmsState : Generator :=
  { sampleState with block := .OBLOCK (hdr 20 "") (.cons sampleTwoArms .nil) .null }

/-- The state in which the second `select` of `sampleTwoSelects` is lowered
when `gen_clause` runs on it from the sample state: the entry is allocated, the
scope entered, the parameter walked, `g->block` set by `gen_block`, and the
first `select` lowered. -/
def sampleAfterFirst : Generator :=
  ((do
    let _ ← allocClause sampleTwoSelects
    enterscope
    gen_locals (.OIDENT (hdr 91 "X"))
    setBlock (.OBLOCK (hdr 92 "") (.cons sampleOneArm (.cons sampleTwoArms .nil)) .null)
    gen_node sampleOneArm : Gen Int) sampleState).state

/-- The bind `Y = X`. -/
def sampleBind : Node :=
  .OBIND (hdr 110 "=") (.OIDENT (hdr 111 "Y")) (.OIDENT (hdr 112 "X"))

/-- The bind `X = 7`, with `X` already bound in the sample state. -/
def sampleRebind : Node :=
  .OBIND (hdr 113 "=") (.OIDENT (hdr 114 "X")) (.ONUMBER (hdr 115 "7"))

/-- The active clause entry of the sample state after 4095 words: `pc` is
`codesize - 1`. -/
def sampleFullEntry : ClauseEntry := { sampleEntry with pc := 4095 }

/-- The sample state with 4095 words in the active clause. -/
def sampleFullState : Generator := { sampleState with heap := [sampleFullEntry] }

/-- The path `f (X): X`. -/
def sampleIdentity : Node := samplePath "f" (.cons (.OIDENT (hdr 60 "X")) .nil)

/-- The number literals `0`, `1`, …, `n - 1` in front of the nodes `acc`. -/
def sampleNumbers : Nat → NodeList → NodeList
  | 0, acc => acc
  | n + 1, acc => sampleNumbers n (.cons (.ONUMBER (hdr (1000 + n) (toString n))) acc)

/-- The path `f (X): 0, 1, …, n - 1, X + X`: a clause with `n` distinct number
literals. -/
def sampleManyNumbers (n : Nat) : Node :=
  samplePath "f" (sampleNumbers n
    (.cons (.OADD (hdr 61 "+") (.OIDENT (hdr 62 "X")) (.OIDENT (hdr 63 "X"))) .nil))

/-- The path `pair (X, Y): (X, Y)`. -/
def samplePair : Node :=
  .OPATH (hdr 120 "") (.OIDENT (hdr 121 "pair"))
    (.OCLAUSE (hdr 122 "") (.OTUPLE (hdr 123 "") 2
        (.cons (.OIDENT (hdr 124 "X")) (.cons (.OIDENT (hdr 125 "Y")) .nil))) 0 .nil
      (.OBLOCK (hdr 126 "") (.cons (.OTUPLE (hdr 127 "") 2
        (.cons (.OIDENT (hdr 128 "X")) (.cons (.OIDENT (hdr 129 "Y")) .nil))) .nil) .null))

/-- The one-member tuple `(X)`. -/
def sampleSingle : Node := .OTUPLE (hdr 130 "") 1 (.cons (.OIDENT (hdr 131 "X")) .nil)

/-- The tuple `(X, 7)`. -/
def sampleTuple : Node :=
  .OTUPLE (hdr 132 "") 2 (.cons (.OIDENT (hdr 133 "X")) (.cons (.ONUMBER (hdr 134 "7")) .nil))

/-- The body of a module that declares `a (X): X + X` and then
`pair (X, Y): (X, Y)`. -/
def sampleModuleBody : NodeList := .cons (samplePathA 100) (.cons samplePair .nil)

/-- The initial generator for the module that declares `a` and `pair`. -/
def sampleModule : Generator :=
  generator { tree with root := .OBLOCK (hdr 1 "") sampleModuleBody .null } "m"

/-- The path `f (X): .f (7)`. -/
def sampleSevenPath : Node :=
  samplePath "f" (.cons (.OAPPLY (hdr 140 "") sampleCallee "f" (.ONUMBER (hdr 141 "7"))) .nil)

/-- The sample state in the module `7` (source file `7.arb`) after the callee
`.f` has been lowered. -/
def sampleSevenState : Generator :=
  (gen_node sampleCallee { sampleState with module := "7" }).state

/-- A nested constant: the tuple `(7, 'ok', [X, -1])` with `X` the pattern
variable of register 1. -/
def sampleConstant : TValue :=
  .tuple 3 (.cons (.number 7) (.cons (.atom "ok")
    (.cons (.list (.cons (.any false 1) (.cons (.number (-1)) .nil))) .nil)))

/-- A constant table: the sample constant, a path identifier and an atom
outside ASCII. -/
def sampleTable : List TValue := [sampleConstant, .pathid "m" "f", .atom "é€"]

/-- The state in which the clause of `pair (X, Y): (X, Y)` is lowered: the
path is registered in the initial generator, no clause is allocated yet. -/
def samplePairState : Generator :=
  (registerPath "pair" samplePair sampleInit).state

/-- The clause `(X, Y): (X, Y)` of the path `pair`. -/
def samplePairClause : Node :=
  .OCLAUSE (hdr 122 "") (.OTUPLE (hdr 123 "") 2
      (.cons (.OIDENT (hdr 124 "X")) (.cons (.OIDENT (hdr 125 "Y")) .nil))) 0 .nil
    (.OBLOCK (hdr 126 "") (.cons (.OTUPLE (hdr 127 "") 2
      (.cons (.OIDENT (hdr 128 "X")) (.cons (.OIDENT (hdr 129 "Y")) .nil))) .nil) .null)

/-- The path `f (X, Y, Z): X + X, (A): Z + Z`, whose body holds a clause as
an expression that reads the `Z` of the enclosing clause. -/
def sampleNested : Node :=
  .OPATH (hdr 150 "") (.OIDENT (hdr 151 "f"))
    (.OCLAUSE (hdr 152 "") (.OTUPLE (hdr 153 "") 3
        (.cons (.OIDENT (hdr 154 "X")) (.cons (.OIDENT (hdr 155 "Y"))
          (.cons (.OIDENT (hdr 156 "Z")) .nil)))) 0 .nil
      (.OBLOCK (hdr 157 "")
        (.cons (.OADD (hdr 158 "+") (.OIDENT (hdr 159 "X")) (.OIDENT (hdr 160 "X")))
          (.cons (.OCLAUSE (hdr 161 "") (.OIDENT (hdr 162 "A")) 0 .nil
            (.OBLOCK (hdr 163 "")
              (.cons (.OADD (hdr 164 "+") (.OIDENT (hdr 165 "Z")) (.OIDENT (hdr 166 "Z"))) .nil)
              .null)) .nil)) .null))

/-- The clause `(X): X` of the path `f (X): X`. -/
def sampleIdentityClause : Node :=
  .OCLAUSE (hdr 31 "") (.OIDENT (hdr 10 "X")) 0 .nil
    (.OBLOCK (hdr 20 "") (.cons (.OIDENT (hdr 60 "X")) .nil) .null)

/-- The clause `(X): 7`. -/
def sampleLiteralClause : Node :=
  .OCLAUSE (hdr 31 "") (.OIDENT (hdr 10 "X")) 0 .nil
    (.OBLOCK (hdr 20 "") (.cons (.ONUMBER (hdr 60 "7")) .nil) .null)

/-- The state in which the clause of a path `f` is lowered: the path is
registered in the initial generator, no clause is allocated yet. -/
def sampleRegistered : Generator :=
  (registerPath "f" sampleIdentity sampleInit).state

/-- The call `.f (X)`, whose callee name is `f`. -/
def sampleCallX : Node := .OAPPLY (hdr 53 "") sampleCallee "f" (.OIDENT (hdr 57 "X"))

/-- The expression `select X { (N): N }` in front of the call `.f (X)`: the
parent of the arm body is the clause body, whose last child is the call
(address 53). -/
def sampleSelectBeforeCall : Node :=
  .OSELECT (hdr 60 "") (.OIDENT (hdr 61 "X")) 1
    (.cons (.OCLAUSE (hdr 62 "") (.OIDENT (hdr 63 "N")) 0 .nil
      (.OBLOCK (hdr 64 "") (.cons (.OIDENT (hdr 65 "N")) .nil) (.block 53 .null))) .nil)

/-- The clause body `select X { (N): N }, .f (X)`. -/
def sampleCallBody : Node :=
  .OBLOCK (hdr 20 "") (.cons sampleSelectBeforeCall (.cons sampleCallX .nil)) .null

/-- The clause `(X): select X { (N): N }, .f (X)`. -/
def sampleCallClause : Node :=
  .OCLAUSE (hdr 31 "") (.OIDENT (hdr 10 "X")) 0 .nil sampleCallBody

/-- The path `f (X): select X { (N): N }, .f (X)`: the self-call is the last
child of the clause body, after a `select`. -/
def sampleCallAfterSelect : Node :=
  .OPATH (hdr 30 "") (.OIDENT (hdr 33 "f")) sampleCallClause

/-- The state in which the call of `sampleCallAfterSelect` is lowered when
`gen_path` runs on it from the initial generator: the path is registered, the
entry allocated, the scope entered, the parameter walked, `g->block` set by
`gen_block`, and the `select` lowered. -/
def sampleBeforeCall : Generator :=
  ((do
    registerPath "f" sampleCallAfterSelect
    let _ ← allocClause sampleCallClause
    enterscope
    gen_locals (.OIDENT (hdr 10 "X"))
    setBlock sampleCallBody
    gen_node sampleSelectBeforeCall : Gen Int) sampleInit).state

/-- The path `f (X): select X { (N): .f (N) }, X + X`: the self-call ends the
arm of a `select` that is not the last child of the clause body.  The parent
of the arm body is the clause body, whose last child is the sum (address 61). -/
def sampleTailInArm : Node :=
  samplePath "f"
    (.cons (.OSELECT (hdr 50 "") (.OIDENT (hdr 59 "X")) 1
        (.cons (.OCLAUSE (hdr 51 "") (.OIDENT (hdr 58 "N")) 0 .nil
          (.OBLOCK (hdr 52 "") (.cons sampleApply .nil) (.block 61 .null))) .nil))
      (.cons (.OADD (hdr 61 "+") (.OIDENT (hdr 62 "X")) (.OIDENT (hdr 63 "X"))) .nil))

/-! ## Definitions used to state the frame properties -/

/-- What a clause has emitted: `pc` and the words of `code`. -/
def ClauseEntry.emitted (c : ClauseEntry) : Nat × List Instruction := (c.pc, c.code)

/-- What a clause has emitted together with its constant table: `pc`, `code`,
`kindex`, `kheader` and `ktable`. -/
def ClauseEntry.emittedAndTable (c : ClauseEntry) :
    Nat × List Instruction × Nat × List TValue × List (String × Int) :=
  (c.pc, c.code, c.kindex, c.kheader, c.ktable)

/-- The piece `m` leaves the projection `f` of every clause entry as it was:
in the state a run of `m` ends in, whether it returns or stops, the entries are
the same in number and each has the same `f`. -/
def Quiet {α γ : Type} (f : ClauseEntry → γ) (m : Gen α) : Prop :=
  ∀ g, (m g).state.heap.map f = g.heap.map f

/-- In every clause entry of the state, `kindex` is the number of `kheader`
entries stored so far. -/
def Sized (g : Generator) : Prop := ∀ c, c ∈ g.heap → c.kheader.length = c.kindex

/-- A step keeps the constant tables sized. -/
def SizedKept (g g' : Generator) : Prop := Sized g → Sized g'

/-- The statements of `gen_clause` that run before the read of `code[pc - 1]`,
for the clause node `n` with parameter pattern `lval` and body `rval`:
allocate the entry, push the scope, walk the parameter pattern, lower the
body, pop the scope.  Returns the operand of the body. -/
def gen_clause_before_read (n lval rval : Node) : Gen Int := do
  let _ ← allocClause n
  enterscope
  gen_locals lval
  let reg ← gen_block rval
  exitscope
  pure reg

/-! ## Basic facts about the state transformer -/

theorem bind_ok {α β : Type} (m : Gen α) (f : α → Gen β) (g g' : Generator) (b : β) :
    (m >>= f) g = .ok b g' ↔ ∃ a g1, m g = .ok a g1 ∧ f a g1 = .ok b g' := by
  show Gen.bind m f g = _ ↔ _
  unfold Gen.bind
  cases h : m g with
  | ok a g1 =>
    constructor
    · intro hf
      exact ⟨a, g1, rfl, hf⟩
    · rintro ⟨a1, g2, he, hf⟩
      cases he
      exact hf
  | halt e g1 => simp

theorem pure_ok {α : Type} (a b : α) (g g' : Generator) :
    (pure a : Gen α) g = .ok b g' ↔ a = b ∧ g = g' := by
  show Outcome.ok a g = _ ↔ _
  simp

theorem bind_apply {α β : Type} (m : Gen α) (f : α → Gen β) (g : Generator) :
    (m >>= f) g = match m g with
      | .ok a g1 => f a g1
      | .halt e g1 => .halt e g1 := rfl

theorem clauseRef_setClauseAt (g : Generator) (r : Nat) (c : ClauseEntry) :
    (g.setClauseAt r c).clauseRef = g.clauseRef := rfl

theorem clause_eq_some (g : Generator) (c : ClauseEntry) :
    g.clause = some c ↔ ∃ r, g.clauseRef = some r ∧ g.heap[r]? = some c := by
  unfold Generator.clause
  cases g.clauseRef with
  | none => simp
  | some r => simp

theorem clause_setClauseAt (g : Generator) (r : Nat) (c0 c : ClauseEntry)
    (hr : g.clauseRef = some r) (hc : g.heap[r]? = some c0) :
    (g.setClauseAt r c).clause = some c := by
  rw [clause_eq_some]
  refine ⟨r, hr, ?_⟩
  have hlt : r < g.heap.length := by
    rcases List.getElem?_eq_some.1 hc with ⟨h, _⟩
    exact h
  simp [Generator.setClauseAt, hlt]

theorem gen_constant_found (g : Generator) (s : String) (i : Int) (v : TValue)
    (h : Interned g s i) : gen_constant (some s) v g = .ok i g := by
  obtain ⟨c, hc, hl⟩ := h
  obtain ⟨r, hr, hg⟩ := (clause_eq_some g c).1 hc
  simp [gen_constant, hr, hg, symtab_lookup, hl]

theorem gen_constant_interns (g g1 : Generator) (s : String) (i : Int) (v : TValue)
    (h : gen_constant (some s) v g = .ok i g1) : Interned g1 s i := by
  unfold gen_constant at h
  cases hr : g.clauseRef with
  | none => simp [hr] at h
  | some r =>
    cases hg : g.heap[r]? with
    | none => simp [hr, hg] at h
    | some c =>
      simp only [hr, hg, symtab_lookup] at h
      cases hl : c.ktable.lookup s with
      | some k =>
        simp [hl] at h
        obtain ⟨rfl, rfl⟩ := h
        exact ⟨c, (clause_eq_some g c).2 ⟨r, hr, hg⟩, hl⟩
      | none =>
        simp only [hl] at h
        split at h
        · simp at h
          obtain ⟨rfl, rfl⟩ := h
          exact ⟨_, clause_setClauseAt g r c _ hr hg, by simp [List.lookup]⟩
        · simp at h

theorem gen_constant_keeps (g g1 : Generator) (s : String) (i k : Int) (src : Option String)
    (v : TValue) (hi : Interned g s i) (h : gen_constant src v g = .ok k g1) :
    Interned g1 s i := by
  obtain ⟨c, hc, hl⟩ := hi
  obtain ⟨r, hr, hg⟩ := (clause_eq_some g c).1 hc
  unfold gen_constant at h
  simp only [hr, hg] at h
  split at h
  · simp at h
    obtain ⟨_, rfl⟩ := h
    exact ⟨c, hc, hl⟩
  · rename_i hnone
    split at h
    · simp at h
      obtain ⟨_, rfl⟩ := h
      refine ⟨_, clause_setClauseAt g r c _ hr hg, ?_⟩
      cases src with
      | none => simpa using hl
      | some s' =>
        simp only [symtab_lookup] at hnone
        have hne : (s == s') = false := by
          by_contra hcon
          simp at hcon
          subst hcon
          cases hl' : c.ktable.lookup s with
          | none => simp [hl'] at hl
          | some w => simp [hl'] at hnone
        simp [List.lookup, hne, hl]
    · simp at h

theorem internAll_keeps (calls : List (Option String × TValue)) :
    ∀ (g g1 : Generator) (s : String) (i : Int), Interned g s i →
      internAll calls g = .ok () g1 → Interned g1 s i := by
  induction calls with
  | nil =>
    intro g g1 s i hi h
    simp [internAll, pure_ok] at h
    subst h
    exact hi
  | cons x rest ih =>
    intro g g1 s i hi h
    obtain ⟨src, v⟩ := x
    simp only [internAll, bind_ok] at h
    obtain ⟨k, g2, h1, h2⟩ := h
    exact ih g2 g1 s i (gen_constant_keeps g g2 s i k src v hi h1) h2

/-- C3: once `gen_constant` has returned index `i` for the non-null key `s`,
a later `gen_constant` with the same key on the same clause, for any value and
after any sequence of intern calls, returns `i` again and leaves the whole
generator state (so `kindex` and `kheader`) unchanged. -/
theorem gen_constant_same_key (g g1 g2 : Generator) (s : String) (v1 v2 : TValue) (i : Int)
    (calls : List (Option String × TValue))
    (h1 : gen_constant (some s) v1 g = .ok i g1)
    (h2 : internAll calls g1 = .ok () g2) :
    gen_constant (some s) v2 g2 = .ok i g2 :=
  gen_constant_found g2 s i v2
    (internAll_keeps calls g1 g2 s i (gen_constant_interns g g1 s i v1 h1) h2)

theorem storeAt_getD_self {α : Type} (d : α) (l : List α) (i : Nat) (v : α) :
    (storeAt d l i v).getD i d = v := by
  induction l generalizing i with
  | nil =>
    induction i with
    | zero => simp [storeAt]
    | succ i ih => simpa [storeAt] using ih
  | cons x xs ih =>
    cases i with
    | zero => simp [storeAt]
    | succ i => simpa [storeAt] using ih i

theorem storeAt_getD_other {α : Type} (d : α) (l : List α) (i j : Nat) (v : α) (h : j ≠ i) :
    (storeAt d l i v).getD j d = l.getD j d := by
  induction l generalizing i j with
  | nil =>
    induction i generalizing j with
    | zero =>
      cases j with
      | zero => exact absurd rfl h
      | succ j => simp [storeAt]
    | succ i ih =>
      cases j with
      | zero => simp [storeAt]
      | succ j =>
        have := ih j (by omega)
        simpa [storeAt] using this
  | cons x xs ih =>
    cases i with
    | zero =>
      cases j with
      | zero => exact absurd rfl h
      | succ j => simp [storeAt]
    | succ i =>
      cases j with
      | zero => simp [storeAt]
      | succ j =>
        have := ih i j (by omega)
        simpa [storeAt] using this

/-- What a successful `gen` does to the active clause. -/
theorem gen_ok (i : Instruction) (g g' : Generator) (p : Nat) (h : gen i g = .ok p g') :
    ∃ r c, g.clauseRef = some r ∧ g.heap[r]? = some c ∧ p = c.pc ∧
      g' = g.setClauseAt r { growCode c with code := storeAt (.word 0) c.code c.pc i, pc := c.pc + 1 } := by
  unfold gen at h
  cases hr : g.clauseRef with
  | none => simp [hr] at h
  | some r =>
    cases hc : g.heap[r]? with
    | none => simp [hr, hc] at h
    | some c =>
      simp only [hr, hc] at h
      split at h
      · simp only [Outcome.ok.injEq] at h
        exact ⟨r, c, rfl, hc, h.1.symm, h.2.symm⟩
      · simp at h

theorem heap_setClauseAt_self (g : Generator) (r : Nat) (c0 c : ClauseEntry)
    (hc : g.heap[r]? = some c0) : (g.setClauseAt r c).heap[r]? = some c := by
  have hlt : r < g.heap.length := by
    rcases List.getElem?_eq_some.1 hc with ⟨h, _⟩
    exact h
  simp [Generator.setClauseAt, hlt]

/-- The active clause after a successful `gen`. -/
theorem gen_clause_after (i : Instruction) (g g' : Generator) (p : Nat) (h : gen i g = .ok p g') :
    ∃ c c', g.clause = some c ∧ g'.clause = some c' ∧ p = c.pc ∧ c'.pc = c.pc + 1 ∧
      c'.word c.pc = i ∧ ∀ j, j ≠ c.pc → c'.word j = c.word j := by
  obtain ⟨r, c, hr, hc, hp, rfl⟩ := gen_ok i g g' p h
  refine ⟨c, _, (clause_eq_some g c).2 ⟨r, hr, hc⟩, clause_setClauseAt g r c _ hr hc, hp, rfl, ?_, ?_⟩
  · exact storeAt_getD_self _ _ _ _
  · intro j hj
    exact storeAt_getD_other _ _ _ _ _ hj

theorem nextreg_clause_after (g g' : Generator) (x : Int) (h : nextreg g = .ok x g') :
    ∃ c c', g.clause = some c ∧ g'.clause = some c' ∧ c'.pc = c.pc ∧ c'.code = c.code := by
  unfold nextreg at h
  cases hr : g.clauseRef with
  | none => simp [hr] at h
  | some r =>
    cases hc : g.heap[r]? with
    | none => simp [hr, hc] at h
    | some c =>
      simp only [hr, hc, Outcome.ok.injEq] at h
      obtain ⟨_, rfl⟩ := h
      exact ⟨c, _, (clause_eq_some g c).2 ⟨r, hr, hc⟩, clause_setClauseAt g r c _ hr hc, rfl, rfl⟩

theorem lastWord_ok (g g' : Generator) (w : Instruction) (h : lastWord g = .ok w g') :
    g' = g ∧ ∃ c, g.clause = some c ∧ 1 ≤ c.pc ∧ w = c.word (c.pc - 1) := by
  unfold lastWord at h
  cases hr : g.clauseRef with
  | none => simp [hr] at h
  | some r =>
    cases hc : g.heap[r]? with
    | none => simp [hr, hc] at h
    | some c =>
      simp only [hr, hc] at h
      split at h
      · rename_i hb
        simp only [Outcome.ok.injEq] at h
        exact ⟨h.2.symm, c, (clause_eq_some g c).2 ⟨r, hr, hc⟩, hb.1, h.1.symm⟩
      · simp at h

theorem gen_clause_return_ok (reg : Int) (g g' : Generator)
    (h : gen_clause_return reg g = .ok () g') :
    ∃ c c', g.clause = some c ∧ g'.clause = some c' ∧ c.pc < c'.pc ∧
      iOP (c'.word (c'.pc - 1)) = some .OP_RETURN := by
  unfold gen_clause_return at h
  split at h
  · simp only [bind_ok, pure_ok] at h
    obtain ⟨rega, ga, hra, pa, gb, hgb, pb, gc, hgc, _, rfl⟩ := h
    obtain ⟨c, ca, hc, hca, hpa, _⟩ := nextreg_clause_after _ _ _ hra
    obtain ⟨ca', cb, hca', hcb, _, hpb, _, _⟩ := gen_clause_after _ _ _ _ hgb
    obtain ⟨cb', cc, hcb', hcc, _, hpc, hwc, _⟩ := gen_clause_after _ _ _ _ hgc
    rw [hca] at hca'; cases hca'
    rw [hcb] at hcb'; cases hcb'
    refine ⟨c, cc, hc, hcc, by omega, ?_⟩
    rw [hpc, Nat.add_sub_cancel, hwc]
    rfl
  · simp only [bind_ok, pure_ok] at h
    obtain ⟨pb, gc, hgc, _, rfl⟩ := h
    obtain ⟨c, cc, hc, hcc, _, hpc, hwc, _⟩ := gen_clause_after _ _ _ _ hgc
    refine ⟨c, cc, hc, hcc, by omega, ?_⟩
    rw [hpc, Nat.add_sub_cancel, hwc]
    rfl

/-- The end of `gen_clause` leaves the active clause ending in `RETURN` or
`TAILCALL` and the terminator. -/
theorem gen_clause_end_ok (reg : Int) (g g' : Generator) (h : gen_clause_end reg g = .ok () g') :
    ∃ c, g'.clause = some c ∧ EndsInReturn c := by
  unfold gen_clause_end at h
  simp only [bind_ok, pure_ok] at h
  obtain ⟨w, g1, hw, u, g2, h2, p3, g3, hg3, _, rfl⟩ := h
  obtain ⟨rfl, c0, hc0, hpc0, hw0⟩ := lastWord_ok _ _ _ hw
  obtain ⟨c2, c3, hc2, hc3, _, hpc3, hw3, hrest3⟩ := gen_clause_after _ _ _ _ hg3
  refine ⟨c3, hc3, ?_⟩
  have hlast : c3.word (c3.pc - 1) = .word 0 := by
    rw [hpc3, Nat.add_sub_cancel, hw3]
  have hprev : c3.word (c3.pc - 2) = c2.word (c2.pc - 1) := by
    rw [hpc3]
    have : c2.pc + 1 - 2 = c2.pc - 1 := by omega
    rw [this]
    by_cases hz : c2.pc = 0
    · exfalso
      by_cases htc : iOP w = some .OP_TAILCALL
      · simp only [htc, ne_eq, not_true_eq_false, ↓reduceIte, pure_ok] at h2
        obtain ⟨_, rfl⟩ := h2
        rw [hc0] at hc2; cases hc2
        omega
      · simp only [htc, ne_eq, not_false_eq_true, ↓reduceIte] at h2
        obtain ⟨ca, cb, hca, hcb, hlt, _⟩ := gen_clause_return_ok _ _ _ h2
        rw [hc2] at hcb; cases hcb
        omega
    · exact hrest3 _ (by omega)
  by_cases htc : iOP w = some .OP_TAILCALL
  · simp only [htc, ne_eq, not_true_eq_false, ↓reduceIte, pure_ok] at h2
    obtain ⟨_, rfl⟩ := h2
    rw [hc0] at hc2; cases hc2
    exact ⟨by omega, hlast, Or.inr (by rw [hprev, ← hw0, htc])⟩
  · simp only [htc, ne_eq, not_false_eq_true, ↓reduceIte] at h2
    obtain ⟨ca, cb, hca, hcb, hlt, hret⟩ := gen_clause_return_ok _ _ _ h2
    rw [hc2] at hcb; cases hcb
    exact ⟨by omega, hlast, Or.inl (by rw [hprev, hret])⟩

/-! ## Relations kept by the lowering -/

theorem Pres.pure {α : Type} {R : Generator → Generator → Prop} (hS : Stable R) (a : α) :
    Pres R (pure a : Gen α) := by
  intro g b g' h
  rw [pure_ok] at h
  rw [← h.2]
  exact hS.refl g

theorem Pres.bind {α β : Type} {R : Generator → Generator → Prop} (hS : Stable R)
    {m : Gen α} {f : α → Gen β} (hm : Pres R m) (hf : ∀ a, Pres R (f a)) :
    Pres R (m >>= f) := by
  intro g b g' h
  rw [bind_ok] at h
  obtain ⟨a, g1, h1, h2⟩ := h
  exact hS.trans _ _ _ (hm _ _ _ h1) (hf a _ _ _ h2)

theorem Pres.fault {α : Type} {R : Generator → Generator → Prop} (f : Fault) :
    Pres R (fault f : Gen α) := by
  intro g b g' h
  cases h

theorem Pres.nreportf {α : Type} {R : Generator → Generator → Prop} (n : Node) (r : Report)
    (s : String) : Pres R (nreportf n r s : Gen α) := by
  intro g b g' h
  cases h

/-- A piece that only reads the state keeps every reflexive relation. -/
theorem Pres.read {α : Type} {R : Generator → Generator → Prop} (hS : Stable R) {m : Gen α}
    (hm : ∀ g a g', m g = .ok a g' → g' = g) : Pres R m := by
  intro g a g' h
  rw [hm g a g' h]
  exact hS.refl g

theorem getG_state (g : Generator) (a : Generator) (g' : Generator) (h : getG g = .ok a g') :
    g' = g := by
  simp only [getG, Outcome.ok.injEq] at h
  exact h.2.symm

theorem tree_lookup_state (k : String) (g : Generator) (a : Option Int) (g' : Generator)
    (h : tree_lookup k g = .ok a g') : g' = g := by
  simp only [tree_lookup, Outcome.ok.injEq] at h
  exact h.2.symm

theorem curClause_state (g : Generator) (a : Nat × ClauseEntry) (g' : Generator)
    (h : curClause g = .ok a g') : g' = g := by
  unfold curClause at h
  split at h
  · cases h
  · split at h
    · cases h
    · simp only [Outcome.ok.injEq] at h
      exact h.2.symm

theorem curPath_state (g : Generator) (a : PathEntry) (g' : Generator)
    (h : curPath g = .ok a g') : g' = g := by
  unfold curPath at h
  split at h
  · cases h
  · simp only [Outcome.ok.injEq] at h
    exact h.2.symm

theorem pcOf_state (clause : Nat) (g : Generator) (a : Nat) (g' : Generator)
    (h : pcOf clause g = .ok a g') : g' = g := by
  unfold pcOf at h
  split at h
  · cases h
  · simp only [Outcome.ok.injEq] at h
    exact h.2.symm

theorem lastWord_state (g : Generator) (a : Instruction) (g' : Generator)
    (h : lastWord g = .ok a g') : g' = g := (lastWord_ok g g' a h).1

theorem selectIsLast_state (n : Node) (clause : Nat) (g : Generator) (a : Bool) (g' : Generator)
    (h : selectIsLast n clause g = .ok a g') : g' = g := by
  unfold selectIsLast at h
  split at h
  · cases h
  · split at h
    · cases h
    · split at h
      · split at h
        · cases h
        · split at h
          · cases h
          · simp only [Outcome.ok.injEq] at h
            exact h.2.symm
          · cases h
      · simp only [Outcome.ok.injEq] at h
        exact h.2.symm
  · cases h

section
variable {R : Generator → Generator → Prop} (hS : Stable R)
include hS

theorem gen_atom_pres (h : Hdr) : Pres R (gen_atom h) :=
  Pres.bind hS (hS.gen_constant _ _) (fun _ => Pres.pure hS _)

theorem gen_num_pres (h : Hdr) : Pres R (gen_num h) :=
  Pres.bind hS (hS.gen_constant _ _) (fun _ => Pres.pure hS _)

theorem gen_ident_pres (h : Hdr) : Pres R (gen_ident h) := by
  unfold gen_ident
  refine Pres.bind hS (Pres.read hS (tree_lookup_state _)) (fun a => ?_)
  cases a <;> exact Pres.pure hS _

theorem gen_defined_pres (n : Node) (h : Hdr) : Pres R (gen_defined n h) := by
  unfold gen_defined
  refine Pres.bind hS (gen_ident_pres hS h) (fun a => ?_)
  split
  · exact Pres.nreportf _ _ _
  · exact Pres.pure hS _

theorem gen_block_steps_pres (n : Node) (body : Gen Int) (hb : Pres R body) :
    Pres R (gen_block_steps n body) :=
  Pres.bind hS (hS.setBlock n) (fun _ => Pres.bind hS hb (fun _ =>
    Pres.bind hS (hS.setBlock n) (fun _ => Pres.pure hS _)))

theorem gen_access_pres (lval rval : Node) (rv : Gen Int) (hr : Pres R rv) :
    Pres R (gen_access lval rval rv) := by
  unfold gen_access
  refine Pres.bind hS hS.nextreg (fun _ => Pres.bind hS hr (fun _ => ?_))
  split
  · exact Pres.fault _
  · refine Pres.bind hS (Pres.read hS getG_state) (fun g => ?_)
    refine Pres.bind hS (hS.gen_constant _ _) (fun _ => ?_)
    split
    · exact Pres.fault _
    · exact Pres.bind hS (hS.gen_constant _ _) (fun _ => Pres.pure hS _)
    · exact Pres.fault _
  · exact Pres.fault _
  · exact Pres.fault _

theorem gen_apply_pres (n : Node) (name : String) (lv rv : Gen Int) (hl : Pres R lv)
    (hr : Pres R rv) : Pres R (gen_apply n name lv rv) := by
  unfold gen_apply
  refine Pres.bind hS hl (fun _ => Pres.bind hS hr (fun _ => Pres.bind hS hS.nextreg (fun _ =>
    Pres.bind hS (Pres.read hS getG_state) (fun g => ?_))))
  split
  · exact Pres.fault _
  · split
    · exact Pres.fault _
    · exact Pres.bind hS (hS.gen _ trivial) (fun _ => Pres.pure hS _)
    · exact Pres.bind hS (hS.gen _ trivial) (fun _ => Pres.pure hS _)

theorem gen_bind_lhs_pres (n lval : Node) (rreg : Int) : Pres R (gen_bind_lhs n lval rreg) := by
  unfold gen_bind_lhs
  split
  · exact Pres.fault _
  · refine Pres.bind hS (Pres.read hS (tree_lookup_state _)) (fun a => ?_)
    refine Pres.bind hS hS.incLocals (fun _ => ?_)
    split
    · exact Pres.nreportf _ _ _
    · refine Pres.bind hS hS.nextreg (fun _ => Pres.bind hS (hS.define _ _) (fun _ => ?_))
      split
      · exact Pres.bind hS (hS.gen _ trivial) (fun _ => Pres.pure hS _)
      · exact Pres.bind hS (hS.gen _ trivial) (fun _ => Pres.pure hS _)
  · exact Pres.pure hS _

theorem gen_bind_pres (n lval rval : Node) (rv : Gen Int) (hr : Pres R rv) :
    Pres R (gen_bind n lval rval rv) := by
  unfold gen_bind
  split
  · exact Pres.fault _
  · refine Pres.bind hS (gen_defined_pres hS _ _) (fun a => ?_)
    split
    · exact Pres.pure hS _
    · exact gen_bind_lhs_pres hS _ _ _
  · exact Pres.bind hS hr (fun _ => gen_bind_lhs_pres hS _ _ _)

theorem gen_match_pres (lv rv : Gen Int) (hl : Pres R lv) (hr : Pres R rv) :
    Pres R (gen_match lv rv) :=
  Pres.bind hS hl (fun _ => Pres.bind hS hr (fun _ => Pres.bind hS (hS.gen _ trivial) (fun _ =>
    Pres.bind hS (hS.gen _ ⟨rfl, rfl⟩) (fun _ => Pres.pure hS _))))

theorem gen_add_pres (lv rv : Gen Int) (hl : Pres R lv) (hr : Pres R rv) :
    Pres R (gen_add lv rv) :=
  Pres.bind hS hl (fun _ => Pres.bind hS hr (fun _ => Pres.bind hS hS.nextreg (fun _ =>
    Pres.bind hS (hS.gen _ trivial) (fun _ => Pres.pure hS _))))

theorem gen_sub_pres (lv rv : Gen Int) (hl : Pres R lv) (hr : Pres R rv) :
    Pres R (gen_sub lv rv) :=
  Pres.bind hS hl (fun _ => Pres.bind hS hr (fun _ => Pres.bind hS hS.nextreg (fun _ =>
    Pres.bind hS (hS.gen _ trivial) (fun _ => Pres.pure hS _))))

theorem gen_gt_pres (lv rv : Gen Int) (hl : Pres R lv) (hr : Pres R rv) :
    Pres R (gen_gt lv rv) :=
  Pres.bind hS hl (fun _ => Pres.bind hS hr (fun _ =>
    Pres.bind hS (hS.gen _ trivial) (fun _ => Pres.pure hS _)))

theorem gen_lt_pres (lv rv : Gen Int) (hl : Pres R lv) (hr : Pres R rv) :
    Pres R (gen_lt lv rv) :=
  Pres.bind hS hl (fun _ => Pres.bind hS hr (fun _ =>
    Pres.bind hS (hS.gen _ trivial) (fun _ => Pres.pure hS _)))

theorem gen_list_pres : Pres R gen_list :=
  Pres.bind hS hS.nextreg (fun _ => Pres.bind hS (hS.gen _ trivial) (fun _ => Pres.pure hS _))

theorem gen_cons_steps_pres (lvalNull rvalNull : Bool) (lv rv : Gen Int) (hl : Pres R lv)
    (hr : Pres R rv) : Pres R (gen_cons_steps lvalNull rvalNull lv rv) := by
  unfold gen_cons_steps
  refine Pres.bind hS ?_ (fun reg => ?_)
  · split
    · exact gen_list_pres hS
    · exact hr
  · split
    · exact Pres.pure hS _
    · exact Pres.bind hS hl (fun _ => Pres.bind hS (hS.gen _ trivial) (fun _ => Pres.pure hS _))

theorem gen_tuple_steps_pres (arity : Nat) (members : Int → Gen Unit)
    (hm : ∀ reg, Pres R (members reg)) : Pres R (gen_tuple_steps arity members) :=
  Pres.bind hS hS.nextreg (fun _ => Pres.bind hS (hS.gen _ trivial) (fun _ =>
    Pres.bind hS (hm _) (fun _ => Pres.pure hS _)))

theorem gen_pattern_ident_pres (range : Bool) (n : Node) : Pres R (gen_pattern_ident range n) := by
  unfold gen_pattern_ident
  split
  · exact Pres.fault _
  · refine Pres.bind hS (gen_ident_pres hS _) (fun a => ?_)
    split
    · exact Pres.pure hS _
    · exact Pres.bind hS hS.incLocals (fun _ => Pres.bind hS hS.nextreg (fun _ =>
        Pres.bind hS (hS.define _ _) (fun _ => Pres.pure hS _)))

end

section
variable {R : Generator → Generator → Prop} (hS : Stable R)
include hS

mutual
theorem gen_pattern_pres : ∀ n : Node, Pres R (gen_pattern n)
  | .null => by rw [gen_pattern]; exact Pres.pure hS _
  | .OTUPLE _ arity members => by
    rw [gen_pattern]
    exact Pres.bind hS (gen_pattern_members_pres arity members _) (fun _ => Pres.pure hS _)
  | .ORANGE _ lval _ => by rw [gen_pattern]; exact gen_pattern_ident_pres hS _ _
  | .OIDENT h => by rw [gen_pattern]; exact gen_pattern_ident_pres hS _ _
  | .OATOM h => by rw [gen_pattern]; exact Pres.pure hS _
  | .ONUMBER h => by rw [gen_pattern]; exact Pres.pure hS _
  | .OLIST _ length .nil => by
    simp only [gen_pattern]
    split
    · exact Pres.fault _
    · exact Pres.pure hS _
  | .OLIST _ length (.cons hd tl) => by
    simp only [gen_pattern]
    split
    · exact Pres.bind hS (gen_pattern_items_pres (.cons hd tl) _) (fun _ => Pres.pure hS _)
    · exact Pres.pure hS _
  | .OBLOCK _ _ _ => by simp only [gen_pattern]; exact Pres.fault _
  | .OMATCH _ _ _ => by simp only [gen_pattern]; exact Pres.fault _
  | .OBIND _ _ _ => by simp only [gen_pattern]; exact Pres.fault _
  | .OADD _ _ _ => by simp only [gen_pattern]; exact Pres.fault _
  | .OSUB _ _ _ => by simp only [gen_pattern]; exact Pres.fault _
  | .OGT _ _ _ => by simp only [gen_pattern]; exact Pres.fault _
  | .OLT _ _ _ => by simp only [gen_pattern]; exact Pres.fault _
  | .OCONS _ _ _ => by simp only [gen_pattern]; exact Pres.fault _
  | .OACCESS _ _ _ => by simp only [gen_pattern]; exact Pres.fault _
  | .OAPPLY _ _ _ _ => by simp only [gen_pattern]; exact Pres.fault _
  | .OSELECT _ _ _ _ => by simp only [gen_pattern]; exact Pres.fault _
  | .OCLAUSE _ _ _ _ _ => by simp only [gen_pattern]; exact Pres.fault _
  | .OPATH _ _ _ => by simp only [gen_pattern]; exact Pres.fault _
  | .OMODULE _ _ => by simp only [gen_pattern]; exact Pres.fault _
  | .other _ _ => by simp only [gen_pattern]; exact Pres.fault _
theorem gen_pattern_members_pres (arity : Nat) :
    ∀ (ns : NodeList) (acc : TValues), Pres R (gen_pattern_members arity ns acc)
  | .nil, acc => by rw [gen_pattern_members]; exact Pres.pure hS _
  | .cons hd tl, acc => by
    rw [gen_pattern_members]
    refine Pres.bind hS (gen_pattern_pres hd) (fun v => ?_)
    split
    · exact Pres.fault _
    · split
      · exact gen_pattern_members_pres arity tl _
      · exact Pres.fault _
theorem gen_pattern_items_pres :
    ∀ (ns : NodeList) (acc : TValues), Pres R (gen_pattern_items ns acc)
  | .nil, acc => by rw [gen_pattern_items]; exact Pres.pure hS _
  | .cons hd tl, acc => by
    rw [gen_pattern_items]
    exact Pres.bind hS (gen_pattern_pres hd) (fun v => gen_pattern_items_pres tl _)
end

end

set_option linter.unusedSectionVars false

section
variable {R : Generator → Generator → Prop} (hS : Stable R)
include hS

mutual
theorem gen_locals_pres : ∀ n : Node, Pres R (gen_locals n)
  | .null => by simp only [gen_locals]; exact Pres.fault _
  | .OTUPLE _ _ members => by simp only [gen_locals]; exact gen_locals_members_pres members
  | .OIDENT h => by
    simp only [gen_locals]
    refine Pres.bind hS (Pres.read hS (tree_lookup_state _)) (fun a => ?_)
    split
    · exact Pres.pure hS _
    · exact Pres.bind hS hS.incLocals (fun _ => Pres.bind hS hS.nextreg (fun _ =>
        Pres.bind hS (hS.define _ _) (fun _ => Pres.pure hS _)))
  | .ONUMBER h => by
    simp only [gen_locals]
    exact Pres.bind hS (gen_num_pres hS h) (fun _ => Pres.pure hS _)
  | .OATOM h => by
    simp only [gen_locals]
    exact Pres.bind hS (gen_atom_pres hS h) (fun _ => Pres.pure hS _)
  | .other _ op => by
    cases op <;> simp only [gen_locals] <;> first | exact Pres.fault _ | exact Pres.pure hS _
  | .OBLOCK _ _ _ => by simp only [gen_locals]; exact Pres.pure hS _
  | .OMATCH _ _ _ => by simp only [gen_locals]; exact Pres.pure hS _
  | .OBIND _ _ _ => by simp only [gen_locals]; exact Pres.pure hS _
  | .OADD _ _ _ => by simp only [gen_locals]; exact Pres.pure hS _
  | .OSUB _ _ _ => by simp only [gen_locals]; exact Pres.pure hS _
  | .OGT _ _ _ => by simp only [gen_locals]; exact Pres.pure hS _
  | .OLT _ _ _ => by simp only [gen_locals]; exact Pres.pure hS _
  | .OCONS _ _ _ => by simp only [gen_locals]; exact Pres.pure hS _
  | .OACCESS _ _ _ => by simp only [gen_locals]; exact Pres.pure hS _
  | .ORANGE _ _ _ => by simp only [gen_locals]; exact Pres.pure hS _
  | .OAPPLY _ _ _ _ => by simp only [gen_locals]; exact Pres.pure hS _
  | .OSELECT _ _ _ _ => by simp only [gen_locals]; exact Pres.pure hS _
  | .OCLAUSE _ _ _ _ _ => by simp only [gen_locals]; exact Pres.pure hS _
  | .OPATH _ _ _ => by simp only [gen_locals]; exact Pres.pure hS _
  | .OLIST _ _ _ => by simp only [gen_locals]; exact Pres.pure hS _
  | .OMODULE _ _ => by simp only [gen_locals]; exact Pres.pure hS _
theorem gen_locals_members_pres : ∀ ns : NodeList, Pres R (gen_locals_members ns)
  | .nil => by simp only [gen_locals_members]; exact Pres.pure hS _
  | .cons hd tl => by
    simp only [gen_locals_members]
    exact Pres.bind hS (gen_locals_pres hd) (fun _ => gen_locals_members_pres tl)
end

variable (ap : Bool)
  (hpath : ap = true → ∀ (n name : Node) (cl : Gen Int), Pres R cl → Pres R (gen_path n name cl))
  (hsel : ∀ (h : Hdr) (arg : Node) (ncl : Nat) (cls : NodeList), Pres R (gen_node arg) →
    ArmsPres R cls → Pres R (gen_node (.OSELECT h arg ncl cls)))
include hpath hsel

mutual
theorem gen_node_pres : ∀ n : Node, (ap = true ∨ n.noPath = true) →
    Pres R (gen_node n) ∧ Pres R (gen_block n) ∧ Pres R (gen_clause n) ∧ Pres R (gen_cons n) ∧
      ArmPres R n
  | .null, _ => by
    simp only [gen_node, gen_block, gen_clause, gen_cons, ArmPres]
    exact ⟨Pres.fault _, Pres.fault _, Pres.fault _, Pres.fault _, trivial⟩
  | .OBLOCK h body parent, hg => by
    have hb : Pres R (gen_block_steps (.OBLOCK h body parent) (gen_nodes body 0)) :=
      gen_block_steps_pres hS _ _ (gen_nodes_pres body
        (hg.imp id (fun hn => by simpa [Node.noPath] using hn)) 0)
    simp only [gen_node, gen_block, gen_clause, gen_cons, ArmPres]
    exact ⟨hb, hb, Pres.fault _, Pres.fault _, trivial⟩
  | .OMATCH _ lval rval, hg => by
    have hl := (gen_node_pres lval (hg.imp id (fun hn => by
      simp only [Node.noPath, Bool.and_eq_true] at hn; exact hn.1))).1
    have hr := (gen_node_pres rval (hg.imp id (fun hn => by
      simp only [Node.noPath, Bool.and_eq_true] at hn; exact hn.2))).1
    simp only [gen_node, gen_block, gen_clause, gen_cons, ArmPres]
    exact ⟨gen_match_pres hS _ _ hl hr, Pres.fault _, Pres.fault _, Pres.fault _, trivial⟩
  | .OBIND _ lval rval, hg => by
    have hr := (gen_node_pres rval (hg.imp id (fun hn => by
      simp only [Node.noPath, Bool.and_eq_true] at hn; exact hn.2))).1
    simp only [gen_node, gen_block, gen_clause, gen_cons, ArmPres]
    exact ⟨gen_bind_pres hS _ _ _ _ hr, Pres.fault _, Pres.fault _, Pres.fault _, trivial⟩
  | .OADD _ lval rval, hg => by
    have hl := (gen_node_pres lval (hg.imp id (fun hn => by
      simp only [Node.noPath, Bool.and_eq_true] at hn; exact hn.1))).1
    have hr := (gen_node_pres rval (hg.imp id (fun hn => by
      simp only [Node.noPath, Bool.and_eq_true] at hn; exact hn.2))).1
    simp only [gen_node, gen_block, gen_clause, gen_cons, ArmPres]
    exact ⟨gen_add_pres hS _ _ hl hr, Pres.fault _, Pres.fault _, Pres.fault _, trivial⟩
  | .OSUB _ lval rval, hg => by
    have hl := (gen_node_pres lval (hg.imp id (fun hn => by
      simp only [Node.noPath, Bool.and_eq_true] at hn; exact hn.1))).1
    have hr := (gen_node_pres rval (hg.imp id (fun hn => by
      simp only [Node.noPath, Bool.and_eq_true] at hn; exact hn.2))).1
    simp only [gen_node, gen_block, gen_clause, gen_cons, ArmPres]
    exact ⟨gen_sub_pres hS _ _ hl hr, Pres.fault _, Pres.fault _, Pres.fault _, trivial⟩
  | .OGT _ lval rval, hg => by
    have hl := (gen_node_pres lval (hg.imp id (fun hn => by
      simp only [Node.noPath, Bool.and_eq_true] at hn; exact hn.1))).1
    have hr := (gen_node_pres rval (hg.imp id (fun hn => by
      simp only [Node.noPath, Bool.and_eq_true] at hn; exact hn.2))).1
    simp only [gen_node, gen_block, gen_clause, gen_cons, ArmPres]
    exact ⟨gen_gt_pres hS _ _ hl hr, Pres.fault _, Pres.fault _, Pres.fault _, trivial⟩
  | .OLT _ lval rval, hg => by
    have hl := (gen_node_pres lval (hg.imp id (fun hn => by
      simp only [Node.noPath, Bool.and_eq_true] at hn; exact hn.1))).1
    have hr := (gen_node_pres rval (hg.imp id (fun hn => by
      simp only [Node.noPath, Bool.and_eq_true] at hn; exact hn.2))).1
    simp only [gen_node, gen_block, gen_clause, gen_cons, ArmPres]
    exact ⟨gen_lt_pres hS _ _ hl hr, Pres.fault _, Pres.fault _, Pres.fault _, trivial⟩
  | .OCONS _ lval rval, hg => by
    have hl := (gen_node_pres lval (hg.imp id (fun hn => by
      simp only [Node.noPath, Bool.and_eq_true] at hn; exact hn.1))).1
    have hr := (gen_node_pres rval (hg.imp id (fun hn => by
      simp only [Node.noPath, Bool.and_eq_true] at hn; exact hn.2))).2.2.2.1
    have hc := gen_cons_steps_pres hS lval.isNull rval.isNull _ _ hl hr
    simp only [gen_node, gen_block, gen_clause, gen_cons, ArmPres]
    exact ⟨hc, Pres.fault _, Pres.fault _, hc, trivial⟩
  | .OACCESS _ lval rval, hg => by
    have hr := (gen_node_pres rval (hg.imp id (fun hn => by
      simp only [Node.noPath, Bool.and_eq_true] at hn; exact hn.2))).1
    simp only [gen_node, gen_block, gen_clause, gen_cons, ArmPres]
    exact ⟨gen_access_pres hS _ _ _ hr, Pres.fault _, Pres.fault _, Pres.fault _, trivial⟩
  | .ORANGE _ _ _, _ => by
    simp only [gen_node, gen_block, gen_clause, gen_cons, ArmPres]
    exact ⟨Pres.fault _, Pres.fault _, Pres.fault _, Pres.fault _, trivial⟩
  | .OAPPLY _ lval name rval, hg => by
    have hl := (gen_node_pres lval (hg.imp id (fun hn => by
      simp only [Node.noPath, Bool.and_eq_true] at hn; exact hn.1))).1
    have hr := (gen_node_pres rval (hg.imp id (fun hn => by
      simp only [Node.noPath, Bool.and_eq_true] at hn; exact hn.2))).1
    simp only [gen_node, gen_block, gen_clause, gen_cons, ArmPres]
    exact ⟨gen_apply_pres hS _ _ _ _ hl hr, Pres.fault _, Pres.fault _, Pres.fault _, trivial⟩
  | .OSELECT h arg ncl cls, hg => by
    have ha := (gen_node_pres arg (hg.imp id (fun hn => by
      simp only [Node.noPath, Bool.and_eq_true] at hn; exact hn.1))).1
    have hc := arms_pres cls (hg.imp id (fun hn => by
      simp only [Node.noPath, Bool.and_eq_true] at hn; exact hn.2))
    have := hsel h arg ncl cls ha hc
    simp only [gen_block, gen_clause, gen_cons, ArmPres]
    exact ⟨this, Pres.fault _, Pres.fault _, Pres.fault _, trivial⟩
  | .OCLAUSE h lval ng gs rval, hg => by
    have hb := (gen_node_pres rval (hg.imp id (fun hn => by
      simp only [Node.noPath, Bool.and_eq_true] at hn; exact hn.2))).2.1
    have hgs := all_pres gs (hg.imp id (fun hn => by
      simp only [Node.noPath, Bool.and_eq_true] at hn; exact hn.1.2))
    have hc := hS.clause (.OCLAUSE h lval ng gs rval) _ _ (gen_locals_pres hS lval) hb
    simp only [gen_node, gen_block, gen_clause, gen_cons, ArmPres]
    exact ⟨hc, Pres.fault _, hc, Pres.fault _, hb, hgs⟩
  | .OPATH h name cl, hg => by
    have hap : ap = true := by
      rcases hg with h1 | h1
      · exact h1
      · simp [Node.noPath] at h1
    have hc := (gen_node_pres cl (Or.inl hap)).2.2.1
    simp only [gen_node, gen_block, gen_clause, gen_cons, ArmPres]
    exact ⟨hpath hap _ _ _ hc, Pres.fault _, Pres.fault _, Pres.fault _, trivial⟩
  | .OTUPLE _ arity members, hg => by
    have hm := gen_tuple_members_pres members (hg.imp id (fun hn => by
      simpa [Node.noPath] using hn))
    simp only [gen_node, gen_block, gen_clause, gen_cons, ArmPres]
    exact ⟨gen_tuple_steps_pres hS _ _ (fun reg => hm reg arity 0), Pres.fault _, Pres.fault _,
      Pres.fault _, trivial⟩
  | .OLIST _ _ _, _ => by
    simp only [gen_node, gen_block, gen_clause, gen_cons, ArmPres]
    exact ⟨gen_list_pres hS, Pres.fault _, Pres.fault _, Pres.fault _, trivial⟩
  | .OIDENT h, _ => by
    simp only [gen_node, gen_block, gen_clause, gen_cons, ArmPres]
    exact ⟨gen_ident_pres hS h, Pres.fault _, Pres.fault _, Pres.fault _, trivial⟩
  | .OATOM h, _ => by
    simp only [gen_node, gen_block, gen_clause, gen_cons, ArmPres]
    exact ⟨gen_atom_pres hS h, Pres.fault _, Pres.fault _, Pres.fault _, trivial⟩
  | .ONUMBER h, _ => by
    simp only [gen_node, gen_block, gen_clause, gen_cons, ArmPres]
    exact ⟨gen_num_pres hS h, Pres.fault _, Pres.fault _, Pres.fault _, trivial⟩
  | .OMODULE _ _, _ => by
    simp only [gen_node, gen_block, gen_clause, gen_cons, ArmPres]
    exact ⟨Pres.fault _, Pres.fault _, Pres.fault _, Pres.fault _, trivial⟩
  | .other _ _, _ => by
    simp only [gen_node, gen_block, gen_clause, gen_cons, ArmPres]
    exact ⟨Pres.fault _, Pres.fault _, Pres.fault _, Pres.fault _, trivial⟩
theorem gen_nodes_pres : ∀ ns : NodeList, (ap = true ∨ ns.noPath = true) →
    ∀ reg, Pres R (gen_nodes ns reg)
  | .nil, _, reg => by simp only [gen_nodes]; exact Pres.pure hS _
  | .cons hd tl, hg, reg => by
    have hh := (gen_node_pres hd (hg.imp id (fun hn => by
      simp only [NodeList.noPath, Bool.and_eq_true] at hn; exact hn.1))).1
    have ht := gen_nodes_pres tl (hg.imp id (fun hn => by
      simp only [NodeList.noPath, Bool.and_eq_true] at hn; exact hn.2))
    simp only [gen_nodes]
    exact Pres.bind hS hh (fun r => ht r)
theorem gen_tuple_members_pres : ∀ ns : NodeList, (ap = true ∨ ns.noPath = true) →
    ∀ reg arity i, Pres R (gen_tuple_members reg arity ns i)
  | .nil, _, reg, arity, i => by
    simp only [gen_tuple_members]
    split
    · exact Pres.fault _
    · exact Pres.pure hS _
  | .cons hd tl, hg, reg, arity, i => by
    have hh := (gen_node_pres hd (hg.imp id (fun hn => by
      simp only [NodeList.noPath, Bool.and_eq_true] at hn; exact hn.1))).1
    have ht := gen_tuple_members_pres tl (hg.imp id (fun hn => by
      simp only [NodeList.noPath, Bool.and_eq_true] at hn; exact hn.2))
    simp only [gen_tuple_members]
    split
    · exact Pres.bind hS hh (fun _ => Pres.bind hS (hS.gen _ trivial) (fun _ => ht _ _ _))
    · exact Pres.pure hS _
theorem all_pres : ∀ ns : NodeList, (ap = true ∨ ns.noPath = true) → AllPres R ns
  | .nil, _ => by simp only [AllPres]
  | .cons hd tl, hg => by
    have hh := (gen_node_pres hd (hg.imp id (fun hn => by
      simp only [NodeList.noPath, Bool.and_eq_true] at hn; exact hn.1))).1
    have ht := all_pres tl (hg.imp id (fun hn => by
      simp only [NodeList.noPath, Bool.and_eq_true] at hn; exact hn.2))
    simp only [AllPres]
    exact ⟨hh, ht⟩
theorem arms_pres : ∀ ns : NodeList, (ap = true ∨ ns.noPath = true) → ArmsPres R ns
  | .nil, _ => by simp only [ArmsPres]
  | .cons hd tl, hg => by
    have hh := (gen_node_pres hd (hg.imp id (fun hn => by
      simp only [NodeList.noPath, Bool.and_eq_true] at hn; exact hn.1))).2.2.2.2
    have ht := arms_pres tl (hg.imp id (fun hn => by
      simp only [NodeList.noPath, Bool.and_eq_true] at hn; exact hn.2))
    simp only [ArmsPres]
    exact ⟨hh, ht⟩
end

end

theorem resultWrite_plain (result ret : Int) : Plain (resultWrite result ret) := by
  unfold resultWrite
  split <;> trivial

theorem enterscope_ok (g : Generator) (u : Unit) (g' : Generator)
    (h : enterscope g = .ok u g') :
    g' = { g with tree := { g.tree with symbols := [] :: g.tree.symbols } } := by
  simp only [enterscope, Outcome.ok.injEq] at h
  exact h.2.symm

section
variable {R : Generator → Generator → Prop} (hS : Simple R)
include hS

theorem gen_path_pres (n name : Node) (cl : Gen Int) (hc : Pres R cl) :
    Pres R (gen_path n name cl) := by
  unfold gen_path
  split
  · exact Pres.fault _
  · refine Pres.bind hS.toStable (Pres.read hS.toStable getG_state) (fun g => ?_)
    split
    · exact Pres.nreportf _ _ _
    · exact Pres.bind hS.toStable (hS.registerPath _ _) (fun _ => hc)

theorem patchJump_pres (clause slot : Nat) : Pres R (patchJump clause slot) := by
  intro g a g' h
  unfold patchJump at h
  split at h
  · rename_i pc g1 hpc
    rw [pcOf_state _ _ _ _ hpc] at h
    exact hS.patch _ _ _ _ _ _ h
  · cases h

theorem patchJumps_pres (clause : Nat) : ∀ slots : List Nat, Pres R (patchJumps clause slots)
  | [] => by
    intro g a g' h
    simp only [patchJumps, Outcome.ok.injEq] at h
    rw [← h.2]
    exact hS.refl g
  | s :: ss => by
    intro g a g' h
    simp only [patchJumps] at h
    split at h
    · rename_i u g1 h1
      exact hS.trans _ _ _ (patchJump_pres hS clause s _ _ _ h1) (patchJumps_pres clause ss _ _ _ h)
    · cases h

theorem patchArms_pres (clause : Nat) (islast : Bool) (result : Int) :
    ∀ slots : List Nat, Pres R (patchArms clause islast result slots)
  | [] => by
    intro g a g' h
    simp only [patchArms, Outcome.ok.injEq] at h
    rw [← h.2]
    exact hS.refl g
  | s :: ss => by
    intro g a g' h
    simp only [patchArms] at h
    split at h
    · rename_i u g1 h1
      refine hS.trans _ _ _ ?_ (patchArms_pres clause islast result ss _ _ _ h)
      cases islast with
      | true => exact hS.patch _ _ _ _ _ _ h1
      | false => exact patchJump_pres hS clause s _ _ _ h1
    · cases h

theorem reserveSlot_pres (clause : Nat) : Pres R (reserveSlot clause) :=
  Pres.bind hS.toStable (Pres.read hS.toStable (pcOf_state _)) (fun _ =>
    Pres.bind hS.toStable (hS.genAny _) (fun _ => Pres.pure hS.toStable _))

theorem gen_select_test_pres (lval : Node) (arg : Gen Int) (ha : Pres R arg) :
    Pres R (gen_select_test lval arg) :=
  Pres.bind hS.toStable hS.nextreg (fun _ =>
    Pres.bind hS.toStable (gen_pattern_pres hS.toStable lval) (fun _ =>
      Pres.bind hS.toStable (hS.gen_constant _ _) (fun _ =>
        Pres.bind hS.toStable ha (fun _ =>
          Pres.bind hS.toStable (hS.genAny _) (fun _ => hS.genAny _)))))

/-- One arm of a `select` is an `enterscope`, steps that keep `R`, and an
`exitscope`. -/
theorem gen_select_arm_inner (clause : Nat) (result : Int) (more : Bool) (lval : Node)
    (argNull : Bool) (arg : Gen Int) (guards : Gen (List Nat)) (body : Gen Int)
    (ha : Pres R arg) (hg : Pres R guards) (hb : Pres R body) (g g' : Generator) (a : ArmSlots)
    (h : gen_select_arm clause result more lval argNull arg guards body g = .ok a g') :
    ∃ g0 g9, enterscope g = .ok () g0 ∧ R g0 g9 ∧ exitscope g9 = .ok () g' := by
  unfold gen_select_arm at h
  simp only [bind_ok, pure_ok] at h
  obtain ⟨_, g0, he0, saved, g1, h1, gp, g2, h2, _, g3, he3, ret, g4, h4, _, g5, he5, _, g6, h6,
    patch, g7, h7, _, g8, h8, _, g9, h9, gx, g9', hgx, _, g10, he10, _, rfl⟩ := h
  obtain ⟨rfl, rfl⟩ : g9 = gx ∧ g9 = g9' := by
    simp only [getG, Outcome.ok.injEq] at hgx
    exact hgx
  have r01 : R g0 g1 := by
    split at h1
    · simp only [bind_ok, pure_ok] at h1
      obtain ⟨s, gs, hs, _, rfl⟩ := h1
      exact gen_select_test_pres hS lval arg ha _ _ _ hs
    · rw [pure_ok] at h1
      rw [← h1.2]
      exact hS.refl _
  have r12 : R g1 g2 := hg _ _ _ h2
  have r25 : R g2 g5 := hS.bracket _ _ _ _ he3 (hb _ _ _ h4) he5
  have r56 : R g5 g6 := hS.gen _ (resultWrite_plain _ _) _ _ _ h6
  have r67 : R g6 g7 := by
    split at h7
    · simp only [bind_ok, pure_ok] at h7
      obtain ⟨s, gs, hs, _, rfl⟩ := h7
      exact reserveSlot_pres hS clause _ _ _ hs
    · rw [pure_ok] at h7
      rw [← h7.2]
      exact hS.refl _
  have r78 : R g7 g8 := patchJumps_pres hS clause _ _ _ _ h8
  have r89 : R g8 g9 := patchJumps_pres hS clause _ _ _ _ h9
  exact ⟨g0, g9, he0,
    hS.trans _ _ _ r01 (hS.trans _ _ _ r12 (hS.trans _ _ _ r25 (hS.trans _ _ _ r56
      (hS.trans _ _ _ r67 (hS.trans _ _ _ r78 r89))))), he10⟩

theorem gen_select_arm_pres (clause : Nat) (result : Int) (more : Bool) (lval : Node)
    (argNull : Bool) (arg : Gen Int) (guards : Gen (List Nat)) (body : Gen Int)
    (ha : Pres R arg) (hg : Pres R guards) (hb : Pres R body) :
    Pres R (gen_select_arm clause result more lval argNull arg guards body) := by
  intro g a g' h
  obtain ⟨g0, g9, he0, r09, he10⟩ :=
    gen_select_arm_inner hS clause result more lval argNull arg guards body ha hg hb g g' a h
  exact hS.bracket _ _ _ _ he0 r09 he10

theorem gen_guards_pres (clause nguards : Nat) :
    ∀ (ns : NodeList), AllPres R ns → ∀ i, Pres R (gen_guards clause nguards ns i)
  | .nil, _, i => by
    simp only [gen_guards]
    split
    · exact Pres.fault _
    · exact Pres.pure hS.toStable _
  | .cons hd tl, hall, i => by
    simp only [AllPres] at hall
    simp only [gen_guards]
    split
    · exact Pres.bind hS.toStable hall.1 (fun _ =>
        Pres.bind hS.toStable (reserveSlot_pres hS clause) (fun _ =>
          Pres.bind hS.toStable (gen_guards_pres clause nguards tl hall.2 _) (fun _ =>
            Pres.pure hS.toStable _)))
    · exact Pres.pure hS.toStable _

theorem gen_select_arms_pres (argNull : Bool) (arg : Gen Int) (ha : Pres R arg) (clause : Nat)
    (result : Int) (nclauses : Nat) :
    ∀ (ns : NodeList), ArmsPres R ns → ∀ i,
      Pres R (gen_select_arms argNull arg clause result nclauses ns i)
  | .nil, _, i => by
    simp only [gen_select_arms]
    split
    · exact Pres.fault _
    · exact Pres.pure hS.toStable _
  | .cons c tl, harms, i => by
    simp only [ArmsPres] at harms
    have ht := gen_select_arms_pres argNull arg ha clause result nclauses tl harms.2
    cases c with
    | OCLAUSE h lval ng gs rval =>
      have hc := harms.1
      simp only [ArmPres] at hc
      simp only [gen_select_arms]
      split
      · exact Pres.bind hS.toStable
          (gen_select_arm_pres hS clause result _ lval argNull arg _ _ ha
            (gen_guards_pres hS clause ng gs hc.2 0) hc.1)
          (fun _ => Pres.bind hS.toStable (ht _) (fun _ => Pres.pure hS.toStable _))
      · exact Pres.pure hS.toStable _
    | _ =>
      simp only [gen_select_arms]
      split
      · exact Pres.fault _
      · exact Pres.pure hS.toStable _

theorem gen_select_pres (h : Hdr) (arg : Node) (ncl : Nat) (cls : NodeList)
    (ha : Pres R (gen_node arg)) (hc : ArmsPres R cls) :
    Pres R (gen_node (.OSELECT h arg ncl cls)) := by
  rw [gen_node]
  unfold gen_select
  refine Pres.bind hS.toStable hS.nextreg (fun result => ?_)
  split
  · exact Pres.fault _
  · refine Pres.bind hS.toStable (Pres.read hS.toStable curClause_state) (fun rc => ?_)
    refine Pres.bind hS.toStable (Pres.read hS.toStable (selectIsLast_state _ _)) (fun il => ?_)
    refine Pres.bind hS.toStable
      (gen_select_arms_pres hS arg.isNull (gen_node arg) ha rc.1 result ncl cls hc 0) (fun ps => ?_)
    exact Pres.bind hS.toStable (patchArms_pres hS _ _ _ _) (fun _ => Pres.pure hS.toStable _)

/-- Every lowering function keeps a simple relation, on every tree. -/
theorem simple_gen_node (n : Node) :
    Pres R (gen_node n) ∧ Pres R (gen_block n) ∧ Pres R (gen_clause n) ∧ Pres R (gen_cons n) ∧
      ArmPres R n :=
  gen_node_pres hS.toStable true (fun _ => gen_path_pres hS) (gen_select_pres hS) n (Or.inl rfl)

end

/-! ## Steps that leave the tree alone -/

theorem setPathEntry_tree (g : Generator) (p : PathEntry) : (g.setPathEntry p).tree = g.tree := by
  unfold Generator.setPathEntry
  cases g.path <;> rfl

theorem setPathEntry_heap (g : Generator) (p : PathEntry) : (g.setPathEntry p).heap = g.heap := by
  unfold Generator.setPathEntry
  cases g.path <;> rfl

theorem nextreg_tree (g : Generator) (a : Int) (g' : Generator) (h : nextreg g = .ok a g') :
    g'.tree = g.tree := by
  unfold nextreg at h
  repeat' split at h
  all_goals first
    | (cases h; rfl)
    | cases h

theorem incLocals_tree (g : Generator) (a : Unit) (g' : Generator) (h : incLocals g = .ok a g') :
    g'.tree = g.tree := by
  unfold incLocals at h
  repeat' split at h
  all_goals first
    | (cases h; rfl)
    | cases h

theorem gen_tree (i : Instruction) (g : Generator) (a : Nat) (g' : Generator)
    (h : gen i g = .ok a g') : g'.tree = g.tree := by
  obtain ⟨r, c, _, _, _, rfl⟩ := gen_ok i g g' a h
  rfl

theorem gen_constant_tree (s : Option String) (v : TValue) (g : Generator) (a : Int)
    (g' : Generator) (h : gen_constant s v g = .ok a g') : g'.tree = g.tree := by
  unfold gen_constant at h
  repeat' split at h
  all_goals first
    | (cases h; rfl)
    | cases h

theorem setBlock_tree (n : Node) (g : Generator) (a : Unit) (g' : Generator)
    (h : setBlock n g = .ok a g') : g'.tree = g.tree := by
  simp only [setBlock, Outcome.ok.injEq] at h
  rw [← h.2]

theorem patchCode_tree (clause idx : Nat) (v : Instruction) (g : Generator) (a : Unit)
    (g' : Generator) (h : patchCode clause idx v g = .ok a g') : g'.tree = g.tree := by
  unfold patchCode at h
  repeat' split at h
  all_goals first
    | (cases h; rfl)
    | cases h

theorem allocClause_tree (n : Node) (g : Generator) (a : Option Nat × Nat) (g' : Generator)
    (h : allocClause n g = .ok a g') : g'.tree = g.tree := by
  unfold allocClause at h
  split at h
  · cases h
  · simp only [Outcome.ok.injEq] at h
    rw [← h.2, setPathEntry_tree]

theorem restoreClause_tree (old : Option Nat) (g : Generator) (a : Unit) (g' : Generator)
    (h : restoreClause old g = .ok a g') : g'.tree = g.tree := by
  unfold restoreClause at h
  split at h
  · simp only [Outcome.ok.injEq] at h
    rw [← h.2]
  · split at h
    · cases h
    · simp only [Outcome.ok.injEq] at h
      rw [← h.2, setPathEntry_tree]

theorem gen_clause_return_tree (reg : Int) (g : Generator) (a : Unit) (g' : Generator)
    (h : gen_clause_return reg g = .ok a g') : g'.tree = g.tree := by
  unfold gen_clause_return at h
  split at h
  · simp only [bind_ok, pure_ok] at h
    obtain ⟨_, ga, h1, _, gb, h2, _, gc, h3, _, rfl⟩ := h
    rw [gen_tree _ _ _ _ h3, gen_tree _ _ _ _ h2, nextreg_tree _ _ _ h1]
  · simp only [bind_ok, pure_ok] at h
    obtain ⟨_, gc, h3, _, rfl⟩ := h
    exact gen_tree _ _ _ _ h3

theorem gen_clause_end_tree (reg : Int) (g : Generator) (a : Unit) (g' : Generator)
    (h : gen_clause_end reg g = .ok a g') : g'.tree = g.tree := by
  unfold gen_clause_end at h
  simp only [bind_ok, pure_ok] at h
  obtain ⟨w, g1, hw, _, g2, h2, _, g3, h3, _, rfl⟩ := h
  rw [gen_tree _ _ _ _ h3]
  rw [lastWord_state _ _ _ hw] at h2
  split at h2
  · exact gen_clause_return_tree _ _ _ _ h2
  · rw [pure_ok] at h2
    rw [← h2.2]

/-- A relation that only compares the trees of the two states, is reflexive
and transitive, and is kept by `define`, by a balanced pair of `enterscope`
and `exitscope`, and by an insertion into the path table, is simple. -/
theorem Simple.ofTree (T : Tree → Tree → Prop) (hrefl : ∀ t, T t t)
    (htrans : ∀ t1 t2 t3, T t1 t2 → T t2 t3 → T t1 t3)
    (hdefine : ∀ (t : Tree) (id : String) (reg : Int) (s : List (String × Int))
      (ps : List (List (String × Int))), t.symbols = s :: ps →
      T t { t with symbols := ((id, reg) :: s) :: ps })
    (hbracket : ∀ (t t1 : Tree) (s : List (String × Int)) (ps : List (List (String × Int))),
      T { t with symbols := [] :: t.symbols } t1 → t1.symbols = s :: ps →
      T t { t1 with symbols := ps })
    (hreg : ∀ (t : Tree) (name : String) (i : Nat),
      T t { t with psymbols := (name, i) :: t.psymbols }) :
    Simple (fun g g' => T g.tree g'.tree) where
  refl g := hrefl g.tree
  trans g1 g2 g3 := htrans g1.tree g2.tree g3.tree
  nextreg g a g' h := by rw [nextreg_tree g a g' h]; exact hrefl _
  incLocals g a g' h := by rw [incLocals_tree g a g' h]; exact hrefl _
  gen i _ g a g' h := by rw [gen_tree i g a g' h]; exact hrefl _
  gen_constant s v g a g' h := by rw [gen_constant_tree s v g a g' h]; exact hrefl _
  define s r g a g' h := by
    unfold define at h
    split at h
    · cases h
    · rename_i t ps hs
      simp only [Outcome.ok.injEq] at h
      rw [← h.2]
      exact hdefine g.tree s r t ps hs
  setBlock n g a g' h := by rw [setBlock_tree n g a g' h]; exact hrefl _
  bracket g g0 g1 g2 he h01 hx := by
    rw [enterscope_ok g () g0 he] at h01
    unfold exitscope at hx
    split at hx
    · cases hx
    · rename_i t ps hs
      simp only [Outcome.ok.injEq] at hx
      rw [← hx.2]
      exact hbracket g.tree g1.tree t ps h01 hs
  clause n locals body hl hb g a g' h := by
    unfold gen_clause_steps at h
    simp only [bind_ok, pure_ok] at h
    obtain ⟨oi, g1, hemit, _, g2, hrest, _, rfl⟩ := h
    unfold gen_clause_emit at hemit
    simp only [bind_ok, pure_ok] at hemit
    obtain ⟨oi', ga, halloc, _, gb, hent, _, gc, hloc, reg, gd, hbody, _, ge, hex, _, gf, hend,
      _, rfl⟩ := hemit
    rw [restoreClause_tree _ _ _ _ hrest, gen_clause_end_tree _ _ _ _ hend]
    rw [← allocClause_tree _ _ _ _ halloc]
    rw [enterscope_ok ga () gb hent] at hloc
    have h1 := htrans _ _ _ (hl _ _ _ hloc) (hb _ _ _ hbody)
    unfold exitscope at hex
    split at hex
    · cases hex
    · rename_i t ps hs
      simp only [Outcome.ok.injEq] at hex
      rw [← hex.2]
      exact hbracket ga.tree gd.tree t ps h1 hs
  genAny i g a g' h := by rw [gen_tree i g a g' h]; exact hrefl _
  patch clause idx v g a g' h := by rw [patchCode_tree clause idx v g a g' h]; exact hrefl _
  registerPath name n g a g' h := by
    unfold Arbre.registerPath at h
    split at h
    · simp only [Outcome.ok.injEq] at h
      rw [← h.2]
      exact hreg g.tree name g.pathsn
    · cases h

/-! ## Extension of the active clause -/

theorem lands_mono (c c' : ClauseEntry) (t : Int) (hpc : c.pc ≤ c'.pc)
    (hlast : c'.pc = c.pc → iOP (c'.word (c'.pc - 1)) ≠ some .OP_TAILCALL ∨
      c'.word (c.pc - 1) = c.word (c.pc - 1))
    (h : Lands c t) : Lands c' t := by
  obtain ⟨h0, h1⟩ := h
  refine ⟨h0, ?_⟩
  rcases h1 with h1 | ⟨h1, h2⟩
  · left
    have : (c.pc : Int) ≤ c'.pc := by exact_mod_cast hpc
    omega
  · by_cases heq : c'.pc = c.pc
    · right
      refine ⟨by rw [heq]; exact h1, ?_⟩
      rcases hlast heq with hl | hl
      · exact hl
      · rw [heq, hl]
        exact h2
    · left
      have : (c.pc : Int) < c'.pc := by
        have : c.pc < c'.pc := by omega
        exact_mod_cast this
      omega

theorem sound_mono (c c' : ClauseEntry) (i : Nat) (hi : i < c.pc) (hpc : c.pc ≤ c'.pc)
    (hw : ∀ k, k < c.pc → c'.word k = c.word k) (h : Sound c i) : Sound c' i := by
  obtain ⟨h1, h2⟩ := h
  refine ⟨fun w => by rw [hw i hi]; exact h1 w, fun a j hj hb => ?_⟩
  rw [hw i hi] at hj
  refine lands_mono c c' _ hpc (fun heq => Or.inr ?_) (h2 a j hj (by omega))
  exact hw _ (by omega)

theorem ext_refl (P : Nat → Prop) (g : Generator) : Ext P g g := by
  intro ref c hr hc
  exact ⟨rfl, hr, le_refl _, fun _ _ _ => rfl, c, hc, le_refl _, rfl, id, fun _ _ => rfl,
    fun i h1 h2 => absurd h2 (by omega)⟩

theorem ext_mono {P Q : Nat → Prop} {g g' : Generator} (hPQ : ∀ i, P i → Q i)
    (h : Ext P g g') : Ext Q g g' := by
  intro ref c hr hc
  obtain ⟨h1, h2, h3, h4, c', h5, h6, h7, hb, h8, h9⟩ := h ref c hr hc
  refine ⟨h1, h2, h3, h4, c', h5, h6, h7, hb, h8, fun i hi1 hi2 => ?_⟩
  rcases h9 i hi1 hi2 with ⟨hp, hw⟩ | hs
  · exact Or.inl ⟨hPQ i hp, hw⟩
  · exact Or.inr hs

theorem ext_trans {P Q : Nat → Prop} {g1 g2 g3 : Generator} (h12 : Ext P g1 g2)
    (h23 : Ext Q g2 g3) : Ext (fun i => P i ∨ Q i) g1 g3 := by
  intro ref c hr hc
  obtain ⟨a1, a2, a3, a4, c2, a5, a6, a7, ab, a8, a9⟩ := h12 ref c hr hc
  obtain ⟨b1, b2, b3, b4, c3, b5, b6, b7, bb, b8, b9⟩ := h23 ref c2 a2 a5
  refine ⟨b1.trans a1, b2, le_trans a3 b3, fun r hr1 hr2 => ?_, c3, b5, le_trans a6 b6,
    b7.trans a7, fun hb => bb (ab hb), fun i hi => ?_, fun i hi1 hi2 => ?_⟩
  · rw [b4 r (by omega) hr2, a4 r hr1 hr2]
  · rw [b8 i (by omega), a8 i hi]
  · by_cases hlt : i < c2.pc
    · rcases a9 i hi1 hlt with ⟨hp, hw⟩ | hs
      · exact Or.inl ⟨Or.inl hp, by rw [b8 i hlt]; exact hw⟩
      · exact Or.inr (sound_mono c2 c3 i hlt b6 b8 hs)
    · rcases b9 i (by omega) hi2 with ⟨hq, hw⟩ | hs
      · exact Or.inl ⟨Or.inr hq, hw⟩
      · exact Or.inr hs

theorem extends_trans {g1 g2 g3 : Generator} (h12 : Extends g1 g2) (h23 : Extends g2 g3) :
    Extends g1 g3 :=
  ext_mono (fun _ h => h.elim id id) (ext_trans h12 h23)

/-- A step that touches neither the clause entries nor the paths. -/
theorem ext_of_same (P : Nat → Prop) (g g' : Generator) (hh : g'.heap = g.heap)
    (hp : g'.path = g.path) (hps : g'.paths = g.paths) : Ext P g g' := by
  intro ref c hr hc
  have hcr : g'.clauseRef = g.clauseRef := by
    unfold Generator.clauseRef Generator.pathEntry
    rw [hp, hps]
  refine ⟨hp, by rw [hcr]; exact hr, by rw [hh], fun r _ _ => by rw [hh], c, by rw [hh]; exact hc,
    le_refl _, rfl, id, fun _ _ => rfl, fun i h1 h2 => absurd h2 (by omega)⟩

theorem heap_setClauseAt_other (g : Generator) (r r' : Nat) (c : ClauseEntry) (h : r' ≠ r) :
    (g.setClauseAt r c).heap[r']? = g.heap[r']? := by
  simp only [Generator.setClauseAt]
  rw [List.getElem?_set_ne (Ne.symm h)]

/-- A step that rewrites the active clause entry. -/
theorem ext_of_set (P : Nat → Prop) (g : Generator) (r : Nat) (c c' : ClauseEntry)
    (hr : g.clauseRef = some r) (hc : g.heap[r]? = some c) (hpc : c.pc ≤ c'.pc)
    (hnode : c'.node = c.node) (hb : Bounded c → Bounded c')
    (hw : ∀ i, i < c.pc → c'.word i = c.word i)
    (hs : ∀ i, c.pc ≤ i → i < c'.pc → (P i ∧ c'.word i = .word 0) ∨ Sound c' i) :
    Ext P g (g.setClauseAt r c') := by
  intro ref c0 hr0 hc0
  rw [hr] at hr0
  cases hr0
  rw [hc] at hc0
  cases hc0
  refine ⟨rfl, hr, by simp [Generator.setClauseAt], fun r' _ hne => heap_setClauseAt_other g _ _ _ hne,
    c', heap_setClauseAt_self g _ c c' hc, hpc, hnode, hb, hw, hs⟩

theorem nextreg_ok (g g' : Generator) (a : Int) (h : nextreg g = .ok a g') :
    ∃ r c, g.clauseRef = some r ∧ g.heap[r]? = some c ∧ a = c.nreg ∧
      g' = g.setClauseAt r { c with nreg := c.nreg + 1 } := by
  unfold nextreg at h
  cases hr : g.clauseRef with
  | none => simp [hr] at h
  | some r =>
    cases hc : g.heap[r]? with
    | none => simp [hr, hc] at h
    | some c =>
      simp only [hr, hc, Outcome.ok.injEq] at h
      exact ⟨r, c, rfl, hc, h.1.symm, h.2.symm⟩

theorem incLocals_ok (g g' : Generator) (a : Unit) (h : incLocals g = .ok a g') :
    ∃ r c, g.clauseRef = some r ∧ g.heap[r]? = some c ∧
      g' = g.setClauseAt r { c with nlocals := c.nlocals + 1 } := by
  unfold incLocals at h
  cases hr : g.clauseRef with
  | none => simp [hr] at h
  | some r =>
    cases hc : g.heap[r]? with
    | none => simp [hr, hc] at h
    | some c =>
      simp only [hr, hc, Outcome.ok.injEq] at h
      exact ⟨r, c, rfl, hc, h.2.symm⟩

theorem gen_constant_ok (s : Option String) (v : TValue) (g g' : Generator) (a : Int)
    (h : gen_constant s v g = .ok a g') :
    g' = g ∨ ∃ r c c', g.clauseRef = some r ∧ g.heap[r]? = some c ∧ g' = g.setClauseAt r c' ∧
      c'.pc = c.pc ∧ c'.code = c.code ∧ c'.node = c.node ∧ c'.codewords = c.codewords := by
  unfold gen_constant at h
  cases hr : g.clauseRef with
  | none => simp [hr] at h
  | some r =>
    cases hc : g.heap[r]? with
    | none => simp [hr, hc] at h
    | some c =>
      simp only [hr, hc] at h
      split at h
      · simp only [Outcome.ok.injEq] at h
        exact Or.inl h.2.symm
      · split at h
        · simp only [Outcome.ok.injEq] at h
          exact Or.inr ⟨r, c, _, rfl, hc, h.2.symm, rfl, rfl, rfl, rfl⟩
        · cases h

theorem growCode_node (c : ClauseEntry) : (growCode c).node = c.node := by
  unfold growCode
  split <;> rfl

theorem nextreg_extends : Pres Extends nextreg := by
  intro g a g' h
  obtain ⟨r, c, hr, hc, _, rfl⟩ := nextreg_ok g g' a h
  exact ext_of_set _ g r c _ hr hc (le_refl _) rfl id (fun _ _ => rfl)
    (fun i h1 h2 => absurd h2 (by simp only; omega))

theorem incLocals_extends : Pres Extends incLocals := by
  intro g a g' h
  obtain ⟨r, c, hr, hc, rfl⟩ := incLocals_ok g g' a h
  exact ext_of_set _ g r c _ hr hc (le_refl _) rfl id (fun _ _ => rfl)
    (fun i h1 h2 => absurd h2 (by simp only; omega))

theorem gen_constant_extends (s : Option String) (v : TValue) :
    Pres Extends (gen_constant s v) := by
  intro g a g' h
  rcases gen_constant_ok s v g g' a h with rfl | ⟨r, c, c', hr, hc, rfl, hpc, hcode, hnode, hcw⟩
  · exact ext_refl _ _
  · exact ext_of_set _ g r c _ hr hc (by omega) hnode
      (fun hb => by unfold Bounded at hb ⊢; rw [hpc, hcw]; exact hb)
      (fun i _ => by simp only [ClauseEntry.word, hcode])
      (fun i h1 h2 => absurd h2 (by omega))

/-- A successful `gen` leaves code that fits the buffer, and a buffer of at
most 4096 words stays so: a growth that succeeds starts from a `codesize` of
at most 1366. -/
theorem gen_fits (i : Instruction) (g g' : Generator) (p : Nat) (h : gen i g = .ok p g') :
    ∀ r c, g.clauseRef = some r → g.heap[r]? = some c →
      c.pc + 1 ≤ (growCode c).codewords ∧
        (c.codewords ≤ 4096 → (growCode c).codewords ≤ 4096) := by
  intro r c hr hc
  unfold gen at h
  simp only [hr, hc] at h
  split at h
  · rename_i hlt
    revert hlt
    unfold growCode
    split
    · rename_i hgrow
      intro hlt
      have hlt2 : c.pc < (c.codesize + 4096) / 4 := hlt
      show c.pc + 1 ≤ (c.codesize + 4096) / 4 ∧
        (c.codewords ≤ 4096 → (c.codesize + 4096) / 4 ≤ 4096)
      exact ⟨by omega, fun _ => by omega⟩
    · intro hlt
      exact ⟨by omega, id⟩
  · cases h

/-- The emission of a word extends the active clause by that word. -/
theorem gen_ext (i : Instruction) (g g' : Generator) (p : Nat) (h : gen i g = .ok p g')
    (P : Nat → Prop) (hi : Plain i ∨ (i = .word 0 ∧ P p)) : Ext P g g' := by
  have hfit := gen_fits i g g' p h
  obtain ⟨r, c, hr, hc, hp, rfl⟩ := gen_ok i g g' p h
  refine ext_of_set _ g r c _ hr hc (by simp only; omega) (growCode_node c) (fun hb => ?_)
    (fun k hk => ?_) (fun k h1 h2 => ?_)
  · obtain ⟨hf1, hf2⟩ := hfit r c hr hc
    exact ⟨hf1, hf2 hb.2⟩
  · exact storeAt_getD_other _ _ _ _ _ (by omega)
  · have hk : k = c.pc := by simp only at h2; omega
    subst hk
    have hword : ClauseEntry.word { growCode c with
        code := storeAt (.word 0) c.code c.pc i, pc := c.pc + 1 } c.pc = i :=
      storeAt_getD_self _ _ _ _
    rcases hi with hpl | ⟨hz, hP⟩
    · right
      refine ⟨fun w hw => ?_, fun a j hj _ => ?_⟩
      · rw [hword] at hw
        rw [hw] at hpl
        exact hpl
      · rw [hword] at hj
        rw [hj] at hpl
        obtain ⟨_, hj0⟩ := hpl
        subst hj0
        refine ⟨by omega, Or.inr ⟨by simp only; push_cast; omega, ?_⟩⟩
        simp only [Nat.add_sub_cancel]
        rw [hword, hj]
        simp [iOP]
    · left
      rw [hp] at hP
      exact ⟨hP, by rw [hword, hz]⟩

theorem gen_extends (i : Instruction) (hi : Plain i) : Pres Extends (gen i) :=
  fun g a g' h => gen_ext i g g' a h _ (Or.inl hi)

theorem define_extends (s : String) (r : Int) : Pres Extends (define s r) := by
  intro g a g' h
  unfold define at h
  split at h
  · cases h
  · simp only [Outcome.ok.injEq] at h
    rw [← h.2]
    exact ext_of_same _ _ _ rfl rfl rfl

theorem setBlock_extends (n : Node) : Pres Extends (setBlock n) := by
  intro g a g' h
  simp only [setBlock, Outcome.ok.injEq] at h
  rw [← h.2]
  exact ext_of_same _ _ _ rfl rfl rfl

theorem enterscope_ext (P : Nat → Prop) (g g' : Generator) (u : Unit)
    (h : enterscope g = .ok u g') : Ext P g g' := by
  rw [enterscope_ok g u g' h]
  exact ext_of_same _ _ _ rfl rfl rfl

theorem exitscope_ext (P : Nat → Prop) (g g' : Generator) (u : Unit)
    (h : exitscope g = .ok u g') : Ext P g g' := by
  unfold exitscope at h
  split at h
  · cases h
  · simp only [Outcome.ok.injEq] at h
    rw [← h.2]
    exact ext_of_same _ _ _ rfl rfl rfl

theorem setPathEntry_path (g : Generator) (p : PathEntry) : (g.setPathEntry p).path = g.path := by
  unfold Generator.setPathEntry
  split <;> rfl

theorem setPathEntry_pathEntry (g : Generator) (p p' : PathEntry) (h : g.pathEntry = some p) :
    (g.setPathEntry p').pathEntry = some p' := by
  unfold Generator.pathEntry at h
  unfold Generator.setPathEntry Generator.pathEntry
  cases hp : g.path with
  | none => simp [hp] at h
  | some i =>
    simp only [hp] at h ⊢
    have hlt : i < g.paths.length := by
      by_contra hcon
      rw [List.getElem?_eq_none (by omega)] at h
      simp at h
    simp [hlt]

theorem allocClause_ok (n : Node) (g g' : Generator) (a : Option Nat × Nat)
    (h : allocClause n g = .ok a g') :
    ∃ p, g.pathEntry = some p ∧ a = (p.clause, p.nclauses) ∧ g'.path = g.path ∧
      g'.heap = g.heap ++ [clauseentry n p.nclauses] ∧ g'.clauseRef = some g.heap.length := by
  unfold allocClause at h
  cases hp : g.pathEntry with
  | none => simp [hp] at h
  | some p =>
    simp only [hp, Outcome.ok.injEq] at h
    obtain ⟨ha, rfl⟩ := h
    refine ⟨p, rfl, ha.symm, ?_, ?_, ?_⟩
    · rw [setPathEntry_path]
    · rw [setPathEntry_heap]
    · unfold Generator.clauseRef
      have hp' : Generator.pathEntry { g with heap := g.heap ++ [clauseentry n p.nclauses] }
          = some p := hp
      rw [setPathEntry_pathEntry _ p _ hp']

theorem restoreClause_ok (old : Option Nat) (g g' : Generator) (u : Unit)
    (h : restoreClause old g = .ok u g') :
    g'.heap = g.heap ∧ g'.path = g.path ∧
      (∀ r, old = some r → g'.clauseRef = some r) ∧ (old = none → g' = g) := by
  unfold restoreClause at h
  cases old with
  | none =>
    simp only [Outcome.ok.injEq] at h
    obtain ⟨_, rfl⟩ := h
    refine ⟨rfl, rfl, ?_, fun _ => rfl⟩
    intro r hr
    cases hr
  | some r =>
    simp only at h
    cases hp : g.pathEntry with
    | none => simp [hp] at h
    | some p =>
      simp only [hp, Outcome.ok.injEq] at h
      rw [← h.2]
      refine ⟨setPathEntry_heap _ _, setPathEntry_path _ _, fun r' hr' => ?_, fun hn => by cases hn⟩
      cases hr'
      unfold Generator.clauseRef
      rw [setPathEntry_pathEntry _ p _ hp]

theorem ext_top_trans {g1 g2 g3 : Generator} (h12 : Ext (fun _ => True) g1 g2)
    (h23 : Ext (fun _ => True) g2 g3) : Ext (fun _ => True) g1 g3 :=
  ext_mono (fun _ _ => trivial) (ext_trans h12 h23)

theorem gen_clause_return_ext (reg : Int) (g g' : Generator) (u : Unit)
    (h : gen_clause_return reg g = .ok u g') : Ext (fun _ => True) g g' := by
  unfold gen_clause_return at h
  split at h
  · simp only [bind_ok, pure_ok] at h
    obtain ⟨_, ga, h1, _, gb, h2, _, gc, h3, _, rfl⟩ := h
    exact ext_top_trans (ext_mono (fun _ hf => hf.elim) (nextreg_extends _ _ _ h1))
      (ext_top_trans (gen_ext _ _ _ _ h2 _ (Or.inl trivial)) (gen_ext _ _ _ _ h3 _ (Or.inl trivial)))
  · simp only [bind_ok, pure_ok] at h
    obtain ⟨_, gc, h3, _, rfl⟩ := h
    exact gen_ext _ _ _ _ h3 _ (Or.inl trivial)

theorem gen_clause_end_ext (reg : Int) (g g' : Generator) (u : Unit)
    (h : gen_clause_end reg g = .ok u g') : Ext (fun _ => True) g g' := by
  unfold gen_clause_end at h
  simp only [bind_ok, pure_ok] at h
  obtain ⟨w, g1, hw, _, g2, h2, _, g3, h3, _, rfl⟩ := h
  rw [lastWord_state _ _ _ hw] at h2
  refine ext_top_trans ?_ (gen_ext _ _ _ _ h3 _ (Or.inr ⟨rfl, trivial⟩))
  split at h2
  · exact gen_clause_return_ext _ _ _ _ h2
  · rw [pure_ok] at h2
    rw [← h2.2]
    exact ext_refl _ _

theorem gen_clause_steps_extends (n : Node) (locals : Gen Unit) (body : Gen Int)
    (hl : Pres Extends locals) (hb : Pres Extends body) :
    Pres Extends (gen_clause_steps n locals body) := by
  intro g a g' h ref c hr hc
  unfold gen_clause_steps at h
  simp only [bind_ok, pure_ok] at h
  obtain ⟨oi, g1, hemit, _, g2, hrest, _, rfl⟩ := h
  unfold gen_clause_emit at hemit
  simp only [bind_ok, pure_ok] at hemit
  obtain ⟨oi', ga, halloc, _, gb, hent, _, gc, hloc, reg, gd, hbody, _, ge, hex, _, gf, hend,
    rfl, rfl⟩ := hemit
  obtain ⟨p, hp, hoi, hpa, hha, hra⟩ := allocClause_ok _ _ _ _ halloc
  subst hoi
  have hold : p.clause = some ref := by
    unfold Generator.clauseRef at hr
    rw [hp] at hr
    exact hr
  have hlt : ref < g.heap.length := (List.getElem?_eq_some.1 hc).1
  -- from the allocation to the terminator, relative to the fresh entry
  have hmid : Ext (fun _ => True) ga gf :=
    ext_top_trans (ext_top_trans (ext_top_trans (ext_top_trans (enterscope_ext _ _ _ _ hent)
      (ext_mono (fun _ hf => hf.elim) (hl _ _ _ hloc)))
      (ext_mono (fun _ hf => hf.elim) (hb _ _ _ hbody))) (exitscope_ext _ _ _ _ hex))
      (gen_clause_end_ext _ _ _ _ hend)
  have hnew : ga.heap[g.heap.length]? = some (clauseentry n p.nclauses) := by
    rw [hha]
    simp
  obtain ⟨m1, m2, m3, m4, _⟩ := hmid _ _ hra hnew
  obtain ⟨r1, r2, r3, _⟩ := restoreClause_ok _ _ _ _ hrest
  have hkeep : ∀ r, r < g.heap.length → g2.heap[r]? = g.heap[r]? := by
    intro r hr'
    rw [r1, m4 r (by rw [hha]; simp; omega) (by omega), hha, List.getElem?_append_left hr']
  refine ⟨by rw [r2, m1, hpa], r3 ref hold, ?_, fun r hr1 _ => hkeep r hr1, c, ?_, le_refl _, rfl,
    id, fun _ _ => rfl, fun i h1 h2 => absurd h2 (by omega)⟩
  · rw [r1]
    have : g.heap.length ≤ ga.heap.length := by rw [hha]; simp
    omega
  · rw [hkeep ref hlt]
    exact hc

/-- The relation `Extends` is stable. -/
theorem extends_stable : Stable Extends where
  refl := ext_refl _
  trans _ _ _ := extends_trans
  nextreg := nextreg_extends
  incLocals := incLocals_extends
  gen := gen_extends
  gen_constant := gen_constant_extends
  define := define_extends
  setBlock := setBlock_extends
  bracket _ _ _ _ he h hx :=
    extends_trans (enterscope_ext _ _ _ _ he) (extends_trans h (exitscope_ext _ _ _ _ hx))
  clause := gen_clause_steps_extends

theorem ext_active {P : Nat → Prop} {g g' : Generator} {clause : Nat} {c : ClauseEntry}
    (h : Ext P g g') (ha : Active g clause c) :
    ∃ c', Active g' clause c' ∧ c.pc ≤ c'.pc ∧ (∀ i, i < c.pc → c'.word i = c.word i) ∧
      (∀ i, c.pc ≤ i → i < c'.pc → (P i ∧ c'.word i = .word 0) ∨ Sound c' i) := by
  obtain ⟨_, h2, _, _, c', h5, h6, _, _, h8, h9⟩ := h clause c ha.1 ha.2
  exact ⟨c', ⟨h2, h5⟩, h6, h8, h9⟩

/-- The emission of a word, seen from the active clause. -/
theorem gen_active (i : Instruction) (g g' : Generator) (p : Nat) (clause : Nat)
    (c : ClauseEntry) (h : gen i g = .ok p g') (ha : Active g clause c) :
    p = c.pc ∧ ∃ c', Active g' clause c' ∧ c'.pc = c.pc + 1 ∧ c'.word c.pc = i ∧
      ∀ k, k ≠ c.pc → c'.word k = c.word k := by
  obtain ⟨r, c0, hr, hc, hp, rfl⟩ := gen_ok i g g' p h
  obtain ⟨ha1, ha2⟩ := ha
  rw [hr] at ha1
  cases ha1
  rw [hc] at ha2
  cases ha2
  exact ⟨hp, _, ⟨hr, heap_setClauseAt_self g _ _ _ hc⟩, rfl, storeAt_getD_self _ _ _ _,
    fun k hk => storeAt_getD_other _ _ _ _ _ hk⟩

theorem pcOf_active (g g' : Generator) (p : Nat) (clause : Nat) (c : ClauseEntry)
    (h : pcOf clause g = .ok p g') (ha : Active g clause c) : p = c.pc ∧ g' = g := by
  unfold pcOf at h
  rw [ha.2] at h
  simp only [Outcome.ok.injEq] at h
  exact ⟨h.1.symm, h.2.symm⟩

/-- The reservation of a slot, seen from the active clause. -/
theorem reserveSlot_active (g g' : Generator) (p : Nat) (clause : Nat) (c : ClauseEntry)
    (h : reserveSlot clause g = .ok p g') (ha : Active g clause c) :
    p = c.pc ∧ Ext (fun k => k = p) g g' ∧
      ∃ c', Active g' clause c' ∧ c'.pc = c.pc + 1 ∧ c'.word p = .word 0 := by
  unfold reserveSlot at h
  simp only [bind_ok, pure_ok] at h
  obtain ⟨pc, g1, h1, q, g2, h2, hpq, rfl⟩ := h
  obtain ⟨hpc, rfl⟩ := pcOf_active _ _ _ _ _ h1 ha
  subst hpq
  obtain ⟨hq, c', hc', hpc', hw, _⟩ := gen_active _ _ _ _ _ _ h2 ha
  refine ⟨hpc, gen_ext _ _ _ _ h2 _ (Or.inr ⟨rfl, by rw [hq, hpc]⟩), c', hc', hpc', ?_⟩
  rw [hpc]
  exact hw

/-- The pattern test of an arm, seen from the active clause. -/
theorem gen_select_test_active (lval : Node) (arg : Gen Int) (ha : Pres Extends arg)
    (g g' : Generator) (s : Nat) (clause : Nat) (c : ClauseEntry)
    (h : gen_select_test lval arg g = .ok s g') (hact : Active g clause c) :
    Ext (fun k => k = s) g g' ∧
      ∃ c', Active g' clause c' ∧ c.pc ≤ s ∧ c'.pc = s + 1 ∧ c'.word s = .word 0 := by
  unfold gen_select_test at h
  simp only [bind_ok] at h
  obtain ⟨reg, g1, h1, pat, g2, h2, k, g3, h3, a, g4, h4, q, g5, h5, h6⟩ := h
  have e14 : Extends g g4 :=
    extends_trans (nextreg_extends _ _ _ h1) (extends_trans
      (gen_pattern_pres extends_stable lval _ _ _ h2) (extends_trans
        (gen_constant_extends _ _ _ _ _ h3) (ha _ _ _ h4)))
  have e15 : Extends g g5 := extends_trans e14 (gen_ext _ _ _ _ h5 _ (Or.inl trivial))
  obtain ⟨c5, hact5, hpc5, _, _⟩ := ext_active e15 hact
  obtain ⟨hs, c6, hact6, hpc6, hw6, _⟩ := gen_active _ _ _ _ _ _ h6 hact5
  refine ⟨ext_mono (fun i hi => hi.elim (fun hf => hf.elim) id)
    (ext_trans e15 (gen_ext _ _ _ _ h6 (fun k => k = s) (Or.inr ⟨rfl, rfl⟩))),
    c6, hact6, by omega, by omega, ?_⟩
  rw [hs]
  exact hw6

theorem rewrites_refl (clause : Nat) (g : Generator) : Rewrites clause g g :=
  ⟨rfl, rfl, rfl, fun _ _ => rfl⟩

theorem rewrites_trans {clause : Nat} {g1 g2 g3 : Generator} (h12 : Rewrites clause g1 g2)
    (h23 : Rewrites clause g2 g3) : Rewrites clause g1 g3 :=
  ⟨h23.1.trans h12.1, h23.2.1.trans h12.2.1, h23.2.2.1.trans h12.2.2.1,
    fun r hr => (h23.2.2.2 r hr).trans (h12.2.2.2 r hr)⟩

theorem rewrites_clauseRef {clause : Nat} {g g' : Generator} (h : Rewrites clause g g') :
    g'.clauseRef = g.clauseRef := by
  unfold Generator.clauseRef Generator.pathEntry
  rw [h.1, h.2.1]

theorem active_unique {g : Generator} {clause : Nat} {c c' : ClauseEntry}
    (h : Active g clause c) (h' : Active g clause c') : c' = c := by
  have := h.2.symm.trans h'.2
  cases this
  rfl

theorem active_of_same {g g' : Generator} {clause : Nat} {c : ClauseEntry}
    (hh : g'.heap = g.heap) (hp : g'.path = g.path) (hps : g'.paths = g.paths)
    (h : Active g clause c) : Active g' clause c := by
  have hcr : g'.clauseRef = g.clauseRef := by
    unfold Generator.clauseRef Generator.pathEntry
    rw [hp, hps]
  exact ⟨by rw [hcr]; exact h.1, by rw [hh]; exact h.2⟩

theorem patchedBy_refl (v : Nat → Instruction) (c : ClauseEntry) : PatchedBy [] v c c :=
  ⟨rfl, rfl, rfl, fun i hi => absurd hi (List.not_mem_nil i), fun _ _ => rfl⟩

theorem patchedBy_append {S T : List Nat} {v : Nat → Instruction} {c c1 c2 : ClauseEntry}
    (h1 : PatchedBy S v c c1) (h2 : PatchedBy T v c1 c2) : PatchedBy (S ++ T) v c c2 := by
  obtain ⟨a1, a2, a3, a4, a5⟩ := h1
  obtain ⟨b1, b2, b3, b4, b5⟩ := h2
  refine ⟨b1.trans a1, b2.trans a2, b3.trans a3, fun i hi => ?_, fun i hi => ?_⟩
  · by_cases hT : i ∈ T
    · exact b4 i hT
    · rw [b5 i hT]
      rcases List.mem_append.1 hi with hS | hT'
      · exact a4 i hS
      · exact absurd hT' hT
  · rw [List.mem_append, not_or] at hi
    rw [b5 i hi.2, a5 i hi.1]

theorem patchCode_active (clause idx : Nat) (v : Instruction) (g g' : Generator) (u : Unit)
    (c : ClauseEntry) (h : patchCode clause idx v g = .ok u g')
    (hc : g.heap[clause]? = some c) :
    Rewrites clause g g' ∧ ∃ c', g'.heap[clause]? = some c' ∧
      PatchedBy [idx] (fun _ => v) c c' := by
  unfold patchCode at h
  simp only [hc] at h
  split at h
  · simp only [Outcome.ok.injEq] at h
    rw [← h.2]
    refine ⟨⟨rfl, rfl, by simp [Generator.setClauseAt],
      fun r hr => heap_setClauseAt_other g _ _ _ hr⟩, _, heap_setClauseAt_self g _ c _ hc,
      rfl, rfl, rfl, fun i hi => ?_, fun i hi => ?_⟩
    · rw [List.mem_singleton] at hi
      subst hi
      exact storeAt_getD_self _ _ _ _
    · rw [List.mem_singleton] at hi
      exact storeAt_getD_other _ _ _ _ _ hi
  · cases h

theorem patchJump_active (clause slot : Nat) (g g' : Generator) (u : Unit) (c : ClauseEntry)
    (h : patchJump clause slot g = .ok u g') (hc : g.heap[clause]? = some c) :
    Rewrites clause g g' ∧ ∃ c', g'.heap[clause]? = some c' ∧
      PatchedBy [slot] (jumpTo c.pc) c c' := by
  unfold patchJump pcOf at h
  simp only [hc] at h
  obtain ⟨hr, c', hc', p1, p2, p3, p4, p5⟩ := patchCode_active _ _ _ _ _ _ _ h hc
  refine ⟨hr, c', hc', p1, p2, p3, fun i hi => ?_, p5⟩
  rw [p4 i hi]
  rw [List.mem_singleton] at hi
  rw [hi]
  rfl

theorem patchJumps_active (clause : Nat) : ∀ (S : List Nat) (g g' : Generator) (u : Unit)
    (c : ClauseEntry), patchJumps clause S g = .ok u g' → g.heap[clause]? = some c →
    Rewrites clause g g' ∧ ∃ c', g'.heap[clause]? = some c' ∧ PatchedBy S (jumpTo c.pc) c c'
  | [], g, g', u, c, h, hc => by
    simp only [patchJumps, Outcome.ok.injEq] at h
    rw [← h.2]
    exact ⟨rewrites_refl _ _, c, hc, patchedBy_refl _ _⟩
  | s :: ss, g, g', u, c, h, hc => by
    simp only [patchJumps] at h
    cases h1 : patchJump clause s g with
    | halt e g1 => simp [h1] at h
    | ok u1 g1 =>
      simp only [h1] at h
      obtain ⟨r1, c1, hc1, q1⟩ := patchJump_active _ _ _ _ _ _ h1 hc
      obtain ⟨r2, c2, hc2, q2⟩ := patchJumps_active clause ss g1 g' u c1 h hc1
      rw [q1.1] at q2
      exact ⟨rewrites_trans r1 r2, c2, hc2, patchedBy_append q1 q2⟩

theorem patchArms_active (clause : Nat) (islast : Bool) (result : Int) :
    ∀ (S : List Nat) (g g' : Generator) (u : Unit) (c : ClauseEntry),
    patchArms clause islast result S g = .ok u g' → g.heap[clause]? = some c →
    Rewrites clause g g' ∧ ∃ c', g'.heap[clause]? = some c' ∧
      PatchedBy S (armEnd islast result c.pc) c c'
  | [], g, g', u, c, h, hc => by
    simp only [patchArms, Outcome.ok.injEq] at h
    rw [← h.2]
    exact ⟨rewrites_refl _ _, c, hc, patchedBy_refl _ _⟩
  | s :: ss, g, g', u, c, h, hc => by
    simp only [patchArms] at h
    cases h1 : (if islast then patchCode clause s (.iABC .OP_RETURN result 0 0)
        else patchJump clause s) g with
    | halt e g1 => simp [h1] at h
    | ok u1 g1 =>
      simp only [h1] at h
      have hone : Rewrites clause g g1 ∧ ∃ c1, g1.heap[clause]? = some c1 ∧
          PatchedBy [s] (armEnd islast result c.pc) c c1 := by
        cases islast with
        | true =>
          simp only [↓reduceIte] at h1
          exact patchCode_active _ _ _ _ _ _ _ h1 hc
        | false =>
          simp only [Bool.false_eq_true, ↓reduceIte] at h1
          exact patchJump_active _ _ _ _ _ _ h1 hc
      obtain ⟨r1, c1, hc1, q1⟩ := hone
      obtain ⟨r2, c2, hc2, q2⟩ := patchArms_active clause islast result ss g1 g' u c1 h hc1
      rw [q1.1] at q2
      exact ⟨rewrites_trans r1 r2, c2, hc2, patchedBy_append q1 q2⟩

/-- The offset written by `patchJump` leads from the slot to `pc`. -/
theorem jumpOffset_target (pc slot : Nat) (h1 : slot < pc) (h2 : pc < 18446744073709551616) :
    (slot : Int) + 1 + jumpOffset pc slot = pc := by
  unfold jumpOffset
  rw [Int.emod_eq_of_lt (by omega) (by omega)]
  omega

/-- Patching reserved slots of an extension with sound words that jump to the
current `pc` discharges them. -/
theorem ext_patch {P Q : Nat → Prop} {g g1 g2 : Generator} {clause : Nat}
    {c c1 c2 : ClauseEntry} (S : List Nat) (v : Nat → Instruction)
    (hext : Ext Q g g1) (ha : Active g clause c) (h1 : g1.heap[clause]? = some c1)
    (hrw : Rewrites clause g1 g2) (h2 : g2.heap[clause]? = some c2) (hp : PatchedBy S v c1 c2)
    (hS : ∀ i, i ∈ S → c.pc ≤ i ∧ i + 1 < c1.pc)
    (hv : ∀ i, i ∈ S → (∀ w, v i ≠ .word w) ∧
      ∀ a j, v i = .iAJ .OP_JUMP a j → c1.pc < 18446744073709551616 → (i : Int) + 1 + j = c1.pc)
    (hlast : iOP (c1.word (c1.pc - 1)) ≠ some .OP_TAILCALL)
    (hQ : ∀ i, Q i → P i ∨ i ∈ S) : Ext P g g2 := by
  intro ref c0 hr hc
  obtain ⟨ha1, ha2⟩ := ha
  rw [ha1] at hr
  cases hr
  rw [ha2] at hc
  cases hc
  obtain ⟨e1, e2, e3, e4, c1', e5, e6, e7, eb, e8, e9⟩ := hext _ _ ha1 ha2
  rw [h1] at e5
  cases e5
  obtain ⟨p1, p2, p3, p4, p5⟩ := hp
  obtain ⟨w1, w2, w3, w4⟩ := hrw
  have hlast2 : c2.word (c2.pc - 1) = c1.word (c1.pc - 1) := by
    rw [p1]
    refine p5 _ (fun hin => ?_)
    have := (hS _ hin).2
    omega
  refine ⟨w1.trans e1, ?_, by omega, fun r hr1 hr2 => ?_, c2, h2, by omega, p2.trans e7,
    fun hb => ?_, fun i hi => ?_, fun i hi1 hi2 => ?_⟩
  · rw [rewrites_clauseRef ⟨w1, w2, w3, w4⟩]
    exact e2
  · rw [w4 r hr2, e4 r hr1 hr2]
  · have := eb hb
    unfold Bounded at this ⊢
    rw [p1, p3]
    exact this
  · rw [p5 i (fun hin => by have := (hS i hin).1; omega)]
    exact e8 i hi
  · by_cases hin : i ∈ S
    · right
      refine ⟨fun w => by rw [p4 i hin]; exact (hv i hin).1 w, fun a j hj hb => ?_⟩
      rw [p4 i hin] at hj
      rw [p1] at hb
      have ht := (hv i hin).2 a j hj hb
      refine ⟨by omega, Or.inr ⟨by rw [ht, p1], ?_⟩⟩
      rw [hlast2]
      exact hlast
    · rw [p1] at hi2
      rcases e9 i hi1 hi2 with ⟨hq, hw⟩ | hs
      · left
        rcases hQ i hq with hP | hS'
        · exact ⟨hP, by rw [p5 i hin]; exact hw⟩
        · exact absurd hS' hin
      · right
        obtain ⟨s1, s2⟩ := hs
        refine ⟨fun w => by rw [p5 i hin]; exact s1 w, fun a j hj hb => ?_⟩
        rw [p5 i hin] at hj
        rw [p1] at hb
        obtain ⟨t0, t1⟩ := s2 a j hj hb
        refine ⟨t0, ?_⟩
        rcases t1 with t1 | ⟨t1, t2⟩
        · left
          rw [p1]
          exact t1
        · right
          refine ⟨by rw [p1]; exact t1, ?_⟩
          rw [hlast2]
          exact t2

theorem enterscope_active {g g' : Generator} {u : Unit} {clause : Nat} {c : ClauseEntry}
    (h : enterscope g = .ok u g') (ha : Active g clause c) : Active g' clause c := by
  rw [enterscope_ok g u g' h]
  exact active_of_same rfl rfl rfl ha

theorem exitscope_active {g g' : Generator} {u : Unit} {clause : Nat} {c : ClauseEntry}
    (h : exitscope g = .ok u g') (ha : Active g clause c) : Active g' clause c := by
  unfold exitscope at h
  split at h
  · cases h
  · simp only [Outcome.ok.injEq] at h
    rw [← h.2]
    exact active_of_same rfl rfl rfl ha

/-- The guard loop of an arm keeps its contract. -/
theorem gen_guards_active (clause nguards : Nat) :
    ∀ (ns : NodeList), AllPres Extends ns → ∀ i, SlotsPres clause (gen_guards clause nguards ns i)
  | .nil, _, i => by
    intro g g' gps c h hact
    simp only [gen_guards] at h
    split at h
    · cases h
    · rw [pure_ok] at h
      obtain ⟨rfl, rfl⟩ := h
      exact ⟨ext_refl _ _, c, hact, le_refl _, fun gp hgp => absurd hgp (List.not_mem_nil gp)⟩
  | .cons hd tl, hall, i => by
    intro g g' gps c h hact
    simp only [AllPres] at hall
    simp only [gen_guards] at h
    split at h
    · simp only [bind_ok, pure_ok] at h
      obtain ⟨_, ga, h1, p, gb, h2, ps, gc, h3, rfl, rfl⟩ := h
      have e1 : Extends g ga := hall.1 _ _ _ h1
      obtain ⟨ca, acta, pca, _, _⟩ := ext_active e1 hact
      obtain ⟨hp, e2, cb, actb, pcb, _⟩ := reserveSlot_active _ _ _ _ _ h2 acta
      obtain ⟨e3, cc, actc, pcc, hps⟩ :=
        gen_guards_active clause nguards tl hall.2 (i + 1) gb gc ps cb h3 actb
      refine ⟨ext_mono ?_ (ext_trans (ext_trans e1 e2) e3), cc, actc, by omega, ?_⟩
      · intro k hk
        rcases hk with (hf | hk) | hk
        · exact hf.elim
        · rw [hk]
          exact List.mem_cons_self _ _
        · exact List.mem_cons_of_mem _ hk
      · intro gp hgp
        rcases List.mem_cons.1 hgp with rfl | hgp
        · omega
        · have := hps gp hgp
          omega
    · rw [pure_ok] at h
      obtain ⟨rfl, rfl⟩ := h
      exact ⟨ext_refl _ _, c, hact, le_refl _, fun gp hgp => absurd hgp (List.not_mem_nil gp)⟩

theorem iOP_resultWrite (result ret : Int) :
    iOP (resultWrite result ret) ≠ some .OP_TAILCALL := by
  unfold resultWrite
  split <;> simp [iOP]

/-- One iteration of the arm loop of `gen_select`, seen from the active
clause: only the end-of-arm slot is left pending. -/
theorem gen_select_arm_active (clause : Nat) (result : Int) (more : Bool) (lval : Node)
    (argNull : Bool) (arg : Gen Int) (guards : Gen (List Nat)) (body : Gen Int)
    (ha : Pres Extends arg) (hg : SlotsPres clause guards) (hb : Pres Extends body)
    (g g' : Generator) (a : ArmSlots) (c : ClauseEntry)
    (h : gen_select_arm clause result more lval argNull arg guards body g = .ok a g')
    (hact : Active g clause c) :
    Ext (fun k => k ∈ a.patch) g g' ∧ (more = false → a.patch = []) ∧
      (more = true → a.patch.length = 1) ∧
      ∃ c', Active g' clause c' ∧ ArmDone c c' a := by
  unfold gen_select_arm at h
  simp only [bind_ok, pure_ok] at h
  obtain ⟨_, g0, he0, saved, g1, h1, gps, g2, h2, _, g3, he3, ret, g4, h4, _, g5, he5, _, g6, h6,
    patch, g7, h7, _, g8, h8, _, g9, h9, gx, g9', hgx, _, g10, he10, hres, rfl⟩ := h
  obtain ⟨rfl, rfl⟩ : g9 = gx ∧ g9 = g9' := by
    simp only [getG, Outcome.ok.injEq] at hgx
    exact hgx
  have act0 : Active g0 clause c := enterscope_active he0 hact
  -- the pattern test
  have s01 : Ext (fun k => k ∈ saved) g0 g1 ∧ ∃ c1, Active g1 clause c1 ∧ c.pc ≤ c1.pc ∧
      ∀ s, s ∈ saved → c.pc ≤ s ∧ s < c1.pc := by
    split at h1
    · simp only [bind_ok, pure_ok] at h1
      obtain ⟨s, gs, hs, rfl, rfl⟩ := h1
      obtain ⟨e, c1, act1, q1, q2, _⟩ := gen_select_test_active lval arg ha _ _ _ _ _ hs act0
      refine ⟨ext_mono (fun k hk => by rw [hk]; exact List.mem_singleton_self _) e, c1, act1,
        by omega, fun s' hs' => ?_⟩
      rw [List.mem_singleton] at hs'
      omega
    · rw [pure_ok] at h1
      obtain ⟨rfl, rfl⟩ := h1
      exact ⟨ext_refl _ _, c, act0, le_refl _, fun s hs => absurd hs (List.not_mem_nil s)⟩
  obtain ⟨e01, c1, act1, pc1, hsaved⟩ := s01
  -- the guards
  obtain ⟨e12, c2, act2, pc2, hgps⟩ := hg _ _ _ _ h2 act1
  -- the body
  have e25 : Extends g2 g5 :=
    extends_trans (enterscope_ext _ _ _ _ he3) (extends_trans (hb _ _ _ h4)
      (exitscope_ext _ _ _ _ he5))
  obtain ⟨c5, act5, pc5, _, _⟩ := ext_active e25 act2
  -- the result write
  have e56 : Extends g5 g6 := gen_extends _ (resultWrite_plain _ _) _ _ _ h6
  obtain ⟨_, c6, act6, pc6, w6, _⟩ := gen_active _ _ _ _ _ _ h6 act5
  -- the end-of-arm slot
  have s67 : Ext (fun k => k ∈ patch) g6 g7 ∧ (more = false → patch = []) ∧
      (more = true → patch.length = 1) ∧ ∃ c7, Active g7 clause c7 ∧ c6.pc ≤ c7.pc ∧
      iOP (c7.word (c7.pc - 1)) ≠ some .OP_TAILCALL ∧
      ∀ p, p ∈ patch → p = c6.pc ∧ c7.pc = c6.pc + 1 := by
    split at h7
    · simp only [bind_ok, pure_ok] at h7
      obtain ⟨p, gs, hs, rfl, rfl⟩ := h7
      obtain ⟨hp, e, c7, act7, pc7, w7⟩ := reserveSlot_active _ _ _ _ _ hs act6
      refine ⟨ext_mono (fun k hk => by rw [hk]; exact List.mem_singleton_self _) e,
        fun hm => ?_, fun _ => rfl, c7, act7, by omega, ?_, fun p' hp' => ?_⟩
      · rename_i hmore
        rw [hm] at hmore
        cases hmore
      · rw [pc7, Nat.add_sub_cancel, ← hp, w7]
        simp [iOP]
      · rw [List.mem_singleton] at hp'
        omega
    · rw [pure_ok] at h7
      obtain ⟨rfl, rfl⟩ := h7
      rename_i hmore
      refine ⟨ext_refl _ _, fun _ => rfl, fun hm => absurd hm hmore, c6, act6, le_refl _, ?_,
        fun p hp => absurd hp (List.not_mem_nil p)⟩
      rw [pc6, Nat.add_sub_cancel, w6]
      exact iOP_resultWrite _ _
  obtain ⟨e67, hmore, hmore1, c7, act7, pc7, last7, hpatch⟩ := s67
  -- the two patch loops
  obtain ⟨r78, c8, hc8, q78⟩ := patchJumps_active clause saved g7 g8 _ c7 h8 act7.2
  obtain ⟨r89, c9, hc9, q89⟩ := patchJumps_active clause gps g8 g9 _ c8 h9 hc8
  rw [q78.1] at q89
  have q79 : PatchedBy (saved ++ gps) (jumpTo c7.pc) c7 c9 := patchedBy_append q78 q89
  have r79 : Rewrites clause g7 g9 := rewrites_trans r78 r89
  have e07 : Ext (fun k => (((k ∈ saved ∨ k ∈ gps) ∨ False) ∨ False) ∨ k ∈ patch) g0 g7 :=
    ext_trans (ext_trans (ext_trans (ext_trans e01 e12) e25) e56) e67
  have hS : ∀ i, i ∈ saved ++ gps → c.pc ≤ i ∧ i + 1 < c7.pc := by
    intro i hi
    rcases List.mem_append.1 hi with hi | hi
    · have := hsaved i hi
      omega
    · have := hgps i hi
      omega
  have e09 : Ext (fun k => k ∈ patch) g0 g9 := by
    refine ext_patch (saved ++ gps) (jumpTo c7.pc) e07 act0 act7.2 r79 hc9 q79 hS
      (fun i hi => ⟨fun w hw => ?_, fun a j hj hb => ?_⟩) last7 (fun k hk => ?_)
    · cases hw
    · simp only [jumpTo, Instruction.iAJ.injEq] at hj
      rw [← hj.2.2]
      exact jumpOffset_target _ _ (by have := (hS i hi).2; omega) hb
    · rcases hk with (((hk | hk) | hk) | hk) | hk
      · exact Or.inr (List.mem_append_left _ hk)
      · exact Or.inr (List.mem_append_right _ hk)
      · exact hk.elim
      · exact hk.elim
      · exact Or.inl hk
  have act9 : Active g9 clause c9 := ⟨by rw [rewrites_clauseRef r79]; exact act7.1, hc9⟩
  have hend : endpcOf clause g9 = c9.pc := by
    unfold endpcOf
    rw [hc9]
  obtain ⟨p1, p2, p3, p4, p5⟩ := q79
  subst hres
  refine ⟨?_, hmore, hmore1, c9, exitscope_active he10 act9, by omega, by rw [hend], ?_,
    fun p hp => ?_, fun s hs => ?_⟩
  · exact ext_mono (fun k hk => hk.elim (fun h' => h'.elim id id) id)
      (ext_trans (ext_trans (enterscope_ext (fun k => k ∈ patch) _ _ _ he0) e09)
        (exitscope_ext (fun k => k ∈ patch) _ _ _ he10))
  · rw [p1, p5 _ (fun hin => by have := (hS _ hin).2; omega)]
    exact last7
  · have := hpatch p hp
    omega
  · have := hS s hs
    refine ⟨this.1, by omega, ?_⟩
    rw [p4 s hs, p1]

theorem mem_armPatches (p : Nat) : ∀ slots : List ArmSlots,
    p ∈ armPatches slots ↔ ∃ a, a ∈ slots ∧ p ∈ a.patch
  | [] => by simp [armPatches]
  | a :: rest => by
    simp only [armPatches, List.mem_append, List.mem_cons, mem_armPatches p rest]
    constructor
    · rintro (h | ⟨b, hb, hp⟩)
      · exact ⟨a, Or.inl rfl, h⟩
      · exact ⟨b, Or.inr hb, hp⟩
    · rintro ⟨b, hb | hb, hp⟩
      · rw [hb] at hp
        exact Or.inl hp
      · exact Or.inr ⟨b, hb, hp⟩

theorem gen_select_arms_nil_ok (argNull : Bool) (arg : Gen Int) (clause : Nat) (result : Int)
    (nclauses i : Nat) (g g' : Generator) (slots : List ArmSlots)
    (h : gen_select_arms argNull arg clause result nclauses .nil i g = .ok slots g') :
    ¬ i < nclauses ∧ slots = [] ∧ g' = g := by
  simp only [gen_select_arms] at h
  split at h
  · cases h
  · rename_i hi
    rw [pure_ok] at h
    exact ⟨hi, h.1.symm, h.2.symm⟩

theorem gen_select_arms_cons_ok (argNull : Bool) (arg : Gen Int) (clause : Nat) (result : Int)
    (nclauses i : Nat) (n : Node) (tl : NodeList) (g g' : Generator) (slots : List ArmSlots)
    (h : gen_select_arms argNull arg clause result nclauses (.cons n tl) i g = .ok slots g') :
    (¬ i < nclauses ∧ slots = [] ∧ g' = g) ∨
      (i < nclauses ∧ ∃ hd lval ng gs rval a g1 rest, n = .OCLAUSE hd lval ng gs rval ∧
        gen_select_arm clause result (decide (i + 1 < nclauses)) lval argNull arg
          (gen_guards clause ng gs 0) (gen_block rval) g = .ok a g1 ∧
        gen_select_arms argNull arg clause result nclauses tl (i + 1) g1 = .ok rest g' ∧
        slots = a :: rest) := by
  by_cases hi : i < nclauses
  · right
    refine ⟨hi, ?_⟩
    cases n with
    | OCLAUSE hd lval ng gs rval =>
      simp only [gen_select_arms, hi, ↓reduceIte, bind_ok, pure_ok] at h
      obtain ⟨a, g1, harm, rest, g2, hrest, hs, rfl⟩ := h
      exact ⟨hd, lval, ng, gs, rval, a, g1, rest, rfl, harm, hrest, hs.symm⟩
    | _ =>
      simp only [gen_select_arms, hi, ↓reduceIte] at h
      cases h
  · left
    cases n <;>
    · simp only [gen_select_arms, hi, ↓reduceIte] at h
      rw [pure_ok] at h
      exact ⟨hi, h.1.symm, h.2.symm⟩

/-- The arm loop of `gen_select`, seen from the active clause: only the
end-of-arm slots are left pending. -/
theorem gen_select_arms_active (argNull : Bool) (arg : Gen Int) (ha : Pres Extends arg)
    (clause : Nat) (result : Int) (nclauses : Nat) :
    ∀ (ns : NodeList), ArmsPres Extends ns → ∀ (i : Nat) (g g' : Generator)
      (slots : List ArmSlots) (c : ClauseEntry),
      gen_select_arms argNull arg clause result nclauses ns i g = .ok slots g' →
      Active g clause c →
      Ext (fun k => k ∈ armPatches slots) g g' ∧ slots.length = nclauses - i ∧
        ∃ c', Active g' clause c' ∧ (∀ k, k < c.pc → c'.word k = c.word k) ∧
          ArmsDone c c' slots
  | .nil, _, i => by
    intro g g' slots c h hact
    obtain ⟨hi, rfl, rfl⟩ := gen_select_arms_nil_ok _ _ _ _ _ _ _ _ _ h
    refine ⟨ext_refl _ _, by simp only [List.length_nil]; omega, c, hact, fun _ _ => rfl,
      le_refl _, fun _ => rfl, fun hne => absurd rfl hne, fun a ha' => by simp at ha',
      fun k a ha' => by simp at ha', fun a ha' => absurd ha' (List.not_mem_nil a)⟩
  | .cons n tl, harms, i => by
    intro g g' slots c h hact
    simp only [ArmsPres] at harms
    rcases gen_select_arms_cons_ok _ _ _ _ _ _ _ _ _ _ _ h with ⟨hi, rfl, rfl⟩ |
      ⟨hi, hd, lval, ng, gs, rval, a, g1, rest, rfl, harm, hrest, rfl⟩
    · refine ⟨ext_refl _ _, by simp only [List.length_nil]; omega, c, hact, fun _ _ => rfl,
        le_refl _, fun _ => rfl, fun hne => absurd rfl hne, fun a ha' => by simp at ha',
        fun k a ha' => by simp at ha', fun a ha' => absurd ha' (List.not_mem_nil a)⟩
    · have hc := harms.1
      simp only [ArmPres] at hc
      obtain ⟨e1, hm0, hm1, c1, act1, d1, d2, d3, d4, d5⟩ :=
        gen_select_arm_active clause result (decide (i + 1 < nclauses)) lval argNull arg
          (gen_guards clause ng gs 0) (gen_block rval) ha
          (gen_guards_active clause ng gs hc.2 0) hc.1 g g1 a c harm hact
      obtain ⟨e2, hlen, c2, act2, pre2, r1, r0, r2, r3, r4, r5⟩ :=
        gen_select_arms_active argNull arg ha clause result nclauses tl harms.2 (i + 1)
          g1 g' rest c1 hrest act1
      have pre1 : ∀ k, k < c.pc → c1.word k = c.word k := by
        obtain ⟨c1', act1', _, pre1, _⟩ := ext_active e1 hact
        rw [active_unique act1 act1'] at pre1
        exact pre1
      have hrestne : a.patch ≠ [] → rest ≠ [] ∧ c1.pc < c2.pc := by
        intro hne
        have hmore : i + 1 < nclauses := by
          by_contra hcon
          exact hne (hm0 (by simpa using hcon))
        have hr : rest ≠ [] := by
          intro hnil
          rw [hnil] at hlen
          simp only [List.length_nil] at hlen
          omega
        exact ⟨hr, (r2 hr).1⟩
      refine ⟨ext_mono (fun k hk => ?_) (ext_trans e1 e2), ?_, c2, act2, fun k hk => ?_,
        by omega, fun hnil => absurd hnil (List.cons_ne_nil _ _),
        fun _ => And.intro (by omega) ?_, fun x hx => ?_,
        fun k x hx hk => ?_, fun x hx => ?_⟩
      · simp only [armPatches, List.mem_append]
        exact hk
      · simp only [List.length_cons]
        omega
      · rw [pre2 k (by omega)]
        exact pre1 k hk
      · by_cases hr : rest = []
        · have hpc := r0 hr
          rw [hpc, pre2 _ (by omega)]
          exact d3
        · exact (r2 hr).2
      · by_cases hr : rest = []
        · subst hr
          simp only [List.getLast?_singleton, Option.some.injEq] at hx
          rw [← hx, d2, r0 rfl]
        · obtain ⟨b, rest', hbr⟩ := List.exists_cons_of_ne_nil hr
          rw [hbr, List.getLast?_cons_cons, ← hbr] at hx
          exact r3 x hx
      · cases k with
        | zero =>
          simp only [List.getElem?_cons_zero, Option.some.injEq] at hx
          subst hx
          simp only [List.length_cons] at hk
          exact hm1 (by simp only [decide_eq_true_eq]; omega)
        | succ k =>
          simp only [List.getElem?_cons_succ] at hx
          simp only [List.length_cons] at hk
          exact r4 k x hx (by omega)
      · rcases List.mem_cons.1 hx with rfl | hx
        · refine ⟨by omega, fun p hp => ?_, fun s hs => ?_⟩
          · have := d4 p hp
            have hne : x.patch ≠ [] := List.ne_nil_of_mem hp
            have := (hrestne hne).2
            omega
          · obtain ⟨s1, s2, s3⟩ := d5 s hs
            refine ⟨s1, by omega, ?_, fun hin => ?_⟩
            · rw [pre2 s (by omega), s3, d2]
            · simp only [armPatches, List.mem_append] at hin
              rcases hin with hin | hin
              · have := d4 s hin
                omega
              · obtain ⟨y, hy, hp⟩ := (mem_armPatches s rest).1 hin
                have := ((r5 y hy).2.1 s hp).1
                omega
        · obtain ⟨t1, t2, t3⟩ := r5 x hx
          refine ⟨t1, fun p hp => ?_, fun s hs => ?_⟩
          · have := t2 p hp
            omega
          · obtain ⟨s1, s2, s3, s4⟩ := t3 s hs
            refine ⟨by omega, s2, s3, fun hin => ?_⟩
            simp only [armPatches, List.mem_append] at hin
            rcases hin with hin | hin
            · have := d4 s hin
              omega
            · exact s4 hin

theorem curClause_active (g g' : Generator) (rc : Nat × ClauseEntry) (clause : Nat)
    (c : ClauseEntry) (h : curClause g = .ok rc g') (ha : Active g clause c) :
    rc = (clause, c) ∧ g' = g := by
  unfold curClause at h
  simp only [ha.1, ha.2, Outcome.ok.injEq] at h
  exact ⟨h.1.symm, h.2.symm⟩

theorem nextreg_active (g g' : Generator) (a : Int) (clause : Nat) (c : ClauseEntry)
    (h : nextreg g = .ok a g') (ha : Active g clause c) :
    g'.block = g.block ∧ ∃ c', Active g' clause c' ∧ c'.pc = c.pc ∧ c'.node = c.node ∧
      c'.codewords = c.codewords ∧ ∀ k, c'.word k = c.word k := by
  obtain ⟨r, c0, hr, hc0, _, rfl⟩ := nextreg_ok g g' a h
  obtain ⟨ha1, ha2⟩ := ha
  rw [hr] at ha1
  cases ha1
  rw [hc0] at ha2
  cases ha2
  exact ⟨rfl, _, ⟨hr, heap_setClauseAt_self g _ _ _ hc0⟩, rfl, rfl, rfl, fun _ => rfl⟩

theorem armEnd_sound (islast : Bool) (result : Int) (pc i : Nat) (hi : i < pc) :
    (∀ w, armEnd islast result pc i ≠ .word w) ∧
      ∀ a j, armEnd islast result pc i = .iAJ .OP_JUMP a j → pc < 18446744073709551616 →
        (i : Int) + 1 + j = pc := by
  cases islast with
  | true =>
    refine ⟨fun w hw => ?_, fun a j hj => ?_⟩
    · simp [armEnd] at hw
    · simp [armEnd] at hj
  | false =>
    refine ⟨fun w hw => ?_, fun a j hj hb => ?_⟩
    · simp [armEnd, jumpTo] at hw
    · simp only [armEnd, jumpTo, Bool.false_eq_true, ↓reduceIte, Instruction.iAJ.injEq] at hj
      rw [← hj.2.2]
      exact jumpOffset_target _ _ hi hb

/-- The test `islast` reads `g->block` and the node of the clause entry only. -/
theorem selectIsLast_congr (n : Node) (clause : Nat) (g g1 : Generator) (c c1 : ClauseEntry)
    (il : Bool) (hb : g1.block = g.block) (h1 : g1.heap[clause]? = some c1)
    (h0 : g.heap[clause]? = some c) (hn : c1.node = c.node)
    (hil : selectIsLast n clause g1 = .ok il g1) : selectIsLast n clause g = .ok il g := by
  unfold selectIsLast at hil ⊢
  rw [hb, h1] at hil
  rw [h0]
  cases hbk : g.block with
  | OBLOCK hd body parent =>
    simp only [hbk] at hil ⊢
    cases he : body.endHead with
    | none => simp [he] at hil
    | some e =>
      simp only [he] at hil ⊢
      split at hil
      · rename_i haddr
        simp only [haddr, ↓reduceIte]
        rw [hn] at hil
        cases hnode : c.node with
        | OCLAUSE _ _ _ _ rval =>
          simp only [hnode, Outcome.ok.injEq] at hil ⊢
          exact ⟨hil.1, trivial⟩
        | _ => simp [hnode] at hil
      · rename_i haddr
        simp only [haddr, ↓reduceIte, Outcome.ok.injEq] at hil ⊢
        exact ⟨hil.1, trivial⟩
  | _ => simp [hbk] at hil

/-- The function `gen_select`, seen from the active clause: the register, the
test `islast`, the arm loop and the last patch loop, and no slot left
pending. -/
theorem gen_select_active (h : Hdr) (arg : Node) (ncl : Nat) (cls : NodeList)
    (ha : Pres Extends (gen_node arg)) (hc : ArmsPres Extends cls) (g g' : Generator)
    (result : Int) (clause : Nat) (c : ClauseEntry)
    (hrun : gen_node (.OSELECT h arg ncl cls) g = .ok result g') (hact : Active g clause c) :
    Extends g g' ∧ ∃ g1 c1 islast slots g2 c2 c',
      nextreg g = .ok result g1 ∧ Active g1 clause c1 ∧ c1.pc = c.pc ∧
      selectIsLast (.OSELECT h arg ncl cls) clause g = .ok islast g ∧
      gen_select_arms arg.isNull (gen_node arg) clause result ncl cls 0 g1 = .ok slots g2 ∧
      slots.length = ncl ∧ 0 < ncl ∧ Active g2 clause c2 ∧ ArmsDone c1 c2 slots ∧
      Active g' clause c' ∧ PatchedBy (armPatches slots) (armEnd islast result c2.pc) c2 c' := by
  rw [gen_node] at hrun
  unfold gen_select at hrun
  simp only [bind_ok] at hrun
  obtain ⟨res, g1, hreg, hrest⟩ := hrun
  split at hrest
  · cases hrest
  · rename_i hncl
    simp only [bind_ok, pure_ok] at hrest
    obtain ⟨rc, gA, hcur, il, gB, hil, slots, g2, harms, _, g3, hpatch, rfl, rfl⟩ := hrest
    obtain ⟨hblock, c1, act1, pc1, node1, _, _⟩ := nextreg_active _ _ _ _ _ hreg hact
    obtain ⟨hrc, hgA⟩ := curClause_active _ _ _ _ _ hcur act1
    have hgB := selectIsLast_state _ _ _ _ _ hil
    rw [hgA] at hgB
    rw [hgA] at hil
    rw [hgB] at harms hil
    rw [hrc] at hil harms hpatch
    simp only at hil harms hpatch
    obtain ⟨e2, hlen, c2, act2, _, hdone⟩ :=
      gen_select_arms_active arg.isNull (gen_node arg) ha clause res ncl cls hc 0 _ g2 slots
        c1 harms act1
    obtain ⟨r23, c3, hc3, q23⟩ := patchArms_active clause il res _ _ _ _ c2 hpatch act2.2
    have hne : slots ≠ [] := by
      intro hnil
      rw [hnil] at hlen
      simp only [List.length_nil] at hlen
      omega
    have hS : ∀ i, i ∈ armPatches slots → c1.pc ≤ i ∧ i + 1 < c2.pc := by
      intro i hi
      obtain ⟨a, hmem, hp⟩ := (mem_armPatches i slots).1 hi
      have := (hdone.2.2.2.2.2 a hmem).2.1 i hp
      omega
    have e13 : Extends g1 g3 :=
      ext_patch (armPatches slots) (armEnd il res c2.pc) e2 act1 act2.2 r23 hc3 q23 hS
        (fun i hi => armEnd_sound il res c2.pc i (by have := (hS i hi).2; omega))
        (hdone.2.2.1 hne).2 (fun i hi => Or.inr hi)
    have hil2 : selectIsLast (.OSELECT h arg ncl cls) clause g = .ok il g :=
      selectIsLast_congr _ _ _ _ _ _ _ hblock act1.2 hact.2 node1 hil
    exact ⟨extends_trans (nextreg_extends _ _ _ hreg) e13, g1, c1, il, slots, g2, c2, c3, hreg,
      act1, pc1, hil2, harms, by omega, by omega, act2, hdone,
      ⟨by rw [rewrites_clauseRef r23]; exact act2.1, hc3⟩, q23⟩

/-- The function `gen_select` extends the active clause with sound words. -/
theorem gen_select_extends (h : Hdr) (arg : Node) (ncl : Nat) (cls : NodeList)
    (ha : Pres Extends (gen_node arg)) (hc : ArmsPres Extends cls) :
    Pres Extends (gen_node (.OSELECT h arg ncl cls)) := by
  intro g a g' hrun ref c hr hcl
  exact (gen_select_active h arg ncl cls ha hc g g' a ref c hrun ⟨hr, hcl⟩).1 ref c hr hcl

/-- Every lowering function extends the active clause with sound words, on
every tree without a path declaration inside. -/
theorem extends_gen_node (n : Node) (hn : n.noPath = true) :
    Pres Extends (gen_node n) ∧ Pres Extends (gen_block n) ∧ Pres Extends (gen_clause n) ∧
      Pres Extends (gen_cons n) ∧ ArmPres Extends n :=
  gen_node_pres extends_stable false (fun hf => by cases hf) gen_select_extends n (Or.inr hn)

/-- The `RETURN` of `gen_clause`, seen from the active clause: one or two
words, none of them a literal word or a `JUMP`. -/
theorem gen_clause_return_active (reg : Int) (g g' : Generator) (u : Unit) (clause : Nat)
    (c : ClauseEntry) (h : gen_clause_return reg g = .ok u g') (ha : Active g clause c) :
    ∃ c', Active g' clause c' ∧ c.pc < c'.pc ∧ (∀ i, i < c.pc → c'.word i = c.word i) ∧
      ∀ i, c.pc ≤ i → i < c'.pc →
        (∀ w, c'.word i ≠ .word w) ∧ ∀ a j, c'.word i ≠ .iAJ .OP_JUMP a j := by
  unfold gen_clause_return at h
  split at h
  · simp only [bind_ok, pure_ok] at h
    obtain ⟨rega, ga, h1, _, gb, h2, _, gc, h3, _, rfl⟩ := h
    obtain ⟨_, ca, acta, pca, _, _, wa⟩ := nextreg_active _ _ _ _ _ h1 ha
    obtain ⟨_, cb, actb, pcb, wb1, wb2⟩ := gen_active _ _ _ _ _ _ h2 acta
    obtain ⟨_, cc, actc, pcc, wc1, wc2⟩ := gen_active _ _ _ _ _ _ h3 actb
    refine ⟨cc, actc, by omega, fun i hi => ?_, fun i hi1 hi2 => ?_⟩
    · rw [wc2 i (by omega), wb2 i (by omega), wa]
    · by_cases hi : i = ca.pc
      · subst hi
        rw [wc2 _ (by omega), wb1]
        exact ⟨fun w hw => (by cases hw), fun a j hj => (by cases hj)⟩
      · have hi' : i = cb.pc := by omega
        subst hi'
        rw [wc1]
        exact ⟨fun w hw => (by cases hw), fun a j hj => (by cases hj)⟩
  · simp only [bind_ok, pure_ok] at h
    obtain ⟨_, gc, h3, _, rfl⟩ := h
    obtain ⟨_, cc, actc, pcc, wc1, wc2⟩ := gen_active _ _ _ _ _ _ h3 ha
    refine ⟨cc, actc, by omega, fun i hi => wc2 i (by omega), fun i hi1 hi2 => ?_⟩
    have hi' : i = c.pc := by omega
    subst hi'
    rw [wc1]
    exact ⟨fun w hw => (by cases hw), fun a j hj => (by cases hj)⟩

/-- The end of `gen_clause`, seen from the active clause: there was a last
word; unless it is a `TAILCALL` the `RETURN` follows it; the terminator is the
last word, and no word added before it is a literal word or a `JUMP`. -/
theorem gen_clause_end_active (reg : Int) (g g' : Generator) (u : Unit) (clause : Nat)
    (c : ClauseEntry) (h : gen_clause_end reg g = .ok u g') (ha : Active g clause c) :
    ∃ c', Active g' clause c' ∧ 1 ≤ c.pc ∧ c.pc < c'.pc ∧
      (∀ i, i < c.pc → c'.word i = c.word i) ∧ c'.word (c'.pc - 1) = .word 0 ∧
      (iOP (c.word (c.pc - 1)) ≠ some .OP_TAILCALL → c.pc + 1 < c'.pc) ∧
      ∀ i, c.pc ≤ i → i + 1 < c'.pc →
        (∀ w, c'.word i ≠ .word w) ∧ ∀ a j, c'.word i ≠ .iAJ .OP_JUMP a j := by
  unfold gen_clause_end at h
  simp only [bind_ok, pure_ok] at h
  obtain ⟨w, g1, hw, _, g2, h2, _, g3, h3, _, rfl⟩ := h
  obtain ⟨rfl, c0, hc0, hpc0, hw0⟩ := lastWord_ok _ _ _ hw
  obtain ⟨r0, hr0, hh0⟩ := (clause_eq_some _ _).1 hc0
  have hcc : c = c0 := by
    rw [ha.1] at hr0
    cases hr0
    have := ha.2.symm.trans hh0
    cases this
    rfl
  subst hcc
  have hmid : ∃ c2, Active g2 clause c2 ∧ c.pc ≤ c2.pc ∧
      (∀ i, i < c.pc → c2.word i = c.word i) ∧
      (iOP (c.word (c.pc - 1)) ≠ some .OP_TAILCALL → c.pc < c2.pc) ∧
      ∀ i, c.pc ≤ i → i < c2.pc →
        (∀ w, c2.word i ≠ .word w) ∧ ∀ a j, c2.word i ≠ .iAJ .OP_JUMP a j := by
    split at h2
    · obtain ⟨c2, act2, p2, w2, s2⟩ := gen_clause_return_active _ _ _ _ _ _ h2 ha
      exact ⟨c2, act2, by omega, w2, fun _ => p2, s2⟩
    · rename_i htc
      rw [pure_ok] at h2
      rw [← h2.2]
      refine ⟨c, ha, le_refl _, fun _ _ => rfl, fun hne => ?_, fun i h1 h2 => absurd h2 (by omega)⟩
      rw [hw0] at htc
      exact absurd hne htc
  obtain ⟨c2, act2, p2, w2, t2, s2⟩ := hmid
  obtain ⟨_, c3, act3, p3, w31, w32⟩ := gen_active _ _ _ _ _ _ h3 act2
  refine ⟨c3, act3, hpc0, by omega, fun i hi => ?_, ?_, fun hne => ?_, fun i hi1 hi2 => ?_⟩
  · rw [w32 i (by omega), w2 i hi]
  · rw [p3, Nat.add_sub_cancel, w31]
  · have := t2 hne
    omega
  · rw [w32 i (by omega)]
    exact s2 i hi1 (by omega)

theorem jumpOffset_eq (pc slot : Nat) (h1 : slot < pc) (h2 : pc < 18446744073709551616) :
    jumpOffset pc slot = (pc : Int) - slot - 1 := by
  unfold jumpOffset
  exact Int.emod_eq_of_lt (by omega) (by omega)

/-- The test `islast` in terms of the state at entry: the `select` is the last
child of the block recorded in `g->block`, and that block is the body of the
clause being lowered. -/
theorem selectIsLast_eq (n : Node) (clause : Nat) (g : Generator) (il : Bool) (c : ClauseEntry)
    (h : selectIsLast n clause g = .ok il g) (hc : g.heap[clause]? = some c) :
    il = (lastOfBlock g n && (g.block.addr == c.node.clauseRval.addr)) := by
  unfold selectIsLast at h
  unfold lastOfBlock
  rw [hc] at h
  cases hbk : g.block with
  | OBLOCK hd body parent =>
    simp only [hbk] at h ⊢
    cases he : body.endHead with
    | none => simp [he] at h
    | some e =>
      simp only [he] at h ⊢
      split at h
      · rename_i haddr
        cases hnode : c.node with
        | OCLAUSE _ _ _ _ rval =>
          simp only [hnode, Outcome.ok.injEq] at h
          rw [← h.1]
          have e1 : (Node.OBLOCK hd body parent).addr = hd.addr := rfl
          rw [e1, haddr]
          simp only [Node.clauseRval, beq_self_eq_true, Bool.true_and]
          by_cases hx : hd.addr = rval.addr <;> simp [hx]
        | _ => simp [hnode] at h
      · rename_i haddr
        simp only [Outcome.ok.injEq] at h
        rw [← h.1]
        simp [haddr]
  | _ => simp [hbk] at h

theorem gen_guards_length (clause nguards : Nat) :
    ∀ (ns : NodeList) (i : Nat) (g g' : Generator) (gps : List Nat),
      gen_guards clause nguards ns i g = .ok gps g' → gps.length = nguards - i
  | .nil, i => by
    intro g g' gps h
    simp only [gen_guards] at h
    split at h
    · cases h
    · rw [pure_ok] at h
      rw [← h.1]
      simp only [List.length_nil]
      omega
  | .cons hd tl, i => by
    intro g g' gps h
    simp only [gen_guards] at h
    split at h
    · simp only [bind_ok, pure_ok] at h
      obtain ⟨_, ga, _, p, gb, _, ps, gc, h3, hg, _⟩ := h
      have := gen_guards_length clause nguards tl (i + 1) gb gc ps h3
      rw [← hg]
      simp only [List.length_cons]
      omega
    · rw [pure_ok] at h
      rw [← h.1]
      simp only [List.length_nil]
      omega

/-- What one iteration of the arm loop records: one pattern slot when the arm
has a pattern and the `select` a subject, and the slots the guard loop
returned. -/
theorem gen_select_arm_slots (clause : Nat) (result : Int) (more : Bool) (lval : Node)
    (argNull : Bool) (arg : Gen Int) (guards : Gen (List Nat)) (body : Gen Int)
    (g g' : Generator) (a : ArmSlots)
    (h : gen_select_arm clause result more lval argNull arg guards body g = .ok a g') :
    a.savedpc.length = testSlots lval argNull ∧ ∃ ga gb, guards ga = .ok a.gpatches gb := by
  unfold gen_select_arm at h
  simp only [bind_ok, pure_ok] at h
  obtain ⟨_, g0, _, saved, g1, h1, gps, g2, h2, _, g3, _, ret, g4, _, _, g5, _, _, g6, _,
    patch, g7, _, _, g8, _, _, g9, _, gx, g9', _, _, g10, _, hres, _⟩ := h
  subst hres
  refine ⟨?_, g1, g2, h2⟩
  unfold testSlots
  split at h1
  · rename_i hcond
    simp only [bind_ok, pure_ok] at h1
    obtain ⟨s, gs, _, hs, _⟩ := h1
    rw [← hs]
    simp [hcond]
  · rename_i hcond
    rw [pure_ok] at h1
    rw [← h1.1]
    simp [hcond]

/-- The records of the arm loop against the arms: record `k` belongs to arm
`k`, which is a clause node; it holds one pattern slot when the arm has a
pattern and the `select` a subject, and one slot per guard. -/
theorem gen_select_arms_slots (argNull : Bool) (arg : Gen Int) (clause : Nat) (result : Int)
    (nclauses : Nat) :
    ∀ (ns : NodeList) (i : Nat) (g g' : Generator) (slots : List ArmSlots),
      gen_select_arms argNull arg clause result nclauses ns i g = .ok slots g' →
      ∀ k a, slots[k]? = some a → ∃ hd lval ng gs rval,
        ns.nth k = some (.OCLAUSE hd lval ng gs rval) ∧
        a.savedpc.length = testSlots lval argNull ∧ a.gpatches.length = ng
  | .nil, i => by
    intro g g' slots h k a hk
    obtain ⟨_, rfl, _⟩ := gen_select_arms_nil_ok _ _ _ _ _ _ _ _ _ h
    simp at hk
  | .cons n tl, i => by
    intro g g' slots h k a hk
    rcases gen_select_arms_cons_ok _ _ _ _ _ _ _ _ _ _ _ h with ⟨_, rfl, _⟩ |
      ⟨_, hd, lval, ng, gs, rval, a0, g1, rest, rfl, harm, hrest, rfl⟩
    · simp at hk
    · cases k with
      | zero =>
        simp only [List.getElem?_cons_zero, Option.some.injEq] at hk
        subst hk
        obtain ⟨hs, ga, gb, hg⟩ := gen_select_arm_slots _ _ _ _ _ _ _ _ _ _ _ harm
        refine ⟨hd, lval, ng, gs, rval, rfl, hs, ?_⟩
        have := gen_guards_length clause ng gs 0 ga gb _ hg
        omega
      | succ k =>
        simp only [List.getElem?_cons_succ] at hk
        exact gen_select_arms_slots argNull arg clause result nclauses tl (i + 1) g1 g' rest
          hrest k a hk

/-- The function `gen_select` on a tree without a path declaration inside,
from a state whose active clause fits its buffer: what the slots of every arm
hold when it returns. -/
theorem gen_select_final (h : Hdr) (arg : Node) (ncl : Nat) (cls : NodeList)
    (g g' : Generator) (result : Int) (clause : Nat) (c : ClauseEntry)
    (hn : (Node.OSELECT h arg ncl cls).noPath = true)
    (hok : gen_node (.OSELECT h arg ncl cls) g = .ok result g')
    (hact : Active g clause c) (hfit : Bounded c) :
    ∃ g1 slots g2 c',
      nextreg g = .ok result g1 ∧
      gen_select_arms arg.isNull (gen_node arg) clause result ncl cls 0 g1 = .ok slots g2 ∧
      slots.length = ncl ∧ Active g' clause c' ∧ c.pc < c'.pc ∧ c'.pc ≤ 4096 ∧
      (∀ i, c.pc ≤ i → i < c'.pc → ∀ w, c'.word i ≠ .word w) ∧
      (∀ a, slots.getLast? = some a → a.endpc = c'.pc) ∧
      (∀ k a, slots[k]? = some a → k + 1 < ncl → ∃ p, a.patch = [p]) ∧
      ∀ a, a ∈ slots → a.endpc ≤ c'.pc ∧
        (∀ p, p ∈ a.patch → c.pc ≤ p ∧ p + 1 = a.endpc ∧ a.endpc < c'.pc ∧
          c'.word p = armEnd (lastOfBlock g (.OSELECT h arg ncl cls) &&
            (g.block.addr == c.node.clauseRval.addr)) result c'.pc p) ∧
        ∀ s, s ∈ a.savedpc ++ a.gpatches →
          c.pc ≤ s ∧ s + 1 < a.endpc ∧ c'.word s = jumpTo a.endpc s := by
  simp only [Node.noPath, Bool.and_eq_true] at hn
  have ha : Pres Extends (gen_node arg) := (extends_gen_node arg hn.1).1
  have hc : ArmsPres Extends cls :=
    arms_pres extends_stable false (fun hf => by cases hf) gen_select_extends cls (Or.inr hn.2)
  obtain ⟨hext, g1, c1, il, slots, g2, c2, c', hreg, act1, pc1, hil, harms, hlen, hpos, act2,
    hdone, act', q⟩ := gen_select_active h arg ncl cls ha hc g g' result clause c hok hact
  obtain ⟨d1, d0, d2, d3, d4, d5⟩ := hdone
  obtain ⟨q1, q2, q3, q4, q5⟩ := q
  obtain ⟨_, _, _, _, c'', x5, _, _, xb, _, x9⟩ := hext clause c hact.1 hact.2
  have hcc : c'' = c' := by
    have := x5.symm.trans act'.2
    cases this
    rfl
  subst hcc
  have hbd := xb hfit
  have hne : slots ≠ [] := by
    intro hnil
    rw [hnil] at hlen
    simp only [List.length_nil] at hlen
    omega
  have hil' := selectIsLast_eq _ _ _ _ _ hil hact.2
  refine ⟨g1, slots, g2, c'', hreg, harms, hlen, act', by have := (d2 hne).1; omega,
    by unfold Bounded at hbd; omega, fun i hi1 hi2 => ?_, fun a hlast => by rw [d3 a hlast, q1],
    fun k a hk hlt => ?_, fun a hmem => ⟨by have := (d5 a hmem).1; omega, fun p hp => ?_,
      fun s hs => ?_⟩⟩
  · rcases x9 i hi1 hi2 with ⟨hf, _⟩ | hs
    · exact hf.elim
    · exact hs.1
  · exact List.length_eq_one.1 (d4 k a hk (by omega))
  · obtain ⟨t1, t2, t3⟩ := (d5 a hmem).2.1 p hp
    refine ⟨by omega, t2, by omega, ?_⟩
    rw [q4 p ((mem_armPatches p slots).2 ⟨a, hmem, hp⟩), ← hil', q1]
  · obtain ⟨t1, t2, t3, t4⟩ := (d5 a hmem).2.2 s hs
    exact ⟨by omega, t2, by rw [q5 s t4]; exact t3⟩

/-! ## Runs of the primitives on an active clause -/

theorem active_set {g : Generator} {clause : Nat} {c : ClauseEntry} (c' : ClauseEntry)
    (ha : Active g clause c) : Active (g.setClauseAt clause c') clause c' :=
  ⟨ha.1, heap_setClauseAt_self g _ c c' ha.2⟩

theorem incLocals_run (g : Generator) (clause : Nat) (c : ClauseEntry) (ha : Active g clause c) :
    incLocals g = .ok () (g.setClauseAt clause { c with nlocals := c.nlocals + 1 }) := by
  unfold incLocals
  simp only [ha.1, ha.2]

theorem nextreg_run (g : Generator) (clause : Nat) (c : ClauseEntry) (ha : Active g clause c) :
    nextreg g = .ok (c.nreg : Int) (g.setClauseAt clause { c with nreg := c.nreg + 1 }) := by
  unfold nextreg
  simp only [ha.1, ha.2]

theorem define_run (s : String) (r : Int) (g : Generator) (t : List (String × Int))
    (ps : List (List (String × Int))) (h : g.tree.symbols = t :: ps) :
    define s r g = .ok r { g with tree := { g.tree with symbols := ((s, r) :: t) :: ps } } := by
  unfold define
  simp only [h]

theorem gen_run (i : Instruction) (g : Generator) (clause : Nat) (c : ClauseEntry)
    (ha : Active g clause c) (hroom : (growCode c).pc < (growCode c).codewords) :
    gen i g = .ok c.pc (g.setClauseAt clause
      { growCode c with code := storeAt (.word 0) c.code c.pc i, pc := c.pc + 1 }) := by
  unfold gen
  simp only [ha.1, ha.2, hroom, ↓reduceIte]

theorem growCode_pc (c : ClauseEntry) : (growCode c).pc = c.pc := by
  unfold growCode
  split <;> rfl

theorem growCode_nreg (c : ClauseEntry) : (growCode c).nreg = c.nreg := by
  unfold growCode
  split <;> rfl

theorem growCode_nlocals (c : ClauseEntry) : (growCode c).nlocals = c.nlocals := by
  unfold growCode
  split <;> rfl

theorem growCode_code (c : ClauseEntry) : (growCode c).code = c.code := by
  unfold growCode
  split <;> rfl

/-- The second half of `gen_bind` on an identifier that is visible: the
diagnostic, after the bump of `nlocals`. -/
theorem gen_bind_lhs_bound (n : Node) (hx : Hdr) (o r : Int) (g : Generator) (clause : Nat)
    (c : ClauseEntry) (ha : Active g clause c)
    (hl : symtab_lookup g.tree.symbols hx.src = some r) :
    gen_bind_lhs n (.OIDENT hx) o g =
      .halt (.report .ERR_REDEFINITION n.addr hx.src)
        (g.setClauseAt clause { c with nlocals := c.nlocals + 1 }) := by
  have e0 : tree_lookup hx.src g = .ok (some r) g := by
    unfold tree_lookup
    rw [hl]
  unfold gen_bind_lhs
  simp only [bind_apply, e0, incLocals_run g clause c ha]
  rfl

theorem incLocals_step (g : Generator) (clause : Nat) (c : ClauseEntry) (ha : Active g clause c) :
    ∃ g', incLocals g = .ok () g' ∧ g'.tree = g.tree ∧
      Active g' clause { c with nlocals := c.nlocals + 1 } :=
  ⟨_, incLocals_run g clause c ha, rfl, active_set _ ha⟩

theorem nextreg_step (g : Generator) (clause : Nat) (c : ClauseEntry) (ha : Active g clause c) :
    ∃ g', nextreg g = .ok (c.nreg : Int) g' ∧ g'.tree = g.tree ∧
      Active g' clause { c with nreg := c.nreg + 1 } :=
  ⟨_, nextreg_run g clause c ha, rfl, active_set _ ha⟩

theorem define_step (s : String) (r : Int) (g : Generator) (clause : Nat) (c : ClauseEntry)
    (t : List (String × Int)) (ps : List (List (String × Int))) (ha : Active g clause c)
    (h : g.tree.symbols = t :: ps) :
    ∃ g', define s r g = .ok r g' ∧ g'.tree.symbols = ((s, r) :: t) :: ps ∧ Active g' clause c :=
  ⟨_, define_run s r g t ps h, rfl, active_of_same rfl rfl rfl ha⟩

theorem gen_step (i : Instruction) (g : Generator) (clause : Nat) (c : ClauseEntry)
    (ha : Active g clause c) (hroom : (growCode c).pc < (growCode c).codewords) :
    ∃ g', gen i g = .ok c.pc g' ∧ g'.tree = g.tree ∧ Active g' clause
      { growCode c with code := storeAt (.word 0) c.code c.pc i, pc := c.pc + 1 } :=
  ⟨_, gen_run i g clause c ha hroom, rfl, active_set _ ha⟩

/-- The second half of `gen_bind` on an identifier that is not visible. -/
theorem gen_bind_lhs_fresh (n : Node) (hx : Hdr) (o : Int) (g : Generator) (clause : Nat)
    (c : ClauseEntry) (t : List (String × Int)) (ps : List (List (String × Int)))
    (ha : Active g clause c) (hl : symtab_lookup g.tree.symbols hx.src = none)
    (hs : g.tree.symbols = t :: ps) (hroom : (growCode c).pc < (growCode c).codewords) :
    ∃ g' c', gen_bind_lhs n (.OIDENT hx) o g = .ok 0 g' ∧
      g'.tree.symbols = ((hx.src, (c.nreg : Int)) :: t) :: ps ∧ Active g' clause c' ∧
      c'.nreg = c.nreg + 1 ∧ c'.nlocals = c.nlocals + 1 ∧ c'.pc = c.pc + 1 ∧
      c'.word c.pc = (if ISK o then .iAD .OP_LOADK c.nreg o else .iABC .OP_MOVE c.nreg o 0) ∧
      ∀ k, k ≠ c.pc → c'.word k = c.word k := by
  have e0 : tree_lookup hx.src g = .ok none g := by
    unfold tree_lookup
    rw [hl]
  obtain ⟨g1, e1, t1, a1⟩ := incLocals_step g clause c ha
  obtain ⟨g2, e2, t2, a2⟩ := nextreg_step g1 clause _ a1
  obtain ⟨g3, e3, t3, a3⟩ := define_step hx.src (c.nreg : Int) g2 clause _ t ps a2
    (by rw [t2, t1]; exact hs)
  have hroom' : (growCode { c with nlocals := c.nlocals + 1, nreg := c.nreg + 1 }).pc <
      (growCode { c with nlocals := c.nlocals + 1, nreg := c.nreg + 1 }).codewords := by
    unfold growCode at hroom ⊢
    split at hroom <;> rename_i hg
    · rw [if_pos hg]
      exact hroom
    · rw [if_neg hg]
      exact hroom
  have e4 := fun i => gen_step i g3 clause _ a3 hroom'
  unfold gen_bind_lhs
  simp only [bind_apply, e0, e1, e2, e3]
  split
  · rename_i hk
    obtain ⟨g4, e4, t4, a4⟩ := e4 (.iAD .OP_LOADK (c.nreg : Int) o)
    simp only [bind_apply, e4]
    refine ⟨g4, _, rfl, by rw [t4]; exact t3, a4, growCode_nreg _, growCode_nlocals _, rfl,
      ?_, fun k hk' => storeAt_getD_other _ _ _ _ _ hk'⟩
    exact storeAt_getD_self _ _ _ _
  · rename_i hk
    obtain ⟨g4, e4, t4, a4⟩ := e4 (.iABC .OP_MOVE (c.nreg : Int) o 0)
    simp only [bind_apply, e4]
    refine ⟨g4, _, rfl, by rw [t4]; exact t3, a4, growCode_nreg _, growCode_nlocals _, rfl,
      ?_, fun k hk' => storeAt_getD_other _ _ _ _ _ hk'⟩
    exact storeAt_getD_self _ _ _ _

theorem gen_defined_ne (n : Node) (h : Hdr) (g g' : Generator) (o : Int)
    (hr : gen_defined n h g = .ok o g') : o ≠ -1 := by
  unfold gen_defined at hr
  simp only [bind_ok] at hr
  obtain ⟨reg, g1, _, h2⟩ := hr
  split at h2
  · cases h2
  · rename_i hne
    rw [pure_ok] at h2
    rw [← h2.1]
    exact hne

/-- The first half of `gen_bind`: once the rhs has returned the operand `o`,
the function goes on with the lhs. -/
theorem gen_bind_rhs_run (n lval rval : Node) (g g1 : Generator) (o : Int)
    (hrhs : (match rval with
      | .OIDENT hr => gen_defined rval hr
      | _ => gen_node rval) g = .ok o g1) :
    gen_bind n lval rval (gen_node rval) g = gen_bind_lhs n lval o g1 := by
  cases rval with
  | null =>
    simp only [gen_node] at hrhs
    cases hrhs
  | OIDENT hr =>
    simp only at hrhs
    have hne := gen_defined_ne _ _ _ _ _ hrhs
    unfold gen_bind
    simp only [bind_apply, hrhs, hne, ↓reduceIte]
  | _ =>
    simp only at hrhs
    unfold gen_bind
    simp only [bind_apply, hrhs]

/-! ## The code fits its buffer -/

theorem fitsKept_refl (h : List ClauseEntry) : FitsKept h h := by
  refine ⟨le_refl _, fun r c' hc' => ⟨fun c hc hf => ?_, fun hr => ?_⟩⟩
  · rw [hc'] at hc
    cases hc
    exact hf
  · have := (List.getElem?_eq_some.1 hc').1
    omega

theorem fitsKept_trans {h1 h2 h3 : List ClauseEntry} (a : FitsKept h1 h2) (b : FitsKept h2 h3) :
    FitsKept h1 h3 := by
  refine ⟨le_trans a.1 b.1, fun r c3 hc3 => ⟨fun c1 hc1 hf => ?_, fun hr => ?_⟩⟩
  · have hlt : r < h2.length := by
      have := (List.getElem?_eq_some.1 hc1).1
      have := a.1
      omega
    have hc2 : h2[r]? = some (h2[r]) := List.getElem?_eq_getElem hlt
    exact (b.2 r c3 hc3).1 _ hc2 ((a.2 r _ hc2).1 c1 hc1 hf)
  · by_cases hlt : r < h2.length
    · have hc2 : h2[r]? = some (h2[r]) := List.getElem?_eq_getElem hlt
      exact (b.2 r c3 hc3).1 _ hc2 ((a.2 r _ hc2).2 hr)
    · exact (b.2 r c3 hc3).2 (by omega)

theorem fitsKept_set (h : List ClauseEntry) (r : Nat) (c c' : ClauseEntry)
    (hc : h[r]? = some c) (hf : Fits c → Fits c') : FitsKept h (h.set r c') := by
  have hlt : r < h.length := (List.getElem?_eq_some.1 hc).1
  refine ⟨by simp, fun k d hd => ⟨fun c0 hc0 hf0 => ?_, fun hk => ?_⟩⟩
  · by_cases hkr : k = r
    · subst hkr
      rw [List.getElem?_set_self hlt] at hd
      cases hd
      rw [hc] at hc0
      cases hc0
      exact hf hf0
    · rw [List.getElem?_set_ne (Ne.symm hkr)] at hd
      rw [hd] at hc0
      cases hc0
      exact hf0
  · have := (List.getElem?_eq_some.1 hd).1
    simp only [List.length_set] at this
    omega

theorem fitsKept_append (h : List ClauseEntry) (c : ClauseEntry) (hf : Fits c) :
    FitsKept h (h ++ [c]) := by
  refine ⟨by simp, fun k d hd => ⟨fun c0 hc0 hf0 => ?_, fun hk => ?_⟩⟩
  · have hlt : k < h.length := (List.getElem?_eq_some.1 hc0).1
    rw [List.getElem?_append_left hlt, hc0] at hd
    cases hd
    exact hf0
  · have hlt := (List.getElem?_eq_some.1 hd).1
    simp only [List.length_append, List.length_singleton] at hlt
    have hk' : k = h.length := by omega
    subst hk'
    simp only [List.getElem?_concat_length, Option.some.injEq] at hd
    rw [← hd]
    exact hf

theorem gen_fitsKept (i : Instruction) (g g' : Generator) (a : Nat) (h : gen i g = .ok a g') :
    FitsKept g.heap g'.heap := by
  have hfit := gen_fits i g g' a h
  obtain ⟨r, c, hr, hc, _, rfl⟩ := gen_ok i g g' a h
  refine fitsKept_set g.heap r c _ hc (fun hf => ?_)
  obtain ⟨h1, _⟩ := hfit r c hr hc
  obtain ⟨f1, f2⟩ := hf
  unfold growCode at h1 ⊢
  split
  · rename_i hg
    rw [if_pos hg] at h1
    exact ⟨by show c.pc + 1 + 1 ≤ c.codesize + 4096; omega,
      by show (c.codesize + 4096) / 4 ≤ c.codesize + 4096; omega⟩
  · rename_i hg
    rw [if_neg hg] at h1
    exact ⟨by show c.pc + 1 + 1 ≤ c.codesize; omega, f2⟩

theorem gen_constant_fitsKept (s : Option String) (v : TValue) (g g' : Generator) (a : Int)
    (h : gen_constant s v g = .ok a g') : FitsKept g.heap g'.heap := by
  unfold gen_constant at h
  cases hr : g.clauseRef with
  | none => simp [hr] at h
  | some r =>
    cases hc : g.heap[r]? with
    | none => simp [hr, hc] at h
    | some c =>
      simp only [hr, hc] at h
      split at h
      · simp only [Outcome.ok.injEq] at h
        rw [← h.2]
        exact fitsKept_refl _
      · split at h
        · simp only [Outcome.ok.injEq] at h
          rw [← h.2]
          exact fitsKept_set g.heap r c _ hc (fun hf => hf)
        · cases h

theorem patchCode_fitsKept (clause idx : Nat) (v : Instruction) (g g' : Generator) (a : Unit)
    (h : patchCode clause idx v g = .ok a g') : FitsKept g.heap g'.heap := by
  unfold patchCode at h
  cases hc : g.heap[clause]? with
  | none => simp [hc] at h
  | some c =>
    simp only [hc] at h
    split at h
    · simp only [Outcome.ok.injEq] at h
      rw [← h.2]
      exact fitsKept_set g.heap clause c _ hc (fun hf => hf)
    · cases h

theorem nextreg_fitsKept (g g' : Generator) (a : Int) (h : nextreg g = .ok a g') :
    FitsKept g.heap g'.heap := by
  obtain ⟨r, c, _, hc, _, rfl⟩ := nextreg_ok g g' a h
  exact fitsKept_set g.heap r c _ hc (fun hf => hf)

/-- Every step of the lowering keeps the code of every clause entry within its
buffer as `codesize` measures it. -/
theorem fits_simple : Simple (fun g g' => FitsKept g.heap g'.heap) where
  refl g := fitsKept_refl _
  trans _ _ _ := fitsKept_trans
  nextreg g a g' h := nextreg_fitsKept g g' a h
  incLocals g a g' h := by
    obtain ⟨r, c, _, hc, rfl⟩ := incLocals_ok g g' a h
    exact fitsKept_set g.heap r c _ hc (fun hf => hf)
  gen i _ g a g' h := gen_fitsKept i g g' a h
  gen_constant s v g a g' h := gen_constant_fitsKept s v g g' a h
  define s r g a g' h := by
    unfold define at h
    split at h
    · cases h
    · simp only [Outcome.ok.injEq] at h
      rw [← h.2]
      exact fitsKept_refl _
  setBlock n g a g' h := by
    simp only [setBlock, Outcome.ok.injEq] at h
    rw [← h.2]
    exact fitsKept_refl _
  bracket g g0 g1 g2 he h01 hx := by
    rw [enterscope_ok g () g0 he] at h01
    unfold exitscope at hx
    split at hx
    · cases hx
    · simp only [Outcome.ok.injEq] at hx
      rw [← hx.2]
      exact h01
  clause n locals body hl hb g a g' h := by
    unfold gen_clause_steps at h
    simp only [bind_ok, pure_ok] at h
    obtain ⟨oi, g1, hemit, _, g2, hrest, _, rfl⟩ := h
    unfold gen_clause_emit at hemit
    simp only [bind_ok, pure_ok] at hemit
    obtain ⟨oi', ga, halloc, _, gb, hent, _, gc, hloc, reg, gd, hbody, _, ge, hex, _, gf, hend,
      _, rfl⟩ := hemit
    obtain ⟨p, _, _, _, hha, _⟩ := allocClause_ok _ _ _ _ halloc
    obtain ⟨r1, _, _, _⟩ := restoreClause_ok _ _ _ _ hrest
    have e0 : FitsKept g.heap ga.heap := by
      rw [hha]
      exact fitsKept_append _ _ ⟨by show 0 + 1 ≤ 4096; omega, Nat.le_refl _⟩
    have e1 : FitsKept ga.heap gb.heap := by
      rw [enterscope_ok ga () gb hent]
      exact fitsKept_refl _
    have e2 : FitsKept gd.heap ge.heap := by
      unfold exitscope at hex
      split at hex
      · cases hex
      · simp only [Outcome.ok.injEq] at hex
        rw [← hex.2]
        exact fitsKept_refl _
    have e3 : FitsKept ge.heap gf.heap := by
      unfold gen_clause_end at hend
      simp only [bind_ok, pure_ok] at hend
      obtain ⟨w, gw, hw, _, gx, hx, _, gy, hy, _, rfl⟩ := hend
      rw [lastWord_state _ _ _ hw] at hx
      refine fitsKept_trans ?_ (gen_fitsKept _ _ _ _ hy)
      split at hx
      · unfold gen_clause_return at hx
        split at hx
        · simp only [bind_ok, pure_ok] at hx
          obtain ⟨_, g5, h5, _, g6, h6, _, g7, h7, _, rfl⟩ := hx
          exact fitsKept_trans (nextreg_fitsKept _ _ _ h5)
            (fitsKept_trans (gen_fitsKept _ _ _ _ h6) (gen_fitsKept _ _ _ _ h7))
        · simp only [bind_ok, pure_ok] at hx
          obtain ⟨_, g7, h7, _, rfl⟩ := hx
          exact gen_fitsKept _ _ _ _ h7
      · rw [pure_ok] at hx
        rw [← hx.2]
        exact fitsKept_refl _
    rw [r1]
    exact fitsKept_trans e0 (fitsKept_trans e1 (fitsKept_trans (hl _ _ _ hloc)
      (fitsKept_trans (hb _ _ _ hbody) (fitsKept_trans e2 e3))))
  genAny i g a g' h := gen_fitsKept i g g' a h
  patch clause idx v g a g' h := patchCode_fitsKept clause idx v g g' a h
  registerPath name n g a g' h := by
    unfold Arbre.registerPath at h
    split at h
    · simp only [Outcome.ok.injEq] at h
      rw [← h.2]
      exact fitsKept_refl _
    · cases h

/-- The entry that `gen_clause` allocates for a clause without a path
declaration inside is the one that receives the emission: when lowering
completes it is the entry appended to the heap, its node is the clause, and its
code ends in `RETURN` or `TAILCALL` and the terminator. -/
theorem gen_clause_allocated (h : Hdr) (lval : Node) (nguards : Nat) (guards : NodeList)
    (rval : Node) (g g' : Generator) (r : Int)
    (hn : (Node.OCLAUSE h lval nguards guards rval).noPath = true)
    (hok : gen_clause (.OCLAUSE h lval nguards guards rval) g = .ok r g') :
    ∃ c, g'.heap[g.heap.length]? = some c ∧ c.node = .OCLAUSE h lval nguards guards rval ∧
      EndsInReturn c := by
  have hrv : rval.noPath = true := by
    simp only [Node.noPath, Bool.and_eq_true] at hn
    exact hn.2
  rw [gen_clause] at hok
  unfold gen_clause_steps at hok
  simp only [bind_ok, pure_ok] at hok
  obtain ⟨oi, g1, hemit, _, g2, hrest, _, rfl⟩ := hok
  unfold gen_clause_emit at hemit
  simp only [bind_ok, pure_ok] at hemit
  obtain ⟨oi', ga, halloc, _, gb, hent, _, gc, hloc, reg, gd, hbody, _, ge, hex, _, gf, hend,
    rfl, rfl⟩ := hemit
  obtain ⟨p, _, _, _, hha, hra⟩ := allocClause_ok _ _ _ _ halloc
  have hnew : ga.heap[g.heap.length]? =
      some (clauseentry (.OCLAUSE h lval nguards guards rval) p.nclauses) := by
    rw [hha]
    simp
  have eae : Extends ga ge :=
    extends_trans (enterscope_ext _ _ _ _ hent)
      (extends_trans (gen_locals_pres extends_stable lval _ _ _ hloc)
        (extends_trans ((extends_gen_node rval hrv).2.1 _ _ _ hbody)
          (exitscope_ext _ _ _ _ hex)))
  have eaf : Ext (fun _ => True) ga gf :=
    ext_top_trans (ext_mono (fun _ hf => hf.elim) eae) (gen_clause_end_ext _ _ _ _ hend)
  obtain ⟨_, x2, _, _, cf, x5, _, x7, _, _, _⟩ := eaf _ _ hra hnew
  obtain ⟨c, hc, hends⟩ := gen_clause_end_ok _ _ _ hend
  obtain ⟨ref, href, hheap⟩ := (clause_eq_some _ c).1 hc
  rw [x2] at href
  simp only [Option.some.injEq] at href
  rw [← href, x5] at hheap
  simp only [Option.some.injEq] at hheap
  obtain ⟨r1, _, _, _⟩ := restoreClause_ok _ _ _ _ hrest
  refine ⟨cf, by rw [r1]; exact x5, by rw [x7]; rfl, ?_⟩
  rw [hheap]
  exact hends

/-! ## The layout of a tuple -/

/-- The emission of a word leaves `nreg` as it is. -/
theorem gen_active_nreg (i : Instruction) (g g' : Generator) (p : Nat) (clause : Nat)
    (c c' : ClauseEntry) (h : gen i g = .ok p g') (ha : Active g clause c)
    (ha' : Active g' clause c') : c'.nreg = c.nreg := by
  obtain ⟨r, c0, hr, hc, _, rfl⟩ := gen_ok i g g' p h
  have e1 : r = clause := Option.some.inj (hr.symm.trans ha.1)
  subst e1
  have e2 : c0 = c := Option.some.inj (hc.symm.trans ha.2)
  subst e2
  have e3 := (heap_setClauseAt_self g _ _ _ hc).symm.trans ha'.2
  simp only [Option.some.injEq] at e3
  rw [← e3]
  exact growCode_nreg _

/-- The loop of `gen_tuple` lays the members out one after the other. -/
theorem gen_tuple_members_laid (clause : Nat) (r : Int) (arity : Nat) :
    ∀ (ms : NodeList) (i : Nat) (g g' : Generator) (c : ClauseEntry), ms.noPath = true →
      i + ms.length = arity → Active g clause c →
      gen_tuple_members r arity ms i g = .ok () g' →
      ∃ c', Active g' clause c' ∧ c.pc ≤ c'.pc ∧ (∀ k, k < c.pc → c'.word k = c.word k) ∧
        ∀ cf : ClauseEntry, cf.pc = c'.pc → (∀ k, k < c'.pc → cf.word k = c'.word k) →
          TupleLaid clause r cf ms i g
  | .nil, i, g, g', c, _, hlen, hact => by
    intro hok
    simp only [NodeList.length] at hlen
    simp only [gen_tuple_members] at hok
    rw [if_neg (by omega)] at hok
    obtain ⟨_, rfl⟩ := (pure_ok _ _ _ _).1 hok
    exact ⟨c, hact, le_refl _, fun _ _ => rfl, fun cf hpc _ => ⟨c, hact, hpc⟩⟩
  | .cons m tl, i, g, g', c, hn, hlen, hact => by
    intro hok
    simp only [NodeList.noPath, Bool.and_eq_true] at hn
    simp only [NodeList.length] at hlen
    simp only [gen_tuple_members] at hok
    rw [if_pos (by omega)] at hok
    simp only [bind_ok] at hok
    obtain ⟨v, g1, hm, p, g2, hset, hrest⟩ := hok
    obtain ⟨c1, hact1, hpc1, hw1, _⟩ := ext_active ((extends_gen_node m hn.1).1 _ _ _ hm) hact
    obtain ⟨hp, c2, hact2, hpc2, hw2, hw2o⟩ := gen_active _ _ _ _ _ _ hset hact1
    obtain ⟨c', hact', hpc', hw', hlaid⟩ :=
      gen_tuple_members_laid clause r arity tl (i + 1) g2 g' c2 hn.2 (by omega) hact2 hrest
    refine ⟨c', hact', by omega, fun k hk => ?_, fun cf hcf hag => ?_⟩
    · rw [hw' k (by omega), hw2o k (by omega), hw1 k hk]
    · refine ⟨c, v, g1, c1, g2, c2, hact, hm, hact1, hpc1, fun k hk => ?_, ?_, ?_, hact2, hpc2,
        hlaid cf hcf hag⟩
      · rw [hag k (by omega), hw' k (by omega), hw2o k (by omega)]
      · rw [hag _ (by omega), hw' _ (by omega), hw2]
      · rw [← hp]
        exact hset

/-! ## Reading the constant encoding back -/

theorem or128 : ∀ y, y < 64 → y ||| 128 = y + 128 := by decide
theorem or192 : ∀ y, y < 32 → y ||| 192 = y + 192 := by decide
theorem or224 : ∀ y, y < 16 → y ||| 224 = y + 224 := by decide
theorem or240 : ∀ y, y < 8 → y ||| 240 = y + 240 := by decide

theorem u32_shr (v : UInt32) (k : Nat) (hk : k < 32) :
    (v >>> UInt32.ofNat k).toNat = v.toNat / 2 ^ k := by
  show (v.toBitVec >>> (UInt32.mod (UInt32.ofNat k) 32).toBitVec).toNat = _
  rw [BitVec.ushiftRight_eq', BitVec.toNat_ushiftRight, Nat.shiftRight_eq_div_pow]
  have : (UInt32.mod (UInt32.ofNat k) 32).toBitVec.toNat = k := by
    show (BitVec.ofNat 32 k % BitVec.ofNat 32 32).toNat = k
    rw [BitVec.toNat_umod]
    simp only [BitVec.toNat_ofNat]
    norm_num
    omega
  rw [this]
  rfl

theorem u8_mask (x : Nat) (j o : Nat) (hj : j ≤ 8) (ho : o < 256)
    (hor : ∀ y, y < 2 ^ j → y ||| o = y + o) :
    (x.toUInt8 &&& UInt8.ofNat (2 ^ j - 1) ||| UInt8.ofNat o).toNat = x % 2 ^ j + o := by
  show ((BitVec.ofNat 8 x &&& BitVec.ofNat 8 (2 ^ j - 1)) ||| BitVec.ofNat 8 o).toNat = _
  rw [BitVec.toNat_or, BitVec.toNat_and]
  simp only [BitVec.toNat_ofNat]
  have hp : 2 ^ j ≤ 2 ^ 8 := Nat.pow_le_pow_right (by norm_num) hj
  have hpos : 0 < 2 ^ j := Nat.pos_pow_of_pos _ (by norm_num)
  rw [Nat.mod_eq_of_lt (show 2 ^ j - 1 < 2 ^ 8 by omega), Nat.mod_eq_of_lt (show o < 2 ^ 8 from ho),
    Nat.and_pow_two_sub_one_eq_mod, hor _ (Nat.mod_lt _ hpos)]
  congr 1
  exact Nat.mod_mod_of_dvd x (Nat.pow_dvd_pow 2 hj)

theorem u8_byte (v : UInt32) (k j o : Nat) (hk : k < 32) (hj : j ≤ 8) (ho : o < 256)
    (hor : ∀ y, y < 2 ^ j → y ||| o = y + o) :
    ((v >>> UInt32.ofNat k).toUInt8 &&& UInt8.ofNat (2 ^ j - 1) ||| UInt8.ofNat o).toNat
      = v.toNat / 2 ^ k % 2 ^ j + o := by
  show ((v >>> UInt32.ofNat k).toNat.toUInt8 &&& UInt8.ofNat (2 ^ j - 1) ||| UInt8.ofNat o).toNat = _
  rw [u8_mask _ j o hj ho hor, u32_shr v k hk]

theorem u8_last (v : UInt32) :
    (v.toUInt8 &&& (63 : UInt8) ||| (128 : UInt8)).toNat = v.toNat % 64 + 128 :=
  u8_mask v.toNat 6 128 (by norm_num) (by norm_num) or128

/-- The bytes of `String.utf8EncodeChar`, in arithmetic. -/
theorem utf8_bytes (c : Char) :
    (String.utf8EncodeChar c).map (fun b => b.toNat) = utf8Nat c.toNat := by
  have hle : ∀ m : Nat, m < 4294967296 → (c.val ≤ UInt32.ofNat m ↔ c.toNat ≤ m) := by
    intro m hm
    rw [UInt32.le_def, BitVec.le_def]
    show c.val.toBitVec.toNat ≤ (BitVec.ofNat 32 m).toNat ↔ _
    rw [BitVec.toNat_ofNat, Nat.mod_eq_of_lt hm]
    rfl
  have hle1 : c.val ≤ (127 : UInt32) ↔ c.toNat ≤ 127 := hle 127 (by norm_num)
  have hle2 : c.val ≤ (2047 : UInt32) ↔ c.toNat ≤ 2047 := hle 2047 (by norm_num)
  have hle3 : c.val ≤ (65535 : UInt32) ↔ c.toNat ≤ 65535 := hle 65535 (by norm_num)
  unfold String.utf8EncodeChar utf8Nat
  simp only
  by_cases h1 : c.toNat ≤ 127
  · rw [if_pos (hle1.2 h1), if_pos h1]
    simp only [List.map]
    have : c.val.toUInt8.toNat = c.toNat := by
      show (BitVec.ofNat 8 c.val.toNat).toNat = _
      rw [BitVec.toNat_ofNat]
      exact Nat.mod_eq_of_lt (by unfold Char.toNat at h1; omega)
    rw [this]
  · rw [if_neg (fun h => h1 (hle1.1 h)), if_neg h1]
    by_cases h2 : c.toNat ≤ 2047
    · rw [if_pos (hle2.2 h2), if_pos h2]
      simp only [List.map]
      have e := u8_byte c.val 6 5 192 (by norm_num) (by norm_num) (by norm_num) or192
      rw [show ((c.val >>> (6 : UInt32)).toUInt8 &&& (31 : UInt8) ||| (192 : UInt8)).toNat
        = c.val.toNat / 2 ^ 6 % 2 ^ 5 + 192 from e, u8_last c.val]
      rfl
    · rw [if_neg (fun h => h2 (hle2.1 h)), if_neg h2]
      by_cases h3 : c.toNat ≤ 65535
      · rw [if_pos (hle3.2 h3), if_pos h3]
        simp only [List.map]
        have e1 := u8_byte c.val 12 4 224 (by norm_num) (by norm_num) (by norm_num) or224
        have e2 := u8_byte c.val 6 6 128 (by norm_num) (by norm_num) (by norm_num) or128
        rw [show ((c.val >>> (12 : UInt32)).toUInt8 &&& (15 : UInt8) ||| (224 : UInt8)).toNat
          = c.val.toNat / 2 ^ 12 % 2 ^ 4 + 224 from e1,
          show ((c.val >>> (6 : UInt32)).toUInt8 &&& (63 : UInt8) ||| (128 : UInt8)).toNat
          = c.val.toNat / 2 ^ 6 % 2 ^ 6 + 128 from e2, u8_last c.val]
        rfl
      · rw [if_neg (fun h => h3 (hle3.1 h)), if_neg h3]
        simp only [List.map]
        have e0 := u8_byte c.val 18 3 240 (by norm_num) (by norm_num) (by norm_num) or240
        have e1 := u8_byte c.val 12 6 128 (by norm_num) (by norm_num) (by norm_num) or128
        have e2 := u8_byte c.val 6 6 128 (by norm_num) (by norm_num) (by norm_num) or128
        rw [show ((c.val >>> (18 : UInt32)).toUInt8 &&& (7 : UInt8) ||| (240 : UInt8)).toNat
          = c.val.toNat / 2 ^ 18 % 2 ^ 3 + 240 from e0,
          show ((c.val >>> (12 : UInt32)).toUInt8 &&& (63 : UInt8) ||| (128 : UInt8)).toNat
          = c.val.toNat / 2 ^ 12 % 2 ^ 6 + 128 from e1,
          show ((c.val >>> (6 : UInt32)).toUInt8 &&& (63 : UInt8) ||| (128 : UInt8)).toNat
          = c.val.toNat / 2 ^ 6 % 2 ^ 6 + 128 from e2, u8_last c.val]
        rfl

theorem char_toNat_lt (c : Char) : c.toNat < 1114112 := by
  have h := c.valid
  unfold Char.toNat
  rcases h with h | h
  · have : c.val.toNat < 55296 := h
    omega
  · exact h.2

theorem utf8Go_lead (b : Nat) (bs : List Nat) (acc : Nat) :
    utf8Go (b :: bs) 0 acc =
      if b < 128 then Char.ofNat b :: utf8Go bs 0 0
      else if b < 224 then utf8Go bs 1 (b - 192)
      else if b < 240 then utf8Go bs 2 (b - 224)
      else utf8Go bs 3 (b - 240) := by
  rw [utf8Go]

theorem utf8Go_cont (b : Nat) (bs : List Nat) (need acc : Nat) :
    utf8Go (b :: bs) (need + 1) acc =
      if need = 0 then Char.ofNat (acc * 64 + (b - 128)) :: utf8Go bs 0 0
      else utf8Go bs need (acc * 64 + (b - 128)) := by
  rw [utf8Go]

/-- Reading the bytes of one character gives the character back. -/
theorem utf8Chars_char (c : Char) (rest : List Nat) :
    utf8Chars (utf8Nat c.toNat ++ rest) = c :: utf8Chars rest := by
  have hlt := char_toNat_lt c
  have hc : ∀ n, n = c.toNat → Char.ofNat n = c := fun n hn => by rw [hn, Char.ofNat_toNat]
  unfold utf8Nat utf8Chars
  by_cases h1 : c.toNat ≤ 127
  · rw [if_pos h1, List.singleton_append, utf8Go_lead, if_pos (by omega), hc _ rfl]
  · rw [if_neg h1]
    by_cases h2 : c.toNat ≤ 2047
    · rw [if_pos h2]
      show utf8Go (_ :: _ :: rest) 0 0 = _
      rw [utf8Go_lead, if_neg (by omega), if_pos (by omega), utf8Go_cont _ _ 0, if_pos rfl,
        hc _ (by omega)]
    · rw [if_neg h2]
      by_cases h3 : c.toNat ≤ 65535
      · rw [if_pos h3]
        show utf8Go (_ :: _ :: _ :: rest) 0 0 = _
        rw [utf8Go_lead, if_neg (by omega), if_neg (by omega), if_pos (by omega),
          utf8Go_cont _ _ 1, if_neg (by omega), utf8Go_cont _ _ 0, if_pos rfl, hc _ (by omega)]
      · rw [if_neg h3]
        show utf8Go (_ :: _ :: _ :: _ :: rest) 0 0 = _
        rw [utf8Go_lead, if_neg (by omega), if_neg (by omega), if_neg (by omega),
          utf8Go_cont _ _ 2, if_neg (by omega), utf8Go_cont _ _ 1, if_neg (by omega),
          utf8Go_cont _ _ 0, if_pos rfl, hc _ (by omega)]

theorem utf8Nat_ne_zero (n : Nat) (hn : n ≠ 0) : ∀ b, b ∈ utf8Nat n → b ≠ 0 := by
  intro b hb
  unfold utf8Nat at hb
  split at hb
  · simp only [List.mem_singleton] at hb
    omega
  · split at hb
    · simp only [List.mem_cons, List.mem_singleton, List.not_mem_nil, or_false] at hb
      omega
    · split at hb
      · simp only [List.mem_cons, List.mem_singleton, List.not_mem_nil, or_false] at hb
        omega
      · simp only [List.mem_cons, List.mem_singleton, List.not_mem_nil, or_false] at hb
        omega

/-- The UTF-8 bytes of a list of characters. -/
theorem utf8Chars_flatten : ∀ (cs : List Char),
    utf8Chars ((cs.map (fun c => (String.utf8EncodeChar c).map (fun b => b.toNat))).flatten) = cs
  | [] => rfl
  | c :: cs => by
    simp only [List.map_cons, List.flatten_cons]
    rw [utf8_bytes, utf8Chars_char, utf8Chars_flatten cs]

theorem utf8_flatten_ne_zero : ∀ (cs : List Char), (cs.all (fun c => c.toNat != 0)) = true →
    ∀ b, b ∈ (cs.map (fun c => (String.utf8EncodeChar c).map (fun b => b.toNat))).flatten → b ≠ 0
  | [], _, b, hb => by simp at hb
  | c :: cs, hall, b, hb => by
    simp only [List.all_cons, Bool.and_eq_true, bne_iff_ne, ne_eq] at hall
    simp only [List.map_cons, List.flatten_cons, List.mem_append] at hb
    rcases hb with hb | hb
    · rw [utf8_bytes] at hb
      exact utf8Nat_ne_zero _ hall.1 b hb
    · exact utf8_flatten_ne_zero cs hall.2 b hb

/-- The bytes of a C string without NUL are all its UTF-8 bytes, none of them
zero, and they spell the text. -/
theorem cstr_noNul (s : String) (hs : noNul s = true) :
    (∀ b, b ∈ cstr s → b ≠ 0) ∧ String.mk (utf8Chars (cstr s)) = s := by
  have hne := utf8_flatten_ne_zero s.toList hs
  have hc : cstr s
      = (s.toList.map (fun c => (String.utf8EncodeChar c).map (fun b => b.toNat))).flatten := by
    unfold cstr
    rw [List.takeWhile_eq_self_iff]
    intro b hb
    simpa using hne b hb
  rw [hc]
  refine ⟨hne, ?_⟩
  rw [utf8Chars_flatten]
  cases s
  rfl

theorem read_bytes0_ok : ∀ (l rest : List Nat), (∀ b, b ∈ l → b ≠ 0) →
    read_bytes0 (l ++ 0 :: rest) = some (l, rest)
  | [], rest, _ => by simp [read_bytes0]
  | b :: l, rest, h => by
    rw [List.cons_append, read_bytes0, if_neg (h b (List.mem_cons_self _ _)),
      read_bytes0_ok l rest (fun x hx => h x (List.mem_cons_of_mem _ hx))]

theorem read_cstr_ok (s : String) (hs : noNul s = true) (rest : List Nat) :
    read_cstr (cstr s ++ 0 :: rest) = some (s, rest) := by
  obtain ⟨h1, h2⟩ := cstr_noNul s hs
  unfold read_cstr
  rw [read_bytes0_ok _ _ h1]
  simp only [h2]

theorem leBytes_length : ∀ (n x : Nat), (leBytes n x).length = n
  | 0, _ => rfl
  | n + 1, x => by simp [leBytes, leBytes_length n]

theorem leNat_leBytes : ∀ (n x : Nat), leNat (leBytes n x) = x % 256 ^ n
  | 0, x => by simp [leBytes, leNat, Nat.mod_one]
  | n + 1, x => by
    simp only [leBytes, leNat]
    rw [leNat_leBytes n, pow_succ', Nat.mod_mul]

theorem read_size_ok (n x : Nat) (rest : List Nat) :
    read_size n (leBytes n x ++ rest) = some (x % 256 ^ n, rest) := by
  unfold read_size
  have hl := leBytes_length n x
  rw [if_neg (by simp [hl]), List.take_left' hl, List.drop_left' hl, leNat_leBytes]

theorem read_int_ok (v : Int) (hv : inInt v = true) (rest : List Nat) :
    read_int 4 (intBytes 4 v ++ rest) = some (v, rest) := by
  unfold inInt at hv
  simp only [decide_eq_true_eq] at hv
  unfold read_int intBytes
  rw [read_size_ok]
  have h0 : (0 : Int) ≤ v % 256 ^ 4 := Int.emod_nonneg _ (by norm_num)
  have h1 : v % 256 ^ 4 < 256 ^ 4 := Int.emod_lt_of_pos _ (by norm_num)
  have hx : ((v % 256 ^ 4).toNat : Int) = v % 256 ^ 4 := Int.toNat_of_nonneg h0
  have hm : (v % 256 ^ 4).toNat % 256 ^ 4 = (v % 256 ^ 4).toNat :=
    Nat.mod_eq_of_lt (by
      have : ((v % 256 ^ 4).toNat : Int) < 256 ^ 4 := by rw [hx]; exact h1
      exact_mod_cast this)
  simp only [hm]
  congr 2
  norm_num at hx h0 h1 ⊢
  split <;> omega

theorem read_len_ok (n : Nat) (hn : n < 18446744073709551616) (rest : List Nat) :
    read_size 8 (intBytes 8 (n : Int) ++ rest) = some (n, rest) := by
  unfold intBytes
  rw [read_size_ok]
  have hx : ((n : Int) % 256 ^ 8).toNat = n := by
    norm_num
    omega
  rw [hx, Nat.mod_eq_of_lt (by norm_num; exact hn)]

theorem tag_ne {l : List Nat} (h : l.Nodup) (i j : Nat) {a b : Nat} (hi : l[i]? = some a)
    (hj : l[j]? = some b) (hij : i ≠ j) : a ≠ b := by
  intro he
  obtain ⟨hi1, hi2⟩ := List.getElem?_eq_some_iff.1 hi
  obtain ⟨hj1, hj2⟩ := List.getElem?_eq_some_iff.1 hj
  exact hij ((List.Nodup.getElem_inj_iff h).1 (by rw [hi2, hj2, he]))

theorem read_constant_cons (L : Layout) (fuel t : Nat) (bs : List Nat) :
    read_constant L (fuel + 1) (t :: bs) =
    if t = L.TYPE_NUMBER % 256 then
      match read_int 4 bs with
      | none => none
      | some (v, r) => some (.number v, r)
    else if t = L.TYPE_ATOM % 256 then
      match read_cstr bs with
      | none => none
      | some (s, r) => some (.atom s, r)
    else if t = L.TYPE_PATHID % 256 then
      match read_cstr bs with
      | none => none
      | some (m, r) =>
        match read_cstr r with
        | none => none
        | some (p, r2) => some (.pathid m p, r2)
    else if t = L.TYPE_VAR % 256 then
      match read_int 4 bs with
      | none => none
      | some (v, r) => some (.var false v, r)
    else if t = (L.TYPE_VAR ||| L.Q_RANGE) % 256 then
      match read_int 4 bs with
      | none => none
      | some (v, r) => some (.var true v, r)
    else if t = L.TYPE_ANY % 256 then
      match read_int 4 bs with
      | none => none
      | some (v, r) => some (.any false v, r)
    else if t = (L.TYPE_ANY ||| L.Q_RANGE) % 256 then
      match read_int 4 bs with
      | none => none
      | some (v, r) => some (.any true v, r)
    else if t = L.TYPE_TUPLE % 256 then
      match bs with
      | [] => none
      | n :: r =>
        match read_members (read_constant L fuel) n r with
        | none => none
        | some (vs, r2) => some (.tuple n vs, r2)
    else if t = L.TYPE_LIST % 256 then
      match read_size 8 bs with
      | none => none
      | some (n, r) =>
        match read_members (read_constant L fuel) n r with
        | none => none
        | some (vs, r2) => some (.list vs, r2)
    else none := rfl

theorem dump_members_cells (L : Layout) : ∀ vs : TValues,
    dump_members L (TValues.length vs) vs = dump_cells L vs
  | .nil => by simp [TValues.length, dump_members, dump_cells]
  | .cons v vs => by
    simp only [TValues.length, dump_members, dump_cells]
    rw [dump_members_cells L vs]

theorem depth_pos : ∀ v : TValue, 1 ≤ v.depth
  | .null => by simp [TValue.depth]
  | .number _ => by simp [TValue.depth]
  | .atom _ => by simp [TValue.depth]
  | .pathid _ _ => by simp [TValue.depth]
  | .var _ _ => by simp [TValue.depth]
  | .any _ _ => by simp [TValue.depth]
  | .tuple _ _ => by simp [TValue.depth]
  | .list _ => by simp [TValue.depth]

theorem read_number (L : Layout) (fuel : Nat) (v : Int) (hv : inInt v = true) (rest : List Nat) :
    read_constant L (fuel + 1) (fputc L.TYPE_NUMBER ++ intBytes 4 v ++ rest)
      = some (.number v, rest) := by
  simp only [fputc, List.singleton_append, List.cons_append, List.append_assoc, List.nil_append]
  rw [read_constant_cons, if_pos rfl, read_int_ok v hv]

section
variable (L : Layout) (hL : L.Distinct)
include hL

theorem read_atom (fuel : Nat) (s : String) (hs : noNul s = true) (rest : List Nat) :
    read_constant L (fuel + 1) (fputc L.TYPE_ATOM ++ cstr s ++ [0] ++ rest)
      = some (.atom s, rest) := by
  have n10 : L.TYPE_ATOM % 256 ≠ L.TYPE_NUMBER % 256 :=
    tag_ne hL 1 0 rfl rfl (by decide)
  simp only [fputc, List.singleton_append, List.cons_append, List.append_assoc, List.nil_append]
  rw [read_constant_cons, if_neg n10, if_pos rfl, read_cstr_ok s hs]

theorem read_pathid (fuel : Nat) (m p : String) (hm : noNul m = true) (hp : noNul p = true)
    (rest : List Nat) :
    read_constant L (fuel + 1) (fputc L.TYPE_PATHID ++ cstr m ++ [0] ++ cstr p ++ [0] ++ rest)
      = some (.pathid m p, rest) := by
  have n20 : L.TYPE_PATHID % 256 ≠ L.TYPE_NUMBER % 256 :=
    tag_ne hL 2 0 rfl rfl (by decide)
  have n21 : L.TYPE_PATHID % 256 ≠ L.TYPE_ATOM % 256 :=
    tag_ne hL 2 1 rfl rfl (by decide)
  simp only [fputc, List.singleton_append, List.cons_append, List.append_assoc, List.nil_append]
  rw [read_constant_cons, if_neg n20, if_neg n21, if_pos rfl, read_cstr_ok m hm]
  simp only
  rw [read_cstr_ok p hp]

theorem read_var (fuel : Nat) (range : Bool) (v : Int) (hv : inInt v = true) (rest : List Nat) :
    read_constant L (fuel + 1)
        (fputc (if range then L.TYPE_VAR ||| L.Q_RANGE else L.TYPE_VAR) ++ intBytes 4 v ++ rest)
      = some (.var range v, rest) := by
  have n30 : L.TYPE_VAR % 256 ≠ L.TYPE_NUMBER % 256 :=
    tag_ne hL 3 0 rfl rfl (by decide)
  have n31 : L.TYPE_VAR % 256 ≠ L.TYPE_ATOM % 256 :=
    tag_ne hL 3 1 rfl rfl (by decide)
  have n32 : L.TYPE_VAR % 256 ≠ L.TYPE_PATHID % 256 :=
    tag_ne hL 3 2 rfl rfl (by decide)
  have n40 : (L.TYPE_VAR ||| L.Q_RANGE) % 256 ≠ L.TYPE_NUMBER % 256 :=
    tag_ne hL 4 0 rfl rfl (by decide)
  have n41 : (L.TYPE_VAR ||| L.Q_RANGE) % 256 ≠ L.TYPE_ATOM % 256 :=
    tag_ne hL 4 1 rfl rfl (by decide)
  have n42 : (L.TYPE_VAR ||| L.Q_RANGE) % 256 ≠ L.TYPE_PATHID % 256 :=
    tag_ne hL 4 2 rfl rfl (by decide)
  have n43 : (L.TYPE_VAR ||| L.Q_RANGE) % 256 ≠ L.TYPE_VAR % 256 :=
    tag_ne hL 4 3 rfl rfl (by decide)
  cases range with
  | false =>
    simp only [fputc, List.singleton_append, List.cons_append, List.append_assoc, List.nil_append,
      Bool.false_eq_true, ↓reduceIte]
    rw [read_constant_cons, if_neg n30, if_neg n31, if_neg n32, if_pos rfl, read_int_ok v hv]
  | true =>
    simp only [fputc, List.singleton_append, List.cons_append, List.append_assoc, List.nil_append, ↓reduceIte]
    rw [read_constant_cons, if_neg n40, if_neg n41, if_neg n42, if_neg n43, if_pos rfl,
      read_int_ok v hv]

theorem read_any (fuel : Nat) (range : Bool) (v : Int) (hv : inInt v = true) (rest : List Nat) :
    read_constant L (fuel + 1)
        (fputc (if range then L.TYPE_ANY ||| L.Q_RANGE else L.TYPE_ANY) ++ intBytes 4 v ++ rest)
      = some (.any range v, rest) := by
  have n50 : L.TYPE_ANY % 256 ≠ L.TYPE_NUMBER % 256 :=
    tag_ne hL 5 0 rfl rfl (by decide)
  have n51 : L.TYPE_ANY % 256 ≠ L.TYPE_ATOM % 256 :=
    tag_ne hL 5 1 rfl rfl (by decide)
  have n52 : L.TYPE_ANY % 256 ≠ L.TYPE_PATHID % 256 :=
    tag_ne hL 5 2 rfl rfl (by decide)
  have n53 : L.TYPE_ANY % 256 ≠ L.TYPE_VAR % 256 :=
    tag_ne hL 5 3 rfl rfl (by decide)
  have n54 : L.TYPE_ANY % 256 ≠ (L.TYPE_VAR ||| L.Q_RANGE) % 256 :=
    tag_ne hL 5 4 rfl rfl (by decide)
  have n60 : (L.TYPE_ANY ||| L.Q_RANGE) % 256 ≠ L.TYPE_NUMBER % 256 :=
    tag_ne hL 6 0 rfl rfl (by decide)
  have n61 : (L.TYPE_ANY ||| L.Q_RANGE) % 256 ≠ L.TYPE_ATOM % 256 :=
    tag_ne hL 6 1 rfl rfl (by decide)
  have n62 : (L.TYPE_ANY ||| L.Q_RANGE) % 256 ≠ L.TYPE_PATHID % 256 :=
    tag_ne hL 6 2 rfl rfl (by decide)
  have n63 : (L.TYPE_ANY ||| L.Q_RANGE) % 256 ≠ L.TYPE_VAR % 256 :=
    tag_ne hL 6 3 rfl rfl (by decide)
  have n64 : (L.TYPE_ANY ||| L.Q_RANGE) % 256 ≠ (L.TYPE_VAR ||| L.Q_RANGE) % 256 :=
    tag_ne hL 6 4 rfl rfl (by decide)
  have n65 : (L.TYPE_ANY ||| L.Q_RANGE) % 256 ≠ L.TYPE_ANY % 256 :=
    tag_ne hL 6 5 rfl rfl (by decide)
  cases range with
  | false =>
    simp only [fputc, List.singleton_append, List.cons_append, List.append_assoc, List.nil_append,
      Bool.false_eq_true, ↓reduceIte]
    rw [read_constant_cons, if_neg n50, if_neg n51, if_neg n52, if_neg n53, if_neg n54, if_pos rfl,
      read_int_ok v hv]
  | true =>
    simp only [fputc, List.singleton_append, List.cons_append, List.append_assoc, List.nil_append, ↓reduceIte]
    rw [read_constant_cons, if_neg n60, if_neg n61, if_neg n62, if_neg n63, if_neg n64, if_neg n65,
      if_pos rfl, read_int_ok v hv]

theorem read_tuple (fuel : Nat) (n : Nat) (hn : n ≤ 255) (bs rest : List Nat) (vs : TValues)
    (hm : read_members (read_constant L fuel) n (bs ++ rest) = some (vs, rest)) :
    read_constant L (fuel + 1) (fputc L.TYPE_TUPLE ++ fputc n ++ bs ++ rest)
      = some (.tuple n vs, rest) := by
  have n70 : L.TYPE_TUPLE % 256 ≠ L.TYPE_NUMBER % 256 :=
    tag_ne hL 7 0 rfl rfl (by decide)
  have n71 : L.TYPE_TUPLE % 256 ≠ L.TYPE_ATOM % 256 :=
    tag_ne hL 7 1 rfl rfl (by decide)
  have n72 : L.TYPE_TUPLE % 256 ≠ L.TYPE_PATHID % 256 :=
    tag_ne hL 7 2 rfl rfl (by decide)
  have n73 : L.TYPE_TUPLE % 256 ≠ L.TYPE_VAR % 256 :=
    tag_ne hL 7 3 rfl rfl (by decide)
  have n74 : L.TYPE_TUPLE % 256 ≠ (L.TYPE_VAR ||| L.Q_RANGE) % 256 :=
    tag_ne hL 7 4 rfl rfl (by decide)
  have n75 : L.TYPE_TUPLE % 256 ≠ L.TYPE_ANY % 256 :=
    tag_ne hL 7 5 rfl rfl (by decide)
  have n76 : L.TYPE_TUPLE % 256 ≠ (L.TYPE_ANY ||| L.Q_RANGE) % 256 :=
    tag_ne hL 7 6 rfl rfl (by decide)
  simp only [fputc, List.singleton_append, List.cons_append, List.append_assoc, List.nil_append]
  rw [read_constant_cons, if_neg n70, if_neg n71, if_neg n72, if_neg n73, if_neg n74, if_neg n75,
    if_neg n76, if_pos rfl, Nat.mod_eq_of_lt (show n < 256 by omega)]
  simp only
  rw [hm]

theorem read_list (fuel : Nat) (n : Nat) (hn : n < 18446744073709551616) (bs rest : List Nat)
    (vs : TValues)
    (hm : read_members (read_constant L fuel) n (bs ++ rest) = some (vs, rest)) :
    read_constant L (fuel + 1) (fputc L.TYPE_LIST ++ intBytes 8 (n : Int) ++ bs ++ rest)
      = some (.list vs, rest) := by
  have n80 : L.TYPE_LIST % 256 ≠ L.TYPE_NUMBER % 256 :=
    tag_ne hL 8 0 rfl rfl (by decide)
  have n81 : L.TYPE_LIST % 256 ≠ L.TYPE_ATOM % 256 :=
    tag_ne hL 8 1 rfl rfl (by decide)
  have n82 : L.TYPE_LIST % 256 ≠ L.TYPE_PATHID % 256 :=
    tag_ne hL 8 2 rfl rfl (by decide)
  have n83 : L.TYPE_LIST % 256 ≠ L.TYPE_VAR % 256 :=
    tag_ne hL 8 3 rfl rfl (by decide)
  have n84 : L.TYPE_LIST % 256 ≠ (L.TYPE_VAR ||| L.Q_RANGE) % 256 :=
    tag_ne hL 8 4 rfl rfl (by decide)
  have n85 : L.TYPE_LIST % 256 ≠ L.TYPE_ANY % 256 :=
    tag_ne hL 8 5 rfl rfl (by decide)
  have n86 : L.TYPE_LIST % 256 ≠ (L.TYPE_ANY ||| L.Q_RANGE) % 256 :=
    tag_ne hL 8 6 rfl rfl (by decide)
  have n87 : L.TYPE_LIST % 256 ≠ L.TYPE_TUPLE % 256 :=
    tag_ne hL 8 7 rfl rfl (by decide)
  simp only [fputc, List.singleton_append, List.cons_append, List.append_assoc, List.nil_append]
  rw [read_constant_cons, if_neg n80, if_neg n81, if_neg n82, if_neg n83, if_neg n84, if_neg n85,
    if_neg n86, if_neg n87, if_pos rfl, read_len_ok n hn]
  simp only
  rw [hm]

end

mutual
/-- Reading what `dump_constant` wrote gives the constant back, with fuel for
its depth. -/
theorem read_constant_ok (L : Layout) (hL : L.Distinct) : ∀ (v : TValue) (bs rest : List Nat) (fuel : Nat), v.wf = true →
    dump_constant L v = some bs → v.depth ≤ fuel →
    read_constant L fuel (bs ++ rest) = some (v, rest)
  | .null, _, _, _, hw, _, _ => by simp [TValue.wf] at hw
  | .number v, bs, rest, fuel, hw, hd, hf => by
    obtain ⟨k, rfl⟩ : ∃ k, fuel = k + 1 := ⟨fuel - 1, by simp only [TValue.depth] at hf; omega⟩
    simp only [dump_constant, Option.some.injEq] at hd
    simp only [TValue.wf] at hw
    rw [← hd]
    exact read_number L k v hw rest
  | .atom s, bs, rest, fuel, hw, hd, hf => by
    obtain ⟨k, rfl⟩ : ∃ k, fuel = k + 1 := ⟨fuel - 1, by simp only [TValue.depth] at hf; omega⟩
    simp only [dump_constant, Option.some.injEq] at hd
    simp only [TValue.wf] at hw
    rw [← hd]
    exact read_atom L hL k s hw rest
  | .pathid m p, bs, rest, fuel, hw, hd, hf => by
    obtain ⟨k, rfl⟩ : ∃ k, fuel = k + 1 := ⟨fuel - 1, by simp only [TValue.depth] at hf; omega⟩
    simp only [dump_constant, Option.some.injEq] at hd
    simp only [TValue.wf, Bool.and_eq_true] at hw
    rw [← hd]
    exact read_pathid L hL k m p hw.1 hw.2 rest
  | .var range v, bs, rest, fuel, hw, hd, hf => by
    obtain ⟨k, rfl⟩ : ∃ k, fuel = k + 1 := ⟨fuel - 1, by simp only [TValue.depth] at hf; omega⟩
    simp only [dump_constant, Option.some.injEq] at hd
    simp only [TValue.wf] at hw
    rw [← hd]
    exact read_var L hL k range v hw rest
  | .any range v, bs, rest, fuel, hw, hd, hf => by
    obtain ⟨k, rfl⟩ : ∃ k, fuel = k + 1 := ⟨fuel - 1, by simp only [TValue.depth] at hf; omega⟩
    simp only [dump_constant, Option.some.injEq] at hd
    simp only [TValue.wf] at hw
    rw [← hd]
    exact read_any L hL k range v hw rest
  | .tuple arity members, bs, rest, fuel, hw, hd, hf => by
    simp only [TValue.depth] at hf
    obtain ⟨k, rfl⟩ : ∃ k, fuel = k + 1 := ⟨fuel - 1, by omega⟩
    simp only [TValue.wf, Bool.and_eq_true, decide_eq_true_eq] at hw
    obtain ⟨⟨ha, hlen⟩, hwm⟩ := hw
    simp only [dump_constant] at hd
    rw [Nat.mod_eq_of_lt (show arity < 256 by omega), ← hlen, dump_members_cells] at hd
    cases hm : dump_cells L members with
    | none => simp [hm] at hd
    | some mb =>
      simp only [hm, Option.some.injEq] at hd
      rw [← hd, hlen]
      refine read_tuple L hL k arity ha mb rest members ?_
      rw [← hlen]
      exact read_cells_ok L hL members mb rest k hwm hm (by omega)
  | .list cells, bs, rest, fuel, hw, hd, hf => by
    simp only [TValue.depth] at hf
    obtain ⟨k, rfl⟩ : ∃ k, fuel = k + 1 := ⟨fuel - 1, by omega⟩
    simp only [TValue.wf, Bool.and_eq_true, decide_eq_true_eq] at hw
    obtain ⟨hlen, hwm⟩ := hw
    simp only [dump_constant] at hd
    cases hm : dump_cells L cells with
    | none => simp [hm] at hd
    | some mb =>
      simp only [hm, Option.some.injEq] at hd
      rw [← hd]
      exact read_list L hL k _ hlen mb rest cells
        (read_cells_ok L hL cells mb rest k hwm hm (by omega))
/-- Reading what the member loop wrote gives the members back. -/
theorem read_cells_ok (L : Layout) (hL : L.Distinct) : ∀ (vs : TValues) (bs rest : List Nat) (fuel : Nat), vs.wf = true →
    dump_cells L vs = some bs → vs.depth ≤ fuel →
    read_members (read_constant L fuel) (TValues.length vs) (bs ++ rest) = some (vs, rest)
  | .nil, bs, rest, fuel, _, hd, _ => by
    simp only [dump_cells, Option.some.injEq] at hd
    rw [← hd]
    rfl
  | .cons v vs, bs, rest, fuel, hw, hd, hf => by
    simp only [TValues.wf, Bool.and_eq_true] at hw
    simp only [TValues.depth] at hf
    simp only [dump_cells] at hd
    cases h1 : dump_constant L v with
    | none => simp [h1] at hd
    | some b1 =>
      cases h2 : dump_cells L vs with
      | none => simp [h1, h2] at hd
      | some b2 =>
        simp only [h1, h2, Option.some.injEq] at hd
        rw [← hd, List.append_assoc]
        simp only [TValues.length, read_members]
        rw [read_constant_ok L hL v b1 (b2 ++ rest) fuel hw.1 h1 (by omega)]
        simp only
        rw [read_cells_ok L hL vs b2 rest fuel hw.2 h2 (by omega)]
end

mutual
/-- Every nesting level of a constant takes at least one byte. -/
theorem depth_le_length (L : Layout) : ∀ (v : TValue) (bs : List Nat), v.wf = true →
    dump_constant L v = some bs → v.depth ≤ bs.length
  | .null, _, _, hd => by simp [dump_constant] at hd
  | .number v, bs, _, hd => by
    simp only [dump_constant, Option.some.injEq] at hd
    rw [← hd]
    simp [TValue.depth, fputc]
  | .atom s, bs, _, hd => by
    simp only [dump_constant, Option.some.injEq] at hd
    rw [← hd]
    simp [TValue.depth, fputc]
  | .pathid m p, bs, _, hd => by
    simp only [dump_constant, Option.some.injEq] at hd
    rw [← hd]
    simp only [TValue.depth, fputc, List.length_append, List.length_singleton]
    omega
  | .var range v, bs, _, hd => by
    simp only [dump_constant, Option.some.injEq] at hd
    rw [← hd]
    simp [TValue.depth, fputc]
  | .any range v, bs, _, hd => by
    simp only [dump_constant, Option.some.injEq] at hd
    rw [← hd]
    simp [TValue.depth, fputc]
  | .tuple arity members, bs, hw, hd => by
    simp only [TValue.wf, Bool.and_eq_true, decide_eq_true_eq] at hw
    obtain ⟨⟨ha, hlen⟩, hwm⟩ := hw
    simp only [dump_constant] at hd
    rw [Nat.mod_eq_of_lt (show arity < 256 by omega), ← hlen, dump_members_cells] at hd
    cases hm : dump_cells L members with
    | none => simp [hm] at hd
    | some mb =>
      simp only [hm, Option.some.injEq] at hd
      rw [← hd]
      have := depth_cells_le L members mb hwm hm
      simp only [TValue.depth, fputc, List.length_append, List.length_singleton]
      omega
  | .list cells, bs, hw, hd => by
    simp only [TValue.wf, Bool.and_eq_true, decide_eq_true_eq] at hw
    simp only [dump_constant] at hd
    cases hm : dump_cells L cells with
    | none => simp [hm] at hd
    | some mb =>
      simp only [hm, Option.some.injEq] at hd
      rw [← hd]
      have := depth_cells_le L cells mb hw.2 hm
      simp only [TValue.depth, fputc, List.length_append, List.length_singleton]
      omega
theorem depth_cells_le (L : Layout) : ∀ (vs : TValues) (bs : List Nat), vs.wf = true →
    dump_cells L vs = some bs → vs.depth ≤ bs.length
  | .nil, _, _, _ => by simp [TValues.depth]
  | .cons v vs, bs, hw, hd => by
    simp only [TValues.wf, Bool.and_eq_true] at hw
    simp only [dump_cells] at hd
    cases h1 : dump_constant L v with
    | none => simp [h1] at hd
    | some b1 =>
      cases h2 : dump_cells L vs with
      | none => simp [h1, h2] at hd
      | some b2 =>
        simp only [h1, h2, Option.some.injEq] at hd
        rw [← hd]
        have e1 := depth_le_length L v b1 hw.1 h1
        have e2 := depth_cells_le L vs b2 hw.2 h2
        simp only [TValues.depth, List.length_append]
        omega
end

/-- The decoder gives back the constant and the bytes that follow. -/
theorem decode_constant_ok (L : Layout) (hL : L.Distinct) (v : TValue) (bs rest : List Nat)
    (hw : v.wf = true) (hd : dump_constant L v = some bs) :
    decode_constant L (bs ++ rest) = some (v, rest) := by
  unfold decode_constant
  refine read_constant_ok L hL v bs rest _ hw hd ?_
  have := depth_le_length L v bs hw hd
  rw [List.length_append]
  omega

theorem decode_kheader_snoc (L : Layout) : ∀ (n : Nat) (x r r2 : List Nat) (vs : List TValue)
    (v : TValue), decode_kheader L n x = some (vs, r) → decode_constant L r = some (v, r2) →
    decode_kheader L (n + 1) x = some (vs ++ [v], r2)
  | 0, x, r, r2, vs, v, h1, h2 => by
    simp only [decode_kheader, Option.some.injEq, Prod.mk.injEq] at h1
    obtain ⟨rfl, rfl⟩ := h1
    simp only [decode_kheader, h2, List.nil_append]
  | n + 1, x, r, r2, vs, v, h1, h2 => by
    rw [decode_kheader] at h1 ⊢
    cases hx : decode_constant L x with
    | none => simp [hx] at h1
    | some p =>
      obtain ⟨v0, r0⟩ := p
      simp only [hx] at h1 ⊢
      cases hy : decode_kheader L n r0 with
      | none => simp [hy] at h1
      | some q =>
        obtain ⟨vs0, r1⟩ := q
        simp only [hy, Option.some.injEq, Prod.mk.injEq] at h1
        obtain ⟨rfl, rfl⟩ := h1
        rw [decode_kheader_snoc L n r0 r1 r2 vs0 v hy h2]
        rfl

/-- A constant table of `n` entries written by the loop of `dump_clause` is
read back entry by entry. -/
theorem decode_kheader_ok (L : Layout) (hL : L.Distinct) (kheader : List TValue) :
    ∀ (n : Nat) (bs rest : List Nat), (∀ i, i < n → (kheader.getD i .null).wf = true) →
      dump_kheader L kheader n = some bs →
      decode_kheader L n (bs ++ rest) = some (kheader.take n, rest)
  | 0, bs, rest, _, hd => by
    simp only [dump_kheader, Option.some.injEq] at hd
    rw [← hd]
    rfl
  | n + 1, bs, rest, hw, hd => by
    simp only [dump_kheader] at hd
    cases h1 : dump_kheader L kheader n with
    | none => simp [h1] at hd
    | some b1 =>
      cases h2 : dump_constant L (kheader.getD n .null) with
      | none =>
        rw [h1, h2] at hd
        cases hd
      | some b2 =>
        rw [h1, h2] at hd
        simp only [Option.some.injEq] at hd
        rw [← hd, List.append_assoc]
        have ih := decode_kheader_ok L hL kheader n b1 (b2 ++ rest)
          (fun i hi => hw i (Nat.lt_succ_of_lt hi)) h1
        have hv := hw n (Nat.lt_succ_self n)
        have hone := decode_constant_ok L hL _ b2 rest hv h2
        rw [decode_kheader_snoc L n _ _ _ _ _ ih hone]
        have hlt : n < kheader.length := by
          rcases Nat.lt_or_ge n kheader.length with h | h
          · exact h
          · rw [List.getD_eq_default _ _ h] at hv
            simp [TValue.wf] at hv
        rw [List.take_succ, List.getD_eq_getElem _ _ hlt, List.getElem?_eq_getElem hlt]
        rfl

/-! ## Register operands stay below `nreg` -/

theorem opOk_mono {n m : Nat} {x : Int} (h : OpOk n x) (hnm : n ≤ m) : OpOk m x := by
  rcases h with h | ⟨h0, h1⟩
  · exact Or.inl h
  · exact Or.inr ⟨h0, by omega⟩

theorem opOk_zero {n : Nat} (h : 1 ≤ n) : OpOk n 0 := Or.inr ⟨le_refl _, by omega⟩

theorem opOk_neg_one (n : Nat) : OpOk n (-1) := Or.inl (by decide)

theorem isk_rkask (k : Int) : ISK (RKASK k) = true := by
  unfold RKASK
  split
  · assumption
  · rename_i h
    unfold ISK at h ⊢
    simp only [decide_eq_true_eq] at h ⊢
    omega

theorem opOk_rkask (n : Nat) (k : Int) : OpOk n (RKASK k) := Or.inl (isk_rkask k)

theorem opOk_unsigned {n : Nat} {x : Int} (h : OpOk n x) : OpOk n (x % 4294967296) := by
  rcases h with h | ⟨h0, h1⟩
  · left
    unfold ISK at h ⊢
    simp only [decide_eq_true_eq] at h ⊢
    omega
  · right
    omega

theorem scopeOk_mono {n m : Nat} {s : List (List (String × Int))} (h : ScopeOk n s)
    (hnm : n ≤ m) : ScopeOk m s :=
  fun t ht p hp => opOk_mono (h t ht p hp) hnm

theorem nregAt_active {g : Generator} {clause : Nat} {c : ClauseEntry} (h : Active g clause c) :
    nregAt clause g = c.nreg := by
  unfold nregAt
  rw [h.2]

/-- A lookup in a chain of good bindings gives a good operand. -/
theorem scopeOk_lookup {n : Nat} : ∀ {s : List (List (String × Int))} {k : String} {r : Int},
    ScopeOk n s → symtab_lookup s k = some r → OpOk n r
  | [], _, _, _, h => by simp [symtab_lookup] at h
  | t :: ps, k, r, hs, h => by
    simp only [symtab_lookup] at h
    cases ht : t.lookup k with
    | some v =>
      simp only [ht, Option.some.injEq] at h
      subst h
      have hm : (k, v) ∈ t := by
        clear hs
        induction t with
        | nil => simp at ht
        | cons p t ih =>
          obtain ⟨a, b⟩ := p
          simp only [List.lookup] at ht
          split at ht
          · rename_i heq
            simp only [Option.some.injEq] at ht
            subst ht
            have : k = a := by simpa using heq
            subst this
            exact List.mem_cons_self _ _
          · exact List.mem_cons_of_mem _ (ih ht)
      exact hs t (List.mem_cons_self _ _) (k, v) hm
    | none =>
      simp only [ht] at h
      exact scopeOk_lookup (fun t' ht' => hs t' (List.mem_cons_of_mem _ ht')) h

/-- Overwriting the active entry by one with at least the registers, good
code and the same bindings in scope keeps `Good`. -/
theorem good_set {clause : Nat} {g : Generator} {c : ClauseEntry} (c' : ClauseEntry)
    (ha : Active g clause c) (hn : c.nreg ≤ c'.nreg) (h1 : 1 ≤ c.nreg) (hc : CodeOk c')
    (hs : ScopeOk c.nreg g.tree.symbols) :
    Good clause (g.setClauseAt clause c') ∧
      nregAt clause g ≤ nregAt clause (g.setClauseAt clause c') := by
  have ha' := active_set c' ha
  refine ⟨⟨c', ha', by omega, hc, scopeOk_mono hs hn⟩, ?_⟩
  rw [nregAt_active ha, nregAt_active ha']
  exact hn

theorem reg_nextreg (clause : Nat) : RegOk clause nextreg := by
  intro g v g' ⟨c, ha, h1, hc, hs⟩ h
  rw [nextreg_run g clause c ha] at h
  simp only [Outcome.ok.injEq] at h
  obtain ⟨rfl, rfl⟩ := h
  have hcode : CodeOk { c with nreg := c.nreg + 1 } :=
    fun i hi x hx => opOk_mono (hc i hi x hx) (Nat.le_succ _)
  obtain ⟨hg, hm⟩ := good_set { c with nreg := c.nreg + 1 } ha (Nat.le_succ _) h1 hcode hs
  refine ⟨hg, hm, ?_⟩
  rw [nregAt_active (active_set _ ha)]
  exact Or.inr ⟨by omega, by simp⟩

theorem reg_incLocals (clause : Nat) : RegKept clause incLocals := by
  intro g v g' ⟨c, ha, h1, hc, hs⟩ h
  rw [incLocals_run g clause c ha] at h
  simp only [Outcome.ok.injEq] at h
  obtain ⟨_, rfl⟩ := h
  exact good_set { c with nlocals := c.nlocals + 1 } ha (le_refl _) h1 hc hs

/-- The emission of a word whose register operands are good. -/
theorem reg_gen (clause : Nat) (i : Instruction) (g g' : Generator) (p : Nat)
    (hg : Good clause g) (hi : WordOk (nregAt clause g) i) (h : gen i g = .ok p g') :
    Good clause g' ∧ nregAt clause g ≤ nregAt clause g' := by
  obtain ⟨c, ha, h1, hc, hs⟩ := hg
  rw [nregAt_active ha] at hi
  obtain ⟨r, c0, hr, hc0, _, rfl⟩ := gen_ok i g g' p h
  obtain rfl : r = clause := Option.some.inj (hr.symm.trans ha.1)
  obtain rfl : c0 = c := Option.some.inj (hc0.symm.trans ha.2)
  refine good_set _ ha (by show c0.nreg ≤ (growCode c0).nreg; rw [growCode_nreg]) h1 ?_ hs
  intro k hk
  show WordOk (growCode c0).nreg ((storeAt (.word 0) c0.code c0.pc i).getD k (.word 0))
  rw [growCode_nreg]
  by_cases hkp : k = c0.pc
  · rw [hkp, storeAt_getD_self]
    exact hi
  · rw [storeAt_getD_other _ _ _ _ _ hkp]
    exact hc k (by
      have : k < c0.pc + 1 := hk
      omega)

theorem reg_gen_constant (clause : Nat) (s : Option String) (v : TValue) :
    RegKept clause (gen_constant s v) := by
  intro g k g' hg h
  obtain ⟨c, ha, h1, hc, hs⟩ := hg
  unfold gen_constant at h
  simp only [ha.1, ha.2] at h
  split at h
  · simp only [Outcome.ok.injEq] at h
    rw [← h.2]
    exact ⟨⟨c, ha, h1, hc, hs⟩, le_refl _⟩
  · split at h
    · simp only [Outcome.ok.injEq] at h
      rw [← h.2]
      exact good_set _ ha (le_refl _) h1 hc hs
    · cases h

theorem reg_define (clause : Nat) (s : String) (r : Int) (g g' : Generator) (a : Int)
    (hg : Good clause g) (hr : OpOk (nregAt clause g) r) (h : define s r g = .ok a g') :
    Good clause g' ∧ nregAt clause g ≤ nregAt clause g' ∧ a = r := by
  obtain ⟨c, ha, h1, hc, hs⟩ := hg
  rw [nregAt_active ha] at hr
  unfold define at h
  split at h
  · cases h
  · rename_i t ps hsym
    simp only [Outcome.ok.injEq] at h
    obtain ⟨rfl, rfl⟩ := h
    refine ⟨⟨c, active_of_same rfl rfl rfl ha, h1, hc, ?_⟩, le_refl _, rfl⟩
    intro t' ht' p hp
    simp only [List.mem_cons] at ht'
    rcases ht' with rfl | ht'
    · simp only [List.mem_cons] at hp
      rcases hp with rfl | hp
      · exact hr
      · exact hs t (by rw [hsym]; exact List.mem_cons_self _ _) p hp
    · exact hs t' (by rw [hsym]; exact List.mem_cons_of_mem _ ht') p hp

theorem reg_enterscope (clause : Nat) : RegKept clause enterscope := by
  intro g a g' ⟨c, ha, h1, hc, hs⟩ h
  rw [enterscope_ok g a g' h]
  refine ⟨⟨c, active_of_same rfl rfl rfl ha, h1, hc, ?_⟩, le_refl _⟩
  intro t ht p hp
  simp only [List.mem_cons] at ht
  rcases ht with rfl | ht
  · simp at hp
  · exact hs t ht p hp

theorem reg_exitscope (clause : Nat) : RegKept clause exitscope := by
  intro g a g' ⟨c, ha, h1, hc, hs⟩ h
  unfold exitscope at h
  split at h
  · cases h
  · rename_i t ps hsym
    simp only [Outcome.ok.injEq] at h
    rw [← h.2]
    refine ⟨⟨c, active_of_same rfl rfl rfl ha, h1, hc, ?_⟩, le_refl _⟩
    intro t' ht' p hp
    exact hs t' (by rw [hsym]; exact List.mem_cons_of_mem _ ht') p hp

theorem reg_setBlock (clause : Nat) (n : Node) : RegKept clause (setBlock n) := by
  intro g a g' ⟨c, ha, h1, hc, hs⟩ h
  simp only [setBlock, Outcome.ok.injEq] at h
  rw [← h.2]
  exact ⟨⟨c, active_of_same rfl rfl rfl ha, h1, hc, hs⟩, le_refl _⟩

theorem reg_lookup (clause : Nat) (k : String) (g g' : Generator) (r : Option Int)
    (hg : Good clause g) (h : tree_lookup k g = .ok r g') :
    g' = g ∧ ∀ x, r = some x → OpOk (nregAt clause g) x := by
  obtain ⟨c, ha, h1, hc, hs⟩ := hg
  simp only [tree_lookup, Outcome.ok.injEq] at h
  obtain ⟨rfl, rfl⟩ := h
  refine ⟨rfl, fun x hx => ?_⟩
  rw [nregAt_active ha]
  exact scopeOk_lookup hs hx

/-- A patch of the code with a word whose register operands are good. -/
theorem reg_patchCode (clause cl idx : Nat) (v : Instruction) (g g' : Generator) (u : Unit)
    (hg : Good clause g) (hv : WordOk (nregAt clause g) v)
    (h : patchCode cl idx v g = .ok u g') :
    Good clause g' ∧ nregAt clause g ≤ nregAt clause g' := by
  obtain ⟨c, ha, h1, hc, hs⟩ := hg
  rw [nregAt_active ha] at hv
  unfold patchCode at h
  cases hcl : g.heap[cl]? with
  | none => simp [hcl] at h
  | some c0 =>
    simp only [hcl] at h
    split at h
    · simp only [Outcome.ok.injEq] at h
      obtain ⟨_, rfl⟩ := h
      by_cases hcc : cl = clause
      · subst hcc
        obtain rfl : c0 = c := Option.some.inj (hcl.symm.trans ha.2)
        refine good_set _ ha (le_refl _) h1 ?_ hs
        intro k hk
        show WordOk c0.nreg ((storeAt (.word 0) c0.code idx v).getD k (.word 0))
        by_cases hki : k = idx
        · rw [hki, storeAt_getD_self]
          exact hv
        · rw [storeAt_getD_other _ _ _ _ _ hki]
          exact hc k hk
      · have ha' : Active (g.setClauseAt cl { c0 with code := storeAt (.word 0) c0.code idx v })
            clause c := by
          refine ⟨ha.1, ?_⟩
          show (g.heap.set cl _)[clause]? = some c
          rw [List.getElem?_set_ne hcc]
          exact ha.2
        refine ⟨⟨c, ha', h1, hc, hs⟩, ?_⟩
        rw [nregAt_active ha, nregAt_active ha']
    · cases h

theorem wordOk_abc {n : Nat} (op : OpCode) {a b c : Int} (ha : OpOk n a) (hb : OpOk n b)
    (hc : OpOk n c) : WordOk n (.iABC op a b c) := by
  intro x hx
  cases op <;> simp only [Instruction.regOperands, List.mem_cons, List.mem_singleton,
    List.not_mem_nil, or_false] at hx <;> rcases hx with rfl | rfl | rfl <;> assumption

theorem wordOk_imm {n : Nat} (op : OpCode) (hop : op = .OP_TUPLE ∨ op = .OP_SETTUPLE)
    {a c : Int} (b : Int) (ha : OpOk n a) (hc : OpOk n c) : WordOk n (.iABC op a b c) := by
  intro x hx
  rcases hop with rfl | rfl <;>
    simp only [Instruction.regOperands, List.mem_cons, List.mem_singleton,
      List.not_mem_nil, or_false] at hx <;> rcases hx with rfl | rfl <;> assumption

theorem wordOk_ad {n : Nat} (op : OpCode) {a d : Int} (ha : OpOk n a) (hd : OpOk n d) :
    WordOk n (.iAD op a d) := by
  intro x hx
  simp only [Instruction.regOperands, List.mem_cons, List.mem_singleton,
    List.not_mem_nil, or_false] at hx
  rcases hx with rfl | rfl <;> assumption

theorem wordOk_aj {n : Nat} (op : OpCode) {a : Int} (j : Int) (ha : OpOk n a) :
    WordOk n (.iAJ op a j) := by
  intro x hx
  simp only [Instruction.regOperands, List.mem_singleton] at hx
  rw [hx]
  exact ha

theorem wordOk_word (n : Nat) (w : Nat) : WordOk n (.word w) := by
  intro x hx
  simp [Instruction.regOperands] at hx

theorem good_one {clause : Nat} {g : Generator} (hg : Good clause g) : 1 ≤ nregAt clause g := by
  obtain ⟨c, ha, h1, _⟩ := hg
  rw [nregAt_active ha]
  exact h1

theorem good_zero {clause : Nat} {g : Generator} (hg : Good clause g) :
    OpOk (nregAt clause g) 0 := opOk_zero (good_one hg)

theorem reg_gen_num (clause : Nat) (h : Hdr) : RegOk clause (gen_num h) := by
  intro g v g' hg hrun
  unfold gen_num at hrun
  simp only [bind_ok, pure_ok] at hrun
  obtain ⟨k, g1, h1, rfl, rfl⟩ := hrun
  obtain ⟨hg1, hm1⟩ := reg_gen_constant clause _ _ _ _ _ hg h1
  exact ⟨hg1, hm1, opOk_rkask _ _⟩

theorem reg_gen_atom (clause : Nat) (h : Hdr) : RegOk clause (gen_atom h) := by
  intro g v g' hg hrun
  unfold gen_atom at hrun
  simp only [bind_ok, pure_ok] at hrun
  obtain ⟨k, g1, h1, rfl, rfl⟩ := hrun
  obtain ⟨hg1, hm1⟩ := reg_gen_constant clause _ _ _ _ _ hg h1
  exact ⟨hg1, hm1, opOk_rkask _ _⟩

theorem reg_gen_ident (clause : Nat) (h : Hdr) : RegOk clause (gen_ident h) := by
  intro g v g' hg hrun
  unfold gen_ident at hrun
  simp only [bind_ok] at hrun
  obtain ⟨r, g1, h1, h2⟩ := hrun
  obtain ⟨rfl, hr⟩ := reg_lookup clause _ _ _ _ hg h1
  cases r with
  | none =>
    simp only [pure_ok] at h2
    obtain ⟨rfl, rfl⟩ := h2
    exact ⟨hg, le_refl _, opOk_neg_one _⟩
  | some x =>
    simp only [pure_ok] at h2
    obtain ⟨rfl, rfl⟩ := h2
    exact ⟨hg, le_refl _, hr _ rfl⟩

theorem reg_gen_defined (clause : Nat) (n : Node) (h : Hdr) : RegOk clause (gen_defined n h) := by
  intro g v g' hg hrun
  unfold gen_defined at hrun
  simp only [bind_ok] at hrun
  obtain ⟨r, g1, h1, h2⟩ := hrun
  obtain ⟨hg1, hm1, hv1⟩ := reg_gen_ident clause h _ _ _ hg h1
  split at h2
  · cases h2
  · simp only [pure_ok] at h2
    obtain ⟨rfl, rfl⟩ := h2
    exact ⟨hg1, hm1, hv1⟩

theorem reg_gen_block_steps (clause : Nat) (n : Node) (body : Gen Int) (hb : RegOk clause body) :
    RegOk clause (gen_block_steps n body) := by
  intro g v g' hg hrun
  unfold gen_block_steps at hrun
  simp only [bind_ok, pure_ok] at hrun
  obtain ⟨_, g1, h1, reg, g2, h2, _, g3, h3, rfl, rfl⟩ := hrun
  obtain ⟨hg1, hm1⟩ := reg_setBlock clause n _ _ _ hg h1
  obtain ⟨hg2, hm2, hv2⟩ := hb _ _ _ hg1 h2
  obtain ⟨hg3, hm3⟩ := reg_setBlock clause n _ _ _ hg2 h3
  exact ⟨hg3, by omega, opOk_mono hv2 hm3⟩

theorem reg_gen_add (clause : Nat) (lv rv : Gen Int) (hl : RegOk clause lv)
    (hr : RegOk clause rv) : RegOk clause (gen_add lv rv) := by
  intro g v g' hg hrun
  unfold gen_add at hrun
  simp only [bind_ok, pure_ok] at hrun
  obtain ⟨l, g1, h1, r, g2, h2, reg, g3, h3, _, g4, h4, rfl, rfl⟩ := hrun
  obtain ⟨hg1, hm1, hv1⟩ := hl _ _ _ hg h1
  obtain ⟨hg2, hm2, hv2⟩ := hr _ _ _ hg1 h2
  obtain ⟨hg3, hm3, hv3⟩ := reg_nextreg clause _ _ _ hg2 h3
  obtain ⟨hg4, hm4⟩ := reg_gen clause _ _ _ _ hg3
    (wordOk_abc _ hv3 (opOk_mono hv1 (by omega)) (opOk_mono hv2 hm3)) h4
  exact ⟨hg4, by omega, opOk_mono hv3 hm4⟩

theorem reg_gen_sub (clause : Nat) (lv rv : Gen Int) (hl : RegOk clause lv)
    (hr : RegOk clause rv) : RegOk clause (gen_sub lv rv) := by
  intro g v g' hg hrun
  unfold gen_sub at hrun
  simp only [bind_ok, pure_ok] at hrun
  obtain ⟨l, g1, h1, r, g2, h2, reg, g3, h3, _, g4, h4, rfl, rfl⟩ := hrun
  obtain ⟨hg1, hm1, hv1⟩ := hl _ _ _ hg h1
  obtain ⟨hg2, hm2, hv2⟩ := hr _ _ _ hg1 h2
  obtain ⟨hg3, hm3, hv3⟩ := reg_nextreg clause _ _ _ hg2 h3
  obtain ⟨hg4, hm4⟩ := reg_gen clause _ _ _ _ hg3
    (wordOk_abc _ hv3 (opOk_mono hv1 (by omega)) (opOk_mono hv2 hm3)) h4
  exact ⟨hg4, by omega, opOk_mono hv3 hm4⟩

theorem reg_gen_gt (clause : Nat) (lv rv : Gen Int) (hl : RegOk clause lv)
    (hr : RegOk clause rv) : RegOk clause (gen_gt lv rv) := by
  intro g v g' hg hrun
  unfold gen_gt at hrun
  simp only [bind_ok, pure_ok] at hrun
  obtain ⟨l, g1, h1, r, g2, h2, _, g4, h4, rfl, rfl⟩ := hrun
  obtain ⟨hg1, hm1, hv1⟩ := hl _ _ _ hg h1
  obtain ⟨hg2, hm2, hv2⟩ := hr _ _ _ hg1 h2
  obtain ⟨hg4, hm4⟩ := reg_gen clause _ _ _ _ hg2
    (wordOk_abc _ (good_zero hg2) (opOk_mono hv1 hm2) hv2) h4
  exact ⟨hg4, by omega, opOk_neg_one _⟩

theorem reg_gen_lt (clause : Nat) (lv rv : Gen Int) (hl : RegOk clause lv)
    (hr : RegOk clause rv) : RegOk clause (gen_lt lv rv) := by
  intro g v g' hg hrun
  unfold gen_lt at hrun
  simp only [bind_ok, pure_ok] at hrun
  obtain ⟨l, g1, h1, r, g2, h2, _, g4, h4, rfl, rfl⟩ := hrun
  obtain ⟨hg1, hm1, hv1⟩ := hl _ _ _ hg h1
  obtain ⟨hg2, hm2, hv2⟩ := hr _ _ _ hg1 h2
  obtain ⟨hg4, hm4⟩ := reg_gen clause _ _ _ _ hg2
    (wordOk_abc _ (good_zero hg2) hv2 (opOk_mono hv1 hm2)) h4
  exact ⟨hg4, by omega, opOk_neg_one _⟩

theorem reg_gen_match (clause : Nat) (lv rv : Gen Int) (hl : RegOk clause lv)
    (hr : RegOk clause rv) : RegOk clause (gen_match lv rv) := by
  intro g v g' hg hrun
  unfold gen_match at hrun
  simp only [bind_ok, pure_ok] at hrun
  obtain ⟨l, g1, h1, r, g2, h2, _, g3, h3, _, g4, h4, rfl, rfl⟩ := hrun
  obtain ⟨hg1, hm1, hv1⟩ := hl _ _ _ hg h1
  obtain ⟨hg2, hm2, hv2⟩ := hr _ _ _ hg1 h2
  obtain ⟨hg3, hm3⟩ := reg_gen clause _ _ _ _ hg2
    (wordOk_abc _ (good_zero hg2) (opOk_mono hv1 hm2) hv2) h3
  obtain ⟨hg4, hm4⟩ := reg_gen clause _ _ _ _ hg3 (wordOk_aj _ _ (good_zero hg3)) h4
  exact ⟨hg4, by omega, good_zero hg4⟩

theorem reg_gen_list (clause : Nat) : RegOk clause gen_list := by
  intro g v g' hg hrun
  unfold gen_list at hrun
  simp only [bind_ok, pure_ok] at hrun
  obtain ⟨reg, g3, h3, _, g4, h4, rfl, rfl⟩ := hrun
  obtain ⟨hg3, hm3, hv3⟩ := reg_nextreg clause _ _ _ hg h3
  obtain ⟨hg4, hm4⟩ := reg_gen clause _ _ _ _ hg3
    (wordOk_abc _ hv3 (good_zero hg3) (good_zero hg3)) h4
  exact ⟨hg4, by omega, opOk_mono hv3 hm4⟩

theorem reg_gen_cons_steps (clause : Nat) (lvalNull rvalNull : Bool) (lv rv : Gen Int)
    (hl : RegOk clause lv) (hr : RegOk clause rv) :
    RegOk clause (gen_cons_steps lvalNull rvalNull lv rv) := by
  intro g v g' hg hrun
  unfold gen_cons_steps at hrun
  simp only [bind_ok] at hrun
  obtain ⟨reg, g1, h1, h2⟩ := hrun
  have k1 : Good clause g1 ∧ nregAt clause g ≤ nregAt clause g1 ∧ OpOk (nregAt clause g1) reg := by
    split at h1
    · exact reg_gen_list clause _ _ _ hg h1
    · exact hr _ _ _ hg h1
  obtain ⟨hg1, hm1, hv1⟩ := k1
  split at h2
  · simp only [pure_ok] at h2
    obtain ⟨rfl, rfl⟩ := h2
    exact ⟨hg1, hm1, hv1⟩
  · simp only [bind_ok, pure_ok] at h2
    obtain ⟨x, g2, h3, _, g3, h4, rfl, rfl⟩ := h2
    obtain ⟨hg2, hm2, hv2⟩ := hl _ _ _ hg1 h3
    obtain ⟨hg3, hm3⟩ := reg_gen clause _ _ _ _ hg2
      (wordOk_abc _ (opOk_mono hv1 hm2) (opOk_mono hv1 hm2) hv2) h4
    exact ⟨hg3, by omega, opOk_mono hv1 (by omega)⟩

theorem reg_gen_tuple_steps (clause : Nat) (arity : Nat) (members : Int → Gen Unit)
    (hm : ∀ reg g a g', Good clause g → OpOk (nregAt clause g) reg → members reg g = .ok a g' →
      Good clause g' ∧ nregAt clause g ≤ nregAt clause g') :
    RegOk clause (gen_tuple_steps arity members) := by
  intro g v g' hg hrun
  unfold gen_tuple_steps at hrun
  simp only [bind_ok, pure_ok] at hrun
  obtain ⟨reg, g1, h1, _, g2, h2, _, g3, h3, rfl, rfl⟩ := hrun
  obtain ⟨hg1, hm1, hv1⟩ := reg_nextreg clause _ _ _ hg h1
  obtain ⟨hg2, hm2⟩ := reg_gen clause _ _ _ _ hg1
    (wordOk_imm _ (Or.inl rfl) _ hv1 (good_zero hg1)) h2
  obtain ⟨hg3, hm3⟩ := hm _ _ _ _ hg2 (opOk_mono hv1 hm2) h3
  exact ⟨hg3, by omega, opOk_mono hv1 (by omega)⟩

theorem reg_gen_access_tail (clause : Nat) (rval : Node) (g2 g' : Generator) (v : Int)
    (hg2 : Good clause g2)
    (h3 : (do
      let g ← getG
      let _ ← gen_constant (some g.module) (.atom g.module)
      match rval with
      | .null => fault .nullDeref
      | .OIDENT h =>
        let k ← gen_constant none (.pathid g.module h.src)
        pure (RKASK k)
      | _ => fault .assertion : Gen Int) g2 = .ok v g') :
    Good clause g' ∧ nregAt clause g2 ≤ nregAt clause g' ∧ OpOk (nregAt clause g') v := by
  simp only [bind_ok] at h3
  obtain ⟨gx, g3, hgx, _, g4, h4, h5⟩ := h3
  obtain ⟨rfl, rfl⟩ : g2 = gx ∧ g2 = g3 := by
    simp only [getG, Outcome.ok.injEq] at hgx
    exact hgx
  obtain ⟨hg4, hm4⟩ := reg_gen_constant clause _ _ _ _ _ hg2 h4
  cases rval with
  | OIDENT h =>
    simp only [bind_ok, pure_ok] at h5
    obtain ⟨k, g5, h6, rfl, rfl⟩ := h5
    obtain ⟨hg5, hm5⟩ := reg_gen_constant clause _ _ _ _ _ hg4 h6
    exact ⟨hg5, by omega, opOk_rkask _ _⟩
  | _ => cases h5

theorem reg_gen_access (clause : Nat) (lval rval : Node) (rv : Gen Int) (hr : RegOk clause rv) :
    RegOk clause (gen_access lval rval rv) := by
  intro g v g' hg hrun
  unfold gen_access at hrun
  simp only [bind_ok] at hrun
  obtain ⟨_, g1, h1, _, g2, h2, h3⟩ := hrun
  obtain ⟨hg1, hm1, _⟩ := reg_nextreg clause _ _ _ hg h1
  obtain ⟨hg2, hm2, _⟩ := hr _ _ _ hg1 h2
  cases lval with
  | OMODULE hm ty =>
    cases ty with
    | MODULE_CURRENT =>
      obtain ⟨k1, k2, k3⟩ := reg_gen_access_tail clause rval g2 g' v hg2 h3
      exact ⟨k1, by omega, k3⟩
    | _ => cases h3
  | _ => cases h3

theorem reg_gen_apply (clause : Nat) (n : Node) (name : String) (lv rv : Gen Int)
    (hl : RegOk clause lv) (hr : RegOk clause rv) : RegOk clause (gen_apply n name lv rv) := by
  intro g v g' hg hrun
  unfold gen_apply at hrun
  simp only [bind_ok] at hrun
  obtain ⟨l, g1, h1, r, g2, h2, rr, g3, h3, gx, g4, hgx, h5⟩ := hrun
  obtain ⟨rfl, rfl⟩ : g3 = gx ∧ g3 = g4 := by
    simp only [getG, Outcome.ok.injEq] at hgx
    exact hgx
  obtain ⟨hg1, hm1, hv1⟩ := hl _ _ _ hg h1
  obtain ⟨hg2, hm2, hv2⟩ := hr _ _ _ hg1 h2
  obtain ⟨hg3, hm3, hv3⟩ := reg_nextreg clause _ _ _ hg2 h3
  cases hb : blockView g3.block with
  | error f =>
    simp only [hb] at h5
    cases h5
  | ok b =>
    simp only [hb] at h5
    cases ht : tailLoop n.addr name (g3.pathEntry.map (fun p => p.name)) b with
    | none =>
      simp only [ht] at h5
      cases h5
    | some t =>
      simp only [ht] at h5
      cases t with
      | true =>
        simp only [bind_ok, pure_ok] at h5
        obtain ⟨_, g5, h6, rfl, rfl⟩ := h5
        obtain ⟨hg5, hm5⟩ := reg_gen clause _ _ _ _ hg3
          (wordOk_abc _ hv3 (good_zero hg3) (opOk_mono hv2 hm3)) h6
        exact ⟨hg5, by omega, opOk_mono hv3 hm5⟩
      | false =>
        simp only [bind_ok, pure_ok] at h5
        obtain ⟨_, g5, h6, rfl, rfl⟩ := h5
        obtain ⟨hg5, hm5⟩ := reg_gen clause _ _ _ _ hg3
          (wordOk_abc _ hv3 (opOk_mono hv1 (by omega)) (opOk_mono hv2 hm3)) h6
        exact ⟨hg5, by omega, opOk_mono hv3 hm5⟩

theorem reg_gen_bind_lhs (clause : Nat) (n lval : Node) (rreg : Int) (g g' : Generator)
    (v : Int) (hg : Good clause g) (hr : OpOk (nregAt clause g) rreg)
    (hrun : gen_bind_lhs n lval rreg g = .ok v g') :
    Good clause g' ∧ nregAt clause g ≤ nregAt clause g' ∧ OpOk (nregAt clause g') v := by
  unfold gen_bind_lhs at hrun
  split at hrun
  · cases hrun
  · simp only [bind_ok] at hrun
    obtain ⟨id, g1, h1, _, g2, h2, h3⟩ := hrun
    obtain ⟨rfl, _⟩ := reg_lookup clause _ _ _ _ hg h1
    obtain ⟨hg2, hm2⟩ := reg_incLocals clause _ _ _ hg h2
    split at h3
    · cases h3
    · simp only [bind_ok] at h3
      obtain ⟨r, g3, h4, lreg, g4, h5, h6⟩ := h3
      obtain ⟨hg3, hm3, hv3⟩ := reg_nextreg clause _ _ _ hg2 h4
      obtain ⟨hg4, hm4, rfl⟩ := reg_define clause _ _ _ _ _ hg3 hv3 h5
      split at h6
      · rename_i hk
        simp only [bind_ok, pure_ok] at h6
        obtain ⟨_, g5, h7, rfl, rfl⟩ := h6
        obtain ⟨hg5, hm5⟩ := reg_gen clause _ _ _ _ hg4
          (wordOk_ad _ (opOk_mono hv3 hm4) (Or.inl hk)) h7
        exact ⟨hg5, by omega, good_zero hg5⟩
      · simp only [bind_ok, pure_ok] at h6
        obtain ⟨_, g5, h7, rfl, rfl⟩ := h6
        obtain ⟨hg5, hm5⟩ := reg_gen clause _ _ _ _ hg4
          (wordOk_abc _ (opOk_mono hv3 hm4) (opOk_mono hr (by omega)) (good_zero hg4)) h7
        exact ⟨hg5, by omega, good_zero hg5⟩
  · simp only [pure_ok] at hrun
    obtain ⟨rfl, rfl⟩ := hrun
    exact ⟨hg, le_refl _, good_zero hg⟩

theorem reg_gen_bind (clause : Nat) (n lval rval : Node) (rv : Gen Int) (hr : RegOk clause rv) :
    RegOk clause (gen_bind n lval rval rv) := by
  intro g v g' hg hrun
  unfold gen_bind at hrun
  split at hrun
  · cases hrun
  · simp only [bind_ok] at hrun
    obtain ⟨rreg, g1, h1, h2⟩ := hrun
    obtain ⟨hg1, hm1, hv1⟩ := reg_gen_defined clause _ _ _ _ _ hg h1
    split at h2
    · simp only [pure_ok] at h2
      obtain ⟨rfl, rfl⟩ := h2
      exact ⟨hg1, hm1, hv1⟩
    · obtain ⟨hg2, hm2, hv2⟩ := reg_gen_bind_lhs clause _ _ _ _ _ _ hg1 hv1 h2
      exact ⟨hg2, by omega, hv2⟩
  · simp only [bind_ok] at hrun
    obtain ⟨rreg, g1, h1, h2⟩ := hrun
    obtain ⟨hg1, hm1, hv1⟩ := hr _ _ _ hg h1
    obtain ⟨hg2, hm2, hv2⟩ := reg_gen_bind_lhs clause _ _ _ _ _ _ hg1 hv1 h2
    exact ⟨hg2, by omega, hv2⟩

theorem regKept_pure {α : Type} (clause : Nat) (a : α) : RegKept clause (pure a : Gen α) := by
  intro g b g' hg h
  rw [pure_ok] at h
  rw [← h.2]
  exact ⟨hg, le_refl _⟩

theorem regKept_bind {α β : Type} {clause : Nat} {m : Gen α} {f : α → Gen β}
    (hm : RegKept clause m) (hf : ∀ a, RegKept clause (f a)) : RegKept clause (m >>= f) := by
  intro g b g' hg h
  rw [bind_ok] at h
  obtain ⟨a, g1, h1, h2⟩ := h
  obtain ⟨hg1, hm1⟩ := hm _ _ _ hg h1
  obtain ⟨hg2, hm2⟩ := hf a _ _ _ hg1 h2
  exact ⟨hg2, le_trans hm1 hm2⟩

theorem regKept_fault {α : Type} (clause : Nat) (f : Fault) :
    RegKept clause (Arbre.fault f : Gen α) := by
  intro g b g' _ h
  cases h

theorem regKept_nreportf {α : Type} (clause : Nat) (n : Node) (r : Report) (s : String) :
    RegKept clause (Arbre.nreportf n r s : Gen α) := by
  intro g b g' _ h
  cases h

theorem regKept_read {α : Type} {clause : Nat} {m : Gen α}
    (hm : ∀ g a g', m g = .ok a g' → g' = g) : RegKept clause m := by
  intro g a g' hg h
  rw [hm g a g' h]
  exact ⟨hg, le_refl _⟩

theorem regOk_kept {clause : Nat} {m : Gen Int} (h : RegOk clause m) : RegKept clause m :=
  fun g a g' hg hrun => ⟨(h g a g' hg hrun).1, (h g a g' hg hrun).2.1⟩

/-- The declaration of a fresh local: `nlocals ++`, a fresh register, `define`. -/
theorem reg_fresh {α : Type} (clause : Nat) (s : String) (k : Int → Gen α)
    (hk : ∀ reg, RegKept clause (k reg)) :
    RegKept clause (incLocals >>= fun _ => nextreg >>= fun r => define s r >>= fun reg => k reg) := by
  intro g b g' hg h
  simp only [bind_ok] at h
  obtain ⟨_, g1, h1, r, g2, h2, reg, g3, h3, h4⟩ := h
  obtain ⟨hg1, hm1⟩ := reg_incLocals clause _ _ _ hg h1
  obtain ⟨hg2, hm2, hv2⟩ := reg_nextreg clause _ _ _ hg1 h2
  obtain ⟨hg3, hm3, _⟩ := reg_define clause _ _ _ _ _ hg2 hv2 h3
  obtain ⟨hg4, hm4⟩ := hk reg _ _ _ hg3 h4
  exact ⟨hg4, by omega⟩

theorem reg_gen_pattern_ident (clause : Nat) (range : Bool) (n : Node) :
    RegKept clause (gen_pattern_ident range n) := by
  unfold gen_pattern_ident
  split
  · exact regKept_fault _ _
  · refine regKept_bind (regOk_kept (reg_gen_ident clause _)) (fun a => ?_)
    split
    · exact regKept_pure _ _
    · exact reg_fresh clause _ _ (fun _ => regKept_pure _ _)

mutual
theorem reg_gen_pattern (clause : Nat) : ∀ n : Node, RegKept clause (gen_pattern n)
  | .null => by rw [gen_pattern]; exact regKept_pure _ _
  | .OTUPLE _ arity members => by
    rw [gen_pattern]
    exact regKept_bind (reg_gen_pattern_members clause arity members _)
      (fun _ => regKept_pure _ _)
  | .ORANGE _ lval _ => by rw [gen_pattern]; exact reg_gen_pattern_ident _ _ _
  | .OIDENT h => by rw [gen_pattern]; exact reg_gen_pattern_ident _ _ _
  | .OATOM h => by rw [gen_pattern]; exact regKept_pure _ _
  | .ONUMBER h => by rw [gen_pattern]; exact regKept_pure _ _
  | .OLIST _ length .nil => by
    simp only [gen_pattern]
    split
    · exact regKept_fault _ _
    · exact regKept_pure _ _
  | .OLIST _ length (.cons hd tl) => by
    simp only [gen_pattern]
    split
    · exact regKept_bind (reg_gen_pattern_items clause (.cons hd tl) _)
        (fun _ => regKept_pure _ _)
    · exact regKept_pure _ _
  | .OBLOCK _ _ _ => by simp only [gen_pattern]; exact regKept_fault _ _
  | .OMATCH _ _ _ => by simp only [gen_pattern]; exact regKept_fault _ _
  | .OBIND _ _ _ => by simp only [gen_pattern]; exact regKept_fault _ _
  | .OADD _ _ _ => by simp only [gen_pattern]; exact regKept_fault _ _
  | .OSUB _ _ _ => by simp only [gen_pattern]; exact regKept_fault _ _
  | .OGT _ _ _ => by simp only [gen_pattern]; exact regKept_fault _ _
  | .OLT _ _ _ => by simp only [gen_pattern]; exact regKept_fault _ _
  | .OCONS _ _ _ => by simp only [gen_pattern]; exact regKept_fault _ _
  | .OACCESS _ _ _ => by simp only [gen_pattern]; exact regKept_fault _ _
  | .OAPPLY _ _ _ _ => by simp only [gen_pattern]; exact regKept_fault _ _
  | .OSELECT _ _ _ _ => by simp only [gen_pattern]; exact regKept_fault _ _
  | .OCLAUSE _ _ _ _ _ => by simp only [gen_pattern]; exact regKept_fault _ _
  | .OPATH _ _ _ => by simp only [gen_pattern]; exact regKept_fault _ _
  | .OMODULE _ _ => by simp only [gen_pattern]; exact regKept_fault _ _
  | .other _ _ => by simp only [gen_pattern]; exact regKept_fault _ _
theorem reg_gen_pattern_members (clause : Nat) (arity : Nat) :
    ∀ (ns : NodeList) (acc : TValues), RegKept clause (gen_pattern_members arity ns acc)
  | .nil, acc => by rw [gen_pattern_members]; exact regKept_pure _ _
  | .cons hd tl, acc => by
    rw [gen_pattern_members]
    refine regKept_bind (reg_gen_pattern clause hd) (fun v => ?_)
    split
    · exact regKept_fault _ _
    · split
      · exact reg_gen_pattern_members clause arity tl _
      · exact regKept_fault _ _
theorem reg_gen_pattern_items (clause : Nat) :
    ∀ (ns : NodeList) (acc : TValues), RegKept clause (gen_pattern_items ns acc)
  | .nil, acc => by rw [gen_pattern_items]; exact regKept_pure _ _
  | .cons hd tl, acc => by
    rw [gen_pattern_items]
    exact regKept_bind (reg_gen_pattern clause hd) (fun v => reg_gen_pattern_items clause tl _)
end

mutual
theorem reg_gen_locals (clause : Nat) : ∀ n : Node, RegKept clause (gen_locals n)
  | .null => by simp only [gen_locals]; exact regKept_fault _ _
  | .OTUPLE _ _ members => by simp only [gen_locals]; exact reg_gen_locals_members clause members
  | .OIDENT h => by
    simp only [gen_locals]
    refine regKept_bind (regKept_read (tree_lookup_state _)) (fun a => ?_)
    split
    · exact regKept_pure _ _
    · exact reg_fresh clause _ _ (fun _ => regKept_pure _ _)
  | .ONUMBER h => by
    simp only [gen_locals]
    exact regKept_bind (regOk_kept (reg_gen_num clause h)) (fun _ => regKept_pure _ _)
  | .OATOM h => by
    simp only [gen_locals]
    exact regKept_bind (regOk_kept (reg_gen_atom clause h)) (fun _ => regKept_pure _ _)
  | .other _ op => by
    cases op <;> simp only [gen_locals] <;>
      first | exact regKept_fault _ _ | exact regKept_pure _ _
  | .OBLOCK _ _ _ => by simp only [gen_locals]; exact regKept_pure _ _
  | .OMATCH _ _ _ => by simp only [gen_locals]; exact regKept_pure _ _
  | .OBIND _ _ _ => by simp only [gen_locals]; exact regKept_pure _ _
  | .OADD _ _ _ => by simp only [gen_locals]; exact regKept_pure _ _
  | .OSUB _ _ _ => by simp only [gen_locals]; exact regKept_pure _ _
  | .OGT _ _ _ => by simp only [gen_locals]; exact regKept_pure _ _
  | .OLT _ _ _ => by simp only [gen_locals]; exact regKept_pure _ _
  | .OCONS _ _ _ => by simp only [gen_locals]; exact regKept_pure _ _
  | .OACCESS _ _ _ => by simp only [gen_locals]; exact regKept_pure _ _
  | .ORANGE _ _ _ => by simp only [gen_locals]; exact regKept_pure _ _
  | .OAPPLY _ _ _ _ => by simp only [gen_locals]; exact regKept_pure _ _
  | .OSELECT _ _ _ _ => by simp only [gen_locals]; exact regKept_pure _ _
  | .OCLAUSE _ _ _ _ _ => by simp only [gen_locals]; exact regKept_pure _ _
  | .OPATH _ _ _ => by simp only [gen_locals]; exact regKept_pure _ _
  | .OLIST _ _ _ => by simp only [gen_locals]; exact regKept_pure _ _
  | .OMODULE _ _ => by simp only [gen_locals]; exact regKept_pure _ _
theorem reg_gen_locals_members (clause : Nat) :
    ∀ ns : NodeList, RegKept clause (gen_locals_members ns)
  | .nil => by simp only [gen_locals_members]; exact regKept_pure _ _
  | .cons hd tl => by
    simp only [gen_locals_members]
    exact regKept_bind (reg_gen_locals clause hd) (fun _ => reg_gen_locals_members clause tl)
end

theorem regPre_of_kept {α : Type} {clause : Nat} {m : Gen α} (x : Int) (h : RegKept clause m) :
    RegPre clause x m := fun g a g' hg _ hrun => h g a g' hg hrun

theorem regPre_bind {α β : Type} {clause : Nat} {x : Int} {m : Gen α} {f : α → Gen β}
    (hm : RegPre clause x m) (hf : ∀ a, RegPre clause x (f a)) : RegPre clause x (m >>= f) := by
  intro g b g' hg hx h
  rw [bind_ok] at h
  obtain ⟨a, g1, h1, h2⟩ := h
  obtain ⟨hg1, hm1⟩ := hm _ _ _ hg hx h1
  obtain ⟨hg2, hm2⟩ := hf a _ _ _ hg1 (opOk_mono hx hm1) h2
  exact ⟨hg2, le_trans hm1 hm2⟩

theorem reg_patchJump (clause cl slot : Nat) : RegKept clause (patchJump cl slot) := by
  intro g a g' hg h
  unfold patchJump at h
  split at h
  · rename_i pc g1 hpc
    rw [pcOf_state _ _ _ _ hpc] at h
    exact reg_patchCode clause cl slot _ _ _ _ hg (wordOk_aj _ _ (good_zero hg)) h
  · cases h

theorem reg_patchJumps (clause cl : Nat) : ∀ slots : List Nat,
    RegKept clause (patchJumps cl slots)
  | [] => by
    intro g a g' hg h
    simp only [patchJumps, Outcome.ok.injEq] at h
    rw [← h.2]
    exact ⟨hg, le_refl _⟩
  | s :: ss => by
    intro g a g' hg h
    simp only [patchJumps] at h
    split at h
    · rename_i u g1 h1
      obtain ⟨hg1, hm1⟩ := reg_patchJump clause cl s _ _ _ hg h1
      obtain ⟨hg2, hm2⟩ := reg_patchJumps clause cl ss _ _ _ hg1 h
      exact ⟨hg2, le_trans hm1 hm2⟩
    · cases h

theorem reg_patchArms (clause cl : Nat) (islast : Bool) (result : Int) :
    ∀ slots : List Nat, RegPre clause result (patchArms cl islast result slots)
  | [] => by
    intro g a g' hg _ h
    simp only [patchArms, Outcome.ok.injEq] at h
    rw [← h.2]
    exact ⟨hg, le_refl _⟩
  | s :: ss => by
    intro g a g' hg hx h
    simp only [patchArms] at h
    split at h
    · rename_i u g1 h1
      have k1 : Good clause g1 ∧ nregAt clause g ≤ nregAt clause g1 := by
        cases islast with
        | true =>
          exact reg_patchCode clause cl s _ _ _ _ hg
            (wordOk_abc _ hx (good_zero hg) (good_zero hg)) h1
        | false => exact reg_patchJump clause cl s _ _ _ hg h1
      obtain ⟨hg2, hm2⟩ := reg_patchArms clause cl islast result ss _ _ _ k1.1
        (opOk_mono hx k1.2) h
      exact ⟨hg2, le_trans k1.2 hm2⟩
    · cases h

theorem reg_gen_word (clause : Nat) (w : Nat) : RegKept clause (gen (.word w)) :=
  fun g _ g' hg h => reg_gen clause _ g g' _ hg (wordOk_word _ _) h

theorem reg_reserveSlot (clause cl : Nat) : RegKept clause (reserveSlot cl) :=
  regKept_bind (regKept_read (pcOf_state _)) (fun _ =>
    regKept_bind (reg_gen_word clause 0) (fun _ => regKept_pure _ _))

theorem reg_gen_select_test (clause : Nat) (lval : Node) (arg : Gen Int)
    (ha : RegOk clause arg) : RegKept clause (gen_select_test lval arg) := by
  intro g s g' hg h
  unfold gen_select_test at h
  simp only [bind_ok] at h
  obtain ⟨reg, g1, h1, pat, g2, h2, k, g3, h3, a, g4, h4, q, g5, h5, h6⟩ := h
  obtain ⟨hg1, hm1, hv1⟩ := reg_nextreg clause _ _ _ hg h1
  obtain ⟨hg2, hm2⟩ := reg_gen_pattern clause lval _ _ _ hg1 h2
  obtain ⟨hg3, hm3⟩ := reg_gen_constant clause _ _ _ _ _ hg2 h3
  obtain ⟨hg4, hm4, hv4⟩ := ha _ _ _ hg3 h4
  obtain ⟨hg5, hm5⟩ := reg_gen clause _ _ _ _ hg4
    (wordOk_abc _ (opOk_mono hv1 (by omega)) (opOk_rkask _ _) hv4) h5
  obtain ⟨hg6, hm6⟩ := reg_gen_word clause 0 _ _ _ hg5 h6
  exact ⟨hg6, by omega⟩

theorem wordOk_resultWrite {n : Nat} {result ret : Int} (hr : OpOk n result) (hv : OpOk n ret)
    (h1 : 1 ≤ n) : WordOk n (resultWrite result ret) := by
  unfold resultWrite
  split
  · rename_i hk
    exact wordOk_ad _ hr (Or.inl hk)
  · exact wordOk_abc _ hr hv (opOk_zero h1)

theorem reg_gen_select_arm (clause cl : Nat) (result : Int) (more : Bool) (lval : Node)
    (argNull : Bool) (arg : Gen Int) (guards : Gen (List Nat)) (body : Gen Int)
    (ha : RegOk clause arg) (hgd : RegKept clause guards) (hb : RegOk clause body) :
    RegPre clause result
      (gen_select_arm cl result more lval argNull arg guards body) := by
  intro g a g' hg hx h
  unfold gen_select_arm at h
  simp only [bind_ok, pure_ok] at h
  obtain ⟨_, g0, he0, saved, g1, h1, gp, g2, h2, _, g3, he3, ret, g4, h4, _, g5, he5, _, g6, h6,
    patch, g7, h7, _, g8, h8, _, g9, h9, gx, g9', hgx, _, g10, he10, _, rfl⟩ := h
  obtain ⟨rfl, rfl⟩ : g9 = gx ∧ g9 = g9' := by
    simp only [getG, Outcome.ok.injEq] at hgx
    exact hgx
  obtain ⟨k0, m0⟩ := reg_enterscope clause _ _ _ hg he0
  have r01 : Good clause g1 ∧ nregAt clause g0 ≤ nregAt clause g1 := by
    split at h1
    · simp only [bind_ok, pure_ok] at h1
      obtain ⟨s, gs, hs, _, rfl⟩ := h1
      exact reg_gen_select_test clause lval arg ha _ _ _ k0 hs
    · rw [pure_ok] at h1
      rw [← h1.2]
      exact ⟨k0, le_refl _⟩
  obtain ⟨k1, m1⟩ := r01
  obtain ⟨k2, m2⟩ := hgd _ _ _ k1 h2
  obtain ⟨k3, m3⟩ := reg_enterscope clause _ _ _ k2 he3
  obtain ⟨k4, m4, v4⟩ := hb _ _ _ k3 h4
  obtain ⟨k5, m5⟩ := reg_exitscope clause _ _ _ k4 he5
  obtain ⟨k6, m6⟩ := reg_gen clause _ _ _ _ k5
    (wordOk_resultWrite (opOk_mono hx (by omega)) (opOk_unsigned (opOk_mono v4 m5))
      (good_one k5)) h6
  have r67 : Good clause g7 ∧ nregAt clause g6 ≤ nregAt clause g7 := by
    split at h7
    · simp only [bind_ok, pure_ok] at h7
      obtain ⟨s, gs, hs, _, rfl⟩ := h7
      exact reg_reserveSlot clause cl _ _ _ k6 hs
    · rw [pure_ok] at h7
      rw [← h7.2]
      exact ⟨k6, le_refl _⟩
  obtain ⟨k7, m7⟩ := r67
  obtain ⟨k8, m8⟩ := reg_patchJumps clause cl _ _ _ _ k7 h8
  obtain ⟨k9, m9⟩ := reg_patchJumps clause cl _ _ _ _ k8 h9
  obtain ⟨k10, m10⟩ := reg_exitscope clause _ _ _ k9 he10
  exact ⟨k10, by omega⟩

theorem reg_gen_guards (clause cl nguards : Nat) :
    ∀ (ns : NodeList), AllReg clause ns → ∀ i, RegKept clause (gen_guards cl nguards ns i)
  | .nil, _, i => by
    simp only [gen_guards]
    split
    · exact regKept_fault _ _
    · exact regKept_pure _ _
  | .cons hd tl, hall, i => by
    simp only [AllReg] at hall
    simp only [gen_guards]
    split
    · exact regKept_bind (regOk_kept hall.1) (fun _ =>
        regKept_bind (reg_reserveSlot clause cl) (fun _ =>
          regKept_bind (reg_gen_guards clause cl nguards tl hall.2 _) (fun _ =>
            regKept_pure _ _)))
    · exact regKept_pure _ _

theorem reg_gen_select_arms (clause : Nat) (argNull : Bool) (arg : Gen Int)
    (ha : RegOk clause arg) (cl : Nat) (result : Int) (nclauses : Nat) :
    ∀ (ns : NodeList), ArmsReg clause ns → ∀ i,
      RegPre clause result (gen_select_arms argNull arg cl result nclauses ns i)
  | .nil, _, i => by
    simp only [gen_select_arms]
    split
    · exact regPre_of_kept _ (regKept_fault _ _)
    · exact regPre_of_kept _ (regKept_pure _ _)
  | .cons c tl, harms, i => by
    simp only [ArmsReg] at harms
    have ht := reg_gen_select_arms clause argNull arg ha cl result nclauses tl harms.2
    cases c with
    | OCLAUSE h lval ng gs rval =>
      have hc := harms.1
      simp only [ArmReg] at hc
      simp only [gen_select_arms]
      split
      · exact regPre_bind
          (reg_gen_select_arm clause cl result _ lval argNull arg _ _ ha
            (reg_gen_guards clause cl ng gs hc.2 0) hc.1)
          (fun _ => regPre_bind (ht _) (fun _ => regPre_of_kept _ (regKept_pure _ _)))
      · exact regPre_of_kept _ (regKept_pure _ _)
    | _ =>
      simp only [gen_select_arms]
      split
      · exact regPre_of_kept _ (regKept_fault _ _)
      · exact regPre_of_kept _ (regKept_pure _ _)

theorem reg_gen_select (clause : Nat) (h : Hdr) (arg : Node) (ncl : Nat) (cls : NodeList)
    (ha : RegOk clause (gen_node arg)) (hc : ArmsReg clause cls) :
    RegOk clause (gen_node (.OSELECT h arg ncl cls)) := by
  intro g v g' hg hrun
  rw [gen_node] at hrun
  unfold gen_select at hrun
  simp only [bind_ok] at hrun
  obtain ⟨result, g1, h1, h2⟩ := hrun
  obtain ⟨hg1, hm1, hv1⟩ := reg_nextreg clause _ _ _ hg h1
  split at h2
  · cases h2
  · simp only [bind_ok, pure_ok] at h2
    obtain ⟨rc, g2, h3, il, g3, h4, slots, g4, h5, _, g5, h6, rfl, rfl⟩ := h2
    obtain rfl := curClause_state _ _ _ h3
    obtain rfl := selectIsLast_state _ _ _ _ _ h4
    obtain ⟨hg4, hm4⟩ := reg_gen_select_arms clause arg.isNull (gen_node arg) ha rc.1 result
      ncl cls hc 0 _ _ _ hg1 hv1 h5
    obtain ⟨hg5, hm5⟩ := reg_patchArms clause rc.1 il result _ _ _ _ hg4 (opOk_mono hv1 hm4) h6
    exact ⟨hg5, by omega, opOk_mono hv1 (by omega)⟩

theorem regOk_fault (clause : Nat) (f : Fault) : RegOk clause (fault f : Gen Int) := by
  intro g b g' _ h
  cases h

theorem regPre_fault {α : Type} (clause : Nat) (x : Int) (f : Fault) :
    RegPre clause x (fault f : Gen α) := by
  intro g b g' _ _ h
  cases h

mutual
/-- Every lowering function keeps the register operands below `nreg` on a
flat tree, and returns such an operand. -/
theorem reg_gen_node (clause : Nat) : ∀ n : Node, n.flat = true →
    RegOk clause (gen_node n) ∧ RegOk clause (gen_block n) ∧ RegOk clause (gen_cons n)
  | .null, _ => by
    simp only [gen_node, gen_block, gen_cons]
    exact ⟨regOk_fault _ _, regOk_fault _ _, regOk_fault _ _⟩
  | .OBLOCK h body parent, hf => by
    have hb : RegOk clause (gen_block_steps (.OBLOCK h body parent) (gen_nodes body 0)) :=
      reg_gen_block_steps clause _ _ (fun g v g' hg hrun =>
        reg_gen_nodes clause body (by simpa [Node.flat] using hf) 0 g v g' hg (good_zero hg) hrun)
    simp only [gen_node, gen_block, gen_cons]
    exact ⟨hb, hb, regOk_fault _ _⟩
  | .OMATCH _ lval rval, hf => by
    simp only [Node.flat, Bool.and_eq_true] at hf
    have hl := (reg_gen_node clause lval hf.1).1
    have hr := (reg_gen_node clause rval hf.2).1
    simp only [gen_node, gen_block, gen_cons]
    exact ⟨reg_gen_match clause _ _ hl hr, regOk_fault _ _, regOk_fault _ _⟩
  | .OBIND _ lval rval, hf => by
    simp only [Node.flat, Bool.and_eq_true] at hf
    have hr := (reg_gen_node clause rval hf.2).1
    simp only [gen_node, gen_block, gen_cons]
    exact ⟨reg_gen_bind clause _ _ _ _ hr, regOk_fault _ _, regOk_fault _ _⟩
  | .OADD _ lval rval, hf => by
    simp only [Node.flat, Bool.and_eq_true] at hf
    have hl := (reg_gen_node clause lval hf.1).1
    have hr := (reg_gen_node clause rval hf.2).1
    simp only [gen_node, gen_block, gen_cons]
    exact ⟨reg_gen_add clause _ _ hl hr, regOk_fault _ _, regOk_fault _ _⟩
  | .OSUB _ lval rval, hf => by
    simp only [Node.flat, Bool.and_eq_true] at hf
    have hl := (reg_gen_node clause lval hf.1).1
    have hr := (reg_gen_node clause rval hf.2).1
    simp only [gen_node, gen_block, gen_cons]
    exact ⟨reg_gen_sub clause _ _ hl hr, regOk_fault _ _, regOk_fault _ _⟩
  | .OGT _ lval rval, hf => by
    simp only [Node.flat, Bool.and_eq_true] at hf
    have hl := (reg_gen_node clause lval hf.1).1
    have hr := (reg_gen_node clause rval hf.2).1
    simp only [gen_node, gen_block, gen_cons]
    exact ⟨reg_gen_gt clause _ _ hl hr, regOk_fault _ _, regOk_fault _ _⟩
  | .OLT _ lval rval, hf => by
    simp only [Node.flat, Bool.and_eq_true] at hf
    have hl := (reg_gen_node clause lval hf.1).1
    have hr := (reg_gen_node clause rval hf.2).1
    simp only [gen_node, gen_block, gen_cons]
    exact ⟨reg_gen_lt clause _ _ hl hr, regOk_fault _ _, regOk_fault _ _⟩
  | .OCONS _ lval rval, hf => by
    simp only [Node.flat, Bool.and_eq_true] at hf
    have hl := (reg_gen_node clause lval hf.1).1
    have hr := (reg_gen_node clause rval hf.2).2.2
    have hc := reg_gen_cons_steps clause lval.isNull rval.isNull _ _ hl hr
    simp only [gen_node, gen_block, gen_cons]
    exact ⟨hc, regOk_fault _ _, hc⟩
  | .OACCESS _ lval rval, hf => by
    simp only [Node.flat, Bool.and_eq_true] at hf
    have hr := (reg_gen_node clause rval hf.2).1
    simp only [gen_node, gen_block, gen_cons]
    exact ⟨reg_gen_access clause _ _ _ hr, regOk_fault _ _, regOk_fault _ _⟩
  | .ORANGE _ _ _, _ => by
    simp only [gen_node, gen_block, gen_cons]
    exact ⟨regOk_fault _ _, regOk_fault _ _, regOk_fault _ _⟩
  | .OAPPLY _ lval name rval, hf => by
    simp only [Node.flat, Bool.and_eq_true] at hf
    have hl := (reg_gen_node clause lval hf.1).1
    have hr := (reg_gen_node clause rval hf.2).1
    simp only [gen_node, gen_block, gen_cons]
    exact ⟨reg_gen_apply clause _ _ _ _ hl hr, regOk_fault _ _, regOk_fault _ _⟩
  | .OSELECT h arg ncl cls, hf => by
    simp only [Node.flat, Bool.and_eq_true] at hf
    have ha := (reg_gen_node clause arg hf.1).1
    have hc := reg_arms clause cls hf.2
    have := reg_gen_select clause h arg ncl cls ha hc
    simp only [gen_block, gen_cons]
    exact ⟨this, regOk_fault _ _, regOk_fault _ _⟩
  | .OCLAUSE _ _ _ _ _, hf => by simp [Node.flat] at hf
  | .OPATH _ _ _, hf => by simp [Node.flat] at hf
  | .OTUPLE _ arity members, hf => by
    have hm := reg_tuple_members clause members (by simpa [Node.flat] using hf)
    simp only [gen_node, gen_block, gen_cons]
    exact ⟨reg_gen_tuple_steps clause _ _ (fun reg g a g' hg hx hrun =>
      hm reg arity 0 g a g' hg hx hrun), regOk_fault _ _, regOk_fault _ _⟩
  | .OLIST _ _ _, _ => by
    simp only [gen_node, gen_block, gen_cons]
    exact ⟨reg_gen_list clause, regOk_fault _ _, regOk_fault _ _⟩
  | .OIDENT h, _ => by
    simp only [gen_node, gen_block, gen_cons]
    exact ⟨reg_gen_ident clause h, regOk_fault _ _, regOk_fault _ _⟩
  | .OATOM h, _ => by
    simp only [gen_node, gen_block, gen_cons]
    exact ⟨reg_gen_atom clause h, regOk_fault _ _, regOk_fault _ _⟩
  | .ONUMBER h, _ => by
    simp only [gen_node, gen_block, gen_cons]
    exact ⟨reg_gen_num clause h, regOk_fault _ _, regOk_fault _ _⟩
  | .OMODULE _ _, _ => by
    simp only [gen_node, gen_block, gen_cons]
    exact ⟨regOk_fault _ _, regOk_fault _ _, regOk_fault _ _⟩
  | .other _ _, _ => by
    simp only [gen_node, gen_block, gen_cons]
    exact ⟨regOk_fault _ _, regOk_fault _ _, regOk_fault _ _⟩
theorem reg_arm (clause : Nat) : ∀ n : Node, n.armFlat = true → ArmReg clause n
  | .OCLAUSE _ _ _ guards rval, hf => by
    simp only [Node.armFlat, Bool.and_eq_true] at hf
    simp only [ArmReg]
    exact ⟨(reg_gen_node clause rval hf.2).2.1, reg_all clause guards hf.1⟩
  | .null, _ => by simp only [ArmReg]
  | .OBLOCK _ _ _, _ => by simp only [ArmReg]
  | .OMATCH _ _ _, _ => by simp only [ArmReg]
  | .OBIND _ _ _, _ => by simp only [ArmReg]
  | .OADD _ _ _, _ => by simp only [ArmReg]
  | .OSUB _ _ _, _ => by simp only [ArmReg]
  | .OGT _ _ _, _ => by simp only [ArmReg]
  | .OLT _ _ _, _ => by simp only [ArmReg]
  | .OCONS _ _ _, _ => by simp only [ArmReg]
  | .OACCESS _ _ _, _ => by simp only [ArmReg]
  | .ORANGE _ _ _, _ => by simp only [ArmReg]
  | .OAPPLY _ _ _ _, _ => by simp only [ArmReg]
  | .OSELECT _ _ _ _, _ => by simp only [ArmReg]
  | .OPATH _ _ _, _ => by simp only [ArmReg]
  | .OTUPLE _ _ _, _ => by simp only [ArmReg]
  | .OLIST _ _ _, _ => by simp only [ArmReg]
  | .OIDENT _, _ => by simp only [ArmReg]
  | .OATOM _, _ => by simp only [ArmReg]
  | .ONUMBER _, _ => by simp only [ArmReg]
  | .OMODULE _ _, _ => by simp only [ArmReg]
  | .other _ _, _ => by simp only [ArmReg]
theorem reg_gen_nodes (clause : Nat) : ∀ ns : NodeList, ns.flat = true →
    ∀ (reg : Int) (g : Generator) (v : Int) (g' : Generator), Good clause g →
      OpOk (nregAt clause g) reg → gen_nodes ns reg g = .ok v g' →
      Good clause g' ∧ nregAt clause g ≤ nregAt clause g' ∧ OpOk (nregAt clause g') v
  | .nil, _, reg, g, v, g', hg, hx => by
    intro hrun
    simp only [gen_nodes, pure_ok] at hrun
    obtain ⟨rfl, rfl⟩ := hrun
    exact ⟨hg, le_refl _, hx⟩
  | .cons hd tl, hf, reg, g, v, g', hg, hx => by
    intro hrun
    simp only [NodeList.flat, Bool.and_eq_true] at hf
    simp only [gen_nodes, bind_ok] at hrun
    obtain ⟨r, g1, h1, h2⟩ := hrun
    obtain ⟨hg1, hm1, hv1⟩ := (reg_gen_node clause hd hf.1).1 _ _ _ hg h1
    obtain ⟨hg2, hm2, hv2⟩ := reg_gen_nodes clause tl hf.2 r g1 v g' hg1 hv1 h2
    exact ⟨hg2, le_trans hm1 hm2, hv2⟩
theorem reg_tuple_members (clause : Nat) : ∀ ns : NodeList, ns.flat = true →
    ∀ reg arity i, RegPre clause reg (gen_tuple_members reg arity ns i)
  | .nil, _, reg, arity, i => by
    simp only [gen_tuple_members]
    split
    · exact regPre_fault _ _ _
    · exact regPre_of_kept _ (regKept_pure _ _)
  | .cons hd tl, hf, reg, arity, i => by
    simp only [NodeList.flat, Bool.and_eq_true] at hf
    have hh := (reg_gen_node clause hd hf.1).1
    have ht := reg_tuple_members clause tl hf.2
    simp only [gen_tuple_members]
    split
    · intro g a g' hg hx hrun
      simp only [bind_ok] at hrun
      obtain ⟨v, g1, h1, _, g2, h2, h3⟩ := hrun
      obtain ⟨hg1, hm1, hv1⟩ := hh _ _ _ hg h1
      obtain ⟨hg2, hm2⟩ := reg_gen clause _ _ _ _ hg1
        (wordOk_imm _ (Or.inr rfl) _ (opOk_mono hx hm1) hv1) h2
      obtain ⟨hg3, hm3⟩ := ht reg arity (i + 1) _ _ _ hg2 (opOk_mono hx (by omega)) h3
      exact ⟨hg3, by omega⟩
    · exact regPre_of_kept _ (regKept_pure _ _)
theorem reg_all (clause : Nat) : ∀ ns : NodeList, ns.flat = true → AllReg clause ns
  | .nil, _ => by simp only [AllReg]
  | .cons hd tl, hf => by
    simp only [NodeList.flat, Bool.and_eq_true] at hf
    simp only [AllReg]
    exact ⟨(reg_gen_node clause hd hf.1).1, reg_all clause tl hf.2⟩
theorem reg_arms (clause : Nat) : ∀ ns : NodeList, ns.armsFlat = true → ArmsReg clause ns
  | .nil, _ => by simp only [ArmsReg]
  | .cons hd tl, hf => by
    simp only [NodeList.armsFlat, Bool.and_eq_true] at hf
    simp only [ArmsReg]
    exact ⟨reg_arm clause hd hf.1, reg_arms clause tl hf.2⟩
end

theorem nregKept_refl (g : Generator) : NregKept g g := fun _ c hc => ⟨c, hc, rfl, le_refl _⟩

theorem nregKept_trans {g1 g2 g3 : Generator} (a : NregKept g1 g2) (b : NregKept g2 g3) :
    NregKept g1 g3 := by
  intro r c hc
  obtain ⟨c2, hc2, n2, h2⟩ := a r c hc
  obtain ⟨c3, hc3, n3, h3⟩ := b r c2 hc2
  exact ⟨c3, hc3, n3.trans n2, le_trans h2 h3⟩

theorem nregKept_of_heap {g g' : Generator} (h : g'.heap = g.heap) : NregKept g g' := by
  intro r c hc
  exact ⟨c, by rw [h]; exact hc, rfl, le_refl _⟩

theorem nregKept_set (g : Generator) (r : Nat) (c c' : ClauseEntry) (hc : g.heap[r]? = some c)
    (hnode : c'.node = c.node) (hn : c.nreg ≤ c'.nreg) : NregKept g (g.setClauseAt r c') := by
  have hlt : r < g.heap.length := (List.getElem?_eq_some.1 hc).1
  intro k d hd
  by_cases hkr : k = r
  · subst hkr
    rw [hc] at hd
    cases hd
    refine ⟨c', ?_, hnode, hn⟩
    show (g.heap.set k c')[k]? = some c'
    rw [List.getElem?_set_self hlt]
  · refine ⟨d, ?_, rfl, le_refl _⟩
    show (g.heap.set r c')[k]? = some d
    rw [List.getElem?_set_ne (Ne.symm hkr)]
    exact hd

theorem gen_nregKept (i : Instruction) (g g' : Generator) (a : Nat) (h : gen i g = .ok a g') :
    NregKept g g' := by
  obtain ⟨r, c, _, hc, _, rfl⟩ := gen_ok i g g' a h
  exact nregKept_set g r c _ hc (growCode_node c)
    (by show c.nreg ≤ (growCode c).nreg; rw [growCode_nreg])

theorem nextreg_nregKept (g g' : Generator) (a : Int) (h : nextreg g = .ok a g') :
    NregKept g g' := by
  obtain ⟨r, c, _, hc, _, rfl⟩ := nextreg_ok g g' a h
  exact nregKept_set g r c _ hc rfl (Nat.le_succ _)

theorem exitscope_nregKept (g g' : Generator) (a : Unit) (h : exitscope g = .ok a g') :
    NregKept g g' := by
  unfold exitscope at h
  split at h
  · cases h
  · simp only [Outcome.ok.injEq] at h
    rw [← h.2]
    exact nregKept_of_heap rfl

theorem nregKept_of_end (reg : Int) (g g' : Generator) (u : Unit)
    (hend : gen_clause_end reg g = .ok u g') : NregKept g g' := by
  unfold gen_clause_end at hend
  simp only [bind_ok, pure_ok] at hend
  obtain ⟨w, gw, hw, _, gx, hx, _, gy, hy, _, rfl⟩ := hend
  rw [lastWord_state _ _ _ hw] at hx
  refine nregKept_trans ?_ (gen_nregKept _ _ _ _ hy)
  split at hx
  · unfold gen_clause_return at hx
    split at hx
    · simp only [bind_ok, pure_ok] at hx
      obtain ⟨_, g5, h5, _, g6, h6, _, g7, h7, _, rfl⟩ := hx
      exact nregKept_trans (nextreg_nregKept _ _ _ h5)
        (nregKept_trans (gen_nregKept _ _ _ _ h6) (gen_nregKept _ _ _ _ h7))
    · simp only [bind_ok, pure_ok] at hx
      obtain ⟨_, g7, h7, _, rfl⟩ := hx
      exact gen_nregKept _ _ _ _ h7
  · rw [pure_ok] at hx
    rw [← hx.2]
    exact nregKept_refl _

/-- No step of the lowering lowers the `nreg` of a clause entry: `nextreg` is
the only writer, and it increments. -/
theorem nreg_simple : Simple NregKept where
  refl := nregKept_refl
  trans _ _ _ := nregKept_trans
  nextreg g a g' h := nextreg_nregKept g g' a h
  incLocals g a g' h := by
    obtain ⟨r, c, _, hc, rfl⟩ := incLocals_ok g g' a h
    exact nregKept_set g r c _ hc rfl (le_refl _)
  gen i _ g a g' h := gen_nregKept i g g' a h
  gen_constant s v g a g' h := by
    unfold gen_constant at h
    cases hr : g.clauseRef with
    | none => simp [hr] at h
    | some r =>
      cases hc : g.heap[r]? with
      | none => simp [hr, hc] at h
      | some c =>
        simp only [hr, hc] at h
        split at h
        · simp only [Outcome.ok.injEq] at h
          rw [← h.2]
          exact nregKept_refl _
        · split at h
          · simp only [Outcome.ok.injEq] at h
            rw [← h.2]
            exact nregKept_set g r c _ hc rfl (le_refl _)
          · cases h
  define s r g a g' h := by
    unfold define at h
    split at h
    · cases h
    · simp only [Outcome.ok.injEq] at h
      rw [← h.2]
      exact nregKept_of_heap rfl
  setBlock n g a g' h := by
    simp only [setBlock, Outcome.ok.injEq] at h
    rw [← h.2]
    exact nregKept_of_heap rfl
  bracket g g0 g1 g2 he h01 hx := by
    rw [enterscope_ok g () g0 he] at h01
    exact nregKept_trans (nregKept_trans (nregKept_of_heap rfl) h01)
      (exitscope_nregKept _ _ _ hx)
  clause n locals body hl hb g a g' h := by
    unfold gen_clause_steps at h
    simp only [bind_ok, pure_ok] at h
    obtain ⟨oi, g1, hemit, _, g2, hrest, _, rfl⟩ := h
    unfold gen_clause_emit at hemit
    simp only [bind_ok, pure_ok] at hemit
    obtain ⟨oi', ga, halloc, _, gb, hent, _, gc, hloc, reg, gd, hbody, _, ge, hex, _, gf, hend,
      _, rfl⟩ := hemit
    obtain ⟨p, _, _, _, hha, _⟩ := allocClause_ok _ _ _ _ halloc
    obtain ⟨r1, _, _, _⟩ := restoreClause_ok _ _ _ _ hrest
    have e0 : NregKept g ga := by
      intro r c hc
      have hlt : r < g.heap.length := (List.getElem?_eq_some.1 hc).1
      exact ⟨c, by rw [hha, List.getElem?_append_left hlt]; exact hc, rfl, le_refl _⟩
    have e1 : NregKept ga gb := by
      rw [enterscope_ok ga () gb hent]
      exact nregKept_of_heap rfl
    have e3 : NregKept ge gf := nregKept_of_end _ _ _ _ hend
    exact nregKept_trans e0 (nregKept_trans e1 (nregKept_trans (hl _ _ _ hloc)
      (nregKept_trans (hb _ _ _ hbody) (nregKept_trans (exitscope_nregKept _ _ _ hex)
        (nregKept_trans e3 (nregKept_of_heap r1))))))
  genAny i g a g' h := gen_nregKept i g g' a h
  patch clause idx v g a g' h := by
    unfold patchCode at h
    cases hc : g.heap[clause]? with
    | none => simp [hc] at h
    | some c =>
      simp only [hc] at h
      split at h
      · simp only [Outcome.ok.injEq] at h
        rw [← h.2]
        exact nregKept_set g clause c _ hc rfl (le_refl _)
      · cases h
  registerPath name n g a g' h := by
    unfold Arbre.registerPath at h
    split at h
    · simp only [Outcome.ok.injEq] at h
      rw [← h.2]
      exact nregKept_of_heap rfl
    · cases h

/-- The end of `gen_clause` keeps the register operands below `nreg`: the
operand of the body is returned, through a fresh register when K-flagged. -/
theorem reg_gen_clause_end (clause : Nat) (reg : Int) :
    RegPre clause reg (gen_clause_end reg) := by
  intro g a g' hg hx h
  unfold gen_clause_end at h
  simp only [bind_ok, pure_ok] at h
  obtain ⟨w, gw, hw, _, gx, hx2, _, gy, hy, _, rfl⟩ := h
  rw [lastWord_state _ _ _ hw] at hx2
  have k1 : Good clause gx ∧ nregAt clause g ≤ nregAt clause gx := by
    split at hx2
    · unfold gen_clause_return at hx2
      split at hx2
      · rename_i hk
        simp only [bind_ok, pure_ok] at hx2
        obtain ⟨rega, g5, h5, _, g6, h6, _, g7, h7, _, rfl⟩ := hx2
        obtain ⟨hg5, hm5, hv5⟩ := reg_nextreg clause _ _ _ hg h5
        obtain ⟨hg6, hm6⟩ := reg_gen clause _ _ _ _ hg5 (wordOk_ad _ hv5 (Or.inl hk)) h6
        obtain ⟨hg7, hm7⟩ := reg_gen clause _ _ _ _ hg6
          (wordOk_abc _ (opOk_mono hv5 hm6) (good_zero hg6) (good_zero hg6)) h7
        exact ⟨hg7, by omega⟩
      · simp only [bind_ok, pure_ok] at hx2
        obtain ⟨_, g7, h7, _, rfl⟩ := hx2
        exact reg_gen clause _ _ _ _ hg (wordOk_abc _ hx (good_zero hg) (good_zero hg)) h7
    · rw [pure_ok] at hx2
      rw [← hx2.2]
      exact ⟨hg, le_refl _⟩
  obtain ⟨hg2, hm2⟩ := reg_gen_word clause 0 _ _ _ k1.1 hy
  exact ⟨hg2, le_trans k1.2 hm2⟩

/-! ## The order of the paths -/

theorem namesKept_refl (g : Generator) : NamesKept g g :=
  ⟨le_refl _, fun _ p _ hp => ⟨p, hp, rfl, rfl⟩⟩

theorem namesKept_trans {g1 g2 g3 : Generator} (h12 : NamesKept g1 g2) (h23 : NamesKept g2 g3) :
    NamesKept g1 g3 := by
  refine ⟨le_trans h12.1 h23.1, fun i p hi hp => ?_⟩
  obtain ⟨p2, hp2, hn2, hd2⟩ := h12.2 i p hi hp
  obtain ⟨p3, hp3, hn3, hd3⟩ := h23.2 i p2 (lt_of_lt_of_le hi h12.1) hp2
  exact ⟨p3, hp3, hn3.trans hn2, hd3.trans hd2⟩

theorem namesKept_of_eq {g g' : Generator} (h1 : g'.paths = g.paths) (h2 : g'.pathsn = g.pathsn) :
    NamesKept g g' := by
  refine ⟨by omega, fun i p _ hp => ⟨p, ?_, rfl, rfl⟩⟩
  rw [h1]
  exact hp

theorem setClauseAt_namesKept (g : Generator) (r : Nat) (c : ClauseEntry) :
    NamesKept g (g.setClauseAt r c) := namesKept_of_eq rfl rfl

/-- Overwriting the active path entry by one of the same name and node. -/
theorem setPathEntry_namesKept (g : Generator) (p p' : PathEntry) (hp : g.pathEntry = some p)
    (hname : p'.name = p.name) (hnode : p'.node = p.node) :
    NamesKept g (g.setPathEntry p') := by
  unfold Generator.pathEntry at hp
  unfold Generator.setPathEntry
  cases hpath : g.path with
  | none => simp [hpath] at hp
  | some k =>
    simp only [hpath] at hp ⊢
    refine ⟨le_refl _, fun i q _ hq => ?_⟩
    by_cases hik : i = k
    · subst hik
      rw [hq] at hp
      have hp : q = p := by simpa using hp
      subst hp
      refine ⟨p', ?_, hname, hnode⟩
      have hlt : i < g.paths.length := by
        rcases Nat.lt_or_ge i g.paths.length with h | h
        · exact h
        · rw [List.getElem?_eq_none h] at hq
          cases hq
      simp [List.getElem?_set_self hlt]
    · refine ⟨q, ?_, rfl, rfl⟩
      show (g.paths.set k (some p'))[i]? = some (some q)
      rw [List.getElem?_set_ne (fun h => hik h.symm)]
      exact hq

theorem storeAt_getElem?_other {α : Type} (d : α) :
    ∀ (l : List α) (i j : Nat) (v x : α), j ≠ i → l[j]? = some x →
      (storeAt d l i v)[j]? = some x
  | [], _, _, _, _, _, h => by simp at h
  | a :: l, 0, 0, _, _, hne, _ => absurd rfl hne
  | a :: l, 0, j + 1, v, x, _, h => by
    simp only [storeAt]
    exact h
  | a :: l, i + 1, 0, v, x, _, h => by
    simp only [storeAt]
    simpa using h
  | a :: l, i + 1, j + 1, v, x, hne, h => by
    simp only [storeAt, List.getElem?_cons_succ] at h ⊢
    exact storeAt_getElem?_other d l i j v x (by omega) h

theorem registerPath_namesKept (name : String) (n : Node) (g g' : Generator) (u : Unit)
    (h : registerPath name n g = .ok u g') : NamesKept g g' := by
  unfold registerPath at h
  split at h
  · simp only [Outcome.ok.injEq] at h
    rw [← h.2]
    refine ⟨Nat.le_succ _, fun i p hi hp => ⟨p, ?_, rfl, rfl⟩⟩
    exact storeAt_getElem?_other _ _ _ _ _ _ (by omega) hp
  · cases h

theorem gen_namesKept (i : Instruction) (g g' : Generator) (a : Nat) (h : gen i g = .ok a g') :
    NamesKept g g' := by
  obtain ⟨r, c, _, _, _, rfl⟩ := gen_ok i g g' a h
  exact setClauseAt_namesKept _ _ _

theorem nextreg_namesKept (g g' : Generator) (a : Int) (h : nextreg g = .ok a g') :
    NamesKept g g' := by
  obtain ⟨r, c, _, _, _, rfl⟩ := nextreg_ok g g' a h
  exact setClauseAt_namesKept _ _ _

theorem exitscope_namesKept (g g' : Generator) (a : Unit) (h : exitscope g = .ok a g') :
    NamesKept g g' := by
  unfold exitscope at h
  split at h
  · cases h
  · simp only [Outcome.ok.injEq] at h
    rw [← h.2]
    exact namesKept_of_eq rfl rfl

/-- Every step of the lowering leaves the registered paths where they are. -/
theorem names_simple : Simple NamesKept where
  refl g := namesKept_refl g
  trans _ _ _ := namesKept_trans
  nextreg g a g' h := nextreg_namesKept g g' a h
  incLocals g a g' h := by
    obtain ⟨r, c, _, _, rfl⟩ := incLocals_ok g g' a h
    exact setClauseAt_namesKept _ _ _
  gen i _ g a g' h := gen_namesKept i g g' a h
  gen_constant s v g a g' h := by
    rcases gen_constant_ok s v g g' a h with rfl | ⟨r, c, c', _, _, rfl, _⟩
    · exact namesKept_refl _
    · exact setClauseAt_namesKept _ _ _
  define s r g a g' h := by
    unfold define at h
    split at h
    · cases h
    · simp only [Outcome.ok.injEq] at h
      rw [← h.2]
      exact namesKept_of_eq rfl rfl
  setBlock n g a g' h := by
    simp only [setBlock, Outcome.ok.injEq] at h
    rw [← h.2]
    exact namesKept_of_eq rfl rfl
  bracket g g0 g1 g2 he h01 hx := by
    rw [enterscope_ok g () g0 he] at h01
    exact namesKept_trans (namesKept_trans (namesKept_of_eq rfl rfl) h01)
      (exitscope_namesKept _ _ _ hx)
  clause n locals body hl hb g a g' h := by
    unfold gen_clause_steps at h
    simp only [bind_ok, pure_ok] at h
    obtain ⟨oi, g1, hemit, _, g2, hrest, _, rfl⟩ := h
    unfold gen_clause_emit at hemit
    simp only [bind_ok, pure_ok] at hemit
    obtain ⟨oi', ga, halloc, _, gb, hent, _, gc, hloc, reg, gd, hbody, _, ge, hex, _, gf, hend,
      _, rfl⟩ := hemit
    have e0 : NamesKept g ga := by
      unfold allocClause at halloc
      cases hp : g.pathEntry with
      | none => simp [hp] at halloc
      | some p =>
        simp only [hp, Outcome.ok.injEq] at halloc
        rw [← halloc.2]
        have hmid : NamesKept g { g with heap := g.heap ++ [clauseentry n p.nclauses] } :=
          namesKept_of_eq rfl rfl
        exact namesKept_trans hmid (setPathEntry_namesKept _ p _ hp rfl rfl)
    have e1 : NamesKept ga gb := by
      rw [enterscope_ok ga () gb hent]
      exact namesKept_of_eq rfl rfl
    have e3 : NamesKept ge gf := by
      unfold gen_clause_end at hend
      simp only [bind_ok, pure_ok] at hend
      obtain ⟨w, gw, hw, _, gx, hx, _, gy, hy, _, rfl⟩ := hend
      rw [lastWord_state _ _ _ hw] at hx
      refine namesKept_trans ?_ (gen_namesKept _ _ _ _ hy)
      split at hx
      · unfold gen_clause_return at hx
        split at hx
        · simp only [bind_ok, pure_ok] at hx
          obtain ⟨_, g5, h5, _, g6, h6, _, g7, h7, _, rfl⟩ := hx
          exact namesKept_trans (nextreg_namesKept _ _ _ h5)
            (namesKept_trans (gen_namesKept _ _ _ _ h6) (gen_namesKept _ _ _ _ h7))
        · simp only [bind_ok, pure_ok] at hx
          obtain ⟨_, g7, h7, _, rfl⟩ := hx
          exact gen_namesKept _ _ _ _ h7
      · rw [pure_ok] at hx
        rw [← hx.2]
        exact namesKept_refl _
    have e4 : NamesKept gf g2 := by
      unfold restoreClause at hrest
      split at hrest
      · simp only [Outcome.ok.injEq] at hrest
        rw [← hrest.2]
        exact namesKept_refl _
      · split at hrest
        · cases hrest
        · rename_i p hp
          simp only [Outcome.ok.injEq] at hrest
          rw [← hrest.2]
          exact setPathEntry_namesKept _ p _ hp rfl rfl
    exact namesKept_trans e0 (namesKept_trans e1 (namesKept_trans (hl _ _ _ hloc)
      (namesKept_trans (hb _ _ _ hbody) (namesKept_trans (exitscope_namesKept _ _ _ hex)
        (namesKept_trans e3 e4)))))
  genAny i g a g' h := gen_namesKept i g g' a h
  patch clause idx v g a g' h := by
    unfold patchCode at h
    cases hc : g.heap[clause]? with
    | none => simp [hc] at h
    | some c =>
      simp only [hc] at h
      split at h
      · simp only [Outcome.ok.injEq] at h
        rw [← h.2]
        exact setClauseAt_namesKept _ _ _
      · cases h
  registerPath name n g a g' h := registerPath_namesKept name n g g' a h

theorem storeAt_getElem?_self {α : Type} (d : α) :
    ∀ (l : List α) (i : Nat) (v : α), (storeAt d l i v)[i]? = some v
  | [], 0, _ => by simp [storeAt]
  | [], i + 1, v => by
    simp only [storeAt, List.getElem?_cons_succ]
    exact storeAt_getElem?_self d [] i v
  | _ :: _, 0, _ => by simp [storeAt]
  | _ :: l, i + 1, v => by
    simp only [storeAt, List.getElem?_cons_succ]
    exact storeAt_getElem?_self d l i v

/-- A path declaration whose lowering completes has its entry at the index
`pathsn` had when it was reached. -/
theorem gen_path_registered (h : Hdr) (name clause : Node) (g g' : Generator) (r : Int)
    (hok : gen_node (.OPATH h name clause) g = .ok r g') :
    NamesKept g g' ∧ g.pathsn < g'.pathsn ∧ ∃ p, g'.paths[g.pathsn]? = some (some p) ∧
      some p.name = name.src ∧ p.node = .OPATH h name clause := by
  rw [gen_node] at hok
  unfold gen_path at hok
  cases hsrc : name.src with
  | none =>
    simp only [hsrc] at hok
    cases hok
  | some nm =>
    simp only [hsrc, bind_ok] at hok
    obtain ⟨g0, g0', hg, hok⟩ := hok
    obtain ⟨rfl, rfl⟩ : g = g0 ∧ g = g0' := by
      simp only [getG, Outcome.ok.injEq] at hg
      exact hg
    cases hl : symtab_lookup [g.tree.psymbols] nm with
    | some _ =>
      simp only [hl] at hok
      cases hok
    | none =>
      simp only [hl, bind_ok] at hok
      obtain ⟨_, g1, hreg, hcl⟩ := hok
      have k1 := (simple_gen_node names_simple clause).2.2.1 _ _ _ hcl
      have k0 := registerPath_namesKept _ _ _ _ _ hreg
      unfold registerPath at hreg
      split at hreg
      · simp only [Outcome.ok.injEq] at hreg
        obtain ⟨_, rfl⟩ := hreg
        obtain ⟨p', hp', hn', hd'⟩ := k1.2 g.pathsn (pathentry nm (.OPATH h name clause) g.pathsn)
          (Nat.lt_succ_self _) (storeAt_getElem?_self _ _ _ _)
        exact ⟨namesKept_trans k0 k1, lt_of_lt_of_le (Nat.lt_succ_self _) k1.1, p', hp',
          by rw [hn']; rfl, by rw [hd']; rfl⟩
      · cases hreg

/-- The bytes `dump_clauses` writes are the clause blocks of the clauses
`0 .. n` in order. -/
theorem dump_clauses_blocks (L : Layout) (heap : List ClauseEntry) (clauses : List (Option Nat)) :
    ∀ (n : Nat) (bs : List Nat), dump_clauses L heap clauses n = some bs →
      ∃ blocks : List (List Nat), blocks.length = n ∧ bs = blocks.flatten ∧
        ∀ j, j < n → ∃ r c, clauses[j]? = some (some r) ∧ heap[r]? = some c ∧
          dump_clause L c = blocks[j]?
  | 0, bs, h => by
    simp only [dump_clauses, Option.some.injEq] at h
    exact ⟨[], rfl, by rw [← h]; rfl, fun j hj => absurd hj (Nat.not_lt_zero _)⟩
  | n + 1, bs, h => by
    simp only [dump_clauses] at h
    cases ha : dump_clauses L heap clauses n with
    | none => simp [ha] at h
    | some a =>
      cases hr : (clauses.getD n none) with
      | none =>
        rw [ha, hr] at h
        cases h
      | some r =>
        cases hc : heap[r]? with
        | none =>
          rw [ha, hr] at h
          simp only [Option.bind, hc] at h
          cases h
        | some c =>
          cases hb : dump_clause L c with
          | none =>
            rw [ha, hr] at h
            simp only [Option.bind, hc, hb] at h
            cases h
          | some b =>
            rw [ha, hr] at h
            simp only [hc, hb, Option.bind, Option.some.injEq] at h
            obtain ⟨blocks, hlen, hfl, hall⟩ := dump_clauses_blocks L heap clauses n a ha
            refine ⟨blocks ++ [b], by simp [hlen], by rw [← h, hfl]; simp, fun j hj => ?_⟩
            rcases Nat.lt_succ_iff_lt_or_eq.1 hj with hlt | rfl
            · obtain ⟨r', c', h1, h2, h3⟩ := hall j hlt
              refine ⟨r', c', h1, h2, ?_⟩
              rw [h3, List.getElem?_append_left (by omega)]
            · refine ⟨r, c, ?_, hc, ?_⟩
              · rw [List.getD_eq_getElem?_getD] at hr
                cases hx : clauses[j]? with
                | none => simp [hx] at hr
                | some x =>
                  simp only [hx, Option.getD_some] at hr
                  rw [hr]
              · rw [hb, List.getElem?_append_right (by omega)]
                simp [hlen]

/-- The bytes `dump_paths` writes are the path blocks of the paths `0 .. n`
in order, each laid out as the specification says. -/
theorem dump_paths_blocks (L : Layout) (g : Generator) :
    ∀ (n : Nat) (bs : List Nat), dump_paths L g n = some bs →
      ∃ blocks : List (List Nat), blocks.length = n ∧ bs = blocks.flatten ∧
        ∀ i, i < n → ∃ p cb, g.paths[i]? = some (some p) ∧
          dump_clauses L g.heap p.clauses p.nclauses = some cb ∧
          blocks[i]? = some (pathBlock (cstr p.name) p.nclauses cb)
  | 0, bs, h => by
    simp only [dump_paths, Option.some.injEq] at h
    exact ⟨[], rfl, by rw [← h]; rfl, fun j hj => absurd hj (Nat.not_lt_zero _)⟩
  | n + 1, bs, h => by
    simp only [dump_paths] at h
    cases ha : dump_paths L g n with
    | none => simp [ha] at h
    | some a =>
      cases hp : (g.paths.getD n none) with
      | none =>
        rw [ha, hp] at h
        cases h
      | some p =>
        cases hcb : dump_clauses L g.heap p.clauses p.nclauses with
        | none =>
          rw [ha, hp] at h
          simp only [dump_path, hcb] at h
          cases h
        | some cb =>
          rw [ha, hp] at h
          simp only [dump_path, hcb, Option.some.injEq] at h
          obtain ⟨blocks, hlen, hfl, hall⟩ := dump_paths_blocks L g n a ha
          refine ⟨blocks ++ [pathBlock (cstr p.name) p.nclauses cb], by simp [hlen], ?_,
            fun j hj => ?_⟩
          · rw [← h, hfl]
            simp [pathBlock, fputc, Nat.mod_eq_of_lt (show min (cstr p.name).length 255 < 256 by omega)]
          · rcases Nat.lt_succ_iff_lt_or_eq.1 hj with hlt | rfl
            · obtain ⟨p', cb', h1, h2, h3⟩ := hall j hlt
              refine ⟨p', cb', h1, h2, ?_⟩
              rw [List.getElem?_append_left (by omega)]
              exact h3
            · refine ⟨p, cb, ?_, hcb, ?_⟩
              · rw [List.getD_eq_getElem?_getD] at hp
                cases hx : g.paths[j]? with
                | none => simp [hx] at hp
                | some x =>
                  simp only [hx, Option.getD_some] at hp
                  rw [hp]
              · rw [List.getElem?_append_right (by omega)]
                simp [hlen]

theorem lastKept_of_eq {g g' : Generator} (h1 : g'.path = g.path) (h2 : g'.pathsn = g.pathsn) :
    LastKept g g' := by
  rintro ⟨k, hk, hn⟩
  exact ⟨k, by rw [h1]; exact hk, by rw [h2]; exact hn⟩

theorem setPathEntry_pathsn (g : Generator) (p : PathEntry) :
    (g.setPathEntry p).pathsn = g.pathsn := by
  unfold Generator.setPathEntry
  split <;> rfl

theorem gen_lastKept (i : Instruction) (g g' : Generator) (a : Nat) (h : gen i g = .ok a g') :
    LastKept g g' := by
  obtain ⟨r, c, _, _, _, rfl⟩ := gen_ok i g g' a h
  exact lastKept_of_eq rfl rfl

theorem nextreg_lastKept (g g' : Generator) (a : Int) (h : nextreg g = .ok a g') :
    LastKept g g' := by
  obtain ⟨r, c, _, _, _, rfl⟩ := nextreg_ok g g' a h
  exact lastKept_of_eq rfl rfl

theorem exitscope_lastKept (g g' : Generator) (a : Unit) (h : exitscope g = .ok a g') :
    LastKept g g' := by
  unfold exitscope at h
  split at h
  · cases h
  · simp only [Outcome.ok.injEq] at h
    rw [← h.2]
    exact lastKept_of_eq rfl rfl

/-- Every step of the lowering keeps the active path the path registered
last: `gen_path` never restores `g->path`. -/
theorem last_simple : Simple LastKept where
  refl _ := id
  trans _ _ _ h12 h23 := fun h => h23 (h12 h)
  nextreg g a g' h := nextreg_lastKept g g' a h
  incLocals g a g' h := by
    obtain ⟨r, c, _, _, rfl⟩ := incLocals_ok g g' a h
    exact lastKept_of_eq rfl rfl
  gen i _ g a g' h := gen_lastKept i g g' a h
  gen_constant s v g a g' h := by
    rcases gen_constant_ok s v g g' a h with rfl | ⟨r, c, c', _, _, rfl, _⟩
    · exact id
    · exact lastKept_of_eq rfl rfl
  define s r g a g' h := by
    unfold define at h
    split at h
    · cases h
    · simp only [Outcome.ok.injEq] at h
      rw [← h.2]
      exact lastKept_of_eq rfl rfl
  setBlock n g a g' h := by
    simp only [setBlock, Outcome.ok.injEq] at h
    rw [← h.2]
    exact lastKept_of_eq rfl rfl
  bracket g g0 g1 g2 he h01 hx := by
    rw [enterscope_ok g () g0 he] at h01
    exact fun h => exitscope_lastKept _ _ _ hx (h01 (lastKept_of_eq rfl rfl h))
  clause n locals body hl hb g a g' h := by
    unfold gen_clause_steps at h
    simp only [bind_ok, pure_ok] at h
    obtain ⟨oi, g1, hemit, _, g2, hrest, _, rfl⟩ := h
    unfold gen_clause_emit at hemit
    simp only [bind_ok, pure_ok] at hemit
    obtain ⟨oi', ga, halloc, _, gb, hent, _, gc, hloc, reg, gd, hbody, _, ge, hex, _, gf, hend,
      _, rfl⟩ := hemit
    have e0 : LastKept g ga := by
      unfold allocClause at halloc
      cases hp : g.pathEntry with
      | none => simp [hp] at halloc
      | some p =>
        simp only [hp, Outcome.ok.injEq] at halloc
        rw [← halloc.2]
        exact lastKept_of_eq (setPathEntry_path _ _) (setPathEntry_pathsn _ _)
    have e1 : LastKept ga gb := by
      rw [enterscope_ok ga () gb hent]
      exact lastKept_of_eq rfl rfl
    have e3 : LastKept ge gf := by
      unfold gen_clause_end at hend
      simp only [bind_ok, pure_ok] at hend
      obtain ⟨w, gw, hw, _, gx, hx, _, gy, hy, _, rfl⟩ := hend
      rw [lastWord_state _ _ _ hw] at hx
      suffices hwx : LastKept ge gx from fun h => gen_lastKept _ _ _ _ hy (hwx h)
      split at hx
      · unfold gen_clause_return at hx
        split at hx
        · simp only [bind_ok, pure_ok] at hx
          obtain ⟨_, g5, h5, _, g6, h6, _, g7, h7, _, rfl⟩ := hx
          exact fun h => gen_lastKept _ _ _ _ h7 (gen_lastKept _ _ _ _ h6
            (nextreg_lastKept _ _ _ h5 h))
        · simp only [bind_ok, pure_ok] at hx
          obtain ⟨_, g7, h7, _, rfl⟩ := hx
          exact gen_lastKept _ _ _ _ h7
      · rw [pure_ok] at hx
        rw [← hx.2]
        exact id
    have e4 : LastKept gf g2 := by
      unfold restoreClause at hrest
      split at hrest
      · simp only [Outcome.ok.injEq] at hrest
        rw [← hrest.2]
        exact id
      · split at hrest
        · cases hrest
        · simp only [Outcome.ok.injEq] at hrest
          rw [← hrest.2]
          exact lastKept_of_eq (setPathEntry_path _ _) (setPathEntry_pathsn _ _)
    exact fun h => e4 (e3 (exitscope_lastKept _ _ _ hex (hb _ _ _ hbody (hl _ _ _ hloc
      (e1 (e0 h))))))
  genAny i g a g' h := gen_lastKept i g g' a h
  patch clause idx v g a g' h := by
    unfold patchCode at h
    cases hc : g.heap[clause]? with
    | none => simp [hc] at h
    | some c =>
      simp only [hc] at h
      split at h
      · simp only [Outcome.ok.injEq] at h
        rw [← h.2]
        exact lastKept_of_eq rfl rfl
      · cases h
  registerPath name n g a g' h := by
    unfold Arbre.registerPath at h
    split at h
    · simp only [Outcome.ok.injEq] at h
      rw [← h.2]
      exact fun _ => ⟨g.pathsn, rfl, rfl⟩
    · cases h

/-- Lowering a clause without a path declaration inside leaves `g->path` as
it is. -/
theorem gen_clause_keeps_path (n : Node) (g g' : Generator) (r : Int) (hn : n.noPath = true)
    (hok : gen_clause n g = .ok r g') : g'.path = g.path := by
  cases n with
  | OCLAUSE h lval nguards guards rval =>
    have hrv : rval.noPath = true := by
      simp only [Node.noPath, Bool.and_eq_true] at hn
      exact hn.2
    rw [gen_clause] at hok
    unfold gen_clause_steps at hok
    simp only [bind_ok, pure_ok] at hok
    obtain ⟨oi, g1, hemit, _, g2, hrest, _, rfl⟩ := hok
    unfold gen_clause_emit at hemit
    simp only [bind_ok, pure_ok] at hemit
    obtain ⟨oi', ga, halloc, _, gb, hent, _, gc, hloc, reg, gd, hbody, _, ge, hex, _, gf, hend,
      rfl, rfl⟩ := hemit
    obtain ⟨p, _, _, hpa, hha, hra⟩ := allocClause_ok _ _ _ _ halloc
    have hnew : ga.heap[g.heap.length]? =
        some (clauseentry (.OCLAUSE h lval nguards guards rval) p.nclauses) := by
      rw [hha]
      simp
    have eae : Extends ga ge :=
      extends_trans (enterscope_ext _ _ _ _ hent)
        (extends_trans (gen_locals_pres extends_stable lval _ _ _ hloc)
          (extends_trans ((extends_gen_node rval hrv).2.1 _ _ _ hbody)
            (exitscope_ext _ _ _ _ hex)))
    have eaf : Ext (fun _ => True) ga gf :=
      ext_top_trans (ext_mono (fun _ hf => hf.elim) eae) (gen_clause_end_ext _ _ _ _ hend)
    obtain ⟨x1, _⟩ := eaf _ _ hra hnew
    obtain ⟨_, r2, _, _⟩ := restoreClause_ok _ _ _ _ hrest
    rw [r2, x1, hpa]
  | _ => simp [gen_clause, fault] at hok

/-- A path declaration whose clause holds no further path declaration
registers exactly one path. -/
theorem gen_path_one (h : Hdr) (name clause : Node) (g g' : Generator) (r : Int)
    (hn : clause.noPath = true) (hok : gen_node (.OPATH h name clause) g = .ok r g') :
    g'.pathsn = g.pathsn + 1 := by
  rw [gen_node] at hok
  unfold gen_path at hok
  cases hsrc : name.src with
  | none =>
    simp only [hsrc] at hok
    cases hok
  | some nm =>
    simp only [hsrc, bind_ok] at hok
    obtain ⟨g0, g0', hg, hok⟩ := hok
    obtain ⟨rfl, rfl⟩ : g = g0 ∧ g = g0' := by
      simp only [getG, Outcome.ok.injEq] at hg
      exact hg
    cases hl : symtab_lookup [g.tree.psymbols] nm with
    | some _ =>
      simp only [hl] at hok
      cases hok
    | none =>
      simp only [hl, bind_ok] at hok
      obtain ⟨_, g1, hreg, hcl⟩ := hok
      have k1 := (simple_gen_node last_simple clause).2.2.1 _ _ _ hcl
      have hpath := gen_clause_keeps_path clause _ _ _ hn hcl
      unfold registerPath at hreg
      split at hreg
      · simp only [Outcome.ok.injEq] at hreg
        obtain ⟨_, rfl⟩ := hreg
        obtain ⟨k, hk, hkn⟩ := k1 ⟨g.pathsn, rfl, rfl⟩
        rw [hpath] at hk
        simp only [Option.some.injEq] at hk
        rw [hkn, ← hk]
      · cases hreg

/-- The loop of `gen_block` registers the path declarations of the body in
the order of the body: with `idx k` the value of `pathsn` when node `k` is
reached, a path declaration at `k` has its entry at `idx k`, below
`idx (k + 1)`. -/
theorem gen_nodes_order : ∀ (body : NodeList) (r : Int) (g g' : Generator) (r' : Int),
    gen_nodes body r g = .ok r' g' →
    NamesKept g g' ∧ ∃ idx : Nat → Nat, idx 0 = g.pathsn ∧ idx body.length = g'.pathsn ∧
      (∀ k, k < body.length → idx k ≤ idx (k + 1)) ∧
      ∀ k hk nm cl, body.nth k = some (.OPATH hk nm cl) →
        idx k < idx (k + 1) ∧ (cl.noPath = true → idx (k + 1) = idx k + 1) ∧
          ∃ p, g'.paths[idx k]? = some (some p) ∧
            some p.name = nm.src ∧ p.node = .OPATH hk nm cl
  | .nil, r, g, g', r' => by
    intro hok
    simp only [gen_nodes] at hok
    obtain ⟨_, rfl⟩ := (pure_ok _ _ _ _).1 hok
    refine ⟨namesKept_refl _, fun _ => g.pathsn, rfl, rfl, fun k hk => ?_, fun k hk nm cl hnth => ?_⟩
    · simp only [NodeList.length] at hk
      omega
    · simp only [NodeList.nth] at hnth
      cases hnth
  | .cons hd tl, r, g, g', r' => by
    intro hok
    simp only [gen_nodes, bind_ok] at hok
    obtain ⟨reg, g1, hhd, htl⟩ := hok
    have k0 := (simple_gen_node names_simple hd).1 _ _ _ hhd
    obtain ⟨k1, idx, h0, hlen, hmono, hent⟩ := gen_nodes_order tl reg g1 g' r' htl
    refine ⟨namesKept_trans k0 k1, fun k => match k with | 0 => g.pathsn | k + 1 => idx k,
      rfl, hlen, fun k hk => ?_, fun k hk nm cl hnth => ?_⟩
    · cases k with
      | zero =>
        show g.pathsn ≤ idx 0
        rw [h0]
        exact k0.1
      | succ k =>
        simp only [NodeList.length] at hk
        exact hmono k (by omega)
    · cases k with
      | zero =>
        simp only [NodeList.nth, Option.some.injEq] at hnth
        subst hnth
        obtain ⟨_, hlt, p, hp, hn, hd⟩ := gen_path_registered _ _ _ _ _ _ hhd
        obtain ⟨p', hp', hn', hd'⟩ := k1.2 g.pathsn p hlt hp
        refine ⟨?_, fun hcl => ?_, p', hp', by rw [hn']; exact hn, by rw [hd']; exact hd⟩
        · show g.pathsn < idx 0
          rw [h0]
          exact hlt
        · show idx 0 = g.pathsn + 1
          rw [h0]
          exact gen_path_one _ _ _ _ _ _ hcl hhd
      | succ k =>
        simp only [NodeList.nth] at hnth
        exact hent k hk nm cl hnth


/-- Witness of C3: intern the number `1`, then an anonymous atom and the number `2`,
then ask for `1` again with another value. -/
theorem gen_constant_same_key_witness :
    gen_constant (some "1") (.number 1) sampleState
        = .ok 0 (gen_constant (some "1") (.number 1) sampleState).state ∧
      internAll [(none, .atom "a"), (some "2", .number 2)]
          (gen_constant (some "1") (.number 1) sampleState).state
        = .ok () (internAll [(none, .atom "a"), (some "2", .number 2)]
            (gen_constant (some "1") (.number 1) sampleState).state).state ∧
      gen_constant (some "1") (.number 7)
          (internAll [(none, .atom "a"), (some "2", .number 2)]
            (gen_constant (some "1") (.number 1) sampleState).state).state
        = .ok 0 (internAll [(none, .atom "a"), (some "2", .number 2)]
            (gen_constant (some "1") (.number 1) sampleState).state).state :=
  ⟨by decide!, by decide!,
    gen_constant_same_key sampleState
      (gen_constant (some "1") (.number 1) sampleState).state
      (internAll [(none, .atom "a"), (some "2", .number 2)]
        (gen_constant (some "1") (.number 1) sampleState).state).state
      "1" (.number 1) (.number 7) 0
      [(none, .atom "a"), (some "2", .number 2)] (by decide!) (by decide!)⟩

/-- C1: for every clause node whose lowering by `gen_clause` completes, the
clause entry that received the emission (the active clause at the end of the
emitting part `gen_clause_emit`, left untouched by the final restore of the
outer clause) has the zero terminator as its last word `code[pc - 1]` and a
word with opcode `RETURN` or `TAILCALL` at `code[pc - 2]`; when there was no
outer clause that entry is still the active clause on return; and when no path
declaration occurs inside the clause, that entry is the one allocated for the
clause (the one appended to the heap, whose node is the clause). -/
theorem gen_clause_ends_in_return (h : Hdr) (lval : Node) (nguards : Nat) (guards : NodeList)
    (rval : Node) (g g' : Generator) (r : Int)
    (hok : gen_clause (.OCLAUSE h lval nguards guards rval) g = .ok r g') :
    ∃ old index g1 ref c,
      gen_clause_emit (.OCLAUSE h lval nguards guards rval) (gen_locals lval) (gen_block rval) g
        = .ok (old, index) g1 ∧
      restoreClause old g1 = .ok () g' ∧ r = (index : Int) ∧
      g1.clauseRef = some ref ∧ g'.heap[ref]? = some c ∧ EndsInReturn c ∧
      (old = none → g'.clause = some c) ∧
      ((Node.OCLAUSE h lval nguards guards rval).noPath = true →
        ref = g.heap.length ∧ c.node = .OCLAUSE h lval nguards guards rval) := by
  rw [gen_clause] at hok
  unfold gen_clause_steps at hok
  simp only [bind_ok, pure_ok] at hok
  obtain ⟨⟨old, index⟩, g1, hemit, u, g2, hrest, hr, rfl⟩ := hok
  have hemit' := hemit
  unfold gen_clause_emit at hemit'
  simp only [bind_ok, pure_ok] at hemit'
  obtain ⟨oi, ga, halloc, _, gb, hent, _, gc, hloc, reg, gd, hbody, _, ge, hex, _, gf, hend, _,
    rfl⟩ := hemit'
  obtain ⟨c, hc, hends⟩ := gen_clause_end_ok _ _ _ hend
  obtain ⟨ref, href, hheap⟩ := (clause_eq_some _ c).1 hc
  have hheap' : g2.heap = gf.heap := by
    unfold restoreClause at hrest
    cases old with
    | none =>
      simp only [Outcome.ok.injEq] at hrest
      rw [← hrest.2]
    | some o =>
      simp only at hrest
      cases hp : gf.pathEntry with
      | none => simp [hp] at hrest
      | some p =>
        simp only [hp, Outcome.ok.injEq] at hrest
        rw [← hrest.2]
        unfold Generator.setPathEntry
        cases gf.path <;> rfl
  refine ⟨old, index, gf, ref, c, hemit, hrest, hr.symm, href, by rw [hheap']; exact hheap, hends,
    ?_, ?_⟩
  · intro hold
    subst hold
    simp only [restoreClause, Outcome.ok.injEq, true_and] at hrest
    subst hrest
    exact hc
  · intro hn
    have hrv : rval.noPath = true := by
      simp only [Node.noPath, Bool.and_eq_true] at hn
      exact hn.2
    obtain ⟨p, _, _, _, hha, hra⟩ := allocClause_ok _ _ _ _ halloc
    have hnew : ga.heap[g.heap.length]? =
        some (clauseentry (.OCLAUSE h lval nguards guards rval) p.nclauses) := by
      rw [hha]
      simp
    have eae : Extends ga ge :=
      extends_trans (enterscope_ext _ _ _ _ hent)
        (extends_trans (gen_locals_pres extends_stable lval _ _ _ hloc)
          (extends_trans ((extends_gen_node rval hrv).2.1 _ _ _ hbody)
            (exitscope_ext _ _ _ _ hex)))
    have eaf : Ext (fun _ => True) ga gf :=
      ext_top_trans (ext_mono (fun _ hf => hf.elim) eae) (gen_clause_end_ext _ _ _ _ hend)
    obtain ⟨_, x2, _, _, cf, x5, _, x7, _, _, _⟩ := eaf _ _ hra hnew
    rw [href] at x2
    simp only [Option.some.injEq] at x2
    rw [← x2] at x5
    have hcf := hheap.symm.trans x5
    simp only [Option.some.injEq] at hcf
    rw [hcf, x7]
    exact ⟨x2, rfl⟩

/-- Witness of C1: the clause `(A, B): A + B` lowered inside the sample state. -/
theorem gen_clause_ends_in_return_witness :
    gen_clause sampleAddClause sampleState = .ok 1 (gen_clause sampleAddClause sampleState).state ∧
    ∃ old index g1 ref c,
      gen_clause_emit sampleAddClause
          (gen_locals (.OTUPLE (hdr 42 "") 2
            (.cons (.OIDENT (hdr 43 "A")) (.cons (.OIDENT (hdr 44 "B")) .nil))))
          (gen_block (.OBLOCK (hdr 45 "")
            (.cons (.OADD (hdr 46 "+") (.OIDENT (hdr 47 "A")) (.OIDENT (hdr 48 "B"))) .nil) .null))
          sampleState = .ok (old, index) g1 ∧
      restoreClause old g1 = .ok () (gen_clause sampleAddClause sampleState).state ∧
      (1 : Int) = (index : Int) ∧
      g1.clauseRef = some ref ∧
      (gen_clause sampleAddClause sampleState).state.heap[ref]? = some c ∧ EndsInReturn c ∧
      (old = none → (gen_clause sampleAddClause sampleState).state.clause = some c) ∧
      (sampleAddClause.noPath = true →
        ref = sampleState.heap.length ∧ c.node = sampleAddClause) :=
  ⟨by decide!,
    gen_clause_ends_in_return (hdr 41 "") _ 0 .nil _ sampleState
      (gen_clause sampleAddClause sampleState).state 1 (by decide!)⟩

theorem tailLoop_ne (n : Nat) (name p : String) (hne : name ≠ p) (b : Parent) :
    tailLoop n name (some p) b ≠ some true := by
  induction b with
  | null => simp [tailLoop]
  | block last parent ih =>
    unfold tailLoop
    by_cases hl : n = last
    · subst hl
      simp only [↓reduceIte, hne]
      exact ih
    · simp [hl]

theorem tailLoop_true_iff (n : Nat) (name : String) (pname : Option String) (last : Nat)
    (parent : Parent) :
    tailLoop n name pname (.block last parent) = some true ↔ n = last ∧ pname = some name := by
  unfold tailLoop
  by_cases hl : n = last
  · cases pname with
    | none => simp [hl]
    | some p =>
      by_cases hp : name = p
      · simp [hl, hp]
      · have := tailLoop_ne last name p hp parent
        simp only [hl, hp, ↓reduceIte, true_and, Option.some.injEq]
        constructor
        · intro h; exact absurd h this
        · intro h; exact absurd h.symm hp
  · simp [hl]

theorem blockView_applyTail (g : Generator) (n : Node) (name : String) (last : Nat)
    (parent : Parent) (hb : blockView g.block = .ok (.block last parent)) :
    applyTail g n name = true ↔
      (n.addr = last ∧ g.pathEntry.map (fun p => p.name) = some name) := by
  unfold applyTail lastOfBlock
  unfold blockView at hb
  split at hb
  · simp at hb
  · rename_i h body par hblk
    rw [hblk]
    cases he : body.endHead with
    | none => simp [he] at hb
    | some e =>
      simp only [he, Except.ok.injEq, Parent.block.injEq] at hb
      simp only [he, Bool.and_eq_true, beq_iff_eq, ← hb.1]
      constructor
      · rintro ⟨h1, h2⟩; exact ⟨h1.symm, h2⟩
      · rintro ⟨h1, h2⟩; exact ⟨h1.symm, h2⟩
  · simp at hb

/-- What `gen_apply` emits, in terms of the block recorded in `g->block`: an
`OAPPLY` node whose lowering completes emits, after the code of callee and
argument, exactly one instruction: `TAILCALL rr, 0, rval` when the node is the
last child of the block recorded in `g->block` and the callee's name equals
the active path's name, and `CALL rr, lval, rval` in every other case; `rr` is
the fresh register the lowering returns. -/
theorem gen_apply_emits (h : Hdr) (lv : Node) (name : String) (rv : Node) (g g' : Generator)
    (rr : Int) (hok : gen_node (.OAPPLY h lv name rv) g = .ok rr g') :
    ∃ lval rval g1 g2 g3 p c',
      gen_node lv g = .ok lval g1 ∧ gen_node rv g1 = .ok rval g2 ∧ nextreg g2 = .ok rr g3 ∧
      gen (if applyTail g3 (.OAPPLY h lv name rv) name then .iABC .OP_TAILCALL rr 0 rval
           else .iABC .OP_CALL rr lval rval) g3 = .ok p g' ∧
      g'.clause = some c' ∧ c'.pc = p + 1 ∧
      c'.word p = (if applyTail g3 (.OAPPLY h lv name rv) name then .iABC .OP_TAILCALL rr 0 rval
                   else .iABC .OP_CALL rr lval rval) := by
  rw [gen_node] at hok
  unfold gen_apply at hok
  simp only [bind_ok] at hok
  obtain ⟨lval, g1, h1, rval, g2, h2, rr', g3, h3, g3', g4, h4, h5⟩ := hok
  simp only [getG, Outcome.ok.injEq] at h4
  obtain ⟨rfl, rfl⟩ := h4
  cases hb : blockView g3.block with
  | error f => simp [hb, fault] at h5
  | ok b =>
    cases b with
    | null =>
      simp only [hb, tailLoop, fault] at h5
      cases h5
    | block last parent =>
      simp only [hb] at h5
      have key := tailLoop_true_iff (Node.OAPPLY h lv name rv).addr name
        (g3.pathEntry.map (fun p => p.name)) last parent
      have key2 := blockView_applyTail g3 (.OAPPLY h lv name rv) name last parent hb
      cases ht : tailLoop (Node.OAPPLY h lv name rv).addr name
          (g3.pathEntry.map (fun p => p.name)) (.block last parent) with
      | none => simp [ht, fault] at h5
      | some t =>
        cases t with
        | true =>
          simp only [ht, bind_ok, pure_ok] at h5
          obtain ⟨p, g5, hg, hrr, rfl⟩ := h5
          subst hrr
          have hat : applyTail g3 (.OAPPLY h lv name rv) name = true :=
            key2.2 (key.1 ht)
          obtain ⟨c, c', hc, hc', hp, hpc, hw, _⟩ := gen_clause_after _ _ _ _ hg
          refine ⟨lval, rval, g1, g2, g3, p, c', h1, h2, h3, ?_, hc', ?_, ?_⟩
          · simp only [hat, ↓reduceIte]; exact hg
          · rw [hpc, hp]
          · simp only [hat, ↓reduceIte]; rw [hp]; exact hw
        | false =>
          simp only [ht, bind_ok, pure_ok] at h5
          obtain ⟨p, g5, hg, hrr, rfl⟩ := h5
          subst hrr
          have hat : applyTail g3 (.OAPPLY h lv name rv) name = false := by
            by_contra hcon
            simp only [Bool.not_eq_false] at hcon
            have := key.2 (key2.1 hcon)
            rw [ht] at this
            cases this
          obtain ⟨c, c', hc, hc', hp, hpc, hw, _⟩ := gen_clause_after _ _ _ _ hg
          refine ⟨lval, rval, g1, g2, g3, p, c', h1, h2, h3, ?_, hc', ?_, ?_⟩
          · simp only [hat]; exact hg
          · rw [hpc, hp]
          · simp only [hat]; rw [hp]; exact hw

/-- An instance of the emission of `gen_apply`: the call `.f (N)` at the end
of the arm body. -/
theorem gen_apply_emits_witness :
    gen_node sampleApply sampleArmState = .ok 3 (gen_node sampleApply sampleArmState).state ∧
    ∃ lval rval g1 g2 g3 p c',
      gen_node sampleCallee sampleArmState = .ok lval g1 ∧
      gen_node (.OIDENT (hdr 57 "N")) g1 = .ok rval g2 ∧ nextreg g2 = .ok 3 g3 ∧
      gen (if applyTail g3 sampleApply "f" then .iABC .OP_TAILCALL 3 0 rval
           else .iABC .OP_CALL 3 lval rval) g3
        = .ok p (gen_node sampleApply sampleArmState).state ∧
      (gen_node sampleApply sampleArmState).state.clause = some c' ∧ c'.pc = p + 1 ∧
      c'.word p = (if applyTail g3 sampleApply "f" then .iABC .OP_TAILCALL 3 0 rval
                   else .iABC .OP_CALL 3 lval rval) :=
  ⟨by decide!,
    gen_apply_emits (hdr 53 "") sampleCallee "f" (.OIDENT (hdr 57 "N")) sampleArmState
      (gen_node sampleApply sampleArmState).state 3 (by decide!)⟩

/-- The self-call that ends the arm of a `select` which is itself the last
child of the clause body: lowering `f (X): select X { (N): .f (N) }` completes
and emits `TAILCALL` for the call (word 2 of the clause), and in the state
where the call is lowered the instruction emitted is `TAILCALL 3, 0, 3`; the
block that holds the call (the arm body) is not the body of the active
clause. -/
theorem gen_apply_tailcall_outside_clause_body :
    (gen_node sampleSelectPath sampleInit).codes =
      [[.iABC .OP_MATCH 3 128 1, .iAJ .OP_JUMP 0 2, .iABC .OP_TAILCALL 6 0 4,
        .iABC .OP_MOVE 2 6 0, .iABC .OP_RETURN 2 0 0, .word 0]] ∧
    (gen_node sampleApply sampleArmState).codes = [[.iABC .OP_TAILCALL 3 0 3]] ∧
    tailPosition sampleArmState sampleApply "f" = false ∧
    tailPosition (gen_node sampleApply sampleArmState).state sampleApply "f" = false := by
  decide!

/-- C2 at the failing inputs, both lowered from the initial generator.  In
`f (X): select X { (N): N }, .f (X)` the self-call is the last child of the
clause body and the callee is the active path, the tail position of the
claim, yet the word emitted for it is `CALL 6, 130, 1`: when the call is
lowered `g->block` still names the arm body of the `select` (address 64),
which `gen_block` left there, so the loop of `gen_apply` does not find the call
at the end of that block.  In `f (X): select X { (N): .f (N) }, X + X` the
self-call ends an arm of a `select` that the sum follows, no tail position, yet
the word emitted for it is `TAILCALL 6, 0, 4`, and `ADD 7, 1, 1` comes after
it. -/
theorem tail_call_test_reads_stale_block :
    gen_node sampleCallAfterSelect sampleInit
      = .ok 0 (gen_node sampleCallAfterSelect sampleInit).state ∧
    (gen_node sampleCallAfterSelect sampleInit).codes =
      [[.iABC .OP_MATCH 3 128 1, .iAJ .OP_JUMP 0 1, .iABC .OP_MOVE 2 4 0,
        .iABC .OP_CALL 6 130 1, .iABC .OP_RETURN 6 0 0, .word 0]] ∧
    gen_node sampleCallAfterSelect sampleInit =
      (do
        let r ← gen_node sampleCallX
        setBlock sampleCallBody
        exitscope
        gen_clause_end r
        restoreClause none
        pure 0 : Gen Int) sampleBeforeCall ∧
    sampleBeforeCall.clause.map (fun c => lastOfClauseBody c sampleCallX) = some true ∧
    sampleBeforeCall.pathEntry.map (fun p => p.name) = some "f" ∧
    sampleBeforeCall.block.addr = 64 ∧
    (gen_node sampleCallX sampleBeforeCall).codes =
      [[.iABC .OP_MATCH 3 128 1, .iAJ .OP_JUMP 0 1, .iABC .OP_MOVE 2 4 0,
        .iABC .OP_CALL 6 130 1]] ∧
    gen_node sampleTailInArm sampleInit = .ok 0 (gen_node sampleTailInArm sampleInit).state ∧
    (gen_node sampleTailInArm sampleInit).codes =
      [[.iABC .OP_MATCH 3 128 1, .iAJ .OP_JUMP 0 2, .iABC .OP_TAILCALL 6 0 4,
        .iABC .OP_MOVE 2 6 0, .iABC .OP_ADD 7 1 1, .iABC .OP_RETURN 7 0 0, .word 0]] ∧
    (gen_node sampleTailInArm sampleInit).state.heap.map
      (fun c => lastOfClauseBody c sampleApply) = [false] := by
  decide!

/-! ## Scopes -/

theorem scopes_simple : Simple (fun g g' => SameOuterScopes g.tree g'.tree) := by
  apply Simple.ofTree
  · intro t
    exact ⟨rfl, rfl⟩
  · intro t1 t2 t3 h12 h23
    exact ⟨h23.1.trans h12.1, h23.2.trans h12.2⟩
  · intro t id reg s ps hs
    simp only [SameOuterScopes, hs, List.tail_cons, List.length_cons, and_self]
  · intro t t1 s ps h hs
    obtain ⟨h1, h2⟩ := h
    simp only [hs, List.tail_cons, List.length_cons] at h1 h2
    subst h1
    exact ⟨rfl, rfl⟩
  · intro t name i
    exact ⟨rfl, rfl⟩

/-- An `exitscope` after steps that left the outer scopes alone since the
matching `enterscope` restores the chain exactly. -/
theorem bracket_exact (g g0 g1 g2 : Generator) (he : enterscope g = .ok () g0)
    (h : SameOuterScopes g0.tree g1.tree) (hx : exitscope g1 = .ok () g2) :
    g2.tree.symbols = g.tree.symbols := by
  rw [enterscope_ok g () g0 he] at h
  obtain ⟨h1, _⟩ := h
  unfold exitscope at hx
  split at hx
  · cases hx
  · rename_i t ps hs
    simp only [Outcome.ok.injEq] at hx
    rw [← hx.2]
    simp only [hs, List.tail_cons] at h1
    exact h1

theorem gen_clause_steps_scopes (n : Node) (locals : Gen Unit) (body : Gen Int)
    (hl : Pres (fun g g' => SameOuterScopes g.tree g'.tree) locals)
    (hb : Pres (fun g g' => SameOuterScopes g.tree g'.tree) body)
    (g g' : Generator) (r : Int) (h : gen_clause_steps n locals body g = .ok r g') :
    g'.tree.symbols = g.tree.symbols := by
  unfold gen_clause_steps at h
  simp only [bind_ok, pure_ok] at h
  obtain ⟨oi, g1, hemit, _, g2, hrest, _, rfl⟩ := h
  unfold gen_clause_emit at hemit
  simp only [bind_ok, pure_ok] at hemit
  obtain ⟨oi', ga, halloc, _, gb, hent, _, gc, hloc, reg, gd, hbody, _, ge, hex, _, gf, hend,
    _, rfl⟩ := hemit
  rw [restoreClause_tree _ _ _ _ hrest, gen_clause_end_tree _ _ _ _ hend,
    bracket_exact ga gb gd ge hent (scopes_simple.trans _ _ _ (hl _ _ _ hloc) (hb _ _ _ hbody)) hex,
    allocClause_tree _ _ _ _ halloc]

theorem patchJump_tree (clause slot : Nat) (g g' : Generator) (u : Unit)
    (h : patchJump clause slot g = .ok u g') : g'.tree = g.tree := by
  unfold patchJump at h
  split at h
  · rename_i pc g2 hpc
    rw [pcOf_state _ _ _ _ hpc] at h
    exact patchCode_tree _ _ _ _ _ _ h
  · cases h

theorem patchJumps_tree (clause : Nat) : ∀ (slots : List Nat) (g g' : Generator) (u : Unit),
    patchJumps clause slots g = .ok u g' → g'.tree = g.tree
  | [], g, g', u, h => by
    simp only [patchJumps, Outcome.ok.injEq] at h
    rw [← h.2]
  | s :: ss, g, g', u, h => by
    simp only [patchJumps] at h
    split at h
    · rename_i u1 g1 h1
      rw [patchJumps_tree clause ss g1 g' u h]
      exact patchJump_tree _ _ _ _ _ h1
    · cases h

theorem patchArms_tree (clause : Nat) (islast : Bool) (result : Int) :
    ∀ (slots : List Nat) (g g' : Generator) (u : Unit),
      patchArms clause islast result slots g = .ok u g' → g'.tree = g.tree
  | [], g, g', u, h => by
    simp only [patchArms, Outcome.ok.injEq] at h
    rw [← h.2]
  | s :: ss, g, g', u, h => by
    simp only [patchArms] at h
    split at h
    · rename_i u1 g1 h1
      rw [patchArms_tree clause islast result ss g1 g' u h]
      cases islast with
      | true => exact patchCode_tree _ _ _ _ _ _ h1
      | false =>
        simp only [Bool.false_eq_true, ↓reduceIte] at h1
        exact patchJump_tree _ _ _ _ _ h1
    · cases h

theorem gen_select_arms_scopes (argNull : Bool) (arg : Gen Int)
    (ha : Pres (fun g g' => SameOuterScopes g.tree g'.tree) arg) (clause : Nat) (result : Int)
    (nclauses : Nat) :
    ∀ (ns : NodeList), ArmsPres (fun g g' => SameOuterScopes g.tree g'.tree) ns →
      ∀ (i : Nat) (g g' : Generator) (ps : List ArmSlots),
        gen_select_arms argNull arg clause result nclauses ns i g = .ok ps g' →
        g'.tree.symbols = g.tree.symbols
  | .nil, _, i, g, g', ps, h => by
    simp only [gen_select_arms] at h
    split at h
    · cases h
    · rw [pure_ok] at h
      rw [← h.2]
  | .cons c tl, harms, i, g, g', ps, h => by
    simp only [ArmsPres] at harms
    have ht := gen_select_arms_scopes argNull arg ha clause result nclauses tl harms.2
    cases c with
    | OCLAUSE hd lval ng gs rval =>
      have hc := harms.1
      simp only [ArmPres] at hc
      simp only [gen_select_arms] at h
      split at h
      · simp only [bind_ok, pure_ok] at h
        obtain ⟨p, g1, harm, ps', g2, hrest, _, rfl⟩ := h
        obtain ⟨g0, g9, he0, r09, he10⟩ := gen_select_arm_inner scopes_simple clause result _ lval
          argNull arg _ _ ha (gen_guards_pres scopes_simple clause ng gs hc.2 0) hc.1 g g1 p harm
        rw [ht _ _ _ _ hrest, bracket_exact g g0 g9 g1 he0 r09 he10]
      · rw [pure_ok] at h
        rw [← h.2]
    | _ =>
      simp only [gen_select_arms] at h
      split at h
      · cases h
      · rw [pure_ok] at h
        rw [← h.2]

theorem gen_select_scopes (h : Hdr) (arg : Node) (ncl : Nat) (cls : NodeList) (g g' : Generator)
    (r : Int) (hok : gen_node (.OSELECT h arg ncl cls) g = .ok r g') :
    g'.tree.symbols = g.tree.symbols := by
  have ha := (simple_gen_node scopes_simple arg).1
  have hc := arms_pres scopes_simple.toStable true (fun _ => gen_path_pres scopes_simple)
    (gen_select_pres scopes_simple) cls (Or.inl rfl)
  rw [gen_node] at hok
  unfold gen_select at hok
  simp only [bind_ok] at hok
  obtain ⟨result, g1, h1, h2⟩ := hok
  split at h2
  · cases h2
  · simp only [bind_ok, pure_ok] at h2
    obtain ⟨rc, g2, h3, il, g3, h4, ps, g4, h5, _, g5, h6, _, rfl⟩ := h2
    rw [patchArms_tree _ _ _ _ _ _ _ h6,
      gen_select_arms_scopes arg.isNull (gen_node arg) ha rc.1 result ncl cls hc 0 g3 g4 ps h5,
      selectIsLast_state _ _ _ _ _ h4, curClause_state _ _ _ h3, nextreg_tree _ _ _ h1]

/-- C4: when the lowering of a clause node by `gen_clause` completes, the
chain of lexical symbol tables is the one from before the call, so every name
resolves as before and nothing bound by the parameter pattern, by a bind or
in a `select` arm stays visible; the lowering of a `select` node by
`gen_select` leaves the chain as it found it too. -/
theorem scope_chain_restored (n : Node) (g g' : Generator) (r : Int)
    (hok : gen_clause n g = .ok r g' ∨
      ((∃ h arg ncl cls, n = .OSELECT h arg ncl cls) ∧ gen_node n g = .ok r g')) :
    g'.tree.symbols = g.tree.symbols ∧
      ∀ k : String, symtab_lookup g'.tree.symbols k = symtab_lookup g.tree.symbols k := by
  have key : g'.tree.symbols = g.tree.symbols := by
    rcases hok with hok | ⟨⟨h, arg, ncl, cls, hn⟩, hok⟩
    · cases n with
      | OCLAUSE hd lval ng gs rval =>
        rw [gen_clause] at hok
        exact gen_clause_steps_scopes _ _ _ (gen_locals_pres scopes_simple.toStable lval)
          (simple_gen_node scopes_simple rval).2.1 g g' r hok
      | _ =>
        simp only [gen_clause, fault] at hok
        cases hok
    · subst hn
      exact gen_select_scopes h arg ncl cls g g' r hok
  exact ⟨key, fun k => by rw [key]⟩

/-- Witness of C4: the clause `(A, B): A + B`, and the `select` with the arm
`(N): .f (N)`, lowered inside the sample state. -/
theorem scope_chain_restored_witness :
    (gen_clause sampleAddClause sampleState
        = .ok 1 (gen_clause sampleAddClause sampleState).state ∧
      (gen_clause sampleAddClause sampleState).state.tree.symbols = sampleState.tree.symbols) ∧
    (gen_node sampleSelect sampleSelectState
        = .ok 2 (gen_node sampleSelect sampleSelectState).state ∧
      (gen_node sampleSelect sampleSelectState).state.tree.symbols
        = sampleSelectState.tree.symbols) :=
  ⟨⟨by decide!,
      (scope_chain_restored sampleAddClause sampleState
        (gen_clause sampleAddClause sampleState).state 1 (Or.inl (by decide!))).1⟩,
    ⟨by decide!,
      (scope_chain_restored sampleSelect sampleSelectState
        (gen_node sampleSelect sampleSelectState).state 2
        (Or.inr ⟨⟨_, _, _, _, rfl⟩, by decide!⟩)).1⟩⟩

/-! ## The end-of-arm slots of a select -/

/-- The end-of-arm slots in terms of the test `islast` that `gen_select`
computes at entry: for every `select` without a path declaration inside that
`gen_select` lowers into an active clause whose code fits its buffer, every arm
but the last recorded one end-of-arm slot `p`, the last word of that arm, and
when `gen_select` returns `code[p]` is `RETURN result, 0, 0` if, at entry, the
`select` is the last child of the block recorded in `g->block` and that block
is the body of the clause being lowered; otherwise it is `JUMP 0, pc - p - 1`
with `pc` the pc at the return of `gen_select`, so its target is `pc`. -/
theorem select_end_slots (h : Hdr) (arg : Node) (ncl : Nat) (cls : NodeList)
    (g g' : Generator) (result : Int) (clause : Nat) (c : ClauseEntry)
    (hn : (Node.OSELECT h arg ncl cls).noPath = true)
    (hok : gen_node (.OSELECT h arg ncl cls) g = .ok result g')
    (hact : Active g clause c) (hfit : Bounded c) :
    ∃ g1 slots g2 c',
      nextreg g = .ok result g1 ∧
      gen_select_arms arg.isNull (gen_node arg) clause result ncl cls 0 g1 = .ok slots g2 ∧
      slots.length = ncl ∧ Active g' clause c' ∧
      ∀ k a, slots[k]? = some a → k + 1 < ncl →
        ∃ p, a.patch = [p] ∧ c.pc ≤ p ∧ p + 1 = a.endpc ∧ a.endpc < c'.pc ∧
          c'.word p =
            if lastOfBlock g (.OSELECT h arg ncl cls) &&
                (g.block.addr == c.node.clauseRval.addr)
            then .iABC .OP_RETURN result 0 0
            else .iAJ .OP_JUMP 0 ((c'.pc : Int) - p - 1) := by
  obtain ⟨g1, slots, g2, c', hreg, harms, hlen, act', _, hpc, _, _, hone, hall⟩ :=
    gen_select_final h arg ncl cls g g' result clause c hn hok hact hfit
  refine ⟨g1, slots, g2, c', hreg, harms, hlen, act', fun k a hk hlt => ?_⟩
  obtain ⟨p, hp⟩ := hone k a hk hlt
  have hmem : a ∈ slots := List.getElem?_mem hk
  obtain ⟨t1, t2, t3, t4⟩ := (hall a hmem).2.1 p (by rw [hp]; exact List.mem_singleton_self p)
  refine ⟨p, hp, t1, t2, t3, ?_⟩
  rw [t4]
  unfold armEnd jumpTo
  rw [jumpOffset_eq _ _ (by omega) (by omega)]

/-- An instance of the end-of-arm slots: `select X { (1) X > 0: 10; (N): N }`
lowered as the last child of the body of the active clause of the sample
state. -/
theorem select_end_slots_witness :
    sampleTwoArms.noPath = true ∧
    gen_node sampleTwoArms sampleTwoArmsState
      = .ok 2 (gen_node sampleTwoArms sampleTwoArmsState).state ∧
    Active sampleTwoArmsState 0 sampleEntry ∧ Bounded sampleEntry ∧
    ∃ g1 slots g2 c',
      nextreg sampleTwoArmsState = .ok 2 g1 ∧
      gen_select_arms (Node.OIDENT (hdr 71 "X")).isNull (gen_node (.OIDENT (hdr 71 "X"))) 0 2 2
        sampleArms 0 g1 = .ok slots g2 ∧
      slots.length = 2 ∧ Active (gen_node sampleTwoArms sampleTwoArmsState).state 0 c' ∧
      ∀ k a, slots[k]? = some a → k + 1 < 2 →
        ∃ p, a.patch = [p] ∧ sampleEntry.pc ≤ p ∧ p + 1 = a.endpc ∧ a.endpc < c'.pc ∧
          c'.word p =
            if lastOfBlock sampleTwoArmsState sampleTwoArms &&
                (sampleTwoArmsState.block.addr == sampleEntry.node.clauseRval.addr)
            then .iABC .OP_RETURN 2 0 0
            else .iAJ .OP_JUMP 0 ((c'.pc : Int) - p - 1) :=
  ⟨by decide!, by decide!, ⟨by decide!, by decide!⟩, ⟨by decide!, by decide!⟩,
    select_end_slots (hdr 70 "") (.OIDENT (hdr 71 "X")) 2 sampleArms sampleTwoArmsState
      (gen_node sampleTwoArms sampleTwoArmsState).state 2 0 sampleEntry (by decide!) (by decide!)
      ⟨by decide!, by decide!⟩ ⟨by decide!, by decide!⟩⟩

/-- C5 at the failing input: in the clause `(X): select X { (N): N },
select X { (1) X > 0: 10; (N): N }` the second `select` is the last expression
of the clause body, yet the end-of-arm slot of its first arm (word 8, after the
result write `LOADK 4, 131`) holds `JUMP 0, 3` when `gen_select` returns, not
`RETURN 4, 0, 0`: at its entry `g->block` is still the body of the arm of the
first `select` (address 64), so the test `islast` fails. -/
theorem select_last_of_body_holds_jump :
    (gen_clause sampleTwoSelects sampleState).codes =
      [[], [.iABC .OP_MATCH 2 128 1, .iAJ .OP_JUMP 0 1, .iABC .OP_MOVE 1 3 0,
        .iABC .OP_EQ 5 129 1, .iAJ .OP_JUMP 0 4, .iABC .OP_GT 0 1 130, .iAJ .OP_JUMP 0 2,
        .iAD .OP_LOADK 4 131, .iAJ .OP_JUMP 0 3, .iABC .OP_MATCH 6 132 1, .iAJ .OP_JUMP 0 1,
        .iABC .OP_MOVE 4 7 0, .iABC .OP_RETURN 4 0 0, .word 0]] ∧
    gen_clause sampleTwoSelects sampleState =
      (do
        let r ← gen_node sampleTwoArms
        setBlock (.OBLOCK (hdr 92 "") (.cons sampleOneArm (.cons sampleTwoArms .nil)) .null)
        exitscope
        gen_clause_end r
        restoreClause (some 0)
        pure 1 : Gen Int) sampleAfterFirst ∧
    sampleAfterFirst.clauseRef = some 1 ∧
    sampleAfterFirst.clause.map (fun c => lastOfClauseBody c sampleTwoArms) = some true ∧
    sampleAfterFirst.block.addr = 64 ∧
    selectIsLast sampleTwoArms 1 sampleAfterFirst = .ok false sampleAfterFirst ∧
    gen_node sampleTwoArms sampleAfterFirst
      = .ok 4 (gen_node sampleTwoArms sampleAfterFirst).state ∧
    (gen_node sampleTwoArms sampleAfterFirst).state.clause.map (fun c => (c.pc, c.word 8))
      = some (12, .iAJ .OP_JUMP 0 3) := by
  decide!


/-! ## The pattern and guard slots of a select -/

/-- C6: for every `select` without a path declaration inside that `gen_select`
lowers into an active clause whose code fits its buffer: record `k` of the arm
loop belongs to arm `k` and holds one pattern slot when the arm has a pattern
and the `select` a subject, and one slot per guard; when `gen_select` returns
each of these slots holds `JUMP 0, endpc - s - 1`, whose target is `endpc`,
the pc right after the last word of that arm (right after its end-of-arm slot
when it has one), which for the last arm is the pc at the return of
`gen_select`; and no word of the `select` is a literal word, so no reserved
zero slot is left. -/
theorem select_test_slots_patched (h : Hdr) (arg : Node) (ncl : Nat) (cls : NodeList)
    (g g' : Generator) (result : Int) (clause : Nat) (c : ClauseEntry)
    (hn : (Node.OSELECT h arg ncl cls).noPath = true)
    (hok : gen_node (.OSELECT h arg ncl cls) g = .ok result g')
    (hact : Active g clause c) (hfit : Bounded c) :
    ∃ g1 slots g2 c',
      nextreg g = .ok result g1 ∧
      gen_select_arms arg.isNull (gen_node arg) clause result ncl cls 0 g1 = .ok slots g2 ∧
      slots.length = ncl ∧ Active g' clause c' ∧
      (∀ k a, slots[k]? = some a → ∃ hd lval ng gs rval,
        cls.nth k = some (.OCLAUSE hd lval ng gs rval) ∧
        a.savedpc.length = testSlots lval arg.isNull ∧ a.gpatches.length = ng ∧
        a.endpc ≤ c'.pc ∧ (k + 1 = ncl → a.endpc = c'.pc) ∧
        (∀ p, p ∈ a.patch → p + 1 = a.endpc) ∧
        ∀ s, s ∈ a.savedpc ++ a.gpatches → c.pc ≤ s ∧ s + 1 < a.endpc ∧
          c'.word s = .iAJ .OP_JUMP 0 ((a.endpc : Int) - s - 1)) ∧
      ∀ i, c.pc ≤ i → i < c'.pc → ∀ w, c'.word i ≠ .word w := by
  obtain ⟨g1, slots, g2, c', hreg, harms, hlen, act', _, hpc, hraw, hlast, _, hall⟩ :=
    gen_select_final h arg ncl cls g g' result clause c hn hok hact hfit
  refine ⟨g1, slots, g2, c', hreg, harms, hlen, act', fun k a hk => ?_, hraw⟩
  obtain ⟨hd, lval, ng, gs, rval, e1, e2, e3⟩ :=
    gen_select_arms_slots _ _ _ _ _ _ _ _ _ _ harms k a hk
  have hmem : a ∈ slots := List.getElem?_mem hk
  obtain ⟨t1, t2, t3⟩ := hall a hmem
  refine ⟨hd, lval, ng, gs, rval, e1, e2, e3, t1, fun hk1 => ?_, fun p hp => (t2 p hp).2.1,
    fun s hs => ?_⟩
  · refine hlast a ?_
    rw [List.getLast?_eq_getElem?]
    have : slots.length - 1 = k := by omega
    rw [this]
    exact hk
  · obtain ⟨u1, u2, u3⟩ := t3 s hs
    refine ⟨u1, u2, ?_⟩
    rw [u3]
    unfold jumpTo
    rw [jumpOffset_eq _ _ (by omega) (by omega)]

/-- Witness of C6: `select X { (1) X > 0: 10; (N): N }` lowered as the last
child of the body of the active clause of the sample state. -/
theorem select_test_slots_patched_witness :
    sampleTwoArms.noPath = true ∧
    gen_node sampleTwoArms sampleTwoArmsState
      = .ok 2 (gen_node sampleTwoArms sampleTwoArmsState).state ∧
    Active sampleTwoArmsState 0 sampleEntry ∧ Bounded sampleEntry ∧
    ∃ g1 slots g2 c',
      nextreg sampleTwoArmsState = .ok 2 g1 ∧
      gen_select_arms (Node.OIDENT (hdr 71 "X")).isNull (gen_node (.OIDENT (hdr 71 "X"))) 0 2 2
        sampleArms 0 g1 = .ok slots g2 ∧
      slots.length = 2 ∧ Active (gen_node sampleTwoArms sampleTwoArmsState).state 0 c' ∧
      (∀ k a, slots[k]? = some a → ∃ hd lval ng gs rval,
        sampleArms.nth k = some (.OCLAUSE hd lval ng gs rval) ∧
        a.savedpc.length = testSlots lval (Node.OIDENT (hdr 71 "X")).isNull ∧
        a.gpatches.length = ng ∧
        a.endpc ≤ c'.pc ∧ (k + 1 = 2 → a.endpc = c'.pc) ∧
        (∀ p, p ∈ a.patch → p + 1 = a.endpc) ∧
        ∀ s, s ∈ a.savedpc ++ a.gpatches → sampleEntry.pc ≤ s ∧ s + 1 < a.endpc ∧
          c'.word s = .iAJ .OP_JUMP 0 ((a.endpc : Int) - s - 1)) ∧
      ∀ i, sampleEntry.pc ≤ i → i < c'.pc → ∀ w, c'.word i ≠ .word w :=
  ⟨by decide!, by decide!, ⟨by decide!, by decide!⟩, ⟨by decide!, by decide!⟩,
    select_test_slots_patched (hdr 70 "") (.OIDENT (hdr 71 "X")) 2 sampleArms sampleTwoArmsState
      (gen_node sampleTwoArms sampleTwoArmsState).state 2 0 sampleEntry (by decide!) (by decide!)
      ⟨by decide!, by decide!⟩ ⟨by decide!, by decide!⟩⟩

/-! ## Jump targets of a finished clause -/

/-- C7: for every clause node without a path declaration inside whose lowering
by `gen_clause` completes, the clause entry allocated for it (the one appended
to the heap) ends in the zero terminator, every word below the terminator is an
instruction (no literal word), and every `JUMP` in `code[0..pc)` has a target
`i + 1 + offset` that is not negative and strictly below the index `pc - 1` of
the terminator: the index of an instruction of that clause. -/
theorem clause_jumps_in_bounds (h : Hdr) (lval : Node) (nguards : Nat) (guards : NodeList)
    (rval : Node) (g g' : Generator) (r : Int)
    (hn : (Node.OCLAUSE h lval nguards guards rval).noPath = true)
    (hok : gen_clause (.OCLAUSE h lval nguards guards rval) g = .ok r g') :
    ∃ c, g'.heap[g.heap.length]? = some c ∧ c.node = .OCLAUSE h lval nguards guards rval ∧
      2 ≤ c.pc ∧ c.word (c.pc - 1) = .word 0 ∧
      (∀ i, i + 1 < c.pc → ∀ w, c.word i ≠ .word w) ∧
      ∀ i a j, i < c.pc → c.word i = .iAJ .OP_JUMP a j →
        0 ≤ (i : Int) + 1 + j ∧ (i : Int) + 1 + j < (c.pc : Int) - 1 := by
  have hrv : rval.noPath = true := by
    simp only [Node.noPath, Bool.and_eq_true] at hn
    exact hn.2
  have hl : Pres Extends (gen_locals lval) := gen_locals_pres extends_stable lval
  have hb : Pres Extends (gen_block rval) := (extends_gen_node rval hrv).2.1
  rw [gen_clause] at hok
  unfold gen_clause_steps at hok
  simp only [bind_ok, pure_ok] at hok
  obtain ⟨oi, g1, hemit, _, g2, hrest, _, rfl⟩ := hok
  unfold gen_clause_emit at hemit
  simp only [bind_ok, pure_ok] at hemit
  obtain ⟨oi', ga, halloc, _, gb, hent, _, gc, hloc, reg, gd, hbody, _, ge, hex, _, gf, hend,
    rfl, rfl⟩ := hemit
  obtain ⟨p, hp, hoi, hpa, hha, hra⟩ := allocClause_ok _ _ _ _ halloc
  have hnew : ga.heap[g.heap.length]? =
      some (clauseentry (.OCLAUSE h lval nguards guards rval) p.nclauses) := by
    rw [hha]
    simp
  have eae : Extends ga ge :=
    extends_trans (enterscope_ext _ _ _ _ hent) (extends_trans (hl _ _ _ hloc)
      (extends_trans (hb _ _ _ hbody) (exitscope_ext _ _ _ _ hex)))
  obtain ⟨_, x2, _, _, ce, x5, _, x7, xb, _, x9⟩ := eae _ _ hra hnew
  have hbe : Bounded ce := xb ⟨Nat.zero_le _, le_refl _⟩
  obtain ⟨cf, actf, y1, y2, y3, y4, y5, y6⟩ := gen_clause_end_active _ _ _ _ _ _ hend ⟨x2, x5⟩
  obtain ⟨_, _, _, _, cf', z5, _, z7, _, _, _⟩ := gen_clause_end_ext _ _ _ _ hend _ _ x2 x5
  have hcf : cf' = cf := by
    have := z5.symm.trans actf.2
    cases this
    rfl
  subst hcf
  obtain ⟨r1, _, _, _⟩ := restoreClause_ok _ _ _ _ hrest
  refine ⟨cf', by rw [r1]; exact actf.2, by rw [z7, x7]; rfl, by omega, y4, fun i hi => ?_,
    fun i a j hi hj => ?_⟩
  · by_cases hlt : i < ce.pc
    · rw [y3 i hlt]
      rcases x9 i (Nat.zero_le _) hlt with ⟨hf, _⟩ | hs
      · exact hf.elim
      · exact hs.1
    · exact (y6 i (by omega) hi).1
  · by_cases hlt : i < ce.pc
    · rw [y3 i hlt] at hj
      rcases x9 i (Nat.zero_le _) hlt with ⟨hf, _⟩ | hs
      · exact hf.elim
      · obtain ⟨t0, t1⟩ := hs.2 a j hj (by unfold Bounded at hbe; omega)
        refine ⟨t0, ?_⟩
        rcases t1 with t1 | ⟨t1, t2⟩
        · omega
        · have := y5 t2
          omega
    · by_cases hlast : i + 1 < cf'.pc
      · exact absurd hj ((y6 i (by omega) hlast).2 a j)
      · have hi' : i = cf'.pc - 1 := by omega
        rw [hi', y4] at hj
        cases hj

/-- Witness of C7: the clause `(X): select X { (N): N }, select X { (1) X > 0:
10; (N): N }` lowered inside the sample state; its entry holds five jumps. -/
theorem clause_jumps_in_bounds_witness :
    sampleTwoSelects.noPath = true ∧
    gen_clause sampleTwoSelects sampleState
      = .ok 1 (gen_clause sampleTwoSelects sampleState).state ∧
    ∃ c, (gen_clause sampleTwoSelects sampleState).state.heap[sampleState.heap.length]? = some c ∧
      c.node = sampleTwoSelects ∧ 2 ≤ c.pc ∧ c.word (c.pc - 1) = .word 0 ∧
      (∀ i, i + 1 < c.pc → ∀ w, c.word i ≠ .word w) ∧
      ∀ i a j, i < c.pc → c.word i = .iAJ .OP_JUMP a j →
        0 ≤ (i : Int) + 1 + j ∧ (i : Int) + 1 + j < (c.pc : Int) - 1 :=
  ⟨by decide!, by decide!,
    clause_jumps_in_bounds (hdr 90 "") (.OIDENT (hdr 91 "X")) 0 .nil
      (.OBLOCK (hdr 92 "") (.cons sampleOneArm (.cons sampleTwoArms .nil)) .null)
      sampleState (gen_clause sampleTwoSelects sampleState).state 1 (by decide!) (by decide!)⟩

/-- C8 at the failing input `f (X): X + Y` (`Y` unbound): lowering completes
with the code `ADD 2, 1, -1; RETURN 2, 0, 0; 0` and an empty constant table
(`kindex = 0`); the operand `-1` of `ADD` carries the K flag and names index
127, so the K operands of the clause do not all name populated constants. -/
theorem undefined_operand_names_no_constant :
    (gen_node sampleUndefinedOperand sampleInit).codes =
      [[.iABC .OP_ADD 2 1 (-1), .iABC .OP_RETURN 2 0 0, .word 0]] ∧
    (gen_node sampleUndefinedOperand sampleInit).state.clause.map (fun c => c.kindex) = some 0 ∧
    ISK (-1) = true ∧ INDEXK (-1) = 127 ∧
    (gen_node sampleUndefinedOperand sampleInit).state.clause.map kOperandsOk = some false := by
  decide!

/-- C9 at the failing input `g (X): Y` (`Y` unbound): no `ERR_UNDEFINED` is
reported; the body is lowered by `gen_ident`, which returns `-1` in silence,
and the process stops only at the read of `code[pc - 1]` with `pc = 0`.  With
a word already emitted (`g (X): X + X, Y`) lowering completes and the operand
`-1` of `Y` is materialised and returned: `LOADK 3, -1; RETURN 3, 0, 0`. -/
theorem undefined_identifier_not_reported :
    gen_node (.OIDENT (hdr 60 "Y")) sampleState = .ok (-1) sampleState ∧
    gen_node sampleUndefined sampleInit =
      .halt (.fault .bounds) (gen_node sampleUndefined sampleInit).state ∧
    (gen_node sampleUndefinedLast sampleInit).codes =
      [[.iABC .OP_ADD 2 1 1, .iAD .OP_LOADK 3 (-1), .iABC .OP_RETURN 3 0 0, .word 0]] ∧
    gen_node sampleUndefinedLast sampleInit =
      .ok 0 (gen_node sampleUndefinedLast sampleInit).state := by
  decide!

/-! ## Duplicate paths -/

theorem paths_simple : Simple (fun g g' => PathsKept g.tree g'.tree) := by
  apply Simple.ofTree
  · intro t k hk
    exact hk
  · intro t1 t2 t3 h12 h23 k hk
    exact h23 k (h12 k hk)
  · intro t id reg s ps _ k hk
    exact hk
  · intro t t1 s ps h _ k hk
    exact h k hk
  · intro t name i k hk
    simp only [symtab_lookup, List.lookup] at hk ⊢
    by_cases hkn : k == name
    · simp [hkn]
    · simp only [hkn]
      exact hk

/-- A path declaration whose name is already registered stops with the
duplicate-path diagnostic and leaves the state as it was. -/
theorem gen_path_duplicate (h : Hdr) (nameNode clause : Node) (name : String) (g : Generator)
    (hname : nameNode.src = some name)
    (hreg : (symtab_lookup [g.tree.psymbols] name).isSome) :
    gen_node (.OPATH h nameNode clause) g = .halt (.report .pathDefined h.addr name) g := by
  rw [gen_node]
  unfold gen_path
  simp only [hname]
  show Gen.bind getG _ g = _
  unfold Gen.bind
  simp only [getG]
  cases hl : symtab_lookup [g.tree.psymbols] name with
  | none => simp [hl] at hreg
  | some v => rfl

/-- A path declaration whose lowering completes has registered its name. -/
theorem gen_path_registers (h : Hdr) (nameNode clause : Node) (name : String) (g g' : Generator)
    (r : Int) (hname : nameNode.src = some name)
    (hok : gen_node (.OPATH h nameNode clause) g = .ok r g') :
    (symtab_lookup [g'.tree.psymbols] name).isSome := by
  rw [gen_node] at hok
  unfold gen_path at hok
  simp only [hname, bind_ok] at hok
  obtain ⟨g0, g1, hg, h2⟩ := hok
  obtain ⟨rfl, rfl⟩ : g = g0 ∧ g = g1 := by
    simp only [getG, Outcome.ok.injEq] at hg
    exact hg
  cases hl : symtab_lookup [g.tree.psymbols] name with
  | some v =>
    simp only [hl, nreportf] at h2
    cases h2
  | none =>
    simp only [hl, bind_ok] at h2
    obtain ⟨_, g2, hreg, hcl⟩ := h2
    have h3 : (symtab_lookup [g2.tree.psymbols] name).isSome := by
      unfold registerPath at hreg
      split at hreg
      · simp only [Outcome.ok.injEq] at hreg
        rw [← hreg.2]
        simp [symtab_lookup, List.lookup]
      · cases hreg
    exact (simple_gen_node paths_simple clause).2.2.1 _ _ _ hcl name h3

theorem gen_nodes_append (b : NodeList) : ∀ (a : NodeList) (reg : Int) (g : Generator),
    gen_nodes (a.append b) reg g =
      match gen_nodes a reg g with
      | .ok r g1 => gen_nodes b r g1
      | .halt e g1 => .halt e g1
  | .nil, reg, g => by
    simp only [NodeList.append, gen_nodes]
  | .cons hd tl, reg, g => by
    simp only [NodeList.append, gen_nodes]
    rw [bind_apply, bind_apply]
    cases gen_node hd g with
    | ok r g1 => exact gen_nodes_append b tl r g1
    | halt e g1 => rfl

theorem NodeList.append_assoc : ∀ a b c : NodeList,
    (a.append b).append c = a.append (b.append c)
  | .nil, b, c => rfl
  | .cons hd tl, b, c => by
    simp only [NodeList.append, NodeList.append_assoc tl b c]

/-- The lowering of a block stops when its body holds two path declarations
of the same name: it never returns, and when the nodes before the second
declaration are lowered without a stop, it stops there with the duplicate-path
diagnostic, in the state reached before that declaration. -/
theorem gen_block_duplicate (h : Hdr) (parent : Parent) (body pre mid post : NodeList)
    (h1 h2 : Hdr) (n1 c1 n2 c2 : Node) (name : String) (g : Generator)
    (hbody : body =
      pre.append (.cons (.OPATH h1 n1 c1) (mid.append (.cons (.OPATH h2 n2 c2) post))))
    (hn1 : n1.src = some name) (hn2 : n2.src = some name) :
    (∃ e g1, gen_block (.OBLOCK h body parent) g = .halt e g1) ∧
    ∀ r g1, gen_nodes (pre.append (.cons (.OPATH h1 n1 c1) mid)) 0
        { g with block := .OBLOCK h body parent } = .ok r g1 →
      gen_block (.OBLOCK h body parent) g = .halt (.report .pathDefined h2.addr name) g1 := by
  have hpres : ∀ (ns : NodeList) (reg : Int),
      Pres (fun g g' => PathsKept g.tree g'.tree) (gen_nodes ns reg) := fun ns reg =>
    gen_nodes_pres paths_simple.toStable true (fun _ => gen_path_pres paths_simple)
      (gen_select_pres paths_simple) ns (Or.inl rfl) reg
  have key : ∀ (reg r : Int) (g0 g1 : Generator),
      gen_nodes (pre.append (.cons (.OPATH h1 n1 c1) mid)) reg g0 = .ok r g1 →
      gen_nodes (.cons (.OPATH h2 n2 c2) post) r g1
        = .halt (.report .pathDefined h2.addr name) g1 := by
    intro reg r g0 g1 hok
    rw [gen_nodes_append] at hok
    split at hok
    · rename_i ra ga hpre
      simp only [gen_nodes, bind_ok] at hok
      obtain ⟨rb, gb, hp1, hmid⟩ := hok
      have hreg := gen_path_registers h1 n1 c1 name ga gb rb hn1 hp1
      have hreg1 := hpres mid rb gb r g1 hmid name hreg
      simp only [gen_nodes]
      rw [bind_apply, gen_path_duplicate h2 n2 c2 name g1 hn2 hreg1]
    · cases hok
  have hsplit : body
      = (pre.append (.cons (.OPATH h1 n1 c1) mid)).append (.cons (.OPATH h2 n2 c2) post) := by
    rw [hbody, NodeList.append_assoc]
    rfl
  have hrun : gen_block (.OBLOCK h body parent) g
      = match gen_nodes (pre.append (.cons (.OPATH h1 n1 c1) mid)) 0
          { g with block := .OBLOCK h body parent } with
        | .ok r g1 => .halt (.report .pathDefined h2.addr name) g1
        | .halt e g1 => .halt e g1 := by
    rw [gen_block]
    unfold gen_block_steps
    rw [bind_apply]
    simp only [setBlock]
    rw [bind_apply]
    conv_lhs => rw [hsplit, gen_nodes_append]
    cases hA : gen_nodes (pre.append (.cons (.OPATH h1 n1 c1) mid)) 0
      { g with block := .OBLOCK h body parent } with
    | ok r g1 =>
      have hA' := hA
      rw [hsplit] at hA'
      simp only [hA']
      rw [key 0 r _ g1 hA]
    | halt e g1 =>
      have hA' := hA
      rw [hsplit] at hA'
      simp only [hA']
  constructor
  · rw [hrun]
    cases gen_nodes (pre.append (.cons (.OPATH h1 n1 c1) mid)) 0
      { g with block := .OBLOCK h body parent } with
    | ok r g1 => exact ⟨_, _, rfl⟩
    | halt e g1 => exact ⟨_, _, rfl⟩
  · intro r g1 hok
    rw [hrun, hok]

/-- C10: for a module whose top-level block holds two path declarations of
the same name, `generate` never returns and writes no byte of the image; the
second declaration, like any declaration of a registered name, stops with the
duplicate-path diagnostic in the very state it was called in (so `pathsn`,
`paths` and the clause entries are as before and its clause is not lowered);
and when the declarations before it are lowered without a stop, that is where
generation stops. -/
theorem duplicate_path_no_image (L : Layout) (g : Generator) (out : Bool) (h : Hdr)
    (parent : Parent) (body pre mid post : NodeList) (h1 h2 : Hdr) (n1 c1 n2 c2 : Node)
    (name : String) (hroot : g.tree.root = .OBLOCK h body parent)
    (hbody : body =
      pre.append (.cons (.OPATH h1 n1 c1) (mid.append (.cons (.OPATH h2 n2 c2) post))))
    (hn1 : n1.src = some name) (hn2 : n2.src = some name) :
    (generate L g out).written = [] ∧
    (∃ e g1, (generate L g out).outcome = .halt e g1) ∧
    (∀ g1 : Generator, (symtab_lookup [g1.tree.psymbols] name).isSome →
      gen_node (.OPATH h2 n2 c2) g1 = .halt (.report .pathDefined h2.addr name) g1) ∧
    (∀ r g1, gen_nodes (pre.append (.cons (.OPATH h1 n1 c1) mid)) 0
        { g with block := .OBLOCK h body parent } = .ok r g1 →
      (generate L g out).outcome = .halt (.report .pathDefined h2.addr name) g1) := by
  obtain ⟨⟨e, g1, hhalt⟩, hstop⟩ :=
    gen_block_duplicate h parent body pre mid post h1 h2 n1 c1 n2 c2 name g hbody hn1 hn2
  refine ⟨?_, ⟨e, g1, ?_⟩, fun g1 hreg => gen_path_duplicate h2 n2 c2 name g1 hn2 hreg, ?_⟩
  · unfold generate
    rw [hroot, hhalt]
  · unfold generate
    rw [hroot, hhalt]
  · intro r g2 hok
    unfold generate
    rw [hroot, hstop r g2 hok]

/-- Witness of C10: the module that declares `a (X): X + X` twice. -/
theorem duplicate_path_no_image_witness :
    sampleDuplicate.tree.root = .OBLOCK (hdr 1 "") sampleDuplicateBody .null ∧
    sampleDuplicateBody = NodeList.nil.append (.cons (samplePathA 100)
      (NodeList.nil.append (.cons (samplePathA 200) .nil))) ∧
    (generate sampleLayout sampleDuplicate true).written = [] ∧
    (∃ e g1, (generate sampleLayout sampleDuplicate true).outcome = .halt e g1) ∧
    (generate sampleLayout sampleDuplicate true).outcome
      = .halt (.report .pathDefined 200 "a")
          (gen_node (samplePathA 100)
            { sampleDuplicate with block := .OBLOCK (hdr 1 "") sampleDuplicateBody .null }).state :=
  ⟨rfl, rfl,
    (duplicate_path_no_image sampleLayout sampleDuplicate true (hdr 1 "") .null
      sampleDuplicateBody .nil .nil .nil (hdr 100 "") (hdr 200 "") (.OIDENT (hdr 101 "a")) _
      (.OIDENT (hdr 201 "a")) _ "a" rfl rfl rfl rfl).1,
    (duplicate_path_no_image sampleLayout sampleDuplicate true (hdr 1 "") .null
      sampleDuplicateBody .nil .nil .nil (hdr 100 "") (hdr 200 "") (.OIDENT (hdr 101 "a")) _
      (.OIDENT (hdr 201 "a")) _ "a" rfl rfl rfl rfl).2.1,
    (duplicate_path_no_image sampleLayout sampleDuplicate true (hdr 1 "") .null
      sampleDuplicateBody .nil .nil .nil (hdr 100 "") (hdr 200 "") (.OIDENT (hdr 101 "a")) _
      (.OIDENT (hdr 201 "a")) _ "a" rfl rfl rfl rfl).2.2.2 0 _ (by decide!)⟩

/-! ## The identifier bind -/

/-- C11: for every `OBIND` node whose lhs is the identifier `x` and whose rhs
has been lowered by `gen_bind` to the operand `o` (an identifier rhs through
`gen_defined`, any other through `gen_node`), with `c` the active clause
afterwards.  If `x` is visible through lookup, `gen_bind` stops with
`ERR_REDEFINITION` for the node and `x`, and the only change is the bump of
`nlocals`: no word is emitted, `nreg` is as before and no binding is made.
Otherwise, when there is an innermost table and room for a word, it returns 0,
`x` is bound to the previous `nreg` in the innermost table, `nreg` and
`nlocals` grow by one, and exactly one word is emitted at the previous `pc`:
`LOADK r, o` when `o` is K-flagged, `MOVE r, o, 0` when it is not. -/
theorem gen_bind_ident (h hx : Hdr) (rval : Node) (g g1 : Generator) (o : Int) (clause : Nat)
    (c : ClauseEntry)
    (hrhs : (match rval with
      | .OIDENT hr => gen_defined rval hr
      | _ => gen_node rval) g = .ok o g1)
    (hact : Active g1 clause c) :
    (∀ r, symtab_lookup g1.tree.symbols hx.src = some r →
      gen_node (.OBIND h (.OIDENT hx) rval) g =
        .halt (.report .ERR_REDEFINITION h.addr hx.src)
          (g1.setClauseAt clause { c with nlocals := c.nlocals + 1 })) ∧
    (symtab_lookup g1.tree.symbols hx.src = none →
      ∀ t ps, g1.tree.symbols = t :: ps → (growCode c).pc < (growCode c).codewords →
      ∃ g' c', gen_node (.OBIND h (.OIDENT hx) rval) g = .ok 0 g' ∧
        g'.tree.symbols = ((hx.src, (c.nreg : Int)) :: t) :: ps ∧ Active g' clause c' ∧
        c'.nreg = c.nreg + 1 ∧ c'.nlocals = c.nlocals + 1 ∧ c'.pc = c.pc + 1 ∧
        c'.word c.pc =
          (if ISK o then .iAD .OP_LOADK c.nreg o else .iABC .OP_MOVE c.nreg o 0) ∧
        ∀ k, k ≠ c.pc → c'.word k = c.word k) := by
  have hrun := gen_bind_rhs_run (.OBIND h (.OIDENT hx) rval) (.OIDENT hx) rval g g1 o hrhs
  rw [gen_node, hrun]
  exact ⟨fun r hl => gen_bind_lhs_bound _ hx o r g1 clause c hact hl,
    fun hl t ps hs hroom => gen_bind_lhs_fresh _ hx o g1 clause c t ps hact hl hs hroom⟩

/-- Witness of C11: `Y = X` lowered in the sample state, where `X` is bound to
register 1, `Y` is unbound and `nreg` is 2: the code is `MOVE 2, 1, 0`; and
`X = 7` in the same state stops with `ERR_REDEFINITION`. -/
theorem gen_bind_ident_witness :
    (match Node.OIDENT (hdr 112 "X") with
      | .OIDENT hr => gen_defined (.OIDENT (hdr 112 "X")) hr
      | _ => gen_node (.OIDENT (hdr 112 "X"))) sampleState = .ok 1 sampleState ∧
    Active sampleState 0 sampleEntry ∧
    ((∀ r, symtab_lookup sampleState.tree.symbols (hdr 111 "Y").src = some r →
      gen_node sampleBind sampleState =
        .halt (.report .ERR_REDEFINITION (hdr 110 "=").addr (hdr 111 "Y").src)
          (sampleState.setClauseAt 0 { sampleEntry with nlocals := sampleEntry.nlocals + 1 })) ∧
    (symtab_lookup sampleState.tree.symbols (hdr 111 "Y").src = none →
      ∀ t ps, sampleState.tree.symbols = t :: ps →
      (growCode sampleEntry).pc < (growCode sampleEntry).codewords →
      ∃ g' c', gen_node sampleBind sampleState = .ok 0 g' ∧
        g'.tree.symbols = (((hdr 111 "Y").src, (sampleEntry.nreg : Int)) :: t) :: ps ∧
        Active g' 0 c' ∧
        c'.nreg = sampleEntry.nreg + 1 ∧ c'.nlocals = sampleEntry.nlocals + 1 ∧
        c'.pc = sampleEntry.pc + 1 ∧
        c'.word sampleEntry.pc =
          (if ISK 1 then .iAD .OP_LOADK sampleEntry.nreg 1
            else .iABC .OP_MOVE sampleEntry.nreg 1 0) ∧
        ∀ k, k ≠ sampleEntry.pc → c'.word k = sampleEntry.word k)) ∧
    (gen_node sampleBind sampleState).codes = [[.iABC .OP_MOVE 2 1 0]] ∧
    gen_node sampleRebind sampleState =
      .halt (.report .ERR_REDEFINITION 113 "X") (gen_node sampleRebind sampleState).state ∧
    (gen_node sampleRebind sampleState).codes = [[]] :=
  ⟨by decide!, ⟨by decide!, by decide!⟩,
    gen_bind_ident (hdr 110 "=") (hdr 111 "Y") (.OIDENT (hdr 112 "X")) sampleState sampleState 1 0
      sampleEntry (by decide!) ⟨by decide!, by decide!⟩,
    by decide!, by decide!, by decide!⟩

/-! ## Growth of the code buffer -/

/-- When `gen` grows the buffer, the write that follows is outside of it, as
soon as `codesize` is 1367 or more (4096 in an entry as allocated): the new
buffer has `codesize + 4096` bytes, a quarter as many words. -/
theorem gen_growth_faults (w : Instruction) (g : Generator) (clause : Nat) (c : ClauseEntry)
    (ha : Active g clause c) (hfull : c.pc + 1 = c.codesize) (hsize : 1367 ≤ c.codesize) :
    gen w g = .halt (.fault .bounds) (g.setClauseAt clause
      { c with codesize := c.codesize + 4096, codewords := (c.codesize + 4096) / 4 }) := by
  have hg : growCode c =
      { c with codesize := c.codesize + 4096, codewords := (c.codesize + 4096) / 4 } := by
    unfold growCode
    rw [if_pos hfull]
  unfold gen
  simp only [ha.1, ha.2, hg]
  rw [if_neg (by omega)]

/-- Away from the growth step, and with room in the buffer, `gen` does what
is claimed: it returns the old `pc`, stores the word there, leaves the other
words and `codesize` alone, and `pc` grows by one, staying below `codesize`. -/
theorem gen_appends (w : Instruction) (g : Generator) (clause : Nat) (c : ClauseEntry)
    (ha : Active g clause c) (hpc : c.pc + 1 < c.codesize) (hroom : c.pc < c.codewords) :
    ∃ g' c', gen w g = .ok c.pc g' ∧ Active g' clause c' ∧ c'.word c.pc = w ∧
      (∀ k, k ≠ c.pc → c'.word k = c.word k) ∧ c'.pc = c.pc + 1 ∧
      c'.codesize = c.codesize ∧ c'.pc + 1 ≤ c'.codesize := by
  have hg : growCode c = c := by
    unfold growCode
    rw [if_neg (by omega)]
  obtain ⟨g', e, _, a⟩ := gen_step w g clause c ha (by rw [hg]; exact hroom)
  rw [hg] at a
  exact ⟨g', _, e, a, storeAt_getD_self _ _ _ _, fun k hk => storeAt_getD_other _ _ _ _ _ hk,
    rfl, rfl, by show c.pc + 1 + 1 ≤ c.codesize; omega⟩

/-- C12 at the failing input: the active clause is an entry as allocated (4096
words, `codesize` 4096) that holds 4095 words, so `pc = codesize - 1`.  `gen`
grows `codesize` to 8192 and reallocates the buffer to 8192 bytes, which is
2048 words, and the store to `code[4095]` is outside of it: the word is not
stored and `pc` does not advance. -/
theorem gen_grows_in_bytes :
    sampleFullEntry.pc = sampleFullEntry.codesize - 1 ∧
    sampleFullEntry.codewords = 4096 ∧
    gen (.iABC .OP_MOVE 1 1 0) sampleFullState =
      .halt (.fault .bounds)
        (sampleFullState.setClauseAt 0
          { sampleFullEntry with codesize := 8192, codewords := 2048 }) := by
  decide!

/-! ## The tuple -/

/-- C13: for every `OTUPLE` node with as many members as its arity `n` and no
path declaration inside, lowered in an active clause: `gen_tuple` returns the
register `r` that `nextreg` hands out before any member is lowered (the old
`nreg`), the word at the old `pc` is `TUPLE r, n, 0`, and from the state after
that word the members are laid out in increasing order, each as its code
followed by `SETTUPLE r, i, operand`, up to the final `pc`; the words below
the old `pc` are untouched. -/
theorem gen_tuple_layout (h : Hdr) (arity : Nat) (members : NodeList) (g g' : Generator)
    (r : Int) (clause : Nat) (c : ClauseEntry)
    (hn : members.noPath = true) (hlen : members.length = arity) (hact : Active g clause c)
    (hok : gen_node (.OTUPLE h arity members) g = .ok r g') :
    r = c.nreg ∧ ∃ g0 c0 c', Active g0 clause c0 ∧ c0.nreg = c.nreg + 1 ∧ c0.pc = c.pc + 1 ∧
      Active g' clause c' ∧ (∀ k, k < c.pc → c'.word k = c.word k) ∧
      c'.word c.pc = .iABC .OP_TUPLE r arity 0 ∧ TupleLaid clause r c' members 0 g0 := by
  simp only [gen_node] at hok
  unfold gen_tuple_steps at hok
  simp only [bind_ok, pure_ok] at hok
  obtain ⟨reg, g1, hreg, p, g2, htup, u, g3, hmem, hr, rfl⟩ := hok
  subst hr
  rw [nextreg_run g clause c hact] at hreg
  simp only [Outcome.ok.injEq] at hreg
  obtain ⟨hra, rfl⟩ := hreg
  have hact1 : Active (g.setClauseAt clause { c with nreg := c.nreg + 1 }) clause
      { c with nreg := c.nreg + 1 } := active_set _ hact
  obtain ⟨_, c2, hact2, hpc2, hw2, hw2o⟩ := gen_active _ _ _ _ _ _ htup hact1
  have hnreg2 : c2.nreg = c.nreg + 1 := gen_active_nreg _ _ _ _ _ _ _ htup hact1 hact2
  obtain ⟨c', hact', hpc', hw', hlaid⟩ :=
    gen_tuple_members_laid clause reg arity members 0 g2 g3 c2 hn (by omega) hact2 hmem
  refine ⟨hra.symm, g2, c2, c', hact2, hnreg2, hpc2, hact', fun k hk => ?_, ?_,
    hlaid c' rfl (fun _ _ => rfl)⟩
  · rw [hw' k (by simp only at hpc2; omega)]
    exact hw2o k (by simp only; omega)
  · rw [hw' _ (by simp only at hpc2; omega)]
    exact hw2

/-- Witness of C13: the tuple `(X, 7)` lowered in the sample state, where `X`
is bound to register 1 and `nreg` is 2; the clause of `pair (X, Y): (X, Y)`
lowered from the initial generator; and the one-member tuple `(X)`. -/
theorem gen_tuple_layout_witness :
    Active sampleState 0 sampleEntry ∧
    gen_node sampleTuple sampleState = .ok 2 (gen_node sampleTuple sampleState).state ∧
    (gen_node sampleTuple sampleState).codes
      = [[.iABC .OP_TUPLE 2 2 0, .iABC .OP_SETTUPLE 2 0 1, .iABC .OP_SETTUPLE 2 1 128]] ∧
    (gen_node samplePair sampleInit).codes
      = [[.iABC .OP_TUPLE 3 2 0, .iABC .OP_SETTUPLE 3 0 1, .iABC .OP_SETTUPLE 3 1 2,
          .iABC .OP_RETURN 3 0 0, .word 0]] ∧
    gen_node samplePair sampleInit = .ok 0 (gen_node samplePair sampleInit).state ∧
    (gen_node sampleSingle sampleState).codes
      = [[.iABC .OP_TUPLE 2 1 0, .iABC .OP_SETTUPLE 2 0 1]] ∧
    gen_node sampleSingle sampleState = .ok 2 (gen_node sampleSingle sampleState).state ∧
    ((2 : Int) = sampleEntry.nreg ∧ ∃ g0 c0 c', Active g0 0 c0 ∧
      c0.nreg = sampleEntry.nreg + 1 ∧ c0.pc = sampleEntry.pc + 1 ∧
      Active (gen_node sampleTuple sampleState).state 0 c' ∧
      (∀ k, k < sampleEntry.pc → c'.word k = sampleEntry.word k) ∧
      c'.word sampleEntry.pc = .iABC .OP_TUPLE 2 (2 : Nat) 0 ∧
      TupleLaid 0 2 c' (.cons (.OIDENT (hdr 133 "X")) (.cons (.ONUMBER (hdr 134 "7")) .nil))
        0 g0) :=
  ⟨⟨by decide!, by decide!⟩, by decide!, by decide!, by decide!, by decide!, by decide!, by decide!,
    gen_tuple_layout (hdr 132 "") 2 _ sampleState (gen_node sampleTuple sampleState).state 2 0
      sampleEntry (by decide!) (by decide!) ⟨by decide!, by decide!⟩ (by decide!)⟩

/-! ## A clause that emits nothing -/

/-- At the end of `gen_clause` on a clause that has emitted nothing, the read
of `code[pc - 1]` is outside the buffer. -/
theorem gen_clause_end_empty (reg : Int) (g : Generator) (clause : Nat) (c : ClauseEntry)
    (ha : Active g clause c) (hpc : c.pc = 0) :
    gen_clause_end reg g = .halt (.fault .bounds) g := by
  have hl : lastWord g = .halt (.fault .bounds) g := by
    unfold lastWord
    simp only [ha.1, ha.2]
    rw [if_neg (by omega)]
  unfold gen_clause_end
  simp only [bind_apply, hl]

/-- C14 at the failing input `f (X): X`, lowered from the initial generator:
`gen_clause` binds `X` to register 1 (`nreg` is 2 and `nlocals` 1 afterwards),
the body emits nothing, and the test
`iOP(code[pc - 1]) != OP_TAILCALL` then reads `code[-1]` with `pc = 0`, outside
the buffer: lowering does not complete, and no `RETURN` is in the code. -/
theorem identity_clause_reads_outside :
    gen_node sampleIdentity sampleInit =
      .halt (.fault .bounds) (gen_node sampleIdentity sampleInit).state ∧
    (gen_node sampleIdentity sampleInit).state.heap.map
      (fun c => (c.pc, c.code, c.nreg, c.nlocals)) = [(0, [], 2, 1)] := by
  decide!

/-! ## The constant encoding is readable -/

/-- C15: with pairwise distinct tag bytes, the decoder reads back what
`dump_constant` writes: for every constant built from `NUMBER`, `ATOM`,
`PATHID`, `VAR`, `ANY`, `TUPLE` (arity at most 255 and equal to the member
count) and `LIST`, decoding the bytes written, followed by any further bytes,
returns the constant and the further bytes; two such constants with the same
encoding are equal; and a constant table of `n` such entries, written then
decoded, is the same table. -/
theorem dump_constant_readable (L : Layout) (hL : L.Distinct) :
    (∀ (v : TValue) (bs rest : List Nat), v.wf = true → dump_constant L v = some bs →
      decode_constant L (bs ++ rest) = some (v, rest)) ∧
    (∀ (v w : TValue) (bs : List Nat), v.wf = true → w.wf = true →
      dump_constant L v = some bs → dump_constant L w = some bs → v = w) ∧
    (∀ (kheader : List TValue) (n : Nat) (bs rest : List Nat),
      (∀ i, i < n → (kheader.getD i .null).wf = true) →
      dump_kheader L kheader n = some bs →
      decode_kheader L n (bs ++ rest) = some (kheader.take n, rest)) := by
  refine ⟨fun v bs rest hw hd => decode_constant_ok L hL v bs rest hw hd,
    fun v w bs hv hw hdv hdw => ?_,
    fun kheader n bs rest hw hd => decode_kheader_ok L hL kheader n bs rest hw hd⟩
  have h1 := decode_constant_ok L hL v bs [] hv hdv
  have h2 := decode_constant_ok L hL w bs [] hw hdw
  rw [h1] at h2
  simp only [Option.some.injEq, Prod.mk.injEq, and_true] at h2
  exact h2

/-- Witness of C15: the sample layout has distinct tags; the nested sample
constant and the sample table (with an atom outside ASCII) are read back. -/
theorem dump_constant_readable_witness :
    sampleLayout.Distinct ∧ sampleConstant.wf = true ∧
    dump_constant sampleLayout sampleConstant
      = some [4, 3, 3, 7, 0, 0, 0, 2, 111, 107, 0, 5, 2, 0, 0, 0, 0, 0, 0, 0, 8, 1, 0, 0, 0,
          3, 255, 255, 255, 255] ∧
    decode_constant sampleLayout
        ([4, 3, 3, 7, 0, 0, 0, 2, 111, 107, 0, 5, 2, 0, 0, 0, 0, 0, 0, 0, 8, 1, 0, 0, 0,
          3, 255, 255, 255, 255] ++ [1, 2, 3])
      = some (sampleConstant, [1, 2, 3]) ∧
    (∀ i, i < 3 → (sampleTable.getD i .null).wf = true) ∧
    dump_kheader sampleLayout sampleTable 3
      = some ([4, 3, 3, 7, 0, 0, 0, 2, 111, 107, 0, 5, 2, 0, 0, 0, 0, 0, 0, 0, 8, 1, 0, 0, 0,
          3, 255, 255, 255, 255] ++ [6, 109, 0, 102, 0] ++ [2, 195, 169, 226, 130, 172, 0]) ∧
    decode_kheader sampleLayout 3
        (([4, 3, 3, 7, 0, 0, 0, 2, 111, 107, 0, 5, 2, 0, 0, 0, 0, 0, 0, 0, 8, 1, 0, 0, 0,
          3, 255, 255, 255, 255] ++ [6, 109, 0, 102, 0] ++ [2, 195, 169, 226, 130, 172, 0])
          ++ [9])
      = some (sampleTable.take 3, [9]) :=
  ⟨by unfold Layout.Distinct; decide, by decide!, by decide!,
    (dump_constant_readable sampleLayout (by unfold Layout.Distinct; decide)).1 sampleConstant _ [1, 2, 3]
      (by decide!) (by decide!),
    by decide!, by decide!,
    (dump_constant_readable sampleLayout (by unfold Layout.Distinct; decide)).2.2 sampleTable 3 _ [9]
      (by decide!) (by decide!)⟩

/-! ## The layout of the image -/

/-- C16: when `generate` completes with an output given, on a tree whose root
is a block, the bytes written are the magic byte 167, the three version bytes
`0xFF`, the path count in 4 bytes, and then one block per registered path in
index order; each block is the marker `0xFF`, the name-length byte
`min(length, 255)`, that many leading bytes of the name, the clause-count byte
and the clause blocks of that path in order.  The index order is the
definition order: with `idx k` the path count when node `k` of the root block
is reached, a path declaration at `k` has its entry at `idx k`, below
`idx (k + 1)`, and `idx (k + 1) = idx k + 1` when its clause declares no
further path. -/
theorem generate_layout (L : Layout) (g g1 : Generator) (h : Hdr) (body : NodeList)
    (parent : Parent) (hroot : g.tree.root = .OBLOCK h body parent)
    (hrun : (generate L g true).outcome = .ok () g1) :
    (∃ blocks : List (List Nat), blocks.length = g1.pathsn ∧
      (generate L g true).written
        = [167, 255, 255, 255] ++ intBytes 4 g1.pathsn ++ blocks.flatten ∧
      ∀ i, i < g1.pathsn → ∃ p cbs, g1.paths[i]? = some (some p) ∧
        blocks[i]? = some (pathBlock (cstr p.name) p.nclauses (List.flatten cbs)) ∧
        cbs.length = p.nclauses ∧
        ∀ j, j < p.nclauses → ∃ r c, p.clauses[j]? = some (some r) ∧ g1.heap[r]? = some c ∧
          dump_clause L c = cbs[j]?) ∧
    ∃ idx : Nat → Nat, idx 0 = g.pathsn ∧ idx body.length = g1.pathsn ∧
      (∀ k, k < body.length → idx k ≤ idx (k + 1)) ∧
      ∀ k hk nm cl, body.nth k = some (.OPATH hk nm cl) →
        idx k < idx (k + 1) ∧ (cl.noPath = true → idx (k + 1) = idx k + 1) ∧
          ∃ p, g1.paths[idx k]? = some (some p) ∧
            some p.name = nm.src ∧ p.node = .OPATH hk nm cl := by
  unfold generate at hrun ⊢
  cases hgb : gen_block g.tree.root g with
  | halt e g2 =>
    rw [hgb] at hrun
    cases hrun
  | ok r g2 =>
    rw [hgb] at hrun
    simp only [↓reduceIte]
    simp only [↓reduceIte] at hrun
    cases hd : dump_paths L g2 g2.pathsn with
    | none =>
      rw [hd] at hrun
      cases hrun
    | some bs =>
      rw [hd] at hrun
      simp only [Outcome.ok.injEq, true_and] at hrun
      subst hrun
      simp only
      constructor
      · obtain ⟨blocks, hlen, hfl, hall⟩ := dump_paths_blocks L g2 g2.pathsn bs hd
        refine ⟨blocks, hlen, by rw [hfl]; rfl, fun i hi => ?_⟩
        obtain ⟨p, cb, hp, hcb, hb⟩ := hall i hi
        obtain ⟨cbs, hl2, hf2, hall2⟩ := dump_clauses_blocks L g2.heap p.clauses p.nclauses cb hcb
        exact ⟨p, cbs, hp, by rw [hb, hf2], hl2, hall2⟩
      · rw [hroot, gen_block] at hgb
        unfold gen_block_steps at hgb
        simp only [bind_ok, pure_ok] at hgb
        obtain ⟨_, ga, hsa, reg, gb, hbody, _, gc, hsb, _, rfl⟩ := hgb
        simp only [setBlock, Outcome.ok.injEq] at hsa hsb
        obtain ⟨_, rfl⟩ := hsa
        obtain ⟨_, rfl⟩ := hsb
        exact (gen_nodes_order body 0 _ _ _ hbody).2

/-- Witness of C16: the module that declares `a (X): X + X` and then
`pair (X, Y): (X, Y)`, written with the sample layout: two path blocks, `a`
first. -/
theorem generate_layout_witness :
    (generate sampleLayout sampleModule true).written.take 13
      = [167, 255, 255, 255, 2, 0, 0, 0, 255, 1, 97, 1, 8] ∧
    ((generate sampleLayout sampleModule true).written.drop 35).take 7
      = [255, 4, 112, 97, 105, 114, 1] ∧
    ((∃ blocks : List (List Nat),
      blocks.length = (generate sampleLayout sampleModule true).outcome.state.pathsn ∧
      (generate sampleLayout sampleModule true).written
        = [167, 255, 255, 255]
          ++ intBytes 4 (generate sampleLayout sampleModule true).outcome.state.pathsn
          ++ blocks.flatten ∧
      ∀ i, i < (generate sampleLayout sampleModule true).outcome.state.pathsn →
        ∃ p cbs, (generate sampleLayout sampleModule true).outcome.state.paths[i]?
            = some (some p) ∧
        blocks[i]? = some (pathBlock (cstr p.name) p.nclauses (List.flatten cbs)) ∧
        cbs.length = p.nclauses ∧
        ∀ j, j < p.nclauses → ∃ r c, p.clauses[j]? = some (some r) ∧
          (generate sampleLayout sampleModule true).outcome.state.heap[r]? = some c ∧
          dump_clause sampleLayout c = cbs[j]?) ∧
    ∃ idx : Nat → Nat, idx 0 = sampleModule.pathsn ∧
      idx sampleModuleBody.length
        = (generate sampleLayout sampleModule true).outcome.state.pathsn ∧
      (∀ k, k < sampleModuleBody.length → idx k ≤ idx (k + 1)) ∧
      ∀ k hk nm cl, sampleModuleBody.nth k = some (.OPATH hk nm cl) →
        idx k < idx (k + 1) ∧ (cl.noPath = true → idx (k + 1) = idx k + 1) ∧
          ∃ p, (generate sampleLayout sampleModule true).outcome.state.paths[idx k]?
              = some (some p) ∧
            some p.name = nm.src ∧ p.node = .OPATH hk nm cl) :=
  ⟨by decide!, by decide!,
    generate_layout sampleLayout sampleModule
      (generate sampleLayout sampleModule true).outcome.state (hdr 1 "") sampleModuleBody .null
      (by decide!) (by decide!)⟩

/-! ## Number literals -/

/-- What `gen_num` does on an active clause: a lexeme already in `ktable`
returns whatever index is stored under it, with the K flag, and changes
nothing; a new lexeme takes the next index while the table has room, stores
the `NUMBER` there, and is found again afterwards. -/
theorem gen_num_run (h : Hdr) (g : Generator) (clause : Nat) (c : ClauseEntry)
    (hact : Active g clause c) :
    (∀ i, symtab_lookup [c.ktable] h.src = some i →
      gen_node (.ONUMBER h) g = .ok (RKASK i) g) ∧
    (symtab_lookup [c.ktable] h.src = none → c.kindex < 128 →
      ∃ g' c', gen_node (.ONUMBER h) g = .ok ((c.kindex : Int) + 128) g' ∧
        Active g' clause c' ∧ c'.kindex = c.kindex + 1 ∧
        ISK ((c.kindex : Int) + 128) = true ∧ INDEXK ((c.kindex : Int) + 128) = c.kindex ∧
        c'.kheader.getD c.kindex .null = .number (atoi h.src) ∧
        gen_node (.ONUMBER h) g' = .ok ((c.kindex : Int) + 128) g') := by
  have hk : ∀ k : Nat, k < 128 → ISK (k : Int) = false ∧ ISK ((k : Int) + 128) = true ∧
      INDEXK ((k : Int) + 128) = k := by
    intro k hk
    unfold ISK INDEXK
    refine ⟨?_, ?_, ?_⟩
    · simp only [decide_eq_false_iff_not]
      omega
    · simp only [decide_eq_true_eq]
      omega
    · omega
  constructor
  · intro i hi
    rw [gen_node]
    unfold gen_num
    rw [bind_apply]
    unfold gen_constant
    simp only [hact.1, hact.2, hi]
    rfl
  · intro hnone hroom
    obtain ⟨hk1, hk2, hk3⟩ := hk c.kindex hroom
    have hrk : RKASK (c.kindex : Int) = (c.kindex : Int) + 128 := by
      unfold RKASK
      rw [hk1]
      rfl
    have hfirst : gen_node (.ONUMBER h) g = .ok ((c.kindex : Int) + 128)
        (g.setClauseAt clause { c with
          kindex := c.kindex + 1
          kheader := storeAt .null c.kheader c.kindex (.number (atoi h.src))
          ktable := (h.src, (c.kindex : Int)) :: c.ktable }) := by
      rw [gen_node]
      unfold gen_num
      rw [bind_apply]
      unfold gen_constant
      simp only [hact.1, hact.2, hnone, hroom, ↓reduceIte]
      show Outcome.ok (RKASK (c.kindex : Int)) _ = _
      rw [hrk]
    refine ⟨_, _, hfirst, active_set _ hact, rfl, hk2, hk3, storeAt_getD_self _ _ _ _, ?_⟩
    rw [gen_node]
    unfold gen_num
    rw [bind_apply]
    unfold gen_constant
    have ha2 := active_set { c with
          kindex := c.kindex + 1
          kheader := storeAt .null c.kheader c.kindex (.number (atoi h.src))
          ktable := (h.src, (c.kindex : Int)) :: c.ktable } hact
    simp only [ha2.1, ha2.2, symtab_lookup, List.lookup, beq_self_eq_true]
    show Outcome.ok (RKASK (c.kindex : Int)) _ = _
    rw [hrk]

/-- C17, failing input: in the module `7`, once the callee `.f` has been
lowered the clause's `ktable` holds the key `7` for the atom of the module
name; the number literal `7` then returns the operand 128, K-flagged with
index 0, and `kheader[0]` is the atom `7`, not a `NUMBER`.  The path
`f (X): .f (7)` lowered from the initial generator of module `7` passes that
operand to the call, while in module `m` the literal gets its own constant. -/
theorem number_literal_names_atom :
    gen_node (.ONUMBER (hdr 141 "7")) sampleSevenState = .ok 128 sampleSevenState ∧
    ISK 128 = true ∧ INDEXK 128 = 0 ∧
    sampleSevenState.heap.map (fun c => (c.kindex, c.kheader, c.ktable))
      = [(2, [.atom "7", .pathid "7" "f"], [("7", 0)])] ∧
    (gen_node sampleSevenPath (generator tree "7")).state.heap.map
        (fun c => (c.code, c.kheader))
      = [([.iABC .OP_TAILCALL 3 0 128, .word 0], [.atom "7", .pathid "7" "f"])] ∧
    (gen_node sampleSevenPath (generator tree "m")).state.heap.map
        (fun c => (c.code, c.kheader))
      = [([.iABC .OP_TAILCALL 3 0 130, .word 0],
          [.atom "m", .pathid "m" "f", .number 7])] := by
  decide!

/-! ## The bound of the constant table -/

/-- With 128 constants in the table, `gen_constant` on a value that is not
found takes index 128 and writes `kheader[128]`, outside the 128 slots. -/
theorem gen_constant_full (src : Option String) (v : TValue) (g : Generator) (clause : Nat)
    (c : ClauseEntry) (ha : Active g clause c) (hfull : 128 ≤ c.kindex)
    (hnew : ∀ s, src = some s → symtab_lookup [c.ktable] s = none) :
    gen_constant src v g =
      .halt (.fault .bounds) (g.setClauseAt clause { c with kindex := c.kindex + 1 }) := by
  unfold gen_constant
  simp only [ha.1, ha.2]
  cases src with
  | none =>
    simp only
    rw [if_neg (by omega)]
  | some s =>
    simp only [hnew s rfl]
    rw [if_neg (by omega)]

/-- C18 at the failing input: `f (X): 0, 1, …, 127, X + X` lowers with
`kindex = 128`, and one more literal, `f (X): 0, 1, …, 128, X + X`, makes
`gen_constant` take index 128 for the literal `128`: `kindex` becomes 129 and
the store to `kheader[128]` is outside the 128 slots of the table. -/
theorem constant_table_overflows :
    gen_node (sampleManyNumbers 128) sampleInit =
      .ok 0 (gen_node (sampleManyNumbers 128) sampleInit).state ∧
    (gen_node (sampleManyNumbers 128) sampleInit).state.heap.map (fun c => (c.kindex, c.pc))
      = [(128, 3)] ∧
    gen_node (sampleManyNumbers 129) sampleInit =
      .halt (.fault .bounds) (gen_node (sampleManyNumbers 129) sampleInit).state ∧
    (gen_node (sampleManyNumbers 129) sampleInit).state.heap.map (fun c => (c.kindex, c.pc))
      = [(129, 0)] := by
  decide!

/-! ## Registers of a clause -/

/-- The register invariant on flat bodies.  For every clause whose body is flat
(no path declaration and no clause as an expression inside; the arms of a
`select` are allowed), lowered by
`gen_clause` in a scope whose bindings, if any, are K-flagged or register 0:
when lowering completes, every operand in a register slot of the words
`code[0 .. pc)` of the entry allocated for the clause that is not K-flagged
lies in `[0, nreg)` for the final `nreg` of that entry.  And `nreg` only
grows: no lowering step, on any tree, lowers the `nreg` of any entry. -/
theorem clause_registers_below_nreg (h : Hdr) (lval : Node) (nguards : Nat) (guards : NodeList)
    (rval : Node) (g g' : Generator) (r : Int) (hflat : rval.flat = true)
    (hscope : ScopeOk 1 g.tree.symbols)
    (hok : gen_clause (.OCLAUSE h lval nguards guards rval) g = .ok r g') :
    (∃ c, g'.heap[g.heap.length]? = some c ∧ c.node = .OCLAUSE h lval nguards guards rval ∧
      ∀ i, i < c.pc → ∀ x, x ∈ (c.word i).regOperands → ISK x = false →
        0 ≤ x ∧ x < (c.nreg : Int)) ∧
    ∀ (m : Node) (ga gb : Generator) (v : Int), gen_node m ga = .ok v gb → NregKept ga gb := by
  refine ⟨?_, fun m ga gb v hm => (simple_gen_node nreg_simple m).1 _ _ _ hm⟩
  rw [gen_clause] at hok
  unfold gen_clause_steps at hok
  simp only [bind_ok, pure_ok] at hok
  obtain ⟨oi, g1, hemit, _, g2, hrest, _, rfl⟩ := hok
  unfold gen_clause_emit at hemit
  simp only [bind_ok, pure_ok] at hemit
  obtain ⟨oi', ga, halloc, _, gb, hent, _, gc, hloc, reg, gd, hbody, _, ge, hex, _, gf, hend,
    rfl, rfl⟩ := hemit
  obtain ⟨p, _, _, _, hha, hra⟩ := allocClause_ok _ _ _ _ halloc
  have htree := allocClause_tree _ _ _ _ halloc
  have hnew : ga.heap[g.heap.length]? =
      some (clauseentry (.OCLAUSE h lval nguards guards rval) p.nclauses) := by
    rw [hha]
    simp
  have k0 : Good g.heap.length ga :=
    ⟨_, ⟨hra, hnew⟩, le_refl _, fun i hi => absurd hi (Nat.not_lt_zero _), by
      rw [htree]
      exact hscope⟩
  obtain ⟨k1, _⟩ := reg_enterscope _ _ _ _ k0 hent
  obtain ⟨k2, _⟩ := reg_gen_locals _ lval _ _ _ k1 hloc
  obtain ⟨k3, _, v3⟩ := (reg_gen_node _ rval hflat).2.1 _ _ _ k2 hbody
  obtain ⟨k4, m4⟩ := reg_exitscope _ _ _ _ k3 hex
  obtain ⟨⟨c, hact, _, hcode, _⟩, _⟩ := reg_gen_clause_end _ reg _ _ _ k4 (opOk_mono v3 m4) hend
  obtain ⟨r1, _, _, _⟩ := restoreClause_ok _ _ _ _ hrest
  have hkept : NregKept ga gf :=
    nregKept_trans (nreg_simple.bracket _ _ _ _ hent
      (nregKept_trans ((gen_locals_pres nreg_simple.toStable lval) _ _ _ hloc)
        ((simple_gen_node nreg_simple rval).2.1 _ _ _ hbody)) hex)
      (nregKept_of_end _ _ _ _ hend)
  obtain ⟨c', hc', hnode', _⟩ := hkept _ _ hnew
  obtain rfl : c' = c := Option.some.inj (hc'.symm.trans hact.2)
  refine ⟨c', by rw [r1]; exact hact.2, by rw [hnode']; rfl, fun i hi x hx hk => ?_⟩
  rcases hcode i hi x hx with h1 | h1
  · rw [h1] at hk
    cases hk
  · exact h1

/-- An instance of the register invariant: the clause `(X, Y): (X, Y)` of the
path `pair`, lowered where the path has just been registered: the scope is
empty, the entry ends with `nreg = 4` and all its register operands are
below 4. -/
theorem clause_registers_below_nreg_witness :
    gen_clause samplePairClause samplePairState
      = .ok 0 (gen_clause samplePairClause samplePairState).state ∧
    (gen_clause samplePairClause samplePairState).state.heap.map (fun c => (c.code, c.nreg))
      = [([.iABC .OP_TUPLE 3 2 0, .iABC .OP_SETTUPLE 3 0 1, .iABC .OP_SETTUPLE 3 1 2,
          .iABC .OP_RETURN 3 0 0, .word 0], 4)] ∧
    ((∃ c, (gen_clause samplePairClause samplePairState).state.heap[samplePairState.heap.length]?
        = some c ∧ c.node = samplePairClause ∧
      ∀ i, i < c.pc → ∀ x, x ∈ (c.word i).regOperands → ISK x = false →
        0 ≤ x ∧ x < (c.nreg : Int)) ∧
    ∀ (m : Node) (ga gb : Generator) (v : Int), gen_node m ga = .ok v gb → NregKept ga gb) :=
  ⟨by decide!, by decide!,
    clause_registers_below_nreg (hdr 122 "") _ 0 .nil _ samplePairState
      (gen_clause samplePairClause samplePairState).state 0 (by decide!)
      (by unfold ScopeOk OpOk; decide!) (by decide!)⟩

/-- C19 at the failing input `f (X, Y, Z): X + X, (A): Z + Z`, lowered from the
initial generator: the clause `(A): Z + Z` inside the body gets its own entry
with registers from 1, but `lookup` resolves `Z` to register 3 of the enclosing
clause.  Lowering completes, the inner entry ends with `nreg = 3` and holds
`ADD 2, 3, 3`: the operands 3 are in register slots, are not K-flagged and are
not below `nreg`. -/
theorem nested_clause_reads_outer_register :
    sampleNested.flat = false ∧
    gen_node sampleNested sampleInit = .ok 0 (gen_node sampleNested sampleInit).state ∧
    (gen_node sampleNested sampleInit).state.heap.map (fun c => (c.code, c.nreg))
      = [([.iABC .OP_ADD 4 1 1, .iABC .OP_RETURN 1 0 0, .word 0], 5),
         ([.iABC .OP_ADD 2 3 3, .iABC .OP_RETURN 2 0 0, .word 0], 3)] ∧
    (Instruction.iABC .OP_ADD 2 3 3).regOperands = [2, 3, 3] ∧ ISK 3 = false := by
  decide!

/-! ## The end of a clause -/

/-- C20, amended: for every clause node without a path declaration inside
whose lowering by `gen_clause` completes, the entry allocated for it has
`pc ≤ codesize - 1`, the zero terminator at `code[pc - 1]` and a word with
opcode `RETURN` or `TAILCALL` at `code[pc - 2]`. -/
theorem clause_fits_and_ends (h : Hdr) (lval : Node) (nguards : Nat) (guards : NodeList)
    (rval : Node) (g g' : Generator) (r : Int)
    (hn : (Node.OCLAUSE h lval nguards guards rval).noPath = true)
    (hok : gen_clause (.OCLAUSE h lval nguards guards rval) g = .ok r g') :
    ∃ c, g'.heap[g.heap.length]? = some c ∧ c.node = .OCLAUSE h lval nguards guards rval ∧
      c.pc ≤ c.codesize - 1 ∧ 2 ≤ c.pc ∧ c.word (c.pc - 1) = .word 0 ∧
      (iOP (c.word (c.pc - 2)) = some .OP_RETURN ∨
        iOP (c.word (c.pc - 2)) = some .OP_TAILCALL) := by
  obtain ⟨c, hc, hnode, h2, hterm, hret⟩ :=
    gen_clause_allocated h lval nguards guards rval g g' r hn hok
  have hk := (simple_gen_node fits_simple (.OCLAUSE h lval nguards guards rval)).2.2.1 _ _ _ hok
  obtain ⟨f1, _⟩ := (hk.2 _ c hc).2 (le_refl _)
  exact ⟨c, hc, hnode, by omega, h2, hterm, hret⟩

/-- Witness of C20 (amended): the clause `(A, B): A + B` lowered inside the
sample state. -/
theorem clause_fits_and_ends_witness :
    sampleAddClause.noPath = true ∧
    gen_clause sampleAddClause sampleState
      = .ok 1 (gen_clause sampleAddClause sampleState).state ∧
    ∃ c, (gen_clause sampleAddClause sampleState).state.heap[sampleState.heap.length]? = some c ∧
      c.node = sampleAddClause ∧
      c.pc ≤ c.codesize - 1 ∧ 2 ≤ c.pc ∧ c.word (c.pc - 1) = .word 0 ∧
      (iOP (c.word (c.pc - 2)) = some .OP_RETURN ∨
        iOP (c.word (c.pc - 2)) = some .OP_TAILCALL) :=
  ⟨by decide!, by decide!,
    clause_fits_and_ends (hdr 41 "") _ 0 .nil _ sampleState
      (gen_clause sampleAddClause sampleState).state 1 (by decide!) (by decide!)⟩

/-- Counterexample to C20 as stated: after `gen_clause` on `(A, B): A + B` the
entry holds `ADD 3, 1, 2; RETURN 3, 0, 0; 0` with `pc = 3`, so `code[pc - 1]`
is the zero terminator, a word with no opcode of an instruction; `RETURN` is at
`code[pc - 2]`. -/
theorem clause_last_word_is_terminator :
    gen_clause sampleAddClause sampleState
      = .ok 1 (gen_clause sampleAddClause sampleState).state ∧
    (gen_clause sampleAddClause sampleState).state.heap[1]?.map
        (fun c => (c.pc, c.code, iOP (c.word (c.pc - 1)), iOP (c.word (c.pc - 2))))
      = some (3, [.iABC .OP_ADD 3 1 2, .iABC .OP_RETURN 3 0 0, .word 0], none,
          some .OP_RETURN) := by
  decide!

/-! ## The select with one arm -/

/-- The last iteration of the arm loop of `gen_select` (`more` is false), seen
from the active clause: no end-of-arm slot is reserved, and the last word of
the code is the write of the arm's value into `result`. -/
theorem gen_select_arm_last (clause : Nat) (result : Int) (lval : Node)
    (argNull : Bool) (arg : Gen Int) (guards : Gen (List Nat)) (body : Gen Int)
    (ha : Pres Extends arg) (hg : SlotsPres clause guards) (hb : Pres Extends body)
    (g g' : Generator) (a : ArmSlots) (c : ClauseEntry)
    (h : gen_select_arm clause result false lval argNull arg guards body g = .ok a g')
    (hact : Active g clause c) :
    a.patch = [] ∧ ∃ c' ret ga gb, body ga = .ok ret gb ∧ Active g' clause c' ∧ c.pc < c'.pc ∧
      (∀ i, i < c.pc → c'.word i = c.word i) ∧
      c'.word (c'.pc - 1) = resultWrite result (ret % 4294967296) := by
  unfold gen_select_arm at h
  simp only [bind_ok, pure_ok] at h
  obtain ⟨_, g0, he0, saved, g1, h1, gps, g2, h2, _, g3, he3, ret, g4, h4, _, g5, he5, _, g6, h6,
    patch, g7, h7, _, g8, h8, _, g9, h9, gx, g9', hgx, _, g10, he10, hres, rfl⟩ := h
  obtain ⟨rfl, rfl⟩ : g9 = gx ∧ g9 = g9' := by
    simp only [getG, Outcome.ok.injEq] at hgx
    exact hgx
  simp only [Bool.false_eq_true, ↓reduceIte] at h7
  rw [pure_ok] at h7
  obtain ⟨rfl, rfl⟩ := h7
  have act0 : Active g0 clause c := enterscope_active he0 hact
  have s01 : ∃ c1, Active g1 clause c1 ∧ c.pc ≤ c1.pc ∧ (∀ i, i < c.pc → c1.word i = c.word i) ∧
      ∀ s, s ∈ saved → c.pc ≤ s ∧ s < c1.pc := by
    split at h1
    · simp only [bind_ok, pure_ok] at h1
      obtain ⟨s, gs, hs, rfl, rfl⟩ := h1
      obtain ⟨e, c1, act1, q1, q2, _⟩ := gen_select_test_active lval arg ha _ _ _ _ _ hs act0
      obtain ⟨c1', act1', _, w1, _⟩ := ext_active e act0
      obtain rfl := active_unique act1 act1'
      refine ⟨c1', act1, by omega, w1, fun s' hs' => ?_⟩
      rw [List.mem_singleton] at hs'
      omega
    · rw [pure_ok] at h1
      obtain ⟨rfl, rfl⟩ := h1
      exact ⟨c, act0, le_refl _, fun _ _ => rfl, fun s hs => absurd hs (List.not_mem_nil s)⟩
  obtain ⟨c1, act1, pc1, w1, hsaved⟩ := s01
  obtain ⟨e12, c2, act2, pc2, hgps⟩ := hg _ _ _ _ h2 act1
  obtain ⟨c2', act2', _, w2, _⟩ := ext_active e12 act1
  obtain rfl := active_unique act2 act2'
  have e25 : Extends g2 g5 :=
    extends_trans (enterscope_ext _ _ _ _ he3) (extends_trans (hb _ _ _ h4)
      (exitscope_ext _ _ _ _ he5))
  obtain ⟨c5, act5, pc5, w5, _⟩ := ext_active e25 act2
  obtain ⟨_, c6, act6, pc6, w6, w6'⟩ := gen_active _ _ _ _ _ _ h6 act5
  obtain ⟨r78, c8, hc8, q78⟩ := patchJumps_active clause saved g6 g8 _ c6 h8 act6.2
  obtain ⟨r89, c9, hc9, q89⟩ := patchJumps_active clause gps g8 g9 _ c8 h9 hc8
  rw [q78.1] at q89
  obtain ⟨p1, p2, p3, p4, p5⟩ := patchedBy_append q78 q89
  have r79 : Rewrites clause g6 g9 := rewrites_trans r78 r89
  have act9 : Active g9 clause c9 := ⟨by rw [rewrites_clauseRef r79]; exact act6.1, hc9⟩
  have hS : ∀ i, i ∈ saved ++ gps → c.pc ≤ i ∧ i < c5.pc := by
    intro i hi
    rcases List.mem_append.1 hi with hi | hi
    · have := hsaved i hi
      omega
    · have := hgps i hi
      omega
  subst hres
  refine ⟨rfl, c9, ret, g3, g4, h4, exitscope_active he10 act9, by omega, fun i hi => ?_, ?_⟩
  · rw [p5 i (fun hin => by have := (hS i hin).1; omega), w6' i (by omega), w5 i (by omega),
      w2 i (by omega), w1 i hi]
  · rw [p1, pc6, Nat.add_sub_cancel, p5 _ (fun hin => by have := (hS _ hin).2; omega), w6]

/-- C21: for every `select` with exactly one arm (`nclauses` is 1) and no path
declaration inside, lowered by `gen_select` in an active clause: `result` is
the register allocated first, the arm loop runs once and reserves no
end-of-arm slot (`patches` stays empty, so the last loop of `gen_select` writes
nothing), and when `gen_select` returns the last word of the clause's code,
`code[pc - 1]`, is the result write of the arm: `LOADK result, ret` when the
value `ret` of the arm's body is K-flagged, `MOVE result, ret, 0` otherwise.
No word follows it, and the words before the `select` are untouched. -/
theorem select_one_arm_ends_in_result_write (h : Hdr) (arg : Node) (cls : NodeList)
    (g g' : Generator) (result : Int) (clause : Nat) (c : ClauseEntry)
    (hn : (Node.OSELECT h arg 1 cls).noPath = true)
    (hok : gen_node (.OSELECT h arg 1 cls) g = .ok result g')
    (hact : Active g clause c) :
    result = c.nreg ∧
    ∃ g1 a g2 hd lval ng gs rval tl ret ga gb c',
      nextreg g = .ok result g1 ∧ cls = .cons (.OCLAUSE hd lval ng gs rval) tl ∧
      gen_select_arms arg.isNull (gen_node arg) clause result 1 cls 0 g1 = .ok [a] g2 ∧
      a.patch = [] ∧ armPatches [a] = [] ∧
      gen_block rval ga = .ok ret gb ∧
      Active g' clause c' ∧ c.pc < c'.pc ∧ a.endpc = c'.pc ∧
      (∀ i, i < c.pc → c'.word i = c.word i) ∧
      c'.word (c'.pc - 1) =
        (if ISK (ret % 4294967296) then .iAD .OP_LOADK result (ret % 4294967296)
          else .iABC .OP_MOVE result (ret % 4294967296) 0) := by
  have hn' := hn
  simp only [Node.noPath, Bool.and_eq_true] at hn'
  have ha : Pres Extends (gen_node arg) := (extends_gen_node arg hn'.1).1
  have hc : ArmsPres Extends cls :=
    arms_pres extends_stable false (fun hf => by cases hf) gen_select_extends cls (Or.inr hn'.2)
  obtain ⟨hext, g1, c1, il, slots, g2, c2, c', hreg, act1, pc1, hil, harms, hlen, hpos, act2,
    hdone, act', q⟩ := gen_select_active h arg 1 cls ha hc g g' result clause c hok hact
  have hres : result = c.nreg := by
    rw [nextreg_run g clause c hact] at hreg
    simp only [Outcome.ok.injEq] at hreg
    exact hreg.1.symm
  cases cls with
  | nil =>
    obtain ⟨hi, _, _⟩ := gen_select_arms_nil_ok _ _ _ _ _ _ _ _ _ harms
    omega
  | cons n tl =>
    rcases gen_select_arms_cons_ok _ _ _ _ _ _ _ _ _ _ _ harms with ⟨hi, _, _⟩ |
      ⟨_, hd, lval, ng, gs, rval, a, ga, rest, rfl, harm, hrest, rfl⟩
    · omega
    · have hrest0 : rest = [] ∧ g2 = ga := by
        cases tl with
        | nil =>
          obtain ⟨_, e1, e2⟩ := gen_select_arms_nil_ok _ _ _ _ _ _ _ _ _ hrest
          exact ⟨e1, e2⟩
        | cons n2 tl2 =>
          rcases gen_select_arms_cons_ok _ _ _ _ _ _ _ _ _ _ _ hrest with ⟨_, e1, e2⟩ |
            ⟨hi, _⟩
          · exact ⟨e1, e2⟩
          · omega
      obtain ⟨rfl, rfl⟩ := hrest0
      simp only [ArmsPres, ArmPres] at hc
      have harm' : gen_select_arm clause result false lval arg.isNull (gen_node arg)
          (gen_guards clause ng gs 0) (gen_block rval) g1 = .ok a g2 := by
        simpa using harm
      obtain ⟨hp, c3, ret, gb1, gb2, hbody, act3, pc3, w3, last3⟩ :=
        gen_select_arm_last clause result lval arg.isNull (gen_node arg)
          (gen_guards clause ng gs 0) (gen_block rval) ha
          (gen_guards_active clause ng gs hc.1.2 0) hc.1.1 g1 g2 a c1 harm' act1
      obtain rfl := active_unique act2 act3
      have hap : armPatches [a] = [] := by
        simp only [armPatches, hp, List.append_nil]
      rw [hap] at q
      obtain ⟨q1, _, _, _, q5⟩ := q
      obtain ⟨_, _, _, d3, _, _⟩ := hdone
      have hw1 : ∀ i, c1.word i = c.word i := by
        obtain ⟨_, c1', act1', _, _, _, wa⟩ := nextreg_active _ _ _ _ _ hreg hact
        obtain rfl := active_unique act1 act1'
        exact wa
      refine ⟨hres, g1, a, g2, hd, lval, ng, gs, rval, tl, ret, gb1, gb2, c', hreg, rfl, harms,
        hp, hap, hbody, act', by omega, ?_, fun i hi => ?_, ?_⟩
      · rw [q1]
        exact d3 a rfl
      · rw [q5 i (List.not_mem_nil i), w3 i (by omega), hw1 i]
      · rw [q1, q5 _ (List.not_mem_nil _), last3]
        rfl

/-- Witness of C21: `select X { (N): N }` lowered in the sample state, not as
the last child of the block: the code is the pattern test, its patched slot
and `MOVE 2, 4, 0`; and `select X { (N): .f (N) }` as the last child of the
clause body ends `TAILCALL 6, 0, 4; MOVE 2, 6, 0`, with no `RETURN` after. -/
theorem select_one_arm_ends_in_result_write_witness :
    (Node.OSELECT (hdr 60 "") (.OIDENT (hdr 61 "X")) 1
      (.cons (.OCLAUSE (hdr 62 "") (.OIDENT (hdr 63 "N")) 0 .nil
        (.OBLOCK (hdr 64 "") (.cons (.OIDENT (hdr 65 "N")) .nil) .null)) .nil)).noPath = true ∧
    gen_node sampleOneArm sampleTwoArmsState
      = .ok 2 (gen_node sampleOneArm sampleTwoArmsState).state ∧
    Active sampleTwoArmsState 0 sampleEntry ∧
    (gen_node sampleOneArm sampleTwoArmsState).codes
      = [[.iABC .OP_MATCH 3 128 1, .iAJ .OP_JUMP 0 1, .iABC .OP_MOVE 2 4 0]] ∧
    (gen_node sampleSelect sampleSelectState).codes
      = [[.iABC .OP_MATCH 3 128 1, .iAJ .OP_JUMP 0 2, .iABC .OP_TAILCALL 6 0 4,
          .iABC .OP_MOVE 2 6 0]] ∧
    ((2 : Int) = sampleEntry.nreg ∧
    ∃ g1 a g2 hd lval ng gs rval tl ret ga gb c',
      nextreg sampleTwoArmsState = .ok 2 g1 ∧
      (NodeList.cons (.OCLAUSE (hdr 62 "") (.OIDENT (hdr 63 "N")) 0 .nil
        (.OBLOCK (hdr 64 "") (.cons (.OIDENT (hdr 65 "N")) .nil) .null)) .nil)
        = .cons (.OCLAUSE hd lval ng gs rval) tl ∧
      gen_select_arms (Node.OIDENT (hdr 61 "X")).isNull (gen_node (.OIDENT (hdr 61 "X"))) 0 2 1
        (.cons (.OCLAUSE (hdr 62 "") (.OIDENT (hdr 63 "N")) 0 .nil
          (.OBLOCK (hdr 64 "") (.cons (.OIDENT (hdr 65 "N")) .nil) .null)) .nil) 0 g1
        = .ok [a] g2 ∧
      a.patch = [] ∧ armPatches [a] = [] ∧
      gen_block rval ga = .ok ret gb ∧
      Active (gen_node sampleOneArm sampleTwoArmsState).state 0 c' ∧
      sampleEntry.pc < c'.pc ∧ a.endpc = c'.pc ∧
      (∀ i, i < sampleEntry.pc → c'.word i = sampleEntry.word i) ∧
      c'.word (c'.pc - 1) =
        (if ISK (ret % 4294967296) then .iAD .OP_LOADK 2 (ret % 4294967296)
          else .iABC .OP_MOVE 2 (ret % 4294967296) 0)) :=
  ⟨by decide!, by decide!, ⟨by decide!, by decide!⟩, by decide!, by decide!,
    select_one_arm_ends_in_result_write (hdr 60 "") (.OIDENT (hdr 61 "X"))
      (.cons (.OCLAUSE (hdr 62 "") (.OIDENT (hdr 63 "N")) 0 .nil
        (.OBLOCK (hdr 64 "") (.cons (.OIDENT (hdr 65 "N")) .nil) .null)) .nil)
      sampleTwoArmsState (gen_node sampleOneArm sampleTwoArmsState).state 2 0 sampleEntry
      (by decide!) (by decide!) ⟨by decide!, by decide!⟩⟩

/-! ## Patterns emit nothing -/

theorem quiet_pure {α γ : Type} (f : ClauseEntry → γ) (a : α) : Quiet f (pure a : Gen α) :=
  fun _ => rfl

theorem quiet_fault {α γ : Type} (f : ClauseEntry → γ) (x : Fault) :
    Quiet f (fault x : Gen α) :=
  fun _ => rfl

theorem quiet_bind {α β γ : Type} (f : ClauseEntry → γ) {m : Gen α} {k : α → Gen β}
    (hm : Quiet f m) (hk : ∀ a, Quiet f (k a)) : Quiet f (m >>= k) := by
  intro g
  have h1 := hm g
  rw [bind_apply]
  cases h : m g with
  | ok a g1 =>
    rw [h] at h1
    simp only
    rw [hk a g1]
    exact h1
  | halt e g1 =>
    rw [h] at h1
    exact h1

theorem map_set_same {γ : Type} (f : ClauseEntry → γ) (c' : ClauseEntry) :
    ∀ (l : List ClauseEntry) (r : Nat) (c : ClauseEntry), l[r]? = some c → f c' = f c →
      (l.set r c').map f = l.map f
  | [], _, _, _, _ => rfl
  | x :: xs, 0, c, h, hf => by
    simp only [List.getElem?_cons_zero, Option.some.injEq] at h
    subst h
    simp only [List.set_cons_zero, List.map_cons, hf]
  | x :: xs, r + 1, c, h, hf => by
    simp only [List.getElem?_cons_succ] at h
    simp only [List.set_cons_succ, List.map_cons, map_set_same f c' xs r c h hf]

/-- An update of the active clause that keeps `f` is quiet. -/
theorem quiet_update {γ : Type} (f : ClauseEntry → γ) (g : Generator) (r : Nat)
    (c c' : ClauseEntry) (h : g.heap[r]? = some c) (hf : f c' = f c) :
    (g.setClauseAt r c').heap.map f = g.heap.map f :=
  map_set_same f c' g.heap r c h hf

theorem nextreg_quiet {γ : Type} (f : ClauseEntry → γ)
    (hf : ∀ c n, f { c with nreg := n } = f c) : Quiet f nextreg := by
  intro g
  unfold nextreg
  cases hr : g.clauseRef with
  | none => rfl
  | some r =>
    cases hc : g.heap[r]? with
    | none =>
      simp only [hc]
      rfl
    | some c =>
      simp only [hc]
      exact quiet_update f g r c _ hc (hf c _)

theorem incLocals_quiet {γ : Type} (f : ClauseEntry → γ)
    (hf : ∀ c n, f { c with nlocals := n } = f c) : Quiet f incLocals := by
  intro g
  unfold incLocals
  cases hr : g.clauseRef with
  | none => rfl
  | some r =>
    cases hc : g.heap[r]? with
    | none =>
      simp only [hc]
      rfl
    | some c =>
      simp only [hc]
      exact quiet_update f g r c _ hc (hf c _)

theorem define_quiet {γ : Type} (f : ClauseEntry → γ) (s : String) (r : Int) :
    Quiet f (define s r) := by
  intro g
  unfold define
  cases g.tree.symbols <;> rfl

theorem tree_lookup_quiet {γ : Type} (f : ClauseEntry → γ) (s : String) :
    Quiet f (tree_lookup s) :=
  fun _ => rfl

theorem gen_ident_quiet {γ : Type} (f : ClauseEntry → γ) (h : Hdr) : Quiet f (gen_ident h) := by
  unfold gen_ident
  refine quiet_bind f (tree_lookup_quiet f _) (fun a => ?_)
  cases a <;> exact quiet_pure f _

/-- The function `gen_constant` emits nothing. -/
theorem gen_constant_quiet (s : Option String) (v : TValue) :
    Quiet ClauseEntry.emitted (gen_constant s v) := by
  intro g
  unfold gen_constant
  cases hr : g.clauseRef with
  | none => rfl
  | some r =>
    cases hc : g.heap[r]? with
    | none =>
      simp only [hc]
      rfl
    | some c =>
      simp only [hc]
      split
      · rfl
      · split
        · exact quiet_update _ g r c _ hc rfl
        · exact quiet_update _ g r c _ hc rfl

section
variable {γ : Type} (f : ClauseEntry → γ) (hreg : ∀ c n, f { c with nreg := n } = f c)
  (hloc : ∀ c n, f { c with nlocals := n } = f c)
include hreg hloc

theorem gen_pattern_ident_quiet (range : Bool) (n : Node) :
    Quiet f (gen_pattern_ident range n) := by
  unfold gen_pattern_ident
  split
  · exact quiet_fault f _
  · refine quiet_bind f (gen_ident_quiet f _) (fun a => ?_)
    split
    · exact quiet_pure f _
    · exact quiet_bind f (incLocals_quiet f hloc) (fun _ =>
        quiet_bind f (nextreg_quiet f hreg) (fun _ =>
          quiet_bind f (define_quiet f _ _) (fun _ => quiet_pure f _)))

mutual
theorem gen_pattern_quiet : ∀ n : Node, Quiet f (gen_pattern n)
  | .null => by rw [gen_pattern]; exact quiet_pure f _
  | .OTUPLE _ arity members => by
    rw [gen_pattern]
    exact quiet_bind f (gen_pattern_members_quiet arity members _) (fun _ => quiet_pure f _)
  | .ORANGE _ lval _ => by rw [gen_pattern]; exact gen_pattern_ident_quiet f hreg hloc _ _
  | .OIDENT h => by rw [gen_pattern]; exact gen_pattern_ident_quiet f hreg hloc _ _
  | .OATOM h => by rw [gen_pattern]; exact quiet_pure f _
  | .ONUMBER h => by rw [gen_pattern]; exact quiet_pure f _
  | .OLIST _ length .nil => by
    simp only [gen_pattern]
    split
    · exact quiet_fault f _
    · exact quiet_pure f _
  | .OLIST _ length (.cons hd tl) => by
    simp only [gen_pattern]
    split
    · exact quiet_bind f (gen_pattern_items_quiet (.cons hd tl) _) (fun _ => quiet_pure f _)
    · exact quiet_pure f _
  | .OBLOCK _ _ _ => by simp only [gen_pattern]; exact quiet_fault f _
  | .OMATCH _ _ _ => by simp only [gen_pattern]; exact quiet_fault f _
  | .OBIND _ _ _ => by simp only [gen_pattern]; exact quiet_fault f _
  | .OADD _ _ _ => by simp only [gen_pattern]; exact quiet_fault f _
  | .OSUB _ _ _ => by simp only [gen_pattern]; exact quiet_fault f _
  | .OGT _ _ _ => by simp only [gen_pattern]; exact quiet_fault f _
  | .OLT _ _ _ => by simp only [gen_pattern]; exact quiet_fault f _
  | .OCONS _ _ _ => by simp only [gen_pattern]; exact quiet_fault f _
  | .OACCESS _ _ _ => by simp only [gen_pattern]; exact quiet_fault f _
  | .OAPPLY _ _ _ _ => by simp only [gen_pattern]; exact quiet_fault f _
  | .OSELECT _ _ _ _ => by simp only [gen_pattern]; exact quiet_fault f _
  | .OCLAUSE _ _ _ _ _ => by simp only [gen_pattern]; exact quiet_fault f _
  | .OPATH _ _ _ => by simp only [gen_pattern]; exact quiet_fault f _
  | .OMODULE _ _ => by simp only [gen_pattern]; exact quiet_fault f _
  | .other _ _ => by simp only [gen_pattern]; exact quiet_fault f _
theorem gen_pattern_members_quiet (arity : Nat) :
    ∀ (ns : NodeList) (acc : TValues), Quiet f (gen_pattern_members arity ns acc)
  | .nil, acc => by rw [gen_pattern_members]; exact quiet_pure f _
  | .cons hd tl, acc => by
    rw [gen_pattern_members]
    refine quiet_bind f (gen_pattern_quiet hd) (fun v => ?_)
    split
    · exact quiet_fault f _
    · split
      · exact gen_pattern_members_quiet arity tl _
      · exact quiet_fault f _
theorem gen_pattern_items_quiet :
    ∀ (ns : NodeList) (acc : TValues), Quiet f (gen_pattern_items ns acc)
  | .nil, acc => by rw [gen_pattern_items]; exact quiet_pure f _
  | .cons hd tl, acc => by
    rw [gen_pattern_items]
    exact quiet_bind f (gen_pattern_quiet hd) (fun v => gen_pattern_items_quiet tl _)
end

variable (hk : ∀ s v, Quiet f (gen_constant s v))
include hk

mutual
theorem gen_locals_quiet : ∀ n : Node, Quiet f (gen_locals n)
  | .null => by simp only [gen_locals]; exact quiet_fault f _
  | .OTUPLE _ _ members => by simp only [gen_locals]; exact gen_locals_members_quiet members
  | .OIDENT h => by
    simp only [gen_locals]
    refine quiet_bind f (tree_lookup_quiet f _) (fun a => ?_)
    split
    · exact quiet_pure f _
    · exact quiet_bind f (incLocals_quiet f hloc) (fun _ =>
        quiet_bind f (nextreg_quiet f hreg) (fun _ =>
          quiet_bind f (define_quiet f _ _) (fun _ => quiet_pure f _)))
  | .ONUMBER h => by
    simp only [gen_locals]
    exact quiet_bind f (quiet_bind f (hk _ _) (fun _ => quiet_pure f _)) (fun _ => quiet_pure f _)
  | .OATOM h => by
    simp only [gen_locals]
    exact quiet_bind f (quiet_bind f (hk _ _) (fun _ => quiet_pure f _)) (fun _ => quiet_pure f _)
  | .other _ op => by
    cases op <;> simp only [gen_locals] <;> first | exact quiet_fault f _ | exact quiet_pure f _
  | .OBLOCK _ _ _ => by simp only [gen_locals]; exact quiet_pure f _
  | .OMATCH _ _ _ => by simp only [gen_locals]; exact quiet_pure f _
  | .OBIND _ _ _ => by simp only [gen_locals]; exact quiet_pure f _
  | .OADD _ _ _ => by simp only [gen_locals]; exact quiet_pure f _
  | .OSUB _ _ _ => by simp only [gen_locals]; exact quiet_pure f _
  | .OGT _ _ _ => by simp only [gen_locals]; exact quiet_pure f _
  | .OLT _ _ _ => by simp only [gen_locals]; exact quiet_pure f _
  | .OCONS _ _ _ => by simp only [gen_locals]; exact quiet_pure f _
  | .OACCESS _ _ _ => by simp only [gen_locals]; exact quiet_pure f _
  | .ORANGE _ _ _ => by simp only [gen_locals]; exact quiet_pure f _
  | .OAPPLY _ _ _ _ => by simp only [gen_locals]; exact quiet_pure f _
  | .OSELECT _ _ _ _ => by simp only [gen_locals]; exact quiet_pure f _
  | .OCLAUSE _ _ _ _ _ => by simp only [gen_locals]; exact quiet_pure f _
  | .OPATH _ _ _ => by simp only [gen_locals]; exact quiet_pure f _
  | .OLIST _ _ _ => by simp only [gen_locals]; exact quiet_pure f _
  | .OMODULE _ _ => by simp only [gen_locals]; exact quiet_pure f _
theorem gen_locals_members_quiet : ∀ ns : NodeList, Quiet f (gen_locals_members ns)
  | .nil => by simp only [gen_locals_members]; exact quiet_pure f _
  | .cons hd tl => by
    simp only [gen_locals_members]
    exact quiet_bind f (gen_locals_quiet hd) (fun _ => gen_locals_members_quiet tl)
end

end

/-- C22: patterns emit no instructions.  For every node `n` and every state
`g`, in the state a run of `gen_pattern` on `n` ends in (whether it returns a
value or stops) every clause entry has the `pc`, the code words, the `kindex`,
the `kheader` and the `ktable` it had in `g`; and in the state a run of
`gen_locals` on `n` ends in every clause entry has the `pc` and the code words
it had in `g`.  So a call that returns has only returned a value (or declared
locals) and emitted nothing. -/
theorem patterns_emit_nothing (n : Node) (g : Generator) :
    (gen_pattern n g).state.heap.map ClauseEntry.emittedAndTable
        = g.heap.map ClauseEntry.emittedAndTable ∧
      (gen_locals n g).state.heap.map ClauseEntry.emitted = g.heap.map ClauseEntry.emitted ∧
      (∀ v g', gen_pattern n g = .ok v g' →
        g'.heap.map ClauseEntry.emittedAndTable = g.heap.map ClauseEntry.emittedAndTable) ∧
      ∀ u g', gen_locals n g = .ok u g' →
        g'.heap.map ClauseEntry.emitted = g.heap.map ClauseEntry.emitted := by
  have h1 := gen_pattern_quiet ClauseEntry.emittedAndTable (fun _ _ => rfl) (fun _ _ => rfl) n g
  have h2 := gen_locals_quiet ClauseEntry.emitted (fun _ _ => rfl) (fun _ _ => rfl)
    gen_constant_quiet n g
  refine ⟨h1, h2, fun v g' h => ?_, fun u g' h => ?_⟩
  · rw [h] at h1
    exact h1
  · rw [h] at h2
    exact h2

/-! ## Anonymous constants -/

theorem storeAt_length {α : Type} (d : α) (v : α) :
    ∀ l : List α, (storeAt d l l.length v).length = l.length + 1
  | [] => rfl
  | x :: xs => by
    show (x :: storeAt d xs xs.length v).length = _
    rw [List.length_cons, storeAt_length d v xs, List.length_cons]

theorem sized_set {g : Generator} (r : Nat) (c' : ClauseEntry) (hs : Sized g)
    (hc : c'.kheader.length = c'.kindex) : Sized (g.setClauseAt r c') := by
  intro d hd
  rcases List.mem_or_eq_of_mem_set hd with hd | hd
  · exact hs d hd
  · rw [hd]
    exact hc

theorem sizedKept_of_heap {g g' : Generator} (h : g'.heap = g.heap) : SizedKept g g' := by
  intro hs d hd
  rw [h] at hd
  exact hs d hd

theorem sized_get {g : Generator} {r : Nat} {c : ClauseEntry} (hs : Sized g)
    (hc : g.heap[r]? = some c) : c.kheader.length = c.kindex :=
  hs c (List.getElem?_mem hc)

theorem gen_sizedKept (i : Instruction) (g g' : Generator) (a : Nat) (h : gen i g = .ok a g') :
    SizedKept g g' := by
  obtain ⟨r, c, _, hc, _, rfl⟩ := gen_ok i g g' a h
  intro hs
  refine sized_set r _ hs ?_
  have := sized_get hs hc
  unfold growCode
  split <;> exact this

theorem nextreg_sizedKept (g g' : Generator) (a : Int) (h : nextreg g = .ok a g') :
    SizedKept g g' := by
  obtain ⟨r, c, _, hc, _, rfl⟩ := nextreg_ok g g' a h
  intro hs
  have hk := sized_get hs hc
  exact sized_set r _ hs hk

theorem exitscope_sizedKept (g g' : Generator) (a : Unit) (h : exitscope g = .ok a g') :
    SizedKept g g' := by
  unfold exitscope at h
  split at h
  · cases h
  · simp only [Outcome.ok.injEq] at h
    rw [← h.2]
    exact sizedKept_of_heap rfl

theorem gen_constant_sizedKept (s : Option String) (v : TValue) (g g' : Generator) (a : Int)
    (h : gen_constant s v g = .ok a g') : SizedKept g g' := by
  unfold gen_constant at h
  cases hr : g.clauseRef with
  | none => simp [hr] at h
  | some r =>
    cases hc : g.heap[r]? with
    | none => simp [hr, hc] at h
    | some c =>
      simp only [hr, hc] at h
      split at h
      · simp only [Outcome.ok.injEq] at h
        rw [← h.2]
        exact fun hs => hs
      · split at h
        · simp only [Outcome.ok.injEq] at h
          rw [← h.2]
          intro hs
          refine sized_set r _ hs ?_
          show (storeAt .null c.kheader c.kindex v).length = c.kindex + 1
          have hk := sized_get hs hc
          rw [← hk, storeAt_length]
        · cases h

theorem sizedKept_of_end (reg : Int) (g g' : Generator) (u : Unit)
    (hend : gen_clause_end reg g = .ok u g') : SizedKept g g' := by
  unfold gen_clause_end at hend
  simp only [bind_ok, pure_ok] at hend
  obtain ⟨w, gw, hw, _, gx, hx, _, gy, hy, _, rfl⟩ := hend
  rw [lastWord_state _ _ _ hw] at hx
  intro hs
  refine gen_sizedKept _ _ _ _ hy ?_
  split at hx
  · unfold gen_clause_return at hx
    split at hx
    · simp only [bind_ok, pure_ok] at hx
      obtain ⟨_, g5, h5, _, g6, h6, _, g7, h7, _, rfl⟩ := hx
      exact gen_sizedKept _ _ _ _ h7 (gen_sizedKept _ _ _ _ h6 (nextreg_sizedKept _ _ _ h5 hs))
    · simp only [bind_ok, pure_ok] at hx
      obtain ⟨_, g7, h7, _, rfl⟩ := hx
      exact gen_sizedKept _ _ _ _ h7 hs
  · rw [pure_ok] at hx
    rw [← hx.2]
    exact hs

/-- Every step of the lowering keeps `kindex` equal to the number of `kheader`
entries: `gen_constant` is the only writer of both, and a fresh entry has
none. -/
theorem sized_simple : Simple SizedKept where
  refl _ := fun hs => hs
  trans _ _ _ a b := fun hs => b (a hs)
  nextreg g a g' h := nextreg_sizedKept g g' a h
  incLocals g a g' h := by
    obtain ⟨r, c, _, hc, rfl⟩ := incLocals_ok g g' a h
    intro hs
    have hk := sized_get hs hc
    exact sized_set r _ hs hk
  gen i _ g a g' h := gen_sizedKept i g g' a h
  gen_constant s v g a g' h := gen_constant_sizedKept s v g g' a h
  define s r g a g' h := by
    unfold define at h
    split at h
    · cases h
    · simp only [Outcome.ok.injEq] at h
      rw [← h.2]
      exact sizedKept_of_heap rfl
  setBlock n g a g' h := by
    simp only [setBlock, Outcome.ok.injEq] at h
    rw [← h.2]
    exact sizedKept_of_heap rfl
  bracket g g0 g1 g2 he h01 hx := by
    rw [enterscope_ok g () g0 he] at h01
    exact fun hs => exitscope_sizedKept _ _ _ hx (h01 (sizedKept_of_heap rfl hs))
  clause n locals body hl hb g a g' h := by
    unfold gen_clause_steps at h
    simp only [bind_ok, pure_ok] at h
    obtain ⟨oi, g1, hemit, _, g2, hrest, _, rfl⟩ := h
    unfold gen_clause_emit at hemit
    simp only [bind_ok, pure_ok] at hemit
    obtain ⟨oi', ga, halloc, _, gb, hent, _, gc, hloc, reg, gd, hbody, _, ge, hex, _, gf, hend,
      _, rfl⟩ := hemit
    obtain ⟨p, _, _, _, hha, _⟩ := allocClause_ok _ _ _ _ halloc
    obtain ⟨r1, _, _, _⟩ := restoreClause_ok _ _ _ _ hrest
    intro hs
    have e0 : Sized ga := by
      intro d hd
      rw [hha, List.mem_append, List.mem_singleton] at hd
      rcases hd with hd | hd
      · exact hs d hd
      · rw [hd]
        rfl
    have e1 : Sized gb := by
      rw [enterscope_ok ga () gb hent]
      exact sizedKept_of_heap rfl e0
    exact sizedKept_of_heap r1 (sizedKept_of_end _ _ _ _ hend
      (exitscope_sizedKept _ _ _ hex (hb _ _ _ hbody (hl _ _ _ hloc e1))))
  genAny i g a g' h := gen_sizedKept i g g' a h
  patch clause idx v g a g' h := by
    unfold patchCode at h
    cases hc : g.heap[clause]? with
    | none => simp [hc] at h
    | some c =>
      simp only [hc] at h
      split at h
      · simp only [Outcome.ok.injEq] at h
        rw [← h.2]
        intro hs
        have hk := sized_get hs hc
        exact sized_set clause _ hs hk
      · cases h
  registerPath name n g a g' h := by
    unfold Arbre.registerPath at h
    split at h
    · simp only [Outcome.ok.injEq] at h
      rw [← h.2]
      exact sizedKept_of_heap rfl
    · cases h

/-- The run of `gen_constant` with a null key on a table with room. -/
theorem gen_constant_anon_run (v : TValue) (g : Generator) (clause : Nat) (c : ClauseEntry)
    (ha : Active g clause c) (hroom : c.kindex < 128) :
    gen_constant none v g = .ok (c.kindex : Int) (g.setClauseAt clause
      { c with kindex := c.kindex + 1, kheader := storeAt .null c.kheader c.kindex v }) := by
  unfold gen_constant
  simp only [ha.1, ha.2]
  rw [if_pos hroom]

/-- C23: `gen_constant` with a null source key always allocates.  On an active
clause `c` with `kindex = k` and room in the table (`k < 128`), it returns `k`,
stores the value at `kheader[k]`, sets `kindex` to `k + 1` and leaves the other
`kheader` slots, `ktable` and the rest of the entry unchanged; a second
anonymous intern, of the same value or another one, returns `k + 1` when there
is room, so two anonymous interns of equal values get different indices.  And
`kindex` equals the number of `kheader` entries stored: the call keeps that,
and so does every lowering `gen_node` of every node, on every clause entry. -/
theorem gen_constant_anonymous (v w : TValue) (g : Generator) (clause : Nat) (c : ClauseEntry)
    (ha : Active g clause c) (hroom : c.kindex < 128) :
    (∃ g' c', gen_constant none v g = .ok (c.kindex : Int) g' ∧ Active g' clause c' ∧
      c' = { c with kindex := c.kindex + 1, kheader := c'.kheader } ∧
      c'.kheader.getD c.kindex .null = v ∧
      (∀ i, i ≠ c.kindex → c'.kheader.getD i .null = c.kheader.getD i .null) ∧
      (c.kheader.length = c.kindex → c'.kheader.length = c'.kindex) ∧
      (c.kindex + 1 < 128 →
        ∃ g'', gen_constant none w g' = .ok ((c.kindex + 1 : Nat) : Int) g'')) ∧
    ∀ (m : Node) (ga gb : Generator) (r : Int), gen_node m ga = .ok r gb →
      (∀ d, d ∈ ga.heap → d.kheader.length = d.kindex) →
      ∀ d, d ∈ gb.heap → d.kheader.length = d.kindex := by
  refine ⟨?_, fun m ga gb r hm => (simple_gen_node sized_simple m).1 _ _ _ hm⟩
  have h1 := gen_constant_anon_run v g clause c ha hroom
  have a1 : Active (g.setClauseAt clause
      { c with kindex := c.kindex + 1, kheader := storeAt .null c.kheader c.kindex v }) clause
      { c with kindex := c.kindex + 1, kheader := storeAt .null c.kheader c.kindex v } :=
    active_set _ ha
  refine ⟨_, _, h1, a1, rfl, storeAt_getD_self _ _ _ _,
    fun i hi => storeAt_getD_other _ _ _ _ _ hi, fun hk => ?_, fun hroom2 => ?_⟩
  · show (storeAt .null c.kheader c.kindex v).length = c.kindex + 1
    rw [← hk, storeAt_length]
  · have h2 := gen_constant_anon_run w _ clause _ a1 hroom2
    exact ⟨_, h2⟩

/-- Witness of C23: two anonymous interns of the atom `a` in the sample state,
whose table is empty: the indices are 0 and 1, and `kheader` holds the atom
twice. -/
theorem gen_constant_anonymous_witness :
    Active sampleState 0 sampleEntry ∧ sampleEntry.kindex < 128 ∧
    gen_constant none (.atom "a") sampleState
      = .ok 0 (gen_constant none (.atom "a") sampleState).state ∧
    gen_constant none (.atom "a") (gen_constant none (.atom "a") sampleState).state
      = .ok 1 (gen_constant none (.atom "a")
          (gen_constant none (.atom "a") sampleState).state).state ∧
    (gen_constant none (.atom "a")
        (gen_constant none (.atom "a") sampleState).state).state.heap.map
      (fun c => (c.kindex, c.kheader, c.ktable)) = [(2, [.atom "a", .atom "a"], [])] ∧
    ((∃ g' c', gen_constant none (.atom "a") sampleState = .ok (sampleEntry.kindex : Int) g' ∧
      Active g' 0 c' ∧
      c' = { sampleEntry with kindex := sampleEntry.kindex + 1, kheader := c'.kheader } ∧
      c'.kheader.getD sampleEntry.kindex .null = .atom "a" ∧
      (∀ i, i ≠ sampleEntry.kindex →
        c'.kheader.getD i .null = sampleEntry.kheader.getD i .null) ∧
      (sampleEntry.kheader.length = sampleEntry.kindex → c'.kheader.length = c'.kindex) ∧
      (sampleEntry.kindex + 1 < 128 →
        ∃ g'', gen_constant none (.atom "a") g'
          = .ok ((sampleEntry.kindex + 1 : Nat) : Int) g'')) ∧
    ∀ (m : Node) (ga gb : Generator) (r : Int), gen_node m ga = .ok r gb →
      (∀ d, d ∈ ga.heap → d.kheader.length = d.kindex) →
      ∀ d, d ∈ gb.heap → d.kheader.length = d.kindex) :=
  ⟨⟨by decide!, by decide!⟩, by decide!, by decide!, by decide!, by decide!,
    gen_constant_anonymous (.atom "a") (.atom "a") sampleState 0 sampleEntry
      ⟨by decide!, by decide!⟩ (by decide!)⟩

/-! ## The identifier pattern -/

/-- The identifier case of `gen_pattern` on a name that is bound to a
register: the value is `VAR` with that register and nothing changes. -/
theorem gen_pattern_ident_bound (range : Bool) (n : Node) (src : String) (r : Int)
    (g : Generator) (hs : n.src = some src)
    (hl : symtab_lookup g.tree.symbols src = some r) (hr : 0 ≤ r) :
    gen_pattern_ident range n g = .ok (.var range r) g := by
  have e0 : tree_lookup src g = .ok (some r) g := by
    unfold tree_lookup
    rw [hl]
  unfold gen_pattern_ident
  simp only [hs]
  unfold gen_ident
  simp only [bind_apply, e0]
  show (if r ≥ 0 then (pure (TValue.var range r) : Gen TValue) else _) g = _
  rw [if_pos hr]
  rfl

/-- The identifier case of `gen_pattern` on a name that is not bound: the
value is `ANY` with the previous `nreg`, the name is bound to it in the
innermost table, and `nreg` and `nlocals` grow by one. -/
theorem gen_pattern_ident_fresh (n : Node) (src : String)
    (g : Generator) (clause : Nat) (c : ClauseEntry) (t : List (String × Int))
    (ps : List (List (String × Int))) (hs : n.src = some src)
    (hl : symtab_lookup g.tree.symbols src = none) (hsym : g.tree.symbols = t :: ps)
    (ha : Active g clause c) :
    ∃ g', (∀ range, gen_pattern_ident range n g = .ok (.any range c.nreg) g') ∧
      g'.tree.symbols = ((src, (c.nreg : Int)) :: t) :: ps ∧
      Active g' clause { c with nlocals := c.nlocals + 1, nreg := c.nreg + 1 } := by
  have e0 : tree_lookup src g = .ok none g := by
    unfold tree_lookup
    rw [hl]
  obtain ⟨g1, e1, t1, a1⟩ := incLocals_step g clause c ha
  obtain ⟨g2, e2, t2, a2⟩ := nextreg_step g1 clause _ a1
  obtain ⟨g3, e3, t3, a3⟩ := define_step src (c.nreg : Int) g2 clause _ t ps a2
    (by rw [t2, t1]; exact hsym)
  refine ⟨g3, fun range => ?_, t3, a3⟩
  unfold gen_pattern_ident
  simp only [hs]
  unfold gen_ident
  simp only [bind_apply, e0]
  show (if (-1 : Int) ≥ 0 then (pure (TValue.var range (-1)) : Gen TValue) else _) g = _
  rw [if_neg (by decide)]
  simp only [bind_apply, e1, e2, e3]
  rfl

/-- C24: for every `OIDENT` pattern node with name `x`, and every `ORANGE`
pattern node whose `lval` is that identifier, lowered by `gen_pattern` in a
state `g` with active clause `c`.  If `lookup` finds `x` bound to the register
`r` (registers are not negative), the value is `VAR` carrying `r` (with
`Q_RANGE` for the range node) and the state is unchanged: `nreg`, `nlocals`
and every scope are as before.  If `x` is not bound, the value is `ANY`
carrying the previous `nreg` (with `Q_RANGE` for the range node), `x` is bound
to that register in the innermost table, the outer tables are untouched, and
`nreg` and `nlocals` are each one more.  And in the tuple pattern `(X, X)` with
`X` not bound the value is the tuple of `ANY r` and `VAR r` with the same
`r`, the previous `nreg`. -/
theorem gen_pattern_ident_value (hx hx2 h ht : Hdr) (hi : Node) (g : Generator) (clause : Nat)
    (c : ClauseEntry) (ha : Active g clause c) (hsame : hx2.src = hx.src) :
    (∀ r, symtab_lookup g.tree.symbols hx.src = some r → 0 ≤ r →
      gen_pattern (.OIDENT hx) g = .ok (.var false r) g ∧
      gen_pattern (.ORANGE h (.OIDENT hx) hi) g = .ok (.var true r) g) ∧
    (symtab_lookup g.tree.symbols hx.src = none →
      ∀ t ps, g.tree.symbols = t :: ps →
      ∃ g', gen_pattern (.OIDENT hx) g = .ok (.any false c.nreg) g' ∧
        gen_pattern (.ORANGE h (.OIDENT hx) hi) g = .ok (.any true c.nreg) g' ∧
        g'.tree.symbols = ((hx.src, (c.nreg : Int)) :: t) :: ps ∧
        Active g' clause { c with nlocals := c.nlocals + 1, nreg := c.nreg + 1 } ∧
        gen_pattern (.OTUPLE ht 2 (.cons (.OIDENT hx) (.cons (.OIDENT hx2) .nil))) g =
          .ok (.tuple 2 (.cons (.any false c.nreg) (.cons (.var false c.nreg) .nil))) g') := by
  refine ⟨fun r hl hr => ?_, fun hl t ps hsym => ?_⟩
  · rw [gen_pattern, gen_pattern]
    exact ⟨gen_pattern_ident_bound false _ hx.src r g rfl hl hr,
      gen_pattern_ident_bound true _ hx.src r g rfl hl hr⟩
  · obtain ⟨g1, e1, s1, a1⟩ :=
      gen_pattern_ident_fresh (.OIDENT hx) hx.src g clause c t ps rfl hl hsym ha
    have hl2 : symtab_lookup g1.tree.symbols hx2.src = some (c.nreg : Int) := by
      rw [s1, hsame]
      simp [symtab_lookup, List.lookup]
    have e2 := gen_pattern_ident_bound false (.OIDENT hx2) hx2.src (c.nreg : Int) g1 rfl hl2
      (Int.ofNat_nonneg _)
    refine ⟨g1, ?_, ?_, s1, a1, ?_⟩
    · rw [gen_pattern]
      exact e1 false
    · rw [gen_pattern]
      exact e1 true
    · simp only [gen_pattern, gen_pattern_members, bind_apply, e1 false, TValues.length,
        TValues.snoc, Nat.zero_lt_succ, ↓reduceIte, e2, Nat.reduceAdd, Nat.reduceLT]
      rfl

/-- Witness of C24 in the sample state, where `X` is bound to register 1, `N`
is not bound and `nreg` is 2: the pattern `X` is `VAR 1` and changes nothing;
the pattern `(N, N)` is the tuple of `ANY 2` and `VAR 2`, binds `N` to 2 and
leaves `nreg = 3`, `nlocals = 1`; the range pattern `N..9` is `ANY 2` with
`Q_RANGE`. -/
theorem gen_pattern_ident_value_witness :
    Active sampleState 0 sampleEntry ∧ (hdr 64 "N").src = (hdr 63 "N").src ∧
    gen_pattern (.OIDENT (hdr 10 "X")) sampleState = .ok (.var false 1) sampleState ∧
    gen_pattern (.OTUPLE (hdr 62 "") 2
        (.cons (.OIDENT (hdr 63 "N")) (.cons (.OIDENT (hdr 64 "N")) .nil))) sampleState
      = .ok (.tuple 2 (.cons (.any false 2) (.cons (.var false 2) .nil)))
          (gen_pattern (.OIDENT (hdr 63 "N")) sampleState).state ∧
    (gen_pattern (.OIDENT (hdr 63 "N")) sampleState).state.tree.symbols
      = [[("N", 2), ("X", 1)]] ∧
    (gen_pattern (.OIDENT (hdr 63 "N")) sampleState).state.heap.map
      (fun c => (c.nreg, c.nlocals, c.pc, c.kindex)) = [(3, 1, 0, 0)] ∧
    gen_pattern (.ORANGE (hdr 66 "..") (.OIDENT (hdr 63 "N")) (.ONUMBER (hdr 67 "9")))
        sampleState
      = .ok (.any true 2) (gen_pattern (.OIDENT (hdr 63 "N")) sampleState).state ∧
    ((∀ r, symtab_lookup sampleState.tree.symbols (hdr 63 "N").src = some r → 0 ≤ r →
      gen_pattern (.OIDENT (hdr 63 "N")) sampleState = .ok (.var false r) sampleState ∧
      gen_pattern (.ORANGE (hdr 66 "..") (.OIDENT (hdr 63 "N")) (.ONUMBER (hdr 67 "9")))
        sampleState = .ok (.var true r) sampleState) ∧
    (symtab_lookup sampleState.tree.symbols (hdr 63 "N").src = none →
      ∀ t ps, sampleState.tree.symbols = t :: ps →
      ∃ g', gen_pattern (.OIDENT (hdr 63 "N")) sampleState
          = .ok (.any false sampleEntry.nreg) g' ∧
        gen_pattern (.ORANGE (hdr 66 "..") (.OIDENT (hdr 63 "N")) (.ONUMBER (hdr 67 "9")))
          sampleState = .ok (.any true sampleEntry.nreg) g' ∧
        g'.tree.symbols = (((hdr 63 "N").src, (sampleEntry.nreg : Int)) :: t) :: ps ∧
        Active g' 0
          { sampleEntry with nlocals := sampleEntry.nlocals + 1, nreg := sampleEntry.nreg + 1 } ∧
        gen_pattern (.OTUPLE (hdr 62 "") 2
            (.cons (.OIDENT (hdr 63 "N")) (.cons (.OIDENT (hdr 64 "N")) .nil))) sampleState =
          .ok (.tuple 2 (.cons (.any false sampleEntry.nreg)
            (.cons (.var false sampleEntry.nreg) .nil))) g')) :=
  ⟨⟨by decide!, by decide!⟩, by decide!, by decide!, by decide!, by decide!, by decide!, by decide!,
    gen_pattern_ident_value (hdr 63 "N") (hdr 64 "N") (hdr 66 "..") (hdr 62 "")
      (.ONUMBER (hdr 67 "9")) sampleState 0 sampleEntry ⟨by decide!, by decide!⟩ (by decide!)⟩

/-! ## The read before the first word -/

/-- C25 at the failing inputs `f (X): X` and `f (X): 7`, their clause lowered
where the path has just been registered.  The statements of `gen_clause` before
the read complete: the parameter is declared in register 1, the body yields
register 1 (or the K-flagged operand 128 of the constant `7`), and no word has
been emitted, `pc` is 0.  The read of `code[pc - 1]` that follows is then
outside the buffer, and `gen_clause` stops there. -/
theorem clause_read_precedes_first_word :
    gen_clause_before_read sampleIdentityClause (.OIDENT (hdr 10 "X"))
        (.OBLOCK (hdr 20 "") (.cons (.OIDENT (hdr 60 "X")) .nil) .null) sampleRegistered
      = .ok 1 (gen_clause sampleIdentityClause sampleRegistered).state ∧
    (gen_clause sampleIdentityClause sampleRegistered).state.heap.map
      (fun c => (c.pc, c.code, c.nreg, c.kheader)) = [(0, [], 2, [])] ∧
    lastWord (gen_clause sampleIdentityClause sampleRegistered).state
      = .halt (.fault .bounds) (gen_clause sampleIdentityClause sampleRegistered).state ∧
    gen_clause sampleIdentityClause sampleRegistered
      = .halt (.fault .bounds) (gen_clause sampleIdentityClause sampleRegistered).state ∧
    gen_clause_before_read sampleLiteralClause (.OIDENT (hdr 10 "X"))
        (.OBLOCK (hdr 20 "") (.cons (.ONUMBER (hdr 60 "7")) .nil) .null) sampleRegistered
      = .ok 128 (gen_clause sampleLiteralClause sampleRegistered).state ∧
    (gen_clause sampleLiteralClause sampleRegistered).state.heap.map
      (fun c => (c.pc, c.code, c.nreg, c.kheader)) = [(0, [], 2, [.number 7])] ∧
    lastWord (gen_clause sampleLiteralClause sampleRegistered).state
      = .halt (.fault .bounds) (gen_clause sampleLiteralClause sampleRegistered).state ∧
    gen_clause sampleLiteralClause sampleRegistered
      = .halt (.fault .bounds) (gen_clause sampleLiteralClause sampleRegistered).state := by
  decide!

end Arbre
